import Mathlib

/-!
Infix-to-postfix translator `sc` (src/code.cpp)

A shallow embedding of the single-pass translator: the global variables become
one `State` record, every C function becomes a function on `State`, and the
three ways a call can fail to return normally are made explicit in `Res`.

Modelling conventions
* Characters are bytes (`Fin 256`); `fgetc` yields an `Int` that is either the
  byte value or `EOF = -1`, as in C.
* C `int`s are unbounded `Int`s.  The only places where a C `int` could
  overflow are `lineno++` (more than 2^31 newlines) and `fscanf("%d")` on a
  literal above `INT_MAX`; C leaves both undefined, the model keeps the
  mathematical value.
* The C locale is the default "C" locale (the program never calls
  `setlocale`), so `isdigit`/`isalpha` are the ASCII ranges.
* Array accesses are checked: an index outside the array, or a dereference of
  a null `lexptr`, yields `Res.fault`.
* `while (1)` loops and the recursion of the parser are bounded by a fuel
  argument; `Res.timeout` is the model-only outcome for exhausted fuel.
-/

namespace Sc

/-! ## Constants (code.cpp lines 7-17) -/

abbrev Byte := Fin 256

abbrev BSIZE : Int := 128

abbrev NONE : Int := -1

abbrev EOS : Byte := 0

abbrev NUM : Int := 256

abbrev DIV : Int := 257

abbrev MOD : Int := 258

abbrev ID : Int := 259

abbrev DONE : Int := 260

abbrev SYMMAX : Int := 100

abbrev STRMAX : Int := 999

abbrev EOF : Int := -1

/-- ASCII text as bytes, used to write inputs and outputs legibly. -/
def bytes (s : String) : List Byte :=
  s.toList.map fun c => Fin.ofNat c.toNat

/-! ## Global state (code.cpp lines 20-39) -/

/-- The struct `entry`: `lexptr` is an offset into `lexemes` (`none` is the
null pointer of a never-assigned slot), `token` the token type. -/
structure Entry where
  lexptr : Option Nat
  token : Int
deriving DecidableEq

/-- The global variables of the program, with `infile` the unread part of the
input stream and `outfile` everything written to the output stream so far. -/
structure State where
  tokenval : Int
  lineno : Int
  lookahead : Int
  lexbuf : List Byte
  lexemes : List Byte
  lastchar : Int
  lastentry : Int
  symtable : List Entry
  infile : List Byte
  outfile : List Byte
deriving DecidableEq

/-- Outcome of a call: normal return with a value, `error(m)` (a diagnostic
carrying the current `lineno` followed by `exit(1)`), an out-of-bounds or null
access, or exhausted fuel. -/
inductive Res (α : Type) where
  | ok (a : α) (s : State)
  | abort (m : String) (s : State)
  | fault
  | timeout
deriving DecidableEq

/-- Sequencing: continue with `k` after a normal return, propagate otherwise. -/
def Res.bind {α β : Type} (r : Res α) (k : α → State → Res β) : Res β :=
  match r with
  | .ok a s => k a s
  | .abort m s => .abort m s
  | .fault => .fault
  | .timeout => .timeout

/-- The state at program start: zero-initialised arrays and the initialisers
of lines 20-27. -/
def State.initial (input : List Byte) : State where
  tokenval := NONE
  lineno := 1
  lookahead := 0
  lexbuf := List.replicate 128 0
  lexemes := List.replicate 999 0
  lastchar := -1
  lastentry := 0
  symtable := List.replicate 100 ⟨none, 0⟩
  infile := input
  outfile := []

/-! ## C library primitives -/

/-- The function `fgetc(infile)`. -/
def fgetc (s : State) : Int × State :=
  match s.infile with
  | [] => (EOF, s)
  | c :: rest => ((c.val : Int), { s with infile := rest })

/-- Conversion of an `int` holding a character to `unsigned char`. -/
def toByte (t : Int) : Byte := Fin.ofNat t.toNat

/-- The function `ungetc(t, infile)` for `t` other than `EOF`. -/
def ungetc (t : Int) (s : State) : State :=
  { s with infile := toByte t :: s.infile }

def isdigit (t : Int) : Bool := decide (48 ≤ t ∧ t ≤ 57)

def isalpha (t : Int) : Bool := decide ((65 ≤ t ∧ t ≤ 90) ∨ (97 ≤ t ∧ t ≤ 122))

def isalnum (t : Int) : Bool := isalpha t || isdigit t

/-- Digits of `fscanf("%d")`: the maximal run of decimal digits at the head of
the stream, accumulated into its value; returns the value and the rest. -/
def scanDigits : List Byte → Int → Int × List Byte
  | [], acc => (acc, [])
  | c :: cs, acc =>
    if isdigit c.val then scanDigits cs (acc * 10 + (c.val - 48)) else (acc, c :: cs)

/-- The call `fscanf(infile, "%d", &tokenval)` when the stream starts with a
digit (no white space to skip, no sign). -/
def fscanfInt (s : State) : State :=
  let r := scanDigits s.infile 0
  { s with tokenval := r.1, infile := r.2 }

/-- Decimal digits of a natural number, most significant first. -/
def decDigits : Nat → Nat → List Byte
  | 0, _ => []
  | f + 1, n =>
    if n < 10 then [Fin.ofNat (48 + n)]
    else decDigits f (n / 10) ++ [Fin.ofNat (48 + n % 10)]

/-- The conversion `%d` of `fprintf`. -/
def fmtInt (v : Int) : List Byte :=
  if v < 0 then 45 :: decDigits (v.natAbs + 1) v.natAbs
  else decDigits (v.natAbs + 1) v.natAbs

/-- Appends text to the output stream (`fprintf(outfile, ...)`). -/
def fprintf (text : List Byte) (s : State) : State :=
  { s with outfile := s.outfile ++ text }

/-- The NUL-terminated string at the head of a memory region; `none` when the
region ends before a terminator. -/
def cstr : List Byte → Option (List Byte)
  | [] => none
  | c :: cs => if c = 0 then some [] else (cstr cs).map fun w => c :: w

/-- The C string stored in `mem` from offset `off` on. -/
def readStr (mem : List Byte) (off : Nat) : Option (List Byte) :=
  cstr (mem.drop off)

/-- The call `strcpy(&mem[off], w)`: `w` and its terminator are written at
`off`; `none` when they do not fit. -/
def strcpy (mem : List Byte) (off : Nat) (w : List Byte) : Option (List Byte) :=
  if off + w.length + 1 ≤ mem.length then
    some (mem.take off ++ w ++ [EOS] ++ mem.drop (off + w.length + 1))
  else none

/-- Checked array read `a[i]`. -/
def getAt {α : Type} (a : List α) (i : Int) : Option α :=
  if i < 0 then none else a[i.toNat]?

/-- Checked array write `a[i] = v`. -/
def setAt {α : Type} (a : List α) (i : Int) (v : α) : Option (List α) :=
  if 0 ≤ i ∧ i.toNat < a.length then some (a.set i.toNat v) else none

/-! ## error (code.cpp lines 255-258) -/

/-- The function `error(m)`: the diagnostic `line <lineno>: <m>` goes to stderr
and the process exits; the state at that moment is kept in the result. -/
def error {α : Type} (m : String) (s : State) : Res α := .abort m s

/-- The line written to stderr by an aborted run. -/
def diagnostic {α : Type} : Res α → Option (List Byte)
  | .abort m s => some (bytes "line " ++ fmtInt s.lineno ++ bytes ": " ++ bytes m ++ [10])
  | _ => none

/-! ## Symbol table (code.cpp lines 216-252) -/

/-- The text of entry `p`: the C string at `symtable[p].lexptr`. -/
def entryText (s : State) (p : Int) : Option (List Byte) :=
  match getAt s.symtable p with
  | none => none
  | some e =>
    match e.lexptr with
    | none => none
    | some off => readStr s.lexemes off

/-- The loop of `lookup`: `for (p = ...; p > 0; p--)`; `none` is a fault. -/
def lookupFrom (s : State) (w : List Byte) : Nat → Option Int
  | 0 => some 0
  | p + 1 =>
    match entryText s ((p : Int) + 1) with
    | none => none
    | some x => if x = w then some ((p : Int) + 1) else lookupFrom s w p

/-- The function `lookup(s)`, with `w` the C string the argument points to. -/
def lookup (w : List Byte) (s : State) : Option Int :=
  lookupFrom s w s.lastentry.toNat

/-- The function `insert(s, tok)`, with `w` the C string the argument points to. -/
def insert (w : List Byte) (tok : Int) (s : State) : Res Int :=
  let len : Int := w.length
  if s.lastentry + 1 ≥ SYMMAX then error "Symbol table full" s
  else if s.lastchar + len + 1 ≥ STRMAX then error "Lexemes array full" s
  else
    let lastentry := s.lastentry + 1
    if s.lastchar + 1 < 0 then .fault
    else
      let off := (s.lastchar + 1).toNat
      match setAt s.symtable lastentry ⟨some off, tok⟩ with
      | none => .fault
      | some symtable =>
        match strcpy s.lexemes off w with
        | none => .fault
        | some lexemes =>
          .ok lastentry
            { s with lastentry := lastentry, symtable := symtable,
                     lastchar := s.lastchar + (len + 1), lexemes := lexemes }

/-- The function `init()`: inserts the entries of `keywords` up to the sentinel. -/
def init (s : State) : Res Unit :=
  (insert [100, 105, 118] DIV s).bind fun _ s =>   -- "div"
  (insert [109, 111, 100] MOD s).bind fun _ s =>   -- "mod"
  .ok () s

/-! ## Lexical analyser (code.cpp lines 55-128) -/

/-- The loop `while ((t = fgetc(infile)) != '\n' && t != EOF);` on the unread
input: the last value of `t` and what is left unread. -/
def skipLine : List Byte → Int × List Byte
  | [] => (EOF, [])
  | c :: cs => if c.val = 10 then (10, cs) else skipLine cs

/-- The loop `while (isalnum(t)) { lexbuf[b++] = t; t = fgetc(infile); if (b >=
BSIZE) error(...); }`, entered with `t` already read; returns the final `t`
and `b`. -/
def scanLexeme : Nat → Int → Int → State → Res (Int × Int)
  | 0, _, _, _ => .timeout
  | fuel + 1, t, b, s =>
    if isalnum t then
      match setAt s.lexbuf b (toByte t) with
      | none => .fault
      | some lexbuf =>
        let r := fgetc { s with lexbuf := lexbuf }
        if b + 1 ≥ BSIZE then error "Buffer overflow in lexeme" r.2
        else scanLexeme fuel r.1 (b + 1) r.2
    else .ok (t, b) s

/-- The identifier branch of `lexan` (lines 84-107), entered with the letter
`t` already read. -/
def lexanWord (t : Int) (s : State) : Res Int :=
  (scanLexeme (s.infile.length + 2) t 0 s).bind fun tb s =>
    match setAt s.lexbuf tb.2 EOS with
    | none => .fault
    | some lexbuf =>
      let s := { s with lexbuf := lexbuf }
      let s := if tb.1 ≠ EOF then ungetc tb.1 s else s
      match readStr s.lexbuf 0 with
      | none => .fault
      | some w =>
        match lookup w s with
        | none => .fault
        | some p =>
          ((if p = 0 then insert w ID s else .ok p s)).bind fun p s =>
            match getAt s.symtable p with
            | none => .fault
            | some e => .ok e.token { s with tokenval := p }

/-- The body of `lexan`: one turn of `while (1)` per unit of fuel. -/
def lexanLoop : Nat → State → Res Int
  | 0, _ => .timeout
  | fuel + 1, s =>
    let r := fgetc s
    let t := r.1
    let s := r.2
    if t = 32 ∨ t = 9 then lexanLoop fuel s
    else if t = 10 then lexanLoop fuel { s with lineno := s.lineno + 1 }
    else if t = 35 then
      let k := skipLine s.infile
      let s := { s with infile := k.2 }
      lexanLoop fuel (if k.1 = 10 then { s with lineno := s.lineno + 1 } else s)
    else if isdigit t then .ok NUM (fscanfInt (ungetc t s))
    else if isalpha t then lexanWord t s
    else if t = 37 then .ok MOD s
    else if t = 92 then .ok 47 s
    else if t = EOF then .ok DONE s
    else .ok t { s with tokenval := NONE }

/-- The function `lexan()`. Every turn of its loop that does not return reads
at least one character, so `length + 1` turns always suffice. -/
def lexan (s : State) : Res Int :=
  lexanLoop (s.infile.length + 1) s

/-! ## Emitter (code.cpp lines 198-213) -/

/-- The function `emit(t, tval)`. -/
def emit (t tval : Int) (s : State) : Res Unit :=
  if t = 43 ∨ t = 45 ∨ t = 42 ∨ t = 47 then .ok () (fprintf [toByte t, 32] s)
  else if t = DIV then .ok () (fprintf [68, 73, 86, 32] s)
  else if t = MOD then .ok () (fprintf [37, 32] s)
  else if t = NUM then .ok () (fprintf (fmtInt tval ++ [32]) s)
  else if t = ID then
    match entryText s tval with
    | none => .fault
    | some w => .ok () (fprintf (w ++ [32]) s)
  else
    .ok () (fprintf (bytes "token " ++ fmtInt t ++ bytes ", tokenval " ++ fmtInt tval ++ [32]) s)

/-! ## Parser (code.cpp lines 131-195) -/

/-- The function `match(t)`. -/
def matchTok (t : Int) (s : State) : Res Unit :=
  if s.lookahead = t then
    (lexan s).bind fun tok s => .ok () { s with lookahead := tok }
  else error "Syntax error: expected different token" s

/-- The function `factor()`; its recursive call of `expr` is the parameter. -/
def factor (expr : State → Res Unit) (s : State) : Res Unit :=
  if s.lookahead = 40 then
    (matchTok 40 s).bind fun _ s => (expr s).bind fun _ s => matchTok 41 s
  else if s.lookahead = NUM then
    (emit NUM s.tokenval s).bind fun _ s => matchTok NUM s
  else if s.lookahead = ID then
    (emit ID s.tokenval s).bind fun _ s => matchTok ID s
  else error "Syntax error: unexpected token in factor" s

/-- The loop of `term()`. -/
def termLoop (expr : State → Res Unit) : Nat → State → Res Unit
  | 0, _ => .timeout
  | fuel + 1, s =>
    if s.lookahead = 42 ∨ s.lookahead = 47 ∨ s.lookahead = DIV ∨ s.lookahead = MOD then
      let t := s.lookahead
      (matchTok s.lookahead s).bind fun _ s =>
      (factor expr s).bind fun _ s =>
      (emit t NONE s).bind fun _ s =>
      termLoop expr fuel s
    else .ok () s

/-- The function `term()`. -/
def term (expr : State → Res Unit) (fuel : Nat) (s : State) : Res Unit :=
  (factor expr s).bind fun _ s => termLoop expr fuel s

/-- The loop of `expr()`. -/
def exprLoop (expr : State → Res Unit) : Nat → State → Res Unit
  | 0, _ => .timeout
  | fuel + 1, s =>
    if s.lookahead = 43 ∨ s.lookahead = 45 then
      let t := s.lookahead
      (matchTok s.lookahead s).bind fun _ s =>
      (term expr fuel s).bind fun _ s =>
      (emit t NONE s).bind fun _ s =>
      exprLoop expr fuel s
    else .ok () s

/-- The function `expr()`; the fuel bounds both the nesting of parentheses and
the turns of the loops. -/
def expr : Nat → State → Res Unit
  | 0, _ => .timeout
  | fuel + 1, s =>
    (term (expr fuel) fuel s).bind fun _ s => exprLoop (expr fuel) fuel s

/-- The loop of `parse()`. -/
def parseLoop : Nat → State → Res Unit
  | 0, _ => .timeout
  | fuel + 1, s =>
    if s.lookahead ≠ DONE then
      (expr fuel s).bind fun _ s =>
      (matchTok 59 s).bind fun _ s =>
      parseLoop fuel (fprintf [59, 10] s)
    else .ok () s

/-- The function `parse()`. Every statement and every nesting level consumes
input, so fuel `length + 3` is never exhausted. -/
def parse (s : State) : Res Unit :=
  (lexan s).bind fun tok s =>
    parseLoop (s.infile.length + 3) { s with lookahead := tok }

/-- The translation run of `main`: `init(); parse();` on the given input. -/
def run (input : List Byte) : Res Unit :=
  (init (State.initial input)).bind fun _ s => parse s

/-- The contents of the output file after a run that returned normally. -/
def Res.output {α : Type} : Res α → Option (List Byte)
  | .ok _ s => some s.outfile
  | _ => none

/-! ## The contents of the symbol table, abstractly -/

/-- The entries of the symbol table in the order of their handles, each a lexeme
with its token type. -/
abbrev Table := List (List Byte × Int)

/-- The bytes the entries occupy in `lexemes`: each lexeme followed by its
terminator. -/
def arena : Table → List Byte
  | [] => []
  | e :: es => e.1 ++ EOS :: arena es

/-- The slots of `symtable` for the entries, the first lexeme stored at offset
`off`. -/
def slots : Nat → Table → List Entry
  | _, [] => []
  | off, e :: es => ⟨some off, e.2⟩ :: slots (off + (e.1.length + 1)) es

/-- The concrete table of state `s` holds exactly the entries `es` at handles
`1..es.length`, laid out back to back in `lexemes`. -/
structure Tab (s : State) (es : Table) : Prop where
  lastentry : s.lastentry = es.length
  lastchar : s.lastchar + 1 = (arena es).length
  symtable : ∃ e0 rest, s.symtable = e0 :: (slots 0 es ++ rest)
  symlen : s.symtable.length = 100
  lexemes : ∃ rest, s.lexemes = arena es ++ rest
  lexlen : s.lexemes.length = 999
  nul : ∀ e ∈ es, (0 : Byte) ∉ e.1

/-- Abstract `lookup`: the largest handle `≤ p` whose text is `w`, or `0`. -/
def Table.find (es : Table) (w : List Byte) : Nat → Nat
  | 0 => 0
  | p + 1 => if (es[p]?).map Prod.fst = some w then p + 1 else Table.find es w p

/-- The state after a successful `insert(w, tok)`. -/
def State.inserted (s : State) (w : List Byte) (tok : Int) : State :=
  { s with
    lastentry := s.lastentry + 1
    symtable := s.symtable.set (s.lastentry + 1).toNat ⟨some (s.lastchar + 1).toNat, tok⟩
    lastchar := s.lastchar + ((w.length : Int) + 1)
    lexemes := s.lexemes.take (s.lastchar + 1).toNat ++ w ++ [EOS] ++
      s.lexemes.drop ((s.lastchar + 1).toNat + w.length + 1) }

/-! ## The skipping phase of `lexan` as a pure function of the input -/

/-- What is left of the input once white space and comments at its head are
skipped; the flag says whether the head lies inside a comment. -/
def skipRest : Bool → List Byte → List Byte
  | _, [] => []
  | true, c :: cs => if c.val = 10 then skipRest false cs else skipRest true cs
  | false, c :: cs =>
    if (c.val : Int) = 32 ∨ (c.val : Int) = 9 then skipRest false cs
    else if (c.val : Int) = 10 then skipRest false cs
    else if (c.val : Int) = 35 then skipRest true cs
    else c :: cs

/-- The number of newlines in the part that `skipRest` drops. -/
def skipLines : Bool → List Byte → Int
  | _, [] => 0
  | true, c :: cs => if c.val = 10 then skipLines false cs + 1 else skipLines true cs
  | false, c :: cs =>
    if (c.val : Int) = 32 ∨ (c.val : Int) = 9 then skipLines false cs
    else if (c.val : Int) = 10 then skipLines false cs + 1
    else if (c.val : Int) = 35 then skipLines true cs
    else 0

/-- A byte at which the skipping phase stops. -/
def Stops (c : Byte) : Prop :=
  ¬ ((c.val : Int) = 32 ∨ (c.val : Int) = 9) ∧ (c.val : Int) ≠ 10 ∧ (c.val : Int) ≠ 35

/-- The state once the white space and comments at the head of the input are
consumed. -/
def State.skipped (s : State) : State :=
  { s with lineno := s.lineno + skipLines false s.infile, infile := skipRest false s.infile }

/-- Letter-or-digit test on a byte. -/
def aln (c : Byte) : Bool := isalnum c.val

/-- The value `fgetc` returns at the head of the given input. -/
def headInt : List Byte → Int
  | [] => EOF
  | c :: _ => c.val

/-- Lines 100-106 of `lexan`: the lexeme `w` is looked up, inserted as an
identifier when new, and the token type of its entry returned. -/
def internWord (w : List Byte) (s : State) : Res Int :=
  match lookup w s with
  | none => .fault
  | some p =>
    ((if p = 0 then insert w ID s else .ok p s)).bind fun p s =>
      match getAt s.symtable p with
      | none => .fault
      | some e => .ok e.token { s with tokenval := p }

/-- The entries `init()` inserts: `div` and `mod`. -/
def kwTable : Table := [([100, 105, 118], DIV), ([109, 111, 100], MOD)]

/-- Well-formed state: the symbol table holds `es`, starting with the keywords
followed by identifiers only, without duplicates, all made of letters and
digits; the lexeme buffer has its declared size. -/
structure WF (s : State) (es : Table) : Prop where
  tab : Tab s es
  buf : s.lexbuf.length = 128
  kw : ∃ ids, es = kwTable ++ ids ∧ ∀ e ∈ ids, e.2 = ID
  word : ∀ e ∈ es, ∀ c ∈ e.1, aln c = true
  nodup : (es.map Prod.fst).Nodup

/-- The state once the lexeme `w` is in `lexbuf` and the input stands at `rest`. -/
def State.scanned (s : State) (w rest : List Byte) : State :=
  { s with lexbuf := w ++ 0 :: s.lexbuf.drop (w.length + 1), infile := rest }

/-- The possible outcomes of one token-reading turn of `lexan` in a well-formed
state `s` whose input no longer starts with white space or a comment. -/
inductive TokOut (s : State) (es : Table) : Res Int → Prop
  | eof (h : s.infile = []) : TokOut s es (.ok DONE s)
  | num (c : Byte) (r : List Byte) (h : s.infile = c :: r) (hd : isdigit c.val = true) :
      TokOut s es (.ok NUM
        { s with
          tokenval := (scanDigits (c :: r) 0).1
          infile := (scanDigits (c :: r) 0).2 })
  | pct (r : List Byte) (h : s.infile = 37 :: r) : TokOut s es (.ok MOD { s with infile := r })
  | bslash (r : List Byte) (h : s.infile = 92 :: r) : TokOut s es (.ok 47 { s with infile := r })
  | chr (c : Byte) (r : List Byte) (h : s.infile = c :: r) (hs : Stops c)
      (hd : isdigit c.val = false) (ha : isalpha c.val = false)
      (h37 : (c.val : Int) ≠ 37) (h92 : (c.val : Int) ≠ 92) :
      TokOut s es (.ok c.val { s with tokenval := NONE, infile := r })
  | overflow (c : Byte) (r lb inf : List Byte) (h : s.infile = c :: r)
      (ha : isalpha c.val = true) (hl : 128 ≤ (c :: r.takeWhile aln).length) :
      TokOut s es (.abort "Buffer overflow in lexeme" { s with lexbuf := lb, infile := inf })
  | old (c : Byte) (r : List Byte) (p : Nat) (e : List Byte × Int) (h : s.infile = c :: r)
      (ha : isalpha c.val = true) (hl : (c :: r.takeWhile aln).length < 128)
      (he : es[p]? = some e) (hw : e.1 = c :: r.takeWhile aln) :
      TokOut s es (.ok e.2
        { s.scanned (c :: r.takeWhile aln) (r.dropWhile aln) with tokenval := (p : Int) + 1 })
  | symfull (c : Byte) (r : List Byte) (h : s.infile = c :: r)
      (ha : isalpha c.val = true) (hl : (c :: r.takeWhile aln).length < 128)
      (hnew : (c :: r.takeWhile aln) ∉ es.map Prod.fst) (hfull : 100 ≤ es.length + 1) :
      TokOut s es (.abort "Symbol table full"
        (s.scanned (c :: r.takeWhile aln) (r.dropWhile aln)))
  | strfull (c : Byte) (r : List Byte) (h : s.infile = c :: r)
      (ha : isalpha c.val = true) (hl : (c :: r.takeWhile aln).length < 128)
      (hnew : (c :: r.takeWhile aln) ∉ es.map Prod.fst) (h1 : es.length + 1 < 100)
      (hfull : 999 ≤ (arena es).length + (c :: r.takeWhile aln).length) :
      TokOut s es (.abort "Lexemes array full"
        (s.scanned (c :: r.takeWhile aln) (r.dropWhile aln)))
  | new (c : Byte) (r : List Byte) (h : s.infile = c :: r)
      (ha : isalpha c.val = true) (hl : (c :: r.takeWhile aln).length < 128)
      (hnew : (c :: r.takeWhile aln) ∉ es.map Prod.fst) (h1 : es.length + 1 < 100)
      (h2 : (arena es).length + (c :: r.takeWhile aln).length < 999) :
      TokOut s es (.ok ID
        { (s.scanned (c :: r.takeWhile aln) (r.dropWhile aln)).inserted
            (c :: r.takeWhile aln) ID with tokenval := (es.length : Int) + 1 })

/-- What a normal return of `lexan` with token `t` guarantees. -/
structure LexOk (s s' : State) (es es' : Table) (t : Int) : Prop where
  wf : WF s' es'
  ext : es' = es ∨ ∃ w, es' = es ++ [(w, ID)]
  outfile : s'.outfile = s.outfile
  lookahead : s'.lookahead = s.lookahead
  idtext : t = ID → ∃ w, entryText s' s'.tokenval = some w ∧ ∀ c ∈ w, aln c = true
  eof : t = DONE → s'.infile = []
  split : ∃ sk tk, s.infile = sk ++ tk ++ s'.infile ∧
    s'.lineno = s.lineno + (sk.count 10 : Nat) ∧ (10 : Byte) ∉ tk ∧
    (t ≠ DONE → tk ≠ []) ∧ (t = DONE → tk = []) ∧ (∀ c r, tk = c :: r → Stops c)
  tok : t = DONE ∨ t = NUM ∨ t = ID ∨ t = DIV ∨ t = MOD ∨ (0 ≤ t ∧ t < 256)

/-- What an `error` exit of `lexan` guarantees. -/
structure LexAbort (s s' : State) (m : String) : Prop where
  msg : m = "Buffer overflow in lexeme" ∨ m = "Symbol table full" ∨ m = "Lexemes array full"
  outfile : s'.outfile = s.outfile
  lookahead : s'.lookahead = s.lookahead
  lineno : s.lineno ≤ s'.lineno

/-! ## The parser's view of the lexer -/

/-- The statement `lookahead = lexan();`. -/
def advance (s : State) : Res Unit :=
  (lexan s).bind fun tok s => .ok () { s with lookahead := tok }

/-- Well-formed state between two parser steps: the table is well formed and an
identifier in the lookahead has its handle in `tokenval`. -/
structure PWF (s : State) (es : Table) : Prop where
  wf : WF s es
  idtext : s.lookahead = ID → ∃ w, entryText s s.tokenval = some w ∧ ∀ c ∈ w, aln c = true

/-- What a normal return of `lookahead = lexan()` guarantees. -/
structure AdvOk (s s' : State) (es es' : Table) : Prop where
  pwf : PWF s' es'
  ext : es' = es ∨ ∃ w, es' = es ++ [(w, ID)]
  outfile : s'.outfile = s.outfile
  eof : s'.lookahead = DONE → s'.infile = []
  split : ∃ sk tk, s.infile = sk ++ tk ++ s'.infile ∧
    s'.lineno = s.lineno + (sk.count 10 : Nat) ∧ (10 : Byte) ∉ tk ∧
    (s'.lookahead ≠ DONE → tk ≠ []) ∧ (s'.lookahead = DONE → tk = []) ∧
    (∀ c r, tk = c :: r → Stops c)
  tok : s'.lookahead = DONE ∨ s'.lookahead = NUM ∨ s'.lookahead = ID ∨ s'.lookahead = DIV ∨
    s'.lookahead = MOD ∨ (0 ≤ s'.lookahead ∧ s'.lookahead < 256)

/-- The text `emit` writes for an operator token. -/
def opText (t : Int) : List Byte :=
  if t = 43 ∨ t = 45 ∨ t = 42 ∨ t = 47 then [toByte t, 32]
  else if t = DIV then [68, 73, 86, 32]
  else [37, 32]

/-! ## A general invariant rule for the parser -/

/-- The texts the parser writes in state `s`. -/
inductive Emitted (s : State) : List Byte → Prop
  | op (t : Int) (h : t = 43 ∨ t = 45 ∨ t = 42 ∨ t = 47 ∨ t = DIV ∨ t = MOD) :
      Emitted s (opText t)
  | num (h : s.lookahead = NUM) : Emitted s (fmtInt s.tokenval ++ [32])
  | id (w : List Byte) (h : s.lookahead = ID) (he : entryText s s.tokenval = some w)
      (ha : ∀ c ∈ w, aln c = true) : Emitted s (w ++ [32])
  | semi : Emitted s [59, 10]

/-- The property `J` of states is kept by every step of the parser, and `Q`
holds of every `error` exit taken from a state with `J`. -/
structure Inv (J : State → Prop) (Q : String → State → Prop) : Prop where
  adv : ∀ s s' es es', PWF s es → J s → advance s = .ok () s' → AdvOk s s' es es' → J s'
  abort : ∀ s s' es m, PWF s es → J s → advance s = .abort m s' → LexAbort s s' m → Q m s'
  out : ∀ s es text, PWF s es → J s → Emitted s text → J (fprintf text s)
  syn : ∀ s es m, PWF s es → J s →
    (m = "Syntax error: unexpected token in factor" ∨
      m = "Syntax error: expected different token") → Q m s

/-- The outcome satisfies the invariant: well-formed with `J` on return, `Q` on
an `error` exit, and no fault. -/
inductive Holds (J : State → Prop) (Q : String → State → Prop) : Res Unit → Prop
  | ok (a : Unit) (s : State) (hs : ∃ es, PWF s es) (hj : J s) : Holds J Q (.ok a s)
  | abort (m : String) (s : State) (hq : Q m s) : Holds J Q (.abort m s)
  | timeout : Holds J Q .timeout

/-! ## Fuel: the parser never runs out -/

/-- The number of tokens the parser can still see is at most this measure: the
unread bytes, plus one for a lookahead other than `DONE`. -/
def mu (s : State) : Nat := s.infile.length + (if s.lookahead = DONE then 0 else 1)

/-- The call returned or exited (it did not exhaust its fuel), and on return
the measure is at most `m`, strictly below it when `strict` is set. -/
inductive Term (m : Nat) (strict : Bool) : Res Unit → Prop
  | ok (a : Unit) (s : State) (hs : ∃ es, PWF s es) (hle : mu s ≤ m)
      (hlt : strict = true → mu s < m) : Term m strict (.ok a s)
  | abort (e : String) (s : State) : Term m strict (.abort e s)
  | fault : Term m strict .fault

/-! ## Fuel: more fuel does not change a result -/

/-- Either fuel ran out in `r`, or `r'` is the same outcome. -/
def Res.le {α : Type} (r r' : Res α) : Prop := r = .timeout ∨ r = r'

/-! ## The run as a whole -/

/-- The state in which `parse()` is entered: `init()` has stored the two
keywords and touched nothing else. -/
def State.start (input : List Byte) : State :=
  ((State.initial input).inserted [100, 105, 118] DIV).inserted [109, 111, 100] MOD

/-! ## The output alphabet -/

/-- A byte the translator can write: a letter, a digit, a space, a newline, or
one of `% * + - / ;`. -/
def OutByte (c : Byte) : Prop :=
  aln c = true ∨ c = 32 ∨ c = 10 ∨ c = 37 ∨ c = 42 ∨ c = 43 ∨ c = 45 ∨ c = 47 ∨ c = 59

instance (c : Byte) : Decidable (OutByte c) := by
  unfold OutByte; infer_instance

/-! ## The lexer does not look at the output file or the line counter -/

/-- The state with another output file and the line counter moved by `k`. -/
def State.re (o : List Byte) (k : Int) (s : State) : State :=
  { s with outfile := o, lineno := s.lineno + k }

/-- The outcome with its state changed by `f`. -/
def Res.mapS {α : Type} (f : State → State) : Res α → Res α
  | .ok a s => .ok a (f s)
  | .abort m s => .abort m (f s)
  | .fault => .fault
  | .timeout => .timeout

/-- The part of the identifier branch of `lexan` after the scanning loop. -/
def wordTail (tb : Int × Int) (s : State) : Res Int :=
  match setAt s.lexbuf tb.2 EOS with
  | none => .fault
  | some lexbuf =>
    let s := { s with lexbuf := lexbuf }
    let s := if tb.1 ≠ EOF then ungetc tb.1 s else s
    match readStr s.lexbuf 0 with
    | none => .fault
    | some w =>
      match lookup w s with
      | none => .fault
      | some p =>
        ((if p = 0 then insert w ID s else .ok p s)).bind fun p s =>
          match getAt s.symtable p with
          | none => .fault
          | some e => .ok e.token { s with tokenval := p }

/-! ## Outcomes equal up to the state of an `error` exit -/

/-- The two outcomes are the same, except that after an `error` exit only the
message has to agree. -/
inductive Sim : Res Unit → Res Unit → Prop
  | ok (a : Unit) (s : State) : Sim (.ok a s) (.ok a s)
  | abort (m : String) (s s' : State) : Sim (.abort m s) (.abort m s')
  | fault : Sim .fault .fault
  | timeout : Sim .timeout .timeout

/-! ## Lexing the tokens of a rendered expression -/

/-- Nothing, or one space: what precedes a token in a rendered expression. -/
def Sp (sp : List Byte) : Prop := sp = [] ∨ sp = [32]

/-- What follows an operand in a rendered statement: a space, `)` or `;`. -/
def Delim (rest : List Byte) : Prop := ∃ r, rest = 32 :: r ∨ rest = 41 :: r ∨ rest = 59 :: r

instance (c : Byte) : Decidable (Stops c) := by
  unfold Stops; infer_instance

/-- A byte that `lexan` returns as a token of its own, with `tokenval = NONE`. -/
def Plain (c : Byte) : Prop :=
  Stops c ∧ isdigit c.val = false ∧ isalpha c.val = false ∧ (c.val : Int) ≠ 37 ∧ (c.val : Int) ≠ 92

instance (c : Byte) : Decidable (Plain c) := by
  unfold Plain; infer_instance

/-- The facts about a successful `lookahead = lexan()` used below. -/
structure Adv (s s2 : State) (es2 : Table) (la : Int) (rest : List Byte) : Prop where
  eq : advance s = .ok () s2
  la : s2.lookahead = la
  infile : s2.infile = rest
  outfile : s2.outfile = s.outfile
  wf : WF s2 es2

/-- The value `fscanf("%d")` stores for the digit string `ds`. -/
def numVal (ds : List Byte) : Int := (scanDigits ds 0).1

/-- A lexeme that is an identifier: a letter followed by letters and digits,
fewer than 128 bytes in all, other than `div` and `mod`. -/
structure IsIdent (w : List Byte) : Prop where
  shape : ∃ c r, w = c :: r ∧ isalpha c.val = true ∧ ∀ x ∈ r, aln x = true
  short : w.length < 128
  nodiv : w ≠ [100, 105, 118]
  nomod : w ≠ [109, 111, 100]

/-! ## Expression trees and their infix rendering -/

/-- The binary operators, by spelling: `+ - * / \\ div mod %`. -/
inductive Op where
  | add | sub | mul | slash | bslash | div | mod | pct
deriving DecidableEq

/-- Whether the operator is on the level of `+` and `-`. -/
def Op.additive : Op → Bool
  | .add => true
  | .sub => true
  | _ => false

/-- The spelling of the operator in the input. -/
def Op.text : Op → List Byte
  | .add => [43]
  | .sub => [45]
  | .mul => [42]
  | .slash => [47]
  | .bslash => [92]
  | .div => [100, 105, 118]
  | .mod => [109, 111, 100]
  | .pct => [37]

/-- The token `lexan` returns for the operator. -/
def Op.tok : Op → Int
  | .add => 43
  | .sub => 45
  | .mul => 42
  | .slash => 47
  | .bslash => 47
  | .div => DIV
  | .mod => MOD
  | .pct => MOD

/-! ## The parser on a rendered expression -/

/-- The parsing function for precedence level `k`: `expr` (0), `term` (1) or
`factor` (2), with the fuel of the recursion and of the loops separate. -/
def parseAt (k N m : Nat) (s : State) : Res Unit :=
  match k with
  | 0 => (term (expr N) m s).bind fun _ s => exprLoop (expr N) m s
  | 1 => term (expr N) m s
  | _ => factor (expr N) s

/-- The loop that follows the first operand at level `k`. -/
def loopAt (k N m : Nat) (s : State) : Res Unit :=
  match k with
  | 0 => exprLoop (expr N) m s
  | 1 => termLoop (expr N) m s
  | _ => .ok () s

/-- What follows an expression: `)`, `;`, or an additive operator. -/
def Delim0 (rest : List Byte) : Prop :=
  ∃ r, rest = 41 :: r ∨ rest = 59 :: r ∨ rest = 32 :: 43 :: 32 :: r ∨ rest = 32 :: 45 :: 32 :: r

/-- What may follow the rendering of an operand of level `k`. -/
def Follow (k : Nat) (rest : List Byte) : Prop :=
  match k with
  | 0 => Delim0 rest
  | _ => Delim rest

/-- The capacity error `m` is justified: the table cannot take `c` more
entries, or the arena cannot take `ch` more bytes. -/
def Short (es : Table) (c ch : Nat) (m : String) : Prop :=
  (m = "Symbol table full" ∧ 100 ≤ es.length + c) ∨
  (m = "Lexemes array full" ∧ 999 ≤ (arena es).length + ch)

/-- The text `x`, read at precedence level `k`, is parsed completely and
translated to `o`, unless a capacity error stops the run; at most `c` entries
and `ch` arena bytes are added to the symbol table. -/
def Parses (k : Nat) (x o : List Byte) (c ch : Nat) : Prop :=
  ∀ (s : State) (es : Table) (sp rest : List Byte), WF s es → Sp sp → Follow k rest →
    s.infile = sp ++ x ++ rest →
    (∃ m, Short es c ch m ∧ ∀ N m', s.infile.length + 2 ≤ N → s.infile.length + 2 ≤ m' →
        ∃ sA, ((advance s).bind fun _ s1 => parseAt k N m' s1) = .abort m sA) ∨
    (∃ se es', WF se es' ∧ se.infile = rest ∧ se.outfile = s.outfile ++ o ∧
        es'.length ≤ es.length + c ∧ (arena es').length ≤ (arena es).length + ch ∧
        ∀ N m', s.infile.length + 2 ≤ N → s.infile.length + 2 ≤ m' →
          Sim ((advance s).bind fun _ s1 => parseAt k N m' s1)
              ((advance se).bind fun _ s2 => loopAt k N m' s2))

/-! ## Expression trees -/

/-- An expression tree: a number leaf holds its digit string, an identifier
leaf its name, an inner node an operator (in one of its spellings). -/
inductive Tree
  | num (ds : List Byte)
  | id (w : List Byte)
  | node (op : Op) (l r : Tree)
  deriving DecidableEq

/-- Precedence level of the root: 0 for `+ -`, 1 for `* / div mod`, 2 for a leaf. -/
def Tree.level : Tree → Nat
  | .num _ => 2
  | .id _ => 2
  | .node op _ _ => if op.additive then 0 else 1

/-- Puts a text in parentheses when `b` is set. -/
def wrap (b : Bool) (x : List Byte) : List Byte := if b then 40 :: x ++ [41] else x

/-- The infix rendering: operators stand between single spaces; a left child is
parenthesised when its level is below its parent, a right child also when the
levels are equal. -/
def Tree.render : Tree → List Byte
  | .num ds => ds
  | .id w => w
  | .node op l r =>
    wrap (decide (l.level < (Tree.node op l r).level)) l.render ++ [32] ++ op.text ++ [32] ++
      wrap (decide (r.level < (Tree.node op l r).level + 1)) r.render

/-- The post-order traversal, every token as `emit` writes it. -/
def Tree.postorder : Tree → List Byte
  | .num ds => fmtInt (numVal ds) ++ [32]
  | .id w => w ++ [32]
  | .node op l r => l.postorder ++ r.postorder ++ opText op.tok

/-- Whether `w` is an identifier lexeme: a letter, then letters and digits,
fewer than 128 bytes, not a keyword. -/
def isIdent (w : List Byte) : Bool :=
  match w with
  | [] => false
  | c :: r => isalpha c.val && r.all aln && decide (w.length < 128) &&
      decide (w ≠ [100, 105, 118]) && decide (w ≠ [109, 111, 100])

/-- Whether `ds` is a number lexeme: a nonempty digit string whose value fits
an `int`. -/
def isNumber (ds : List Byte) : Bool :=
  match ds with
  | [] => false
  | _ :: _ => ds.all (fun x => isdigit x.val) && decide (numVal ds < 2147483648)

/-- Whether every leaf is a number or identifier lexeme. -/
def Tree.valid : Tree → Bool
  | .num ds => isNumber ds
  | .id w => isIdent w
  | .node _ l r => l.valid && r.valid

/-- Number of identifier leaves. -/
def Tree.ids : Tree → Nat
  | .num _ => 0
  | .id _ => 1
  | .node _ l r => l.ids + r.ids

/-- Bytes the identifier leaves need in the lexeme arena. -/
def Tree.chars : Tree → Nat
  | .num _ => 0
  | .id w => w.length + 1
  | .node _ l r => l.chars + r.chars

/-! ## Statements and whole runs -/

/-- The loop of `parse` entered at a statement boundary: read the next token,
then run `parseLoop`. -/
def drive (n : Nat) (s : State) : Res Unit := (advance s).bind fun _ s1 => parseLoop n s1

/-- An operand: a number or an identifier. -/
inductive Operand
  | num (ds : List Byte)
  | id (w : List Byte)
  deriving DecidableEq

/-- The operand as a leaf. -/
def Operand.tree : Operand → Tree
  | .num ds => .num ds
  | .id w => .id w

/-- The operand as written in the input. -/
def Operand.text (a : Operand) : List Byte := a.tree.render

/-- The operand as `emit` writes it. -/
def Operand.out (a : Operand) : List Byte := a.tree.postorder

/-- The operand is a number or identifier lexeme. -/
def Operand.valid (a : Operand) : Bool := a.tree.valid

/-! ## The token stream and the grammar -/

/-- The tokens that successive calls `lookahead = lexan()` deliver from state
`s` on, up to `DONE`; `none` when a call exits with an error of the lexer. -/
def lexAll : Nat → State → Option (List Int)
  | 0, _ => none
  | n + 1, s =>
    match advance s with
    | .ok _ s' => if s'.lookahead = DONE then some [] else (lexAll n s').map (s'.lookahead :: ·)
    | _ => none

/-- The token sequence of an input: what `lexan` produces from the initialised
state. Every token but `DONE` consumes a byte, so `length + 1` calls suffice. -/
def tokens (input : List Byte) : Option (List Int) :=
  lexAll (input.length + 1) (State.start input)

/-- Token of a multiplicative operator. -/
def mulop (t : Int) : Prop := t = 42 ∨ t = 47 ∨ t = DIV ∨ t = MOD

/-- Token of an additive operator. -/
def addop (t : Int) : Prop := t = 43 ∨ t = 45

instance (t : Int) : Decidable (mulop t) := by unfold mulop; infer_instance

instance (t : Int) : Decidable (addop t) := by unfold addop; infer_instance

/-- The grammar of the specification, by level: 2 is
`factor -> '(' expr ')' | NUM | ID`, 1 is `term -> factor (mulop factor)*` and
0 is `expr -> term (addop term)*`; an iteration `x (op x)*` is read as
`x` or an iteration followed by `op x`. -/
inductive Gram : Nat → List Int → Prop
  | num : Gram 2 [NUM]
  | id : Gram 2 [ID]
  | paren (e : List Int) (h : Gram 0 e) : Gram 2 (40 :: e ++ [41])
  | factor (f : List Int) (h : Gram 2 f) : Gram 1 f
  | mul (t : List Int) (op : Int) (f : List Int) (ht : Gram 1 t) (hop : mulop op)
      (hf : Gram 2 f) : Gram 1 (t ++ op :: f)
  | term (t : List Int) (h : Gram 1 t) : Gram 0 t
  | add (e : List Int) (op : Int) (t : List Int) (he : Gram 0 e) (hop : addop op)
      (ht : Gram 1 t) : Gram 0 (e ++ op :: t)

/-- The grammar `stmt_list -> (expr ';')*`. -/
inductive Stmts : List Int → Prop
  | nil : Stmts []
  | cons (e r : List Int) (he : Gram 0 e) (hr : Stmts r) : Stmts (e ++ 59 :: r)

/-- The token stream read from state `s` on, as a relation. -/
inductive Toks : State → List Int → Prop
  | done (s s' : State) (h : advance s = .ok () s') (hd : s'.lookahead = DONE) : Toks s []
  | cons (s s' : State) (ts : List Int) (h : advance s = .ok () s') (hd : s'.lookahead ≠ DONE)
      (ht : Toks s' ts) : Toks s (s'.lookahead :: ts)

/-- The tokens ahead of the parser in state `s`: the lookahead, unless it is
`DONE`, followed by the tokens still to be read. -/
def LA (s : State) (ts : List Int) : Prop :=
  (s.lookahead = DONE ∧ ts = []) ∨ (s.lookahead ≠ DONE ∧ ∃ r, ts = s.lookahead :: r ∧ Toks s r)

/-- What the parser accepts, as a relation between the tokens ahead before and
after a call. Levels 0, 1, 2 are `expr`, `term`, `factor`; 3 and 4 are the loops
of `term` and `expr`; 5 is the loop of `parse`. -/
inductive Acc : Nat → List Int → List Int → Prop
  | num (r : List Int) : Acc 2 (NUM :: r) r
  | id (r : List Int) : Acc 2 (ID :: r) r
  | paren (ts r : List Int) (h : Acc 0 ts (41 :: r)) : Acc 2 (40 :: ts) r
  | tstop (ts : List Int) (h : ∀ t r, ts = t :: r → ¬ mulop t) : Acc 3 ts ts
  | tstep (op : Int) (ts m r : List Int) (hop : mulop op) (h1 : Acc 2 ts m) (h2 : Acc 3 m r) :
      Acc 3 (op :: ts) r
  | term (ts m r : List Int) (h1 : Acc 2 ts m) (h2 : Acc 3 m r) : Acc 1 ts r
  | estop (ts : List Int) (h : ∀ t r, ts = t :: r → ¬ addop t) : Acc 4 ts ts
  | estep (op : Int) (ts m r : List Int) (hop : addop op) (h1 : Acc 1 ts m) (h2 : Acc 4 m r) :
      Acc 4 (op :: ts) r
  | expr (ts m r : List Int) (h1 : Acc 1 ts m) (h2 : Acc 4 m r) : Acc 0 ts r
  | done : Acc 5 [] []
  | stmt (ts m r : List Int) (hne : ts ≠ []) (h1 : Acc 0 ts (59 :: m)) (h2 : Acc 5 m r) :
      Acc 5 ts r

/-- A syntax error message. -/
def Syn (m : String) : Prop :=
  m = "Syntax error: unexpected token in factor" ∨ m = "Syntax error: expected different token"

/-- The outcome of a parser call at level `k` with tokens `ts` ahead agrees with
the relation `Acc`, and an `error` exit is a syntax error. -/
inductive Traced (k : Nat) (ts : List Int) : Res Unit → Prop
  | ok (a : Unit) (s : State) (r : List Int) (hs : LA s r) (ha : Acc k ts r) :
      Traced k ts (.ok a s)
  | abort (m : String) (s : State) (hm : Syn m) : Traced k ts (.abort m s)
  | fault : Traced k ts .fault
  | timeout : Traced k ts .timeout

/-- The parser call of level `k` with recursion fuel `N` and loop fuel `m`. -/
def conc (k N m : Nat) (s : State) : Res Unit :=
  match k with
  | 0 => parseAt 0 N m s
  | 1 => term (expr N) m s
  | 2 => factor (expr N) s
  | 3 => termLoop (expr N) m s
  | 4 => exprLoop (expr N) m s
  | _ => parseLoop m s

/-- What an accepting call of level `k` has consumed, in terms of the grammar. -/
def Sound (k : Nat) (ts r : List Int) : Prop :=
  match k with
  | 0 => ∃ c, ts = c ++ r ∧ Gram 0 c
  | 1 => ∃ c, ts = c ++ r ∧ Gram 1 c
  | 2 => ∃ c, ts = c ++ r ∧ Gram 2 c
  | 3 => ∃ c, ts = c ++ r ∧ ∀ t0, Gram 1 t0 → Gram 1 (t0 ++ c)
  | 4 => ∃ c, ts = c ++ r ∧ ∀ e0, Gram 0 e0 → Gram 0 (e0 ++ c)
  | _ => r = [] ∧ Stmts ts

/-- What the parser does with a phrase of level `k` of the grammar. -/
def Complete (k : Nat) (c : List Int) : Prop :=
  match k with
  | 0 => ∀ r r', (∀ t x, r = t :: x → ¬ mulop t) → Acc 4 r r' → Acc 0 (c ++ r) r'
  | 1 => ∀ r r', Acc 3 r r' → Acc 1 (c ++ r) r'
  | 2 => ∀ r, Acc 2 (c ++ r) r
  | _ => True

/-! ## The line of a syntax error -/

/-- The message of an `error` exit. -/
def Res.errmsg {α : Type} : Res α → Option String
  | .abort m _ => some m
  | _ => none

/-- The line counter in the final state. -/
def Res.line {α : Type} : Res α → Option Int
  | .ok _ s => some s.lineno
  | .abort _ s => some s.lineno
  | _ => none

/-- The lookahead token of `s` stands in the input at `pre ++ tk ++ s.infile`:
`tk` is its text (empty for `DONE`), `pre` is all that precedes it, and the
line counter is 1 plus the number of newlines in `pre`. -/
def AtToken (input : List Byte) (s : State) : Prop :=
  ∃ pre tk, input = pre ++ tk ++ s.infile ∧ s.lineno = 1 + (pre.count 10 : Nat) ∧
    (10 : Byte) ∉ tk ∧ (s.lookahead ≠ DONE → tk ≠ []) ∧ (s.lookahead = DONE → tk = []) ∧
    (∀ c r, tk = c :: r → Stops c)

/-- The lookahead in the final state. -/
def Res.look {α : Type} : Res α → Option Int
  | .ok _ s => some s.lookahead
  | .abort _ s => some s.lookahead
  | _ => none

/-! ## Two runs side by side -/

/-- The outcomes of the same call in two related states: when the first
returns, the second returns in a related state; for an `error` exit of the
first, `A` says what is required of the second. -/
inductive Rel (R : State → State → Prop) (A : String → State → Res Unit → Prop) :
    Res Unit → Res Unit → Prop
  | ok (s t : State) (h : R s t) : Rel R A (.ok () s) (.ok () t)
  | abort (m : String) (s : State) (r : Res Unit) (h : A m s r) : Rel R A (.abort m s) r
  | fault (r : Res Unit) : Rel R A .fault r
  | timeout (r : Res Unit) : Rel R A .timeout r

/-- The relation `R` is kept by every step the parser takes inside an
expression: reading a token (the lookahead being neither `;` nor `DONE`),
writing an operator, and emitting an operand; syntax errors of related states
satisfy `A`. -/
structure Rule (R : State → State → Prop) (A : String → State → Res Unit → Prop) : Prop where
  adv : ∀ s t, R s t → s.lookahead ≠ 59 → s.lookahead ≠ DONE →
    Rel R A (advance s) (advance t)
  la : ∀ s t, R s t → t.lookahead = s.lookahead
  op : ∀ s t o, R s t → (addop o ∨ mulop o) →
    R (fprintf (opText o) s) (fprintf (opText o) t)
  operand : ∀ s t, R s t → (s.lookahead = NUM ∨ s.lookahead = ID) →
    ∀ s', emit s.lookahead s.tokenval s = .ok () s' →
      ∃ t', emit s.lookahead t.tokenval t = .ok () t' ∧ R s' t'
  syn : ∀ s t m, R s t → Syn m → A m s (.abort m t)
  absorb : ∀ (m : String) (s : State) (r : Res Unit) (k : Unit → State → Res Unit),
    A m s r → A m s (r.bind k)

/-! ## Locality of the lexer -/

/-- The state with another input stream. -/
def State.withIn (x : List Byte) (s : State) : State := { s with infile := x }

/-! ## Inserting white space and comments -/

/-- Whether `lexan`, started in comment mode `m`, skips all of `x` and is outside
a comment at its end: `x` is a sequence of blanks, tabs, newlines and complete
`#` comments. -/
def plainSkip : Bool → List Byte → Bool
  | m, [] => !m
  | true, c :: cs => if c.val = 10 then plainSkip false cs else plainSkip true cs
  | false, c :: cs =>
    if (c.val : Int) = 32 ∨ (c.val : Int) = 9 then plainSkip false cs
    else if (c.val : Int) = 10 then plainSkip false cs
    else if (c.val : Int) = 35 then plainSkip true cs
    else false

/-- The text `w` may be inserted in front of `b`: it is a sequence of blanks,
tabs, newlines and complete comments, or `b` is empty and `w` is skipped as a
whole (it may end inside a comment that runs to the end of the input). -/
def Filler (b w : List Byte) : Prop :=
  plainSkip false w = true ∨ (b = [] ∧ skipRest false w = [])

instance (b w : List Byte) : Decidable (Filler b w) := by unfold Filler; infer_instance

/-- The position between `x` and `b` in the unread input `x ++ b` of state `t` is a
token boundary: all of `x` is skipped, or `lexan` reads a token that ends inside
`x` and the position is a token boundary of what is left. -/
inductive Bnd (b : List Byte) : List Byte → State → Prop
  | here (x : List Byte) (t : State) (hx : plainSkip false x = true) : Bnd b x t
  | step (u x' : List Byte) (t t' : State) (h : advance t = .ok () t')
      (hd : t'.lookahead ≠ DONE) (hi : t'.infile = x' ++ b) (hb : Bnd b x' t') :
      Bnd b (u ++ x') t

/-- A decision procedure for `Bnd`. -/
def isBnd : Nat → List Byte → List Byte → State → Bool
  | 0, x, _, _ => plainSkip false x
  | n + 1, x, b, t =>
    plainSkip false x ||
      match advance t with
      | .ok _ t' =>
        let x' := t'.infile.take (t'.infile.length - b.length)
        let u := x.take (x.length - x'.length)
        decide (t'.lookahead ≠ DONE) && decide (t'.infile = x' ++ b) && decide (x = u ++ x') &&
          isBnd n x' b t'
      | _ => false

/-- The states of the run on `a ++ b` and of the run on `a ++ w ++ b` at the
same point: before the insertion is reached they differ in the unread input,
afterwards in the line counter, by `k`. -/
def Ins (b w : List Byte) (k : Int) (x y : State) : Prop :=
  (∃ es, PWF x es) ∧ (x.lookahead = DONE → x.infile = []) ∧
  (y.lookahead = DONE → y.infile = []) ∧
  ((∃ p, Bnd b p x ∧ x.infile = p ++ b ∧ y = x.withIn (p ++ w ++ b)) ∨ y = x.re x.outfile k)

/-- The second run exits with the same error and the same output; its line
counter is that of the first run, or `k` more. -/
def InsErr (k : Int) (m : String) (x : State) (r : Res Unit) : Prop :=
  ∃ y, r = .abort m y ∧ y.outfile = x.outfile ∧
    (y.lineno = x.lineno ∨ y.lineno = x.lineno + k)

/-- The tree of `2 + x1 * (y - 40) div 7`. -/
def exTree : Tree :=
  .node .add (.num [50])
    (.node .div (.node .mul (.id [120, 49]) (.node .sub (.id [121]) (.num [52, 48]))) (.num [55]))

/-! ## Output written before an error -/

/-- The states of the run on `S` and of the run on `S ++ rr` while they agree:
the second has `rr` appended to its unread input, and the tokens ahead in `S`
end with a `;`. -/
def Ext (rr : List Byte) (x y : State) : Prop :=
  (∃ es, PWF x es) ∧ y = x.withIn (x.infile ++ rr) ∧
    ∃ ts, LA x ts ∧ ts.getLast? = some 59

/-- An error message of the lexer. -/
def LexMsg (m : String) : Prop :=
  m = "Buffer overflow in lexeme" ∨ m = "Symbol table full" ∨ m = "Lexemes array full"

/-- What the run on `S ++ rr` keeps of the output `O = O' ++ ";\n"` of the run on
`S`: all of `O` when it returns, and when it exits with a syntax error; at
least `O'` in any case, and exactly `O'` if not all of `O`, which happens only
for an error of the lexer. -/
inductive Kept (O O' : List Byte) : Res Unit → Prop
  | ok (s : State) (h : O <+: s.outfile) : Kept O O' (.ok () s)
  | abort (m : String) (s : State) (h1 : O' <+: s.outfile) (h2 : Syn m → O <+: s.outfile)
      (h3 : ¬ O <+: s.outfile → s.outfile = O' ∧ LexMsg m) : Kept O O' (.abort m s)
  | fault : Kept O O' .fault
  | timeout : Kept O O' .timeout

/-- The output written when the run ended, normally or by `error`. -/
def Res.written {α : Type} : Res α → Option (List Byte)
  | .ok _ s => some s.outfile
  | .abort _ s => some s.outfile
  | _ => none

/-! ## Statements of a multi-statement input -/

/-- The bytes a call `lookahead = lexan()` read between the states `s` and `s'`. -/
def consumed (s s' : State) : List Byte :=
  s.infile.take (s.infile.length - s'.infile.length)

/-- The statements of the input left in state `s`: the text read for each run of
tokens up to and with the next `;` token, with `acc` the text already read for
the current one. White space and comments after the last `;` belong to no
statement; `none` when tokens follow the last `;` or the lexer exits. -/
def stmtsFrom : Nat → State → List Byte → Option (List (List Byte))
  | 0, _, _ => none
  | n + 1, s, acc =>
    match advance s with
    | .ok _ s' =>
      if s'.lookahead = DONE then (if acc = [] then some [] else none)
      else if s'.lookahead = 59 then (stmtsFrom n s' []).map ((acc ++ consumed s s') :: ·)
      else stmtsFrom n s' (acc ++ consumed s s')
    | _ => none

/-- The statements `s1;`, ..., `sn;` of an input, as `lexan` delimits them from
the initialised state. -/
def statements (input : List Byte) : Option (List (List Byte)) :=
  stmtsFrom (input.length + 1) (State.start input) []

/-- Reading tokens from state `x` on, the first `;` token is read after exactly
the bytes `q`, which leaves state `xe`. -/
inductive Stmt1 : State → List Byte → State → Prop
  | last (x x1 : State) (q : List Byte) (h : advance x = .ok () x1) (hl : x1.lookahead = 59)
      (hq : x.infile = q ++ x1.infile) : Stmt1 x q x1
  | more (x x1 xe : State) (u q : List Byte) (h : advance x = .ok () x1)
      (hl : x1.lookahead ≠ 59) (hd : x1.lookahead ≠ DONE) (hu : x.infile = u ++ x1.infile)
      (ht : Stmt1 x1 q xe) : Stmt1 x (u ++ q) xe

/-- The input left in state `x` is the statements `qs`, one after the other,
followed by white space and comments only. -/
inductive Split : State → List (List Byte) → Prop
  | nil (x x1 : State) (h : advance x = .ok () x1) (hd : x1.lookahead = DONE) : Split x []
  | cons (x xe : State) (q : List Byte) (qs : List (List Byte)) (h : Stmt1 x q xe)
      (hs : Split xe qs) : Split x (q :: qs)

/-! ## The shape of an output line -/

/-- A token as written to the output: not empty, and without space, newline or
`;`. -/
def Word (w : List Byte) : Prop := w ≠ [] ∧ ∀ c ∈ w, c ≠ 32 ∧ c ≠ 10 ∧ c ≠ 59

/-- A sequence of tokens, each followed by one space. -/
def Words (o : List Byte) : Prop :=
  ∃ ws : List (List Byte), o = (ws.map fun w => w ++ [32]).flatten ∧ ∀ w ∈ ws, Word w

/-- An output line: a sequence of tokens, each followed by one space, then `;`
and a newline. -/
def Line (o : List Byte) : Prop := ∃ body, o = body ++ [59, 10] ∧ Words body

/-! ## A statement of the whole run and the same statement alone -/

/-- The state `x` of the run on the whole input and the state `y` of the run on
its current statement alone, started with a fresh symbol table: the table of `y`
is part of the table of `x`, both have the same lookahead, with the same value
for a number and the same text for an identifier; `x` has written `pre` and then
what `y` has written, a sequence of tokens; what `y` has still to read is what
`x` reads up to the next `;`, after which the statements `qs` follow. -/
structure Alone (pre : List Byte) (qs : List (List Byte)) (x y : State) : Prop where
  tabs : ∃ ex ey, PWF x ex ∧ PWF y ey ∧ ey ⊆ ex
  la : y.lookahead = x.lookahead
  num : x.lookahead = NUM → y.tokenval = x.tokenval
  idt : x.lookahead = ID → ∃ w, w ≠ [] ∧ (∀ c ∈ w, aln c = true) ∧
    entryText x x.tokenval = some w ∧ entryText y y.tokenval = some w
  out : x.outfile = pre ++ y.outfile
  words : Words y.outfile
  ahead : (x.lookahead = 59 ∧ y.infile = [] ∧ Split x qs) ∨
    (x.lookahead ≠ 59 ∧ ∃ xe, Stmt1 x y.infile xe ∧ Split xe qs)

/-- What holds of a statement of the input and its part of the output: the
statement translated alone returns normally with that output, which is one line. -/
def AloneOut (p o : List Byte) : Prop :=
  ∃ sp, run p = .ok () sp ∧ sp.outfile = o ∧ Line o

/-! ## Reachable states of the symbol table -/

/-- The token type stored in entry `p`: `symtable[p].token`. -/
def entryTok (s : State) (p : Int) : Option Int :=
  (getAt s.symtable p).map fun e => e.token

/-- The value a call returned. -/
def Res.value {α : Type} : Res α → Option α
  | .ok a _ => some a
  | _ => none

/-- The state a call returned in. -/
def Res.state {α : Type} : Res α → Option State
  | .ok _ s => some s
  | _ => none

/-- State `s'` occurs after state `s`: it is reached by calls of `lexan` that
return, assignments to `lookahead` and writes to the output file, the steps the
parser takes between two calls of `lexan`. -/
inductive Later : State → State → Prop
  | refl (s : State) : Later s s
  | lexan (s s1 s2 : State) (tok : Int) (h : Later s s1) (e : lexan s1 = .ok tok s2) : Later s s2
  | look (s s1 : State) (tok : Int) (h : Later s s1) : Later s { s1 with lookahead := tok }
  | write (s s1 : State) (text : List Byte) (h : Later s s1) : Later s (fprintf text s1)

/-- A state reachable from `init()` on the zero-initialised globals, for some
input. -/
def Reach (s : State) : Prop :=
  ∃ input s0, init (State.initial input) = .ok () s0 ∧ Later s0 s

/-- The state after `n` calls `lookahead = lexan()` from `s` on; a call that does
not return ends the sequence. -/
def lexN : Nat → State → State
  | 0, s => s
  | n + 1, s =>
    match advance s with
    | .ok _ s' => lexN n s'
    | _ => s

/-! ## Lexing a word -/

/-- The next lexeme in the input of state `s` is the word `w`: after the white
space and comments a letter follows, and `w` is the maximal run of letters and
digits that starts with it. -/
def NextWord (s : State) (w : List Byte) : Prop :=
  ∃ c r, skipRest false s.infile = c :: r ∧ isalpha c.val = true ∧ w = c :: r.takeWhile aln

/-- The C string in `lexbuf` is `w`, and `lexbuf` has its declared size. -/
def Stored (w : List Byte) (s : State) : Prop :=
  readStr s.lexbuf 0 = some w ∧ s.lexbuf.length = 128

/-! ## Layout and immutability of the entries -/

/-- The offset in `lexemes` at which the text of entry `p` starts:
`symtable[p].lexptr - lexemes`. -/
def entryOff (s : State) (p : Int) : Option Nat :=
  (getAt s.symtable p).bind fun e => e.lexptr

/-! ## The debug branch of `emit`, and the end of a run -/

/-- The token types for which `emit` has a case of its own. -/
def Known (t : Int) : Prop :=
  t = 43 ∨ t = 45 ∨ t = 42 ∨ t = 47 ∨ t = DIV ∨ t = MOD ∨ t = NUM ∨ t = ID

instance (t : Int) : Decidable (Known t) := by unfold Known; infer_instance

/-! ## Basic lemmas -/

@[simp] theorem Res.bind_ok {α β : Type} (a : α) (s : State) (k : α → State → Res β) :
    (Res.ok a s).bind k = k a s := rfl

@[simp] theorem Res.bind_abort {α β : Type} (m : String) (s : State) (k : α → State → Res β) :
    (Res.abort m s : Res α).bind k = .abort m s := rfl

@[simp] theorem Res.bind_fault {α β : Type} (k : α → State → Res β) :
    (Res.fault : Res α).bind k = .fault := rfl

@[simp] theorem Res.bind_timeout {α β : Type} (k : α → State → Res β) :
    (Res.timeout : Res α).bind k = .timeout := rfl

theorem cstr_append (w x : List Byte) (h : (0 : Byte) ∉ w) : cstr (w ++ 0 :: x) = some w := by
  induction w with
  | nil => simp [cstr]
  | cons c cs ih =>
    simp only [List.mem_cons, not_or] at h
    have hc : c ≠ 0 := fun e => h.1 e.symm
    simp [cstr, hc, ih h.2]

theorem arena_append (es fs : Table) : arena (es ++ fs) = arena es ++ arena fs := by
  induction es with
  | nil => rfl
  | cons e es ih => simp [arena, ih]

theorem slots_append (off : Nat) (es fs : Table) :
    slots off (es ++ fs) = slots off es ++ slots (off + (arena es).length) fs := by
  induction es generalizing off with
  | nil => simp [slots, arena]
  | cons e es ih => simp [slots, arena, ih]; congr 1; omega

theorem slots_length (off : Nat) (es : Table) : (slots off es).length = es.length := by
  induction es generalizing off with
  | nil => rfl
  | cons e es ih => simp [slots, ih]

theorem getElem?_mid {α : Type} (X : List α) (y : α) (Z : List α) :
    (X ++ y :: Z)[X.length]? = some y := by
  induction X with
  | nil => simp
  | cons x X ih => simpa using ih

theorem Tab.size_lt {s : State} {es : Table} (h : Tab s es) : es.length < 100 := by
  obtain ⟨e0, rest, hs⟩ := h.symtable
  have := h.symlen
  rw [hs] at this
  simp [slots_length] at this
  omega

theorem Tab.arena_le {s : State} {es : Table} (h : Tab s es) : (arena es).length ≤ 999 := by
  obtain ⟨rest, hs⟩ := h.lexemes
  have := h.lexlen
  rw [hs] at this
  simp at this
  omega

theorem Tab.getAt {s : State} {A B : Table} {e : List Byte × Int} (h : Tab s (A ++ e :: B)) :
    getAt s.symtable ((A.length : Int) + 1) = some ⟨some (arena A).length, e.2⟩ := by
  obtain ⟨e0, rest, hs⟩ := h.symtable
  have h1 : ¬ ((A.length : Int) + 1 < 0) := by omega
  have h2 : ((A.length : Int) + 1).toNat = A.length + 1 := by omega
  simp only [Sc.getAt, h1, if_false, h2, hs, slots_append, slots, List.getElem?_cons_succ,
    List.append_assoc, List.cons_append]
  rw [← slots_length 0 A]
  simpa using getElem?_mid (slots 0 A) _ _

theorem Tab.entryText {s : State} {A B : Table} {e : List Byte × Int} (h : Tab s (A ++ e :: B)) :
    entryText s ((A.length : Int) + 1) = some e.1 := by
  obtain ⟨rest, hs⟩ := h.lexemes
  have hn : (0 : Byte) ∉ e.1 := h.nul e (by simp)
  simp only [Sc.entryText, h.getAt, readStr, hs, arena_append, arena]
  rw [List.append_assoc, List.drop_left, List.append_assoc]
  exact cstr_append _ _ hn

theorem split_at {α : Type} (l : List α) (p : Nat) (h : p < l.length) :
    l = l.take p ++ l[p] :: l.drop (p + 1) := by
  rw [← List.drop_eq_getElem_cons h, List.take_append_drop]

theorem Tab.lookupFrom {s : State} {es : Table} (h : Tab s es) (w : List Byte) (p : Nat)
    (hp : p ≤ es.length) : lookupFrom s w p = some ((es.find w p : Nat) : Int) := by
  induction p with
  | zero => simp [Sc.lookupFrom, Table.find]
  | succ p ih =>
    have hlt : p < es.length := hp
    have hsplit := split_at es p hlt
    have h' : Tab s (es.take p ++ es[p] :: es.drop (p + 1)) := by rw [← hsplit]; exact h
    have ht := h'.entryText
    have hl : (es.take p).length = p := by simp; omega
    rw [hl] at ht
    simp only [Sc.lookupFrom, ht, Table.find, List.getElem?_eq_getElem hlt, Option.map_some']
    by_cases hw : es[p].1 = w
    · simp [hw]
    · simp [hw, ih (Nat.le_of_lt hlt)]

theorem Tab.lookup {s : State} {es : Table} (h : Tab s es) (w : List Byte) :
    lookup w s = some ((es.find w es.length : Nat) : Int) := by
  simp only [Sc.lookup, h.lastentry, Int.toNat_ofNat]
  exact h.lookupFrom w _ (le_refl _)

theorem Table.find_le (es : Table) (w : List Byte) (p : Nat) : es.find w p ≤ p := by
  induction p with
  | zero => simp [Table.find]
  | succ p ih => simp only [Table.find]; split <;> omega

theorem Table.find_pos (es : Table) (w : List Byte) (p q : Nat) (h : es.find w p = q + 1) :
    (es[q]?).map Prod.fst = some w := by
  induction p with
  | zero => simp [Table.find] at h
  | succ p ih =>
    simp only [Table.find] at h
    split at h
    · have : p = q := by omega
      subst this; assumption
    · exact ih h

theorem Table.find_zero (es : Table) (w : List Byte) (p : Nat) (hp : p ≤ es.length)
    (h : es.find w p = 0) : w ∉ (es.take p).map Prod.fst := by
  induction p with
  | zero => simp
  | succ p ih =>
    simp only [Table.find] at h
    split at h
    · omega
    · rename_i hne
      have hlt : p < es.length := hp
      rw [List.take_succ, List.getElem?_eq_getElem hlt]
      simp only [List.getElem?_eq_getElem hlt, Option.map_some', Option.some.injEq] at hne
      simp only [Option.toList, List.map_append, List.map_cons, List.map_nil, List.mem_append, List.mem_singleton, not_or]
      exact ⟨ih (Nat.le_of_lt hlt) h, fun e => hne e.symm⟩

theorem Tab.insert_eq {s : State} {es : Table} (h : Tab s es) (w : List Byte) (tok : Int) :
    insert w tok s =
      if 100 ≤ es.length + 1 then .abort "Symbol table full" s
      else if 999 ≤ (arena es).length + w.length then .abort "Lexemes array full" s
      else .ok ((es.length : Int) + 1) (s.inserted w tok) := by
  have h1 := h.lastentry
  have h2 := h.lastchar
  have h3 := h.symlen
  have h4 := h.lexlen
  unfold Sc.insert error
  by_cases c1 : 100 ≤ es.length + 1
  · have : s.lastentry + 1 ≥ SYMMAX := by simp only [SYMMAX]; omega
    simp [c1, this]
  · have n1 : ¬ (s.lastentry + 1 ≥ SYMMAX) := by simp only [SYMMAX]; omega
    by_cases c2 : 999 ≤ (arena es).length + w.length
    · have : s.lastchar + (w.length : Int) + 1 ≥ STRMAX := by simp only [STRMAX]; omega
      simp only [c1, c2, n1, this, if_true, if_false]
    · have n2 : ¬ (s.lastchar + (w.length : Int) + 1 ≥ STRMAX) := by simp only [STRMAX]; omega
      have n3 : ¬ (s.lastchar + 1 < 0) := by omega
      have n4 : 0 ≤ s.lastentry + 1 ∧ (s.lastentry + 1).toNat < s.symtable.length := by
        constructor <;> omega
      have n5 : (s.lastchar + 1).toNat + w.length + 1 ≤ s.lexemes.length := by omega
      simp only [c1, c2, n1, n2, n3, if_false, setAt, n4, and_self, if_true, strcpy, n5,
        State.inserted]
      rw [h1]

theorem set_mid {α : Type} (X : List α) (y z : α) (Z : List α) :
    (X ++ y :: Z).set X.length z = X ++ z :: Z := by
  induction X with
  | nil => simp
  | cons x X ih => simp [ih]

theorem Tab.inserted {s : State} {es : Table} (h : Tab s es) (w : List Byte) (tok : Int)
    (hw : (0 : Byte) ∉ w) (c1 : es.length + 1 < 100) (c2 : (arena es).length + w.length < 999) :
    Tab (s.inserted w tok) (es ++ [(w, tok)]) := by
  have h1 := h.lastentry
  have h2 := h.lastchar
  have h3 := h.symlen
  have h4 := h.lexlen
  obtain ⟨e0, rest, hs⟩ := h.symtable
  obtain ⟨restL, hl⟩ := h.lexemes
  have hle : (s.lastentry + 1).toNat = es.length + 1 := by omega
  have hlc : (s.lastchar + 1).toNat = (arena es).length := by omega
  have harena : arena (es ++ [(w, tok)]) = arena es ++ (w ++ [EOS]) := by
    simp [arena_append, arena]
  constructor
  · simp [State.inserted, h1]
  · simp only [State.inserted, harena, List.length_append, List.length_cons, List.length_nil]
    push_cast; omega
  · cases rest with
    | nil =>
      rw [hs] at h3; simp [slots_length] at h3; omega
    | cons r rest =>
      refine ⟨e0, rest, ?_⟩
      simp only [State.inserted, hle, hlc, hs, List.set_cons_succ, slots_append, slots,
        List.append_assoc, List.cons_append, List.nil_append, Nat.zero_add]
      rw [← slots_length 0 es, set_mid]
  · simp [State.inserted, h3]
  · refine ⟨restL.drop (w.length + 1), ?_⟩
    simp only [State.inserted, hlc, hl, harena]
    rw [List.take_left, Nat.add_assoc, List.drop_append]
    simp
  · simp only [State.inserted, hlc, List.length_append, List.length_take, List.length_drop, h4,
      List.length_cons, List.length_nil]
    have := h.arena_le
    omega
  · intro e he
    simp only [List.mem_append, List.mem_singleton] at he
    rcases he with he | he
    · exact h.nul e he
    · subst he; exact hw

/-! ## The skipping phase of `lexan` as a pure function of the input -/

theorem skipLine_length (cs : List Byte) : (skipLine cs).2.length ≤ cs.length := by
  induction cs with
  | nil => simp [skipLine]
  | cons c cs ih => simp only [skipLine]; split <;> (simp; try omega)

theorem skipRest_comment (cs : List Byte) :
    skipRest true cs = skipRest false (skipLine cs).2 := by
  induction cs with
  | nil => simp [skipRest, skipLine]
  | cons c cs ih => simp only [skipRest, skipLine]; split <;> simp [ih]

theorem skipLines_comment (cs : List Byte) :
    skipLines true cs =
      skipLines false (skipLine cs).2 + (if (skipLine cs).1 = 10 then 1 else 0) := by
  induction cs with
  | nil => simp [skipLines, skipLine, EOF]
  | cons c cs ih => simp only [skipLines, skipLine]; split <;> simp [ih]

theorem skipRest_length (m : Bool) (cs : List Byte) : (skipRest m cs).length ≤ cs.length := by
  induction cs generalizing m with
  | nil => cases m <;> simp [skipRest]
  | cons c cs ih =>
    cases m
    · simp only [skipRest]
      split
      · have := ih false; simp; omega
      · split
        · have := ih false; simp; omega
        · split
          · have := ih true; simp; omega
          · simp
    · simp only [skipRest]
      split
      · have := ih false; simp; omega
      · have := ih true; simp; omega

theorem skipRest_head (m : Bool) (cs : List Byte) (c : Byte) (rest : List Byte)
    (h : skipRest m cs = c :: rest) : Stops c := by
  induction cs generalizing m with
  | nil => cases m <;> simp [skipRest] at h
  | cons d ds ih =>
    cases m
    · simp only [skipRest] at h
      split at h
      · exact ih _ h
      · split at h
        · exact ih _ h
        · split at h
          · exact ih _ h
          · rename_i h1 h2 h3
            simp only [List.cons.injEq] at h
            obtain ⟨rfl, -⟩ := h
            exact ⟨h1, h2, h3⟩
    · simp only [skipRest] at h
      split at h <;> exact ih _ h

theorem lexanLoop_stop (n : Nat) (s : State) (h : ∀ c rest, s.infile = c :: rest → Stops c) :
    lexanLoop (n + 1) s = lexanLoop 1 s := by
  cases hi : s.infile with
  | nil => simp [lexanLoop, fgetc, hi, EOF]
  | cons c rest =>
    obtain ⟨h1, h2, h3⟩ := h c rest hi
    simp only [lexanLoop, fgetc, hi, h1, h2, h3, if_false]

/-- The loop of `lexan` first skips, then takes one turn at the first byte that
is neither white space nor inside a comment. -/
theorem lexanLoop_skip (n : Nat) (s : State) (h : s.infile.length < n) :
    lexanLoop n s = lexanLoop 1 (s.skipped) := by
  induction n generalizing s with
  | zero => omega
  | succ n ih =>
    cases hi : s.infile with
    | nil =>
      have : s.skipped = s := by
        cases s; simp_all [State.skipped, skipRest, skipLines]
      rw [this, lexanLoop_stop]
      simp [hi]
    | cons c rest =>
      rw [hi] at h
      simp only [List.length_cons] at h
      by_cases h1 : (c.val : Int) = 32 ∨ (c.val : Int) = 9
      · have e := ih { s with infile := rest } (by simp; omega)
        rw [lexanLoop]
        simp only [fgetc, hi, h1, if_true]
        rw [e]
        simp only [State.skipped, skipRest, skipLines, hi, h1, if_true]
      · by_cases h2 : (c.val : Int) = 10
        · have e := ih { s with infile := rest, lineno := s.lineno + 1 }
            (by show rest.length < n; omega)
          have hr : skipRest false (c :: rest) = skipRest false rest := by
            simp only [skipRest, if_neg h1, if_pos h2]
          have hn : skipLines false (c :: rest) = skipLines false rest + 1 := by
            simp only [skipLines, if_neg h1, if_pos h2]
          rw [lexanLoop]
          simp only [fgetc, hi]
          rw [if_neg h1, if_pos h2, e]
          simp only [State.skipped, hi, hr, hn]
          rw [show s.lineno + 1 + skipLines false rest = s.lineno + (skipLines false rest + 1) by
            omega]
        · by_cases h3 : (c.val : Int) = 35
          · have hl := skipLine_length rest
            have hr : skipRest false (c :: rest) = skipRest true rest := by
              simp only [skipRest, if_neg h1, if_neg h2, if_pos h3]
            have hn : skipLines false (c :: rest) = skipLines true rest := by
              simp only [skipLines, if_neg h1, if_neg h2, if_pos h3]
            rw [lexanLoop]
            simp only [fgetc, hi]
            rw [if_neg h1, if_neg h2, if_pos h3]
            by_cases h4 : (skipLine rest).1 = 10
            · have e := ih { s with infile := (skipLine rest).2, lineno := s.lineno + 1 }
                (by show (skipLine rest).2.length < n; omega)
              simp only [h4, if_true]
              rw [e]
              simp only [State.skipped, hi, hr, hn, skipRest_comment, skipLines_comment, h4,
                if_true]
              rw [show s.lineno + 1 + skipLines false (skipLine rest).2 =
                s.lineno + (skipLines false (skipLine rest).2 + 1) by omega]
            · have e := ih { s with infile := (skipLine rest).2 }
                (by show (skipLine rest).2.length < n; omega)
              simp only [h4, if_false]
              rw [e]
              simp only [State.skipped, hi, hr, hn, skipRest_comment, skipLines_comment, h4,
                if_false, add_zero]
          · have : s.skipped = s := by
              cases s; simp_all [State.skipped, skipRest, skipLines]
            rw [this, lexanLoop_stop]
            intro d r hd
            rw [hi] at hd
            simp only [List.cons.injEq] at hd
            obtain ⟨rfl, -⟩ := hd
            exact ⟨h1, h2, h3⟩

theorem lexan_skip (s : State) :
    lexan s = lexanLoop 1 (s.skipped) :=
  lexanLoop_skip _ s (Nat.lt_succ_self _)

@[simp] theorem toByte_val (c : Byte) : toByte (c.val : Int) = c := by
  simp only [toByte, Int.toNat_ofNat]
  apply Fin.ext
  simp [Fin.ofNat, Nat.mod_eq_of_lt c.isLt]

theorem isalnum_EOF : isalnum EOF = false := by decide

theorem take_succ_set {α : Type} (l : List α) (b : Nat) (c : α) (h : b < l.length) :
    (l.set b c).take (b + 1) = l.take b ++ [c] := by
  induction l generalizing b with
  | nil => simp at h
  | cons x l ih =>
    cases b with
    | zero => simp
    | succ b => simp at h; simp [ih b h]

theorem drop_set_of_lt {α : Type} (l : List α) (b k : Nat) (c : α) (h : b < k) :
    (l.set b c).drop k = l.drop k := by
  induction l generalizing b k with
  | nil => simp
  | cons x l ih =>
    cases k with
    | zero => omega
    | succ k =>
      cases b with
      | zero => simp
      | succ b => simp [ih b k (by omega)]

theorem setAt_nat {α : Type} (l : List α) (b : Nat) (v : α) (h : b < l.length) :
    setAt l (b : Int) v = some (l.set b v) := by
  have : (0 : Int) ≤ (b : Int) ∧ ((b : Int)).toNat < l.length := by
    constructor <;> omega
  simp [setAt, h]

theorem getAt_nat {α : Type} (l : List α) (b : Nat) : getAt l (b : Int) = l[b]? := by
  have : ¬ ((b : Int) < 0) := by omega
  simp only [getAt, this, if_false, Int.toNat_ofNat]

theorem scanLexeme_ok (fuel : Nat) (c : Byte) (b : Nat) (s : State) (hc : isalnum c.val = true)
    (hlen : s.lexbuf.length = 128) (hf : s.infile.length + 2 ≤ fuel)
    (hb : b + 1 + (s.infile.takeWhile aln).length < 128) :
    scanLexeme fuel c.val b s =
      .ok (headInt (s.infile.dropWhile aln), ((b + 1 + (s.infile.takeWhile aln).length : Nat) : Int))
        { s with
          lexbuf := s.lexbuf.take b ++ c :: s.infile.takeWhile aln ++
            s.lexbuf.drop (b + 1 + (s.infile.takeWhile aln).length)
          infile := (s.infile.dropWhile aln).tail } := by
  induction fuel generalizing c b s with
  | zero => omega
  | succ fuel ih =>
    have hset := setAt_nat s.lexbuf b c (by omega)
    have hnb : ¬ ((b : Int) + 1 ≥ BSIZE) := by simp only [BSIZE]; omega
    rw [scanLexeme]
    simp only [hc, if_true, toByte_val, hset]
    cases hi : s.infile with
    | nil =>
      rw [hi] at hf
      simp only [List.length_nil] at hf
      obtain ⟨f, rfl⟩ : ∃ f, fuel = f + 1 := ⟨fuel - 1, by omega⟩
      simp only [fgetc, hi, hnb, if_false, scanLexeme, isalnum_EOF, List.takeWhile_nil,
        List.dropWhile_nil, List.length_nil, headInt, List.tail_nil, List.append_nil,
        Nat.add_zero, Bool.false_eq_true]
      rw [List.set_eq_take_append_cons_drop]
      simp only [show b < s.lexbuf.length by omega, if_true, List.append_assoc, List.singleton_append]
      rfl
    | cons d ds =>
      rw [hi] at hf hb
      simp only [List.length_cons] at hf
      simp only [fgetc, hi, hnb, if_false]
      by_cases hd : aln d = true
      · simp only [List.takeWhile_cons, hd, if_true, List.length_cons] at hb
        have := ih d (b + 1) { s with lexbuf := s.lexbuf.set b c, infile := ds } hd
          (by simp [hlen]) (by show ds.length + 2 ≤ fuel; omega)
          (by show b + 1 + 1 + (List.takeWhile aln ds).length < 128; omega)
        simp only [Nat.cast_add, Nat.cast_one] at this
        rw [this]
        simp only [List.takeWhile_cons, List.dropWhile_cons, hd, if_true, List.length_cons,
          take_succ_set _ _ _ (show b < s.lexbuf.length by omega),
          drop_set_of_lt _ _ _ _ (show b < b + 1 + 1 + (List.takeWhile aln ds).length by omega)]
        simp only [Nat.cast_add, Nat.cast_one, List.append_assoc, List.singleton_append,
          List.cons_append]
        rw [show b + 1 + ((List.takeWhile aln ds).length + 1) =
            b + 1 + 1 + (List.takeWhile aln ds).length by omega,
          show (b : Int) + 1 + (((List.takeWhile aln ds).length : Int) + 1) =
            (b : Int) + 1 + 1 + ((List.takeWhile aln ds).length : Int) by omega]
        rfl
      · obtain ⟨f, rfl⟩ : ∃ f, fuel = f + 1 := ⟨fuel - 1, by omega⟩
        have hd' : isalnum (d.val : Int) = false := by simpa [aln] using hd
        simp only [scanLexeme, hd', List.takeWhile_cons, List.dropWhile_cons, hd, if_false,
          List.length_nil, headInt, List.tail_cons, List.append_nil, Nat.add_zero,
          Bool.false_eq_true]
        rw [List.set_eq_take_append_cons_drop]
        simp only [show b < s.lexbuf.length by omega, if_true, List.append_assoc,
          List.singleton_append]
        rfl

theorem scanLexeme_overflow (fuel : Nat) (c : Byte) (b : Nat) (s : State)
    (hc : isalnum c.val = true) (hlen : s.lexbuf.length = 128) (hf : s.infile.length + 2 ≤ fuel)
    (hb1 : b < 128) (hb : 128 ≤ b + 1 + (s.infile.takeWhile aln).length) :
    ∃ lb inf, scanLexeme fuel c.val b s =
      .abort "Buffer overflow in lexeme" { s with lexbuf := lb, infile := inf } := by
  induction fuel generalizing c b s with
  | zero => omega
  | succ fuel ih =>
    have hset := setAt_nat s.lexbuf b c (by omega)
    rw [scanLexeme]
    simp only [hc, if_true, toByte_val, hset]
    by_cases hnb : (b : Int) + 1 ≥ BSIZE
    · simp only [hnb, if_true, error]
      cases hi : s.infile with
      | nil =>
        refine ⟨s.lexbuf.set b c, [], ?_⟩
        simp only [fgetc, hi]
      | cons d ds => exact ⟨s.lexbuf.set b c, ds, by simp only [fgetc, hi]⟩
    · have hb2 : b + 1 < 128 := by simp only [BSIZE] at hnb; omega
      cases hi : s.infile with
      | nil => rw [hi] at hb; simp at hb; omega
      | cons d ds =>
        rw [hi] at hb hf
        by_cases hd : aln d = true
        · simp only [List.takeWhile_cons, hd, if_true, List.length_cons] at hb hf
          simp only [fgetc, hi, hnb, if_false]
          obtain ⟨lb, inf, h⟩ := ih d (b + 1) { s with lexbuf := s.lexbuf.set b c, infile := ds } hd
            (by simp [hlen]) (by show ds.length + 2 ≤ fuel; omega) hb2
            (by show 128 ≤ b + 1 + 1 + (List.takeWhile aln ds).length; omega)
          simp only [Nat.cast_add, Nat.cast_one] at h
          exact ⟨lb, inf, h⟩
        · simp [List.takeWhile_cons, hd] at hb; omega

theorem drop_cons_exists {α : Type} (l : List α) (k : Nat) (h : k < l.length) :
    ∃ x, l.drop k = x :: l.drop (k + 1) :=
  ⟨l[k], List.drop_eq_getElem_cons h⟩

theorem isalnum_ne_zero (c : Byte) (h : aln c = true) : c ≠ 0 := by
  intro e
  subst e
  simp [aln, isalnum, isalpha, isdigit] at h

theorem aln_no_nul (w : List Byte) (h : ∀ c ∈ w, aln c = true) : (0 : Byte) ∉ w := by
  intro h0
  exact isalnum_ne_zero 0 (h 0 h0) rfl

theorem headInt_ungetc (l : List Byte) (s : State) (hs : s.infile = l.tail) :
    (if headInt l ≠ EOF then ungetc (headInt l) s else s) = { s with infile := l } := by
  cases l with
  | nil => simp [headInt] at *; cases s; simp_all
  | cons d ds =>
    have : (d.val : Int) ≠ EOF := by simp only [EOF]; omega
    simp only [headInt, ne_eq, this, not_false_eq_true, if_true, ungetc, toByte_val]
    simp at hs
    rw [hs]

/-- The identifier branch of `lexan` for a letter `c` followed by `rest`: the
maximal run of letters and digits is the lexeme, which overflows the buffer
when it has 128 bytes or more and is interned otherwise. -/
theorem lexanWord_eq (c : Byte) (rest : List Byte) (s : State) (hc : isalnum c.val = true)
    (hlen : s.lexbuf.length = 128) :
    (128 ≤ (c :: rest.takeWhile aln).length →
      ∃ lb inf, lexanWord c.val { s with infile := rest } =
        .abort "Buffer overflow in lexeme" { s with lexbuf := lb, infile := inf }) ∧
    ((c :: rest.takeWhile aln).length < 128 →
      lexanWord c.val { s with infile := rest } =
        internWord (c :: rest.takeWhile aln)
          { s with
            lexbuf := c :: rest.takeWhile aln ++ 0 :: s.lexbuf.drop ((rest.takeWhile aln).length + 2)
            infile := rest.dropWhile aln }) := by
  constructor
  · intro h
    obtain ⟨lb, inf, e⟩ := scanLexeme_overflow (rest.length + 2) c 0 { s with infile := rest } hc
      hlen (le_refl _) (by omega) (by simp at h ⊢; omega)
    refine ⟨lb, inf, ?_⟩
    simp only [lexanWord]
    simp only [Nat.cast_zero] at e
    rw [e]
    rfl
  · intro h
    simp only [List.length_cons] at h
    have e := scanLexeme_ok (rest.length + 2) c 0 { s with infile := rest } hc
      hlen (le_refl _) (by show 0 + 1 + (List.takeWhile aln rest).length < 128; omega)
    simp only [Nat.cast_zero] at e
    simp only [lexanWord]
    rw [e]
    simp only [Res.bind_ok, List.take_zero, List.nil_append, Nat.zero_add]
    have hs : ((c :: List.takeWhile aln rest ++
        List.drop (1 + (List.takeWhile aln rest).length) s.lexbuf)).length = 128 := by
      simp [hlen]; omega
    rw [setAt_nat _ _ _ (by rw [hs]; omega)]
    simp only []
    rw [headInt_ungetc _ _ rfl]
    have hl : (c :: List.takeWhile aln rest).length = 1 + (List.takeWhile aln rest).length := by
      simp; omega
    have hset : (c :: List.takeWhile aln rest ++
        List.drop (1 + (List.takeWhile aln rest).length) s.lexbuf).set
          (1 + (List.takeWhile aln rest).length) EOS =
        c :: List.takeWhile aln rest ++ 0 :: s.lexbuf.drop ((rest.takeWhile aln).length + 2) := by
      obtain ⟨x, hd⟩ := drop_cons_exists s.lexbuf (1 + (List.takeWhile aln rest).length)
        (by omega)
      rw [hd, ← hl, set_mid, hl]
      rw [show 1 + (List.takeWhile aln rest).length + 1 = (List.takeWhile aln rest).length + 2 by
        omega]
    rw [hset]
    have hnul : (0 : Byte) ∉ c :: List.takeWhile aln rest := by
      apply aln_no_nul
      intro x hx
      simp only [List.mem_cons] at hx
      rcases hx with rfl | hx
      · exact hc
      · exact (List.mem_takeWhile_imp hx)
    simp only [readStr, List.drop_zero, cstr_append _ _ hnul]
    rfl

theorem Table.find_of_nodup (es : Table) (w : List Byte) (p : Nat) (e : List Byte × Int)
    (hnd : (es.map Prod.fst).Nodup) (he : es[p]? = some e) (hw : e.1 = w) :
    es.find w es.length = p + 1 := by
  have hp : p < es.length := by
    rcases Nat.lt_or_ge p es.length with h | h
    · exact h
    · rw [List.getElem?_eq_none h] at he; cases he
  cases hq : es.find w es.length with
  | zero =>
    have := Table.find_zero es w es.length (le_refl _) hq
    rw [List.take_length] at this
    exfalso; apply this
    rw [← hw]
    exact List.mem_map_of_mem _ (List.getElem?_mem he)
  | succ q =>
    have h1 := Table.find_pos es w _ q hq
    have h2 : (es.map Prod.fst)[p]? = (es.map Prod.fst)[q]? := by
      simp only [List.getElem?_map, h1, he, Option.map_some', hw]
    have := List.getElem?_inj (by simpa using hp) hnd h2
    omega

theorem Table.find_eq_zero (es : Table) (w : List Byte) (h : w ∉ es.map Prod.fst) :
    es.find w es.length = 0 := by
  cases hq : es.find w es.length with
  | zero => rfl
  | succ q =>
    exfalso; apply h
    have h1 := Table.find_pos es w _ q hq
    cases he : es[q]? with
    | none => rw [he] at h1; cases h1
    | some e =>
      rw [he] at h1
      simp only [Option.map_some', Option.some.injEq] at h1
      rw [← h1]
      exact List.mem_map_of_mem _ (List.getElem?_mem he)

theorem Table.find_zero_iff (es : Table) (w : List Byte) :
    es.find w es.length = 0 ↔ w ∉ es.map Prod.fst := by
  constructor
  · intro h
    have := Table.find_zero es w es.length (le_refl _) h
    rwa [List.take_length] at this
  · exact Table.find_eq_zero es w

theorem Tab.getAt_of_getElem? {s : State} {es : Table} (h : Tab s es) (p : Nat)
    (e : List Byte × Int) (he : es[p]? = some e) :
    Sc.getAt s.symtable ((p : Int) + 1) = some ⟨some (arena (es.take p)).length, e.2⟩ ∧
    Sc.entryText s ((p : Int) + 1) = some e.1 := by
  have hp : p < es.length := by
    rcases Nat.lt_or_ge p es.length with h | h
    · exact h
    · rw [List.getElem?_eq_none h] at he; cases he
  have hsplit := split_at es p hp
  rw [List.getElem?_eq_getElem hp] at he
  simp only [Option.some.injEq] at he
  rw [he] at hsplit
  have h' : Tab s (es.take p ++ e :: es.drop (p + 1)) := by rw [← hsplit]; exact h
  have hl : (es.take p).length = p := by simp; omega
  have h1 := h'.getAt
  have h2 := h'.entryText
  rw [hl] at h1 h2
  exact ⟨h1, h2⟩

/-- The lexeme is already in the table: its handle and token type are returned
and the table is left alone. -/
theorem Tab.internWord_old {s : State} {es : Table} (h : Tab s es) (w : List Byte) (p : Nat)
    (e : List Byte × Int) (hf : es.find w es.length = p + 1) (he : es[p]? = some e) :
    Sc.internWord w s = .ok e.2 { s with tokenval := (p : Int) + 1 } := by
  have hg := (h.getAt_of_getElem? p e he).1
  have hne : ¬ ((p : Int) + 1 = 0) := by omega
  simp only [internWord, h.lookup, hf, Nat.cast_add, Nat.cast_one, hne, if_false, Res.bind_ok, hg]

/-- The lexeme is new: it is inserted as an identifier unless the table or the
lexeme arena is full. -/
theorem Tab.internWord_new {s : State} {es : Table} (h : Tab s es) (w : List Byte)
    (hw : (0 : Byte) ∉ w) (hf : es.find w es.length = 0) :
    Sc.internWord w s =
      if 100 ≤ es.length + 1 then .abort "Symbol table full" s
      else if 999 ≤ (arena es).length + w.length then .abort "Lexemes array full" s
      else .ok ID { s.inserted w ID with tokenval := (es.length : Int) + 1 } := by
  simp only [internWord, h.lookup, hf, Nat.cast_zero, if_true, h.insert_eq]
  by_cases c1 : 100 ≤ es.length + 1
  · simp only [c1, if_true, Res.bind_abort]
  · by_cases c2 : 999 ≤ (arena es).length + w.length
    · simp only [c1, c2, if_true, if_false, Res.bind_abort]
    · have h' := h.inserted w ID hw (by omega) (by omega)
      have hg := (h'.getAt_of_getElem? es.length (w, ID) (by simp)).1
      simp only [c1, c2, if_false, Res.bind_ok, hg]

theorem Tab.frame {s s' : State} {es : Table} (h : Tab s es)
    (h1 : s'.lastentry = s.lastentry) (h2 : s'.lastchar = s.lastchar)
    (h3 : s'.symtable = s.symtable) (h4 : s'.lexemes = s.lexemes) : Tab s' es := by
  constructor
  · rw [h1]; exact h.lastentry
  · rw [h2]; exact h.lastchar
  · rw [h3]; exact h.symtable
  · rw [h3]; exact h.symlen
  · rw [h4]; exact h.lexemes
  · rw [h4]; exact h.lexlen
  · exact h.nul

theorem WF.reframe {s s' : State} {es : Table} (h : WF s es)
    (h1 : s'.lastentry = s.lastentry) (h2 : s'.lastchar = s.lastchar)
    (h3 : s'.symtable = s.symtable) (h4 : s'.lexemes = s.lexemes)
    (h5 : s'.lexbuf.length = 128) : WF s' es :=
  ⟨h.tab.frame h1 h2 h3 h4, h5, h.kw, h.word, h.nodup⟩

theorem isalpha_isalnum (t : Int) (h : isalpha t = true) : isalnum t = true := by
  simp [isalnum, h]

theorem word_aln (c : Byte) (r : List Byte) (hc : isalpha c.val = true) :
    ∀ x ∈ c :: r.takeWhile aln, aln x = true := by
  intro x hx
  simp only [List.mem_cons] at hx
  rcases hx with rfl | hx
  · exact isalpha_isalnum _ hc
  · exact List.mem_takeWhile_imp hx

theorem isalpha_not_digit (t : Int) (h : isalpha t = true) : isdigit t = false := by
  simp only [isalpha, isdigit, decide_eq_true_eq, decide_eq_false_iff_not] at *
  omega

theorem lexanLoop_one_eq (s : State) (c : Byte) (r : List Byte) (hi : s.infile = c :: r)
    (hs : Stops c) :
    lexanLoop 1 s =
      if isdigit c.val = true then
        .ok NUM
          { s with
            tokenval := (scanDigits (c :: r) 0).1
            infile := (scanDigits (c :: r) 0).2 }
      else if isalpha c.val = true then lexanWord c.val { s with infile := r }
      else if (c.val : Int) = 37 then .ok MOD { s with infile := r }
      else if (c.val : Int) = 92 then .ok 47 { s with infile := r }
      else .ok c.val { s with tokenval := NONE, infile := r } := by
  obtain ⟨h1, h2, h3⟩ := hs
  have hne : ¬ ((c.val : Int) = EOF) := by simp only [EOF]; omega
  rw [lexanLoop]
  simp only [fgetc, hi]
  rw [if_neg h1, if_neg h2, if_neg h3, if_neg hne]
  simp only [fscanfInt, ungetc, toByte_val]

/-- One turn of the loop of `lexan` at a byte where skipping stops. -/
theorem lexanLoop_one {s : State} {es : Table} (hwf : WF s es)
    (hstop : ∀ c rest, s.infile = c :: rest → Stops c) : TokOut s es (lexanLoop 1 s) := by
  cases hi : s.infile with
  | nil =>
    have : lexanLoop 1 s = .ok DONE s := by simp [lexanLoop, fgetc, hi, EOF, isdigit, isalpha]
    rw [this]; exact .eof hi
  | cons c r =>
    have hs := hstop c r hi
    rw [lexanLoop_one_eq s c r hi hs]
    by_cases hd : isdigit c.val = true
    · rw [if_pos hd]; exact .num c r hi hd
    · have hd' : isdigit c.val = false := by simpa using hd
      rw [if_neg hd]
      by_cases ha : isalpha c.val = true
      · rw [if_pos ha]
        obtain ⟨ho, hk⟩ := lexanWord_eq c r s (isalpha_isalnum _ ha) hwf.buf
        rcases Nat.lt_or_ge (c :: r.takeWhile aln).length 128 with hl | hl
        · rw [hk hl]
          have hnul := aln_no_nul _ (word_aln c r ha)
          have htab : Tab (s.scanned (c :: r.takeWhile aln) (r.dropWhile aln)) es :=
            hwf.tab.frame rfl rfl rfl rfl
          have hsc : { s with
              lexbuf := c :: r.takeWhile aln ++ 0 :: s.lexbuf.drop ((r.takeWhile aln).length + 2)
              infile := r.dropWhile aln } =
              s.scanned (c :: r.takeWhile aln) (r.dropWhile aln) := by
            simp [State.scanned]
          rw [hsc]
          cases hf : es.find (c :: r.takeWhile aln) es.length with
          | zero =>
            have hnew := (Table.find_zero_iff es _).1 hf
            rw [htab.internWord_new _ hnul hf]
            by_cases c1 : 100 ≤ es.length + 1
            · rw [if_pos c1]
              exact .symfull c r hi ha hl hnew c1
            · by_cases c2 : 999 ≤ (arena es).length + (c :: r.takeWhile aln).length
              · rw [if_neg c1, if_pos c2]
                exact .strfull c r hi ha hl hnew (by omega) c2
              · rw [if_neg c1, if_neg c2]
                exact .new c r hi ha hl hnew (by omega) (by omega)
          | succ p =>
            have h1 := Table.find_pos es _ _ p hf
            cases he : es[p]? with
            | none => rw [he] at h1; cases h1
            | some e =>
              rw [he] at h1
              simp only [Option.map_some', Option.some.injEq] at h1
              rw [htab.internWord_old _ p e hf he]
              exact .old c r p e hi ha hl he h1
        · obtain ⟨lb, inf, e⟩ := ho hl
          rw [e]
          exact .overflow c r lb inf hi ha hl
      · have ha' : isalpha c.val = false := by simpa using ha
        rw [if_neg ha]
        by_cases h37 : (c.val : Int) = 37
        · have hc : c = 37 := by apply Fin.ext; show c.val = 37; omega
          rw [if_pos h37]; exact .pct r (by rw [hi, hc])
        · rw [if_neg h37]
          by_cases h92 : (c.val : Int) = 92
          · have hc : c = 92 := by apply Fin.ext; show c.val = 92; omega
            rw [if_pos h92]; exact .bslash r (by rw [hi, hc])
          · rw [if_neg h92]
            exact .chr c r hi hs hd' ha' h37 h92

theorem WF.skipped {s : State} {es : Table} (h : WF s es) : WF s.skipped es :=
  h.reframe rfl rfl rfl rfl h.buf

theorem stops_skipped (s : State) : ∀ c rest, s.skipped.infile = c :: rest → Stops c :=
  fun c rest h => skipRest_head false s.infile c rest h

/-- Every call of `lexan` in a well-formed state skips white space and
comments and then has one of the outcomes of `TokOut`. -/
theorem lexan_out {s : State} {es : Table} (h : WF s es) : TokOut s.skipped es (lexan s) := by
  rw [lexan_skip]
  exact lexanLoop_one h.skipped (stops_skipped s)

/-- The bytes `skipRest` drops, followed by what it keeps, are the input, and
`skipLines` counts the newlines among the dropped bytes. -/
theorem skipRest_split (m : Bool) (l : List Byte) :
    ∃ sk, l = sk ++ skipRest m l ∧ skipLines m l = (sk.count 10 : Nat) := by
  induction l generalizing m with
  | nil => exact ⟨[], by cases m <;> simp [skipRest, skipLines]⟩
  | cons c cs ih =>
    have h10 : ∀ x : Byte, (x.val : Int) = 10 ↔ x = 10 := by
      intro x; constructor
      · intro h; apply Fin.ext; show x.val = 10; omega
      · intro h; subst h; rfl
    have h10' : ∀ x : Byte, x.val = 10 ↔ x = 10 := by
      intro x; constructor
      · intro h; apply Fin.ext; exact h
      · intro h; subst h; rfl
    cases m
    · by_cases h1 : (c.val : Int) = 32 ∨ (c.val : Int) = 9
      · obtain ⟨sk, e1, e2⟩ := ih false
        refine ⟨c :: sk, ?_, ?_⟩
        · simp only [skipRest, if_pos h1, List.cons_append]; rw [← e1]
        · have hc : c ≠ 10 := by
            intro e; subst e; revert h1; decide
          simp only [skipLines, if_pos h1, e2, List.count_cons, beq_iff_eq, hc, if_false,
            Nat.add_zero]
      · by_cases h2 : (c.val : Int) = 10
        · obtain ⟨sk, e1, e2⟩ := ih false
          refine ⟨c :: sk, ?_, ?_⟩
          · simp only [skipRest, if_neg h1, if_pos h2, List.cons_append]; rw [← e1]
          · have hc : c = 10 := (h10 c).1 h2
            simp only [skipLines, if_neg h1, if_pos h2, e2]
            rw [hc]; simp
        · by_cases h3 : (c.val : Int) = 35
          · obtain ⟨sk, e1, e2⟩ := ih true
            refine ⟨c :: sk, ?_, ?_⟩
            · simp only [skipRest, if_neg h1, if_neg h2, if_pos h3, List.cons_append]; rw [← e1]
            · have hc : c ≠ 10 := fun e => h2 ((h10 c).2 e)
              simp only [skipLines, if_neg h1, if_neg h2, if_pos h3, e2, List.count_cons,
                beq_iff_eq, hc, if_false, Nat.add_zero]
          · refine ⟨[], ?_, ?_⟩
            · simp only [skipRest, if_neg h1, if_neg h2, if_neg h3, List.nil_append]
            · simp only [skipLines, if_neg h1, if_neg h2, if_neg h3, List.count_nil,
                Nat.cast_zero]
    · by_cases h2 : c.val = 10
      · obtain ⟨sk, e1, e2⟩ := ih false
        refine ⟨c :: sk, ?_, ?_⟩
        · simp only [skipRest, if_pos h2, List.cons_append]; rw [← e1]
        · have hc : c = 10 := (h10' c).1 h2
          simp only [skipLines, if_pos h2, e2]
          rw [hc]; simp
      · obtain ⟨sk, e1, e2⟩ := ih true
        refine ⟨c :: sk, ?_, ?_⟩
        · simp only [skipRest, if_neg h2, List.cons_append]; rw [← e1]
        · have hc : c ≠ 10 := fun e => h2 ((h10' c).2 e)
          simp only [skipLines, if_neg h2, e2, List.count_cons, beq_iff_eq, hc, if_false,
            Nat.add_zero]

/-- The digits `scanDigits` consumes, followed by what it leaves, are the input. -/
theorem scanDigits_split (l : List Byte) (acc : Int) :
    ∃ ds, l = ds ++ (scanDigits l acc).2 ∧ (∀ d ∈ ds, isdigit d.val = true) ∧
      (∀ c r, l = c :: r → isdigit c.val = true → ds ≠ []) := by
  induction l generalizing acc with
  | nil => exact ⟨[], by simp [scanDigits]⟩
  | cons c cs ih =>
    by_cases hd : isdigit c.val = true
    · obtain ⟨ds, e1, e2, -⟩ := ih (acc * 10 + (c.val - 48))
      refine ⟨c :: ds, ?_, ?_, ?_⟩
      · simp only [scanDigits, if_pos hd, List.cons_append]; rw [← e1]
      · intro d hd'
        simp only [List.mem_cons] at hd'
        rcases hd' with rfl | hd'
        · exact hd
        · exact e2 d hd'
      · intros; simp
    · refine ⟨[], ?_, ?_, ?_⟩
      · simp only [scanDigits, if_neg hd, List.nil_append]
      · simp
      · intro c' r e h
        simp only [List.cons.injEq] at e
        obtain ⟨rfl, -⟩ := e
        exact absurd h hd

theorem WF.token_mem {s : State} {es : Table} (h : WF s es) (e : List Byte × Int)
    (he : e ∈ es) : e.2 = DIV ∨ e.2 = MOD ∨ e.2 = ID := by
  obtain ⟨ids, rfl, hid⟩ := h.kw
  simp only [kwTable, List.cons_append, List.nil_append, List.mem_cons] at he
  rcases he with rfl | rfl | he
  · left; rfl
  · right; left; rfl
  · right; right; exact hid e he

theorem aln_ne_newline (c : Byte) (h : aln c = true) : c ≠ 10 := by
  intro e; subst e; revert h; decide

theorem isdigit_ne_newline (c : Byte) (h : isdigit c.val = true) : c ≠ 10 := by
  intro e; subst e; revert h; decide

theorem Stops.ne_newline {c : Byte} (h : Stops c) : c ≠ 10 := by
  intro e; subst e; exact h.2.1 rfl

theorem skipLines_nonneg (m : Bool) (l : List Byte) : 0 ≤ skipLines m l := by
  obtain ⟨sk, -, e⟩ := skipRest_split m l
  rw [e]; omega

theorem lexan_facts {s : State} {es : Table} (h : WF s es) :
    (∃ t s' es', lexan s = .ok t s' ∧ LexOk s s' es es' t) ∨
    (∃ m s', lexan s = .abort m s' ∧ LexAbort s s' m) := by
  have hout := lexan_out h
  have hstop := stops_skipped s
  obtain ⟨sk, hsk1, hsk2⟩ := skipRest_split false s.infile
  have hsi : s.skipped.infile = skipRest false s.infile := rfl
  have hsl : s.skipped.lineno = s.lineno + skipLines false s.infile := rfl
  have hwf := h.skipped
  generalize lexan s = r at hout
  cases hout with
  | eof hi =>
    left
    refine ⟨_, _, es, rfl, hwf, Or.inl rfl, rfl, rfl, ?_, fun _ => hi, ?_, Or.inl rfl⟩
    · intro e; exact absurd e (by decide)
    · refine ⟨sk, [], ?_, ?_, by simp, by simp, by simp, by simp⟩
      · rw [hi, List.append_nil, List.append_nil]
        rw [hsi] at hi; rw [hi, List.append_nil] at hsk1; exact hsk1
      · rw [hsl, hsk2]
  | num c r hi hd =>
    left
    obtain ⟨ds, e1, e2, e3⟩ := scanDigits_split (c :: r) 0
    refine ⟨_, _, es, rfl, hwf.reframe rfl rfl rfl rfl hwf.buf, Or.inl rfl, rfl, rfl, ?_, ?_, ?_,
      Or.inr (Or.inl rfl)⟩
    · intro e; exact absurd e (by decide)
    · intro e; exact absurd e (by decide)
    · refine ⟨sk, ds, ?_, ?_, ?_, fun _ => e3 c r rfl hd, fun e => absurd e (by decide), ?_⟩
      · show s.infile = sk ++ ds ++ (scanDigits (c :: r) 0).2
        rw [List.append_assoc, ← e1, ← hi, hsi]; exact hsk1
      · show s.skipped.lineno = _
        rw [hsl, hsk2]
      · intro hm; exact isdigit_ne_newline _ (e2 _ hm) rfl
      · intro c' r' e
        have hne := e3 c r rfl hd
        rw [e] at e1
        simp only [List.cons_append, List.cons.injEq] at e1
        rw [← e1.1]
        exact hstop c r hi
  | pct r hi =>
    left
    refine ⟨_, _, es, rfl, hwf.reframe rfl rfl rfl rfl hwf.buf, Or.inl rfl, rfl, rfl, ?_, ?_, ?_,
      Or.inr (Or.inr (Or.inr (Or.inr (Or.inl rfl))))⟩
    · intro e; exact absurd e (by decide)
    · intro e; exact absurd e (by decide)
    · refine ⟨sk, [37], ?_, ?_, by decide, by simp, fun e => absurd e (by decide), ?_⟩
      · show s.infile = sk ++ [37] ++ r
        rw [List.append_assoc, List.singleton_append, ← hi, hsi]; exact hsk1
      · show s.skipped.lineno = _
        rw [hsl, hsk2]
      · intro c' r' e
        simp only [List.cons.injEq] at e
        rw [← e.1]; exact hstop _ _ hi
  | bslash r hi =>
    left
    refine ⟨_, _, es, rfl, hwf.reframe rfl rfl rfl rfl hwf.buf, Or.inl rfl, rfl, rfl, ?_, ?_, ?_,
      Or.inr (Or.inr (Or.inr (Or.inr (Or.inr (by decide)))))⟩
    · intro e; exact absurd e (by decide)
    · intro e; exact absurd e (by decide)
    · refine ⟨sk, [92], ?_, ?_, by decide, by simp, fun e => absurd e (by decide), ?_⟩
      · show s.infile = sk ++ [92] ++ r
        rw [List.append_assoc, List.singleton_append, ← hi, hsi]; exact hsk1
      · show s.skipped.lineno = _
        rw [hsl, hsk2]
      · intro c' r' e
        simp only [List.cons.injEq] at e
        rw [← e.1]; exact hstop _ _ hi
  | chr c r hi hs hd ha h37 h92 =>
    left
    have hc := c.isLt
    have hne : (c.val : Int) ≠ DONE := by simp only [DONE]; omega
    have hne' : (c.val : Int) ≠ ID := by simp only [ID]; omega
    refine ⟨_, _, es, rfl, hwf.reframe rfl rfl rfl rfl hwf.buf, Or.inl rfl, rfl, rfl, ?_, ?_, ?_,
      Or.inr (Or.inr (Or.inr (Or.inr (Or.inr ⟨by omega, by omega⟩))))⟩
    · intro e; exact absurd e hne'
    · intro e; exact absurd e hne
    · refine ⟨sk, [c], ?_, ?_, ?_, by simp, fun e => absurd e hne, ?_⟩
      · show s.infile = sk ++ [c] ++ r
        rw [List.append_assoc, List.singleton_append, ← hi, hsi]; exact hsk1
      · show s.skipped.lineno = _
        rw [hsl, hsk2]
      · simp only [List.mem_singleton]; exact fun e => hs.ne_newline e.symm
      · intro c' r' e
        simp only [List.cons.injEq] at e
        rw [← e.1]; exact hs
  | overflow c r lb inf hi ha hl =>
    right
    refine ⟨_, _, rfl, Or.inl rfl, rfl, rfl, ?_⟩
    show s.lineno ≤ s.skipped.lineno
    rw [hsl]; have := skipLines_nonneg false s.infile; omega
  | symfull c r hi ha hl hnew hfull =>
    right
    refine ⟨_, _, rfl, Or.inr (Or.inl rfl), rfl, rfl, ?_⟩
    show s.lineno ≤ s.skipped.lineno
    rw [hsl]; have := skipLines_nonneg false s.infile; omega
  | strfull c r hi ha hl hnew h1 hfull =>
    right
    refine ⟨_, _, rfl, Or.inr (Or.inr rfl), rfl, rfl, ?_⟩
    show s.lineno ≤ s.skipped.lineno
    rw [hsl]; have := skipLines_nonneg false s.infile; omega
  | old c r p e hi ha hl he hw =>
    left
    have hsplit : s.infile = sk ++ (c :: r.takeWhile aln) ++ r.dropWhile aln := by
      rw [List.append_assoc, List.cons_append, List.takeWhile_append_dropWhile, ← hi, hsi]
      exact hsk1
    have hwf' : WF ({ s.skipped.scanned (c :: r.takeWhile aln) (r.dropWhile aln) with
        tokenval := (p : Int) + 1 }) es := by
      refine hwf.reframe rfl rfl rfl rfl ?_
      simp only [State.scanned, List.length_append, List.length_cons, List.length_drop, hwf.buf]
      simp only [List.length_cons] at hl
      omega
    have hmem : e ∈ es := List.getElem?_mem he
    refine ⟨_, _, es, rfl, hwf', Or.inl rfl, rfl, rfl, ?_, ?_, ?_, ?_⟩
    · intro _
      exact ⟨e.1, (hwf'.tab.getAt_of_getElem? p e he).2, h.word e hmem⟩
    · intro e'
      rcases h.token_mem e hmem with h' | h' | h' <;> rw [h'] at e' <;> exact absurd e' (by decide)
    · refine ⟨sk, c :: r.takeWhile aln, hsplit, ?_, ?_, by simp, ?_, ?_⟩
      · show s.skipped.lineno = _
        rw [hsl, hsk2]
      · intro hm; exact aln_ne_newline _ (word_aln c r ha _ hm) rfl
      · intro e'
        rcases h.token_mem e hmem with h' | h' | h' <;> rw [h'] at e' <;>
          exact absurd e' (by decide)
      · intro c' r' e'
        simp only [List.cons.injEq] at e'
        rw [← e'.1]; exact hstop _ _ hi
    · rcases h.token_mem e hmem with h' | h' | h' <;> simp [h']
  | new c r hi ha hl hnew h1 h2 =>
    left
    have hsplit : s.infile = sk ++ (c :: r.takeWhile aln) ++ r.dropWhile aln := by
      rw [List.append_assoc, List.cons_append, List.takeWhile_append_dropWhile, ← hi, hsi]
      exact hsk1
    have hnul := aln_no_nul _ (word_aln c r ha)
    have htab : Tab (s.skipped.scanned (c :: r.takeWhile aln) (r.dropWhile aln)) es :=
      hwf.tab.frame rfl rfl rfl rfl
    have htab' := htab.inserted (c :: r.takeWhile aln) ID hnul h1 h2
    have hwf' : WF ({ (s.skipped.scanned (c :: r.takeWhile aln) (r.dropWhile aln)).inserted
        (c :: r.takeWhile aln) ID with tokenval := (es.length : Int) + 1 })
        (es ++ [(c :: r.takeWhile aln, ID)]) := by
      refine ⟨htab'.frame rfl rfl rfl rfl, ?_, ?_, ?_, ?_⟩
      · simp only [State.inserted, State.scanned, List.length_append, List.length_cons,
          List.length_drop, hwf.buf]
        simp only [List.length_cons] at hl
        omega
      · obtain ⟨ids, e1, e2⟩ := h.kw
        refine ⟨ids ++ [(c :: r.takeWhile aln, ID)], by rw [e1, List.append_assoc], ?_⟩
        intro e he
        simp only [List.mem_append, List.mem_singleton] at he
        rcases he with he | rfl
        · exact e2 e he
        · rfl
      · intro e he
        simp only [List.mem_append, List.mem_singleton] at he
        rcases he with he | rfl
        · exact h.word e he
        · exact word_aln c r ha
      · rw [List.map_append, List.nodup_append]
        refine ⟨h.nodup, by simp, ?_⟩
        intro x hx hx'
        simp only [List.map_cons, List.map_nil, List.mem_singleton] at hx'
        subst hx'
        exact hnew hx
    refine ⟨_, _, _, rfl, hwf', Or.inr ⟨_, rfl⟩, rfl, rfl, ?_, ?_, ?_, Or.inr (Or.inr (Or.inl rfl))⟩
    · intro _
      exact ⟨c :: r.takeWhile aln,
        (hwf'.tab.getAt_of_getElem? es.length (c :: r.takeWhile aln, ID) (by simp)).2,
        word_aln c r ha⟩
    · intro e; exact absurd e (by decide)
    · refine ⟨sk, c :: r.takeWhile aln, hsplit, ?_, ?_, by simp, ?_, ?_⟩
      · show s.skipped.lineno = _
        rw [hsl, hsk2]
      · intro hm; exact aln_ne_newline _ (word_aln c r ha _ hm) rfl
      · intro e; exact absurd e (by decide)
      · intro c' r' e'
        simp only [List.cons.injEq] at e'
        rw [← e'.1]; exact hstop _ _ hi

/-! ## The parser's view of the lexer -/

theorem matchTok_eq (t : Int) (s : State) :
    matchTok t s =
      if s.lookahead = t then advance s else .abort "Syntax error: expected different token" s :=
  rfl

theorem entryText_congr (s s' : State) (p : Int) (h1 : s'.symtable = s.symtable)
    (h2 : s'.lexemes = s.lexemes) : entryText s' p = entryText s p := by
  simp only [entryText, h1, h2]

theorem advance_facts {s : State} {es : Table} (h : WF s es) :
    (∃ s' es', advance s = .ok () s' ∧ AdvOk s s' es es') ∨
    (∃ m s', advance s = .abort m s' ∧ LexAbort s s' m) := by
  rcases lexan_facts h with ⟨t, s', es', e, hk⟩ | ⟨m, s', e, hk⟩
  · left
    refine ⟨{ s' with lookahead := t }, es', by simp only [advance, e, Res.bind_ok], ?_⟩
    refine ⟨⟨hk.wf.reframe rfl rfl rfl rfl hk.wf.buf, ?_⟩, hk.ext, hk.outfile, hk.eof, hk.split,
      hk.tok⟩
    intro hid
    exact hk.idtext hid
  · right
    exact ⟨m, s', by simp only [advance, e, Res.bind_abort], hk⟩

theorem AdvOk.length_le {s s' : State} {es es' : Table} (h : AdvOk s s' es es') :
    s'.infile.length ≤ s.infile.length := by
  obtain ⟨sk, tk, e, -⟩ := h.split
  rw [e]; simp only [List.length_append]; omega

theorem AdvOk.length_lt {s s' : State} {es es' : Table} (h : AdvOk s s' es es')
    (hne : s'.lookahead ≠ DONE) : s'.infile.length < s.infile.length := by
  obtain ⟨sk, tk, e, -, -, h1, -⟩ := h.split
  have := List.length_pos.2 (h1 hne)
  rw [e]; simp only [List.length_append]; omega

theorem PWF.fprintf {s : State} {es : Table} (h : PWF s es) (text : List Byte) :
    PWF (fprintf text s) es :=
  ⟨h.wf.reframe rfl rfl rfl rfl h.wf.buf, h.idtext⟩

theorem emit_op (t tval : Int) (s : State)
    (h : t = 43 ∨ t = 45 ∨ t = 42 ∨ t = 47 ∨ t = DIV ∨ t = MOD) :
    emit t tval s = .ok () (fprintf (opText t) s) := by
  rcases h with rfl | rfl | rfl | rfl | rfl | rfl <;> rfl

theorem emit_num (tval : Int) (s : State) :
    emit NUM tval s = .ok () (fprintf (fmtInt tval ++ [32]) s) := rfl

theorem emit_id (s : State) (tval : Int) (w : List Byte) (h : entryText s tval = some w) :
    emit ID tval s = .ok () (fprintf (w ++ [32]) s) := by
  have e : emit ID tval s = match entryText s tval with
      | none => .fault
      | some w => .ok () (fprintf (w ++ [32]) s) := rfl
  rw [e, h]

/-! ## A general invariant rule for the parser -/

theorem Holds.andThen {J : State → Prop} {Q : String → State → Prop} {r : Res Unit}
    {k : Unit → State → Res Unit} (h : Holds J Q r)
    (hk : ∀ s, (∃ es, PWF s es) → J s → Holds J Q (k () s)) : Holds J Q (r.bind k) := by
  cases h with
  | ok a s hs hj => exact hk s hs hj
  | abort m s hq => exact .abort m s hq
  | timeout => exact .timeout

section

variable {J : State → Prop} {Q : String → State → Prop} (hI : Inv J Q)

include hI

theorem advance_inv {s : State} (hs : ∃ es, PWF s es) (hj : J s) : Holds J Q (advance s) := by
  obtain ⟨es, hp⟩ := hs
  rcases advance_facts hp.wf with ⟨s', es', e, hk⟩ | ⟨m, s', e, hk⟩
  · rw [e]; exact .ok _ _ ⟨es', hk.pwf⟩ (hI.adv s s' es es' hp hj e hk)
  · rw [e]; exact .abort _ _ (hI.abort s s' es m hp hj e hk)

theorem matchTok_inv (t : Int) {s : State} (hs : ∃ es, PWF s es) (hj : J s) :
    Holds J Q (matchTok t s) := by
  rw [matchTok_eq]
  split
  · exact advance_inv hI hs hj
  · obtain ⟨es, hp⟩ := hs
    exact .abort _ _ (hI.syn s es _ hp hj (Or.inr rfl))

theorem fprintf_inv {s : State} (hs : ∃ es, PWF s es) (hj : J s) (text : List Byte)
    (he : Emitted s text) : Holds J Q (.ok () (fprintf text s)) := by
  obtain ⟨es, hp⟩ := hs
  exact .ok _ _ ⟨es, hp.fprintf text⟩ (hI.out s es text hp hj he)

theorem factor_inv (rec : State → Res Unit)
    (hrec : ∀ s, (∃ es, PWF s es) → J s → Holds J Q (rec s))
    {s : State} (hs : ∃ es, PWF s es) (hj : J s) : Holds J Q (factor rec s) := by
  unfold factor
  split
  · refine (matchTok_inv hI 40 hs hj).andThen fun s1 h1 j1 => ?_
    refine (hrec s1 h1 j1).andThen fun s2 h2 j2 => ?_
    exact matchTok_inv hI 41 h2 j2
  · split
    · rename_i hnum
      rw [emit_num]
      refine (fprintf_inv hI hs hj _ (.num hnum)).andThen fun s1 h1 j1 => ?_
      exact matchTok_inv hI NUM h1 j1
    · split
      · rename_i hid
        obtain ⟨es, hp⟩ := hs
        obtain ⟨w, hw, ha⟩ := hp.idtext hid
        rw [emit_id s _ w hw]
        refine (fprintf_inv hI ⟨es, hp⟩ hj _ (.id w hid hw ha)).andThen fun s1 h1 j1 => ?_
        exact matchTok_inv hI ID h1 j1
      · obtain ⟨es, hp⟩ := hs
        exact .abort _ _ (hI.syn s es _ hp hj (Or.inl rfl))

theorem termLoop_inv (rec : State → Res Unit)
    (hrec : ∀ s, (∃ es, PWF s es) → J s → Holds J Q (rec s)) (n : Nat)
    {s : State} (hs : ∃ es, PWF s es) (hj : J s) : Holds J Q (termLoop rec n s) := by
  induction n generalizing s with
  | zero => exact .timeout
  | succ n ih =>
    unfold termLoop
    split
    · rename_i hop
      refine (matchTok_inv hI _ hs hj).andThen fun s1 h1 j1 => ?_
      refine (factor_inv hI rec hrec h1 j1).andThen fun s2 h2 j2 => ?_
      rw [emit_op _ _ _ (by rcases hop with h | h | h | h <;> simp [h])]
      refine (fprintf_inv hI h2 j2 _ (.op _ (by rcases hop with h | h | h | h <;> simp [h]))).andThen
        fun s3 h3 j3 => ?_
      exact ih h3 j3
    · exact .ok _ _ hs hj

theorem term_inv (rec : State → Res Unit)
    (hrec : ∀ s, (∃ es, PWF s es) → J s → Holds J Q (rec s)) (n : Nat)
    {s : State} (hs : ∃ es, PWF s es) (hj : J s) : Holds J Q (term rec n s) :=
  (factor_inv hI rec hrec hs hj).andThen fun _ h1 j1 => termLoop_inv hI rec hrec n h1 j1

theorem exprLoop_inv (rec : State → Res Unit)
    (hrec : ∀ s, (∃ es, PWF s es) → J s → Holds J Q (rec s)) (n : Nat)
    {s : State} (hs : ∃ es, PWF s es) (hj : J s) : Holds J Q (exprLoop rec n s) := by
  induction n generalizing s with
  | zero => exact .timeout
  | succ n ih =>
    unfold exprLoop
    split
    · rename_i hop
      refine (matchTok_inv hI _ hs hj).andThen fun s1 h1 j1 => ?_
      refine (term_inv hI rec hrec n h1 j1).andThen fun s2 h2 j2 => ?_
      rw [emit_op _ _ _ (by rcases hop with h | h <;> simp [h])]
      refine (fprintf_inv hI h2 j2 _ (.op _ (by rcases hop with h | h <;> simp [h]))).andThen
        fun s3 h3 j3 => ?_
      exact ih h3 j3
    · exact .ok _ _ hs hj

theorem expr_inv (n : Nat) {s : State} (hs : ∃ es, PWF s es) (hj : J s) :
    Holds J Q (expr n s) := by
  induction n generalizing s with
  | zero => exact .timeout
  | succ n ih =>
    unfold expr
    refine (term_inv hI (expr n) (fun s h j => ih h j) n hs hj).andThen fun s1 h1 j1 => ?_
    exact exprLoop_inv hI (expr n) (fun s h j => ih h j) n h1 j1

theorem parseLoop_inv (n : Nat) {s : State} (hs : ∃ es, PWF s es) (hj : J s) :
    Holds J Q (parseLoop n s) := by
  induction n generalizing s with
  | zero => exact .timeout
  | succ n ih =>
    unfold parseLoop
    split
    · refine (expr_inv hI n hs hj).andThen fun s1 h1 j1 => ?_
      refine (matchTok_inv hI 59 h1 j1).andThen fun s2 h2 j2 => ?_
      obtain ⟨es2, hp2⟩ := h2
      exact ih ⟨es2, hp2.fprintf _⟩ (hI.out s2 es2 _ hp2 j2 .semi)
    · exact .ok _ _ hs hj

end

/-! ## Fuel: the parser never runs out -/

theorem Term.step {m m' : Nat} {b b' : Bool} {r : Res Unit} {k : Unit → State → Res Unit}
    (h : Term m b r)
    (hk : ∀ s, (∃ es, PWF s es) → mu s ≤ m → (b = true → mu s < m) → Term m' b' (k () s)) :
    Term m' b' (r.bind k) := by
  cases h with
  | ok a s hs hle hlt => exact hk s hs hle hlt
  | abort e s => exact .abort e s
  | fault => exact .fault

theorem Term.weaken {m m' : Nat} {b : Bool} {r : Res Unit} (h : Term m b r) (hm : m ≤ m') :
    Term m' b r := by
  cases h with
  | ok a s hs hle hlt => exact .ok a s hs (by omega) (fun hb => by have := hlt hb; omega)
  | abort e s => exact .abort e s
  | fault => exact .fault

theorem Term.strictly {m m' : Nat} {b : Bool} {r : Res Unit} (h : Term m b r) (hm : m < m') :
    Term m' true r := by
  cases h with
  | ok a s hs hle hlt => exact .ok a s hs (by omega) (fun _ => by omega)
  | abort e s => exact .abort e s
  | fault => exact .fault

theorem Term.ne_timeout {m : Nat} {b : Bool} {r : Res Unit} (h : Term m b r) :
    r ≠ .timeout := by
  intro e
  rw [e] at h
  cases h

theorem mu_fprintf (text : List Byte) (s : State) : mu (fprintf text s) = mu s := rfl

theorem advance_term {s : State} (hs : ∃ es, PWF s es) :
    Term s.infile.length false (advance s) := by
  obtain ⟨es, hp⟩ := hs
  rcases advance_facts hp.wf with ⟨s', es', e, hk⟩ | ⟨m, s', e, hk⟩
  · rw [e]
    refine .ok _ _ ⟨es', hk.pwf⟩ ?_ (fun hb => by cases hb)
    unfold mu
    split
    · have := hk.length_le; omega
    · rename_i hne
      have := hk.length_lt hne; omega
  · rw [e]; exact .abort _ _

theorem matchTok_term (t : Int) (ht : t ≠ DONE) {s : State} (hs : ∃ es, PWF s es) :
    Term (mu s) true (matchTok t s) := by
  rw [matchTok_eq]
  split
  · rename_i h
    have hne : s.lookahead ≠ DONE := by rw [h]; exact ht
    have hm : mu s = s.infile.length + 1 := by simp [mu, hne]
    exact (advance_term hs).strictly (by omega)
  · exact .abort _ _

theorem factor_term (rec : State → Res Unit) (B : Nat)
    (hrec : ∀ s, (∃ es, PWF s es) → mu s + 1 ≤ B → Term (mu s) true (rec s))
    {s : State} (hs : ∃ es, PWF s es) (hB : mu s ≤ B) : Term (mu s) true (factor rec s) := by
  unfold factor
  split
  · refine (matchTok_term 40 (by decide) hs).step fun s1 h1 l1 l1' => ?_
    have l1'' := l1' rfl
    refine (hrec s1 h1 (by omega)).step fun s2 h2 l2 _ => ?_
    exact (matchTok_term 41 (by decide) h2).weaken (by omega)
  · split
    · rw [emit_num]
      obtain ⟨es, hp⟩ := hs
      exact matchTok_term NUM (by decide) ⟨es, hp.fprintf _⟩
    · split
      · rename_i hid
        obtain ⟨es, hp⟩ := hs
        obtain ⟨w, hw, ha⟩ := hp.idtext hid
        rw [emit_id s _ w hw]
        exact matchTok_term ID (by decide) ⟨es, hp.fprintf _⟩
      · exact .abort _ _

theorem termLoop_term (rec : State → Res Unit) (B : Nat)
    (hrec : ∀ s, (∃ es, PWF s es) → mu s + 1 ≤ B → Term (mu s) true (rec s)) (n : Nat)
    {s : State} (hs : ∃ es, PWF s es) (hB : mu s ≤ B + 1) (hn : mu s < n) :
    Term (mu s) false (termLoop rec n s) := by
  induction n generalizing s with
  | zero => omega
  | succ n ih =>
    unfold termLoop
    split
    · rename_i hop
      have hne : s.lookahead ≠ DONE := by
        rcases hop with h | h | h | h <;> rw [h] <;> decide
      refine (matchTok_term _ hne hs).step fun s1 h1 l1 l1' => ?_
      have l1'' := l1' rfl
      refine (factor_term rec B hrec h1 (by omega)).step fun s2 h2 l2 _ => ?_
      rw [emit_op _ _ _ (by rcases hop with h | h | h | h <;> simp [h])]
      obtain ⟨es2, hp2⟩ := h2
      exact (ih ⟨es2, hp2.fprintf _⟩ (by rw [mu_fprintf]; omega)
        (by rw [mu_fprintf]; omega)).weaken (by rw [mu_fprintf]; omega)
    · exact .ok _ _ hs (le_refl _) (fun hb => by cases hb)

theorem term_term (rec : State → Res Unit) (B : Nat)
    (hrec : ∀ s, (∃ es, PWF s es) → mu s + 1 ≤ B → Term (mu s) true (rec s)) (n : Nat)
    {s : State} (hs : ∃ es, PWF s es) (hB : mu s ≤ B) (hn : mu s ≤ n) :
    Term (mu s) true (term rec n s) := by
  unfold term
  refine (factor_term rec B hrec hs hB).step fun s1 h1 l1 l1' => ?_
  have l1'' := l1' rfl
  exact (termLoop_term rec B hrec n h1 (by omega) (by omega)).strictly l1''

theorem exprLoop_term (rec : State → Res Unit) (B : Nat)
    (hrec : ∀ s, (∃ es, PWF s es) → mu s + 1 ≤ B → Term (mu s) true (rec s)) (n : Nat)
    {s : State} (hs : ∃ es, PWF s es) (hB : mu s ≤ B + 1) (hn : mu s < n) :
    Term (mu s) false (exprLoop rec n s) := by
  induction n generalizing s with
  | zero => omega
  | succ n ih =>
    unfold exprLoop
    split
    · rename_i hop
      have hne : s.lookahead ≠ DONE := by
        rcases hop with h | h <;> rw [h] <;> decide
      refine (matchTok_term _ hne hs).step fun s1 h1 l1 l1' => ?_
      have l1'' := l1' rfl
      refine (term_term rec B hrec n h1 (by omega) (by omega)).step fun s2 h2 l2 l2' => ?_
      have l2'' := l2' rfl
      rw [emit_op _ _ _ (by rcases hop with h | h <;> simp [h])]
      obtain ⟨es2, hp2⟩ := h2
      exact (ih ⟨es2, hp2.fprintf _⟩ (by rw [mu_fprintf]; omega)
        (by rw [mu_fprintf]; omega)).weaken (by rw [mu_fprintf]; omega)
    · exact .ok _ _ hs (le_refl _) (fun hb => by cases hb)

/-- With fuel above the measure, `expr` returns or exits, and on return it has
consumed at least one token. -/
theorem expr_term (n : Nat) {s : State} (hs : ∃ es, PWF s es) (hn : mu s + 1 ≤ n) :
    Term (mu s) true (expr n s) := by
  induction n generalizing s with
  | zero => omega
  | succ n ih =>
    unfold expr
    refine (term_term (expr n) n (fun s h l => ih h l) n hs (by omega) (by omega)).step
      fun s1 h1 l1 l1' => ?_
    have l1'' := l1' rfl
    exact (exprLoop_term (expr n) n (fun s h l => ih h l) n h1 (by omega)
      (by omega)).strictly l1''

theorem parseLoop_term (n : Nat) {s : State} (hs : ∃ es, PWF s es) (hn : mu s + 2 ≤ n) :
    Term (mu s) false (parseLoop n s) := by
  induction n generalizing s with
  | zero => omega
  | succ n ih =>
    unfold parseLoop
    split
    · refine (expr_term n hs (by omega)).step fun s1 h1 l1 l1' => ?_
      have l1'' := l1' rfl
      refine (matchTok_term 59 (by decide) h1).step fun s2 h2 l2 l2' => ?_
      have l2'' := l2' rfl
      obtain ⟨es2, hp2⟩ := h2
      exact (ih ⟨es2, hp2.fprintf _⟩ (by rw [mu_fprintf]; omega)).weaken
        (by rw [mu_fprintf]; omega)
    · exact .ok _ _ hs (le_refl _) (fun hb => by cases hb)

/-! ## Fuel: more fuel does not change a result -/

theorem Res.le_refl {α : Type} (r : Res α) : r.le r := Or.inr rfl

theorem Res.le_bind {α β : Type} {r r' : Res α} {k k' : α → State → Res β} (h : r.le r')
    (hk : ∀ a s, (k a s).le (k' a s)) : (r.bind k).le (r'.bind k') := by
  rcases h with h | h
  · left; rw [h]; rfl
  · subst h
    cases r with
    | ok a s => exact hk a s
    | abort m s => exact Or.inr rfl
    | fault => exact Or.inr rfl
    | timeout => exact Or.inr rfl

theorem Res.le_eq {α : Type} {r r' : Res α} (h : r.le r') (hne : r ≠ .timeout) : r = r' := by
  rcases h with h | h
  · exact absurd h hne
  · exact h

theorem factor_mono {rec rec' : State → Res Unit} (h : ∀ s, (rec s).le (rec' s)) (s : State) :
    (factor rec s).le (factor rec' s) := by
  unfold factor
  split
  · exact Res.le_bind (Res.le_refl _) fun _ s1 => Res.le_bind (h s1) fun _ _ => Res.le_refl _
  · exact Res.le_refl _

theorem termLoop_mono {rec rec' : State → Res Unit} (h : ∀ s, (rec s).le (rec' s))
    (n n' : Nat) (hn : n ≤ n') (s : State) : (termLoop rec n s).le (termLoop rec' n' s) := by
  induction n generalizing n' s with
  | zero => left; rfl
  | succ n ih =>
    obtain ⟨k, rfl⟩ : ∃ k, n' = k + 1 := ⟨n' - 1, by omega⟩
    unfold termLoop
    split
    · exact Res.le_bind (Res.le_refl _) fun _ s1 =>
        Res.le_bind (factor_mono h s1) fun _ s2 =>
          Res.le_bind (Res.le_refl _) fun _ s3 => ih k (by omega) s3
    · exact Res.le_refl _

theorem term_mono {rec rec' : State → Res Unit} (h : ∀ s, (rec s).le (rec' s))
    (n n' : Nat) (hn : n ≤ n') (s : State) : (term rec n s).le (term rec' n' s) :=
  Res.le_bind (factor_mono h s) fun _ s1 => termLoop_mono h n n' hn s1

theorem exprLoop_mono {rec rec' : State → Res Unit} (h : ∀ s, (rec s).le (rec' s))
    (n n' : Nat) (hn : n ≤ n') (s : State) : (exprLoop rec n s).le (exprLoop rec' n' s) := by
  induction n generalizing n' s with
  | zero => left; rfl
  | succ n ih =>
    obtain ⟨k, rfl⟩ : ∃ k, n' = k + 1 := ⟨n' - 1, by omega⟩
    unfold exprLoop
    split
    · exact Res.le_bind (Res.le_refl _) fun _ s1 =>
        Res.le_bind (term_mono h n k (by omega) s1) fun _ s2 =>
          Res.le_bind (Res.le_refl _) fun _ s3 => ih k (by omega) s3
    · exact Res.le_refl _

theorem expr_mono (n n' : Nat) (hn : n ≤ n') (s : State) : (expr n s).le (expr n' s) := by
  induction n generalizing n' s with
  | zero => left; rfl
  | succ n ih =>
    obtain ⟨k, rfl⟩ : ∃ k, n' = k + 1 := ⟨n' - 1, by omega⟩
    unfold expr
    have h : ∀ s, (expr n s).le (expr k s) := fun s => ih k (by omega) s
    exact Res.le_bind (term_mono h n k (by omega) s) fun _ s1 =>
      exprLoop_mono h n k (by omega) s1

theorem parseLoop_mono (n n' : Nat) (hn : n ≤ n') (s : State) :
    (parseLoop n s).le (parseLoop n' s) := by
  induction n generalizing n' s with
  | zero => left; rfl
  | succ n ih =>
    obtain ⟨k, rfl⟩ : ∃ k, n' = k + 1 := ⟨n' - 1, by omega⟩
    unfold parseLoop
    split
    · exact Res.le_bind (expr_mono n k (by omega) s) fun _ s1 =>
        Res.le_bind (Res.le_refl _) fun _ s2 => ih k (by omega) _
    · exact Res.le_refl _

/-! ## The run as a whole -/

theorem parse_eq (s : State) :
    parse s = (advance s).bind fun _ s1 => parseLoop (s1.infile.length + 3) s1 := by
  unfold parse advance
  cases lexan s <;> rfl

theorem tab_initial (input : List Byte) : Tab (State.initial input) [] := by
  refine ⟨rfl, rfl, ⟨⟨none, 0⟩, List.replicate 99 ⟨none, 0⟩, ?_⟩, ?_,
    ⟨List.replicate 999 0, rfl⟩, ?_, by simp⟩
  · show List.replicate (99 + 1) _ = _
    rw [List.replicate_succ]; rfl
  · show (List.replicate 100 _).length = 100
    rw [List.length_replicate]
  · show (List.replicate 999 _).length = 999
    rw [List.length_replicate]

theorem init_eq (input : List Byte) : init (State.initial input) = .ok () (State.start input) := by
  have h0 := tab_initial input
  have h1 := h0.inserted [100, 105, 118] DIV (by decide) (by decide) (by decide)
  unfold init
  rw [h0.insert_eq]
  simp only [List.length_nil, Nat.zero_add, arena, List.length_cons]
  rw [if_neg (by decide), if_neg (by decide), Res.bind_ok, h1.insert_eq]
  rw [if_neg (by decide), if_neg (by decide)]
  rfl

theorem wf_start (input : List Byte) : WF (State.start input) kwTable := by
  have h0 := tab_initial input
  have h1 := h0.inserted [100, 105, 118] DIV (by decide) (by decide) (by decide)
  have h2 := h1.inserted [109, 111, 100] MOD (by decide) (by decide) (by decide)
  refine ⟨h2, ?_, ⟨[], rfl, by simp⟩, ?_, by decide⟩
  · show (List.replicate 128 _).length = 128
    rw [List.length_replicate]
  intro e he c hc
  simp only [kwTable, List.mem_cons, List.mem_singleton, List.not_mem_nil, or_false] at he
  rcases he with rfl | rfl
  · simp only [List.mem_cons, List.mem_singleton, List.not_mem_nil, or_false] at hc
    rcases hc with rfl | rfl | rfl <;> decide
  · simp only [List.mem_cons, List.mem_singleton, List.not_mem_nil, or_false] at hc
    rcases hc with rfl | rfl | rfl <;> decide

theorem pwf_start (input : List Byte) : PWF (State.start input) kwTable :=
  ⟨wf_start input, fun h => absurd (show (0 : Int) = ID from h) (by decide)⟩

theorem run_eq (input : List Byte) :
    run input = (advance (State.start input)).bind fun _ s1 =>
      parseLoop (s1.infile.length + 3) s1 := by
  unfold run
  rw [init_eq, Res.bind_ok, parse_eq]

/-- A run never exhausts the fuel `parse` and `lexan` are given. -/
theorem run_ne_timeout (input : List Byte) : run input ≠ .timeout := by
  rw [run_eq]
  have h := advance_term ⟨_, pwf_start input⟩
  have : Term ((State.start input).infile.length + 1) false
      ((advance (State.start input)).bind fun _ s1 => parseLoop (s1.infile.length + 3) s1) :=
    h.step fun s1 h1 l1 _ =>
      (parseLoop_term (s1.infile.length + 3) h1 (by unfold mu; split <;> omega)).weaken
        (by omega)
  exact this.ne_timeout

/-- The invariant rule for whole runs. -/
theorem run_inv {J : State → Prop} {Q : String → State → Prop} (hI : Inv J Q)
    (input : List Byte) (h0 : J (State.start input)) : Holds J Q (run input) := by
  rw [run_eq]
  exact (advance_inv hI ⟨_, pwf_start input⟩ h0).andThen fun s1 h1 j1 => parseLoop_inv hI _ h1 j1

@[simp] theorem start_outfile (input : List Byte) : (State.start input).outfile = [] := by
  simp only [State.start, State.inserted, State.initial]

@[simp] theorem start_infile (input : List Byte) : (State.start input).infile = input := by
  simp only [State.start, State.inserted, State.initial]

@[simp] theorem start_lineno (input : List Byte) : (State.start input).lineno = 1 := by
  simp only [State.start, State.inserted, State.initial]

@[simp] theorem start_lookahead (input : List Byte) : (State.start input).lookahead = 0 := by
  simp only [State.start, State.inserted, State.initial]

/-- The invariant rule for whole runs, started after the first token is read. -/
theorem run_inv_first {J : State → Prop} {Q : String → State → Prop} (hI : Inv J Q)
    (input : List Byte)
    (h1 : ∀ s1 es1, advance (State.start input) = .ok () s1 →
      AdvOk (State.start input) s1 kwTable es1 → J s1)
    (h2 : ∀ m s1, advance (State.start input) = .abort m s1 →
      LexAbort (State.start input) s1 m → Q m s1) : Holds J Q (run input) := by
  rw [run_eq]
  rcases advance_facts (wf_start input) with ⟨s', es', e, hk⟩ | ⟨m, s', e, hk⟩
  · rw [e]
    exact parseLoop_inv hI _ ⟨es', hk.pwf⟩ (h1 s' es' e hk)
  · rw [e]
    exact .abort _ _ (h2 m s' e hk)

/-! ## The output alphabet -/

theorem decDigits_digit (f n : Nat) : ∀ c ∈ decDigits f n, isdigit c.val = true := by
  induction f generalizing n with
  | zero => simp [decDigits]
  | succ f ih =>
    have key : ∀ k, k < 10 → isdigit ((Fin.ofNat (48 + k) : Byte).val : Int) = true := by
      intro k hk
      have : ((Fin.ofNat (48 + k) : Byte).val) = 48 + k := by
        show (48 + k) % 256 = 48 + k
        omega
      simp only [this, isdigit, decide_eq_true_eq]
      omega
    intro c hc
    simp only [decDigits] at hc
    split at hc
    · rename_i h
      simp only [List.mem_singleton] at hc
      rw [hc]; exact key n h
    · simp only [List.mem_append, List.mem_singleton] at hc
      rcases hc with hc | hc
      · exact ih _ c hc
      · rw [hc]; exact key _ (Nat.mod_lt _ (by decide))

theorem fmtInt_chars (v : Int) : ∀ c ∈ fmtInt v, c = 45 ∨ isdigit c.val = true := by
  intro c hc
  unfold fmtInt at hc
  split at hc
  · simp only [List.mem_cons] at hc
    rcases hc with hc | hc
    · exact Or.inl hc
    · exact Or.inr (decDigits_digit _ _ c hc)
  · exact Or.inr (decDigits_digit _ _ c hc)

set_option maxRecDepth 8000 in
theorem opText_outByte (t : Int)
    (h : t = 43 ∨ t = 45 ∨ t = 42 ∨ t = 47 ∨ t = DIV ∨ t = MOD) : ∀ c ∈ opText t, OutByte c := by
  rcases h with rfl | rfl | rfl | rfl | rfl | rfl <;> decide

theorem isdigit_aln (c : Byte) (h : isdigit c.val = true) : aln c = true := by
  simp [aln, isalnum, h]

theorem emitted_outByte {s : State} {text : List Byte} (h : Emitted s text) :
    ∀ c ∈ text, OutByte c := by
  cases h with
  | op t ht => exact opText_outByte t ht
  | num hn =>
    intro c hc
    simp only [List.mem_append, List.mem_singleton] at hc
    rcases hc with hc | hc
    · rcases fmtInt_chars _ c hc with h | h
      · right; right; right; right; right; right; left; exact h
      · exact Or.inl (isdigit_aln c h)
    · right; left; exact hc
  | id w hl he ha =>
    intro c hc
    simp only [List.mem_append, List.mem_singleton] at hc
    rcases hc with hc | hc
    · exact Or.inl (ha c hc)
    · right; left; exact hc
  | semi =>
    intro c hc
    simp only [List.mem_cons, List.mem_singleton, List.not_mem_nil, or_false] at hc
    rcases hc with rfl | rfl
    · right; right; right; right; right; right; right; right; rfl
    · right; right; left; rfl

/-- Every byte in the output file, whether the run returns or exits, is a
letter, a digit, a space, a newline or one of `% * + - / ;`. -/
theorem output_alphabet (input : List Byte) :
    Holds (fun s => ∀ c ∈ s.outfile, OutByte c) (fun _ s => ∀ c ∈ s.outfile, OutByte c)
      (run input) := by
  have hI : Inv (fun s => ∀ c ∈ s.outfile, OutByte c)
      (fun _ s => ∀ c ∈ s.outfile, OutByte c) := by
    constructor
    · intro s s' es es' _ hj _ hk
      rw [hk.outfile]; exact hj
    · intro s s' es m _ hj _ hk
      rw [hk.outfile]; exact hj
    · intro s es text _ hj he c hc
      simp only [fprintf, List.mem_append] at hc
      rcases hc with hc | hc
      · exact hj c hc
      · exact emitted_outByte he c hc
    · intro s es m _ hj _
      exact hj
  have h0 : ∀ c ∈ (State.start input).outfile, OutByte c := by
    rw [start_outfile]
    intro c hc
    exact absurd hc (List.not_mem_nil c)
  exact run_inv hI input h0

/-! ## The lexer does not look at the output file or the line counter -/

theorem Res.mapS_bind {α β : Type} (f : State → State) (r : Res α) (k k' : α → State → Res β)
    (h : ∀ a s, k' a (f s) = (k a s).mapS f) : (r.mapS f).bind k' = (r.bind k).mapS f := by
  cases r with
  | ok a s => exact h a s
  | abort m s => rfl
  | fault => rfl
  | timeout => rfl

theorem lookupFrom_congr (s s' : State) (w : List Byte) (p : Nat)
    (h1 : s'.symtable = s.symtable) (h2 : s'.lexemes = s.lexemes) :
    lookupFrom s' w p = lookupFrom s w p := by
  induction p with
  | zero => rfl
  | succ p ih => simp only [lookupFrom, entryText_congr s s' _ h1 h2, ih]

theorem lookup_re (o : List Byte) (k : Int) (w : List Byte) (s : State) :
    lookup w (s.re o k) = lookup w s := by
  unfold lookup
  exact lookupFrom_congr s (s.re o k) w _ rfl rfl

theorem insert_re (o : List Byte) (k : Int) (w : List Byte) (tok : Int) (s : State) :
    insert w tok (s.re o k) = (insert w tok s).mapS (State.re o k) := by
  unfold insert error
  simp only [State.re]
  split
  · rfl
  · split
    · rfl
    · split
      · rfl
      · split
        · rfl
        · split <;> rfl

theorem scanLexeme_re (o : List Byte) (k : Int) (fuel : Nat) (t b : Int) (s : State) :
    scanLexeme fuel t b (s.re o k) = (scanLexeme fuel t b s).mapS (State.re o k) := by
  induction fuel generalizing t b s with
  | zero => rfl
  | succ fuel ih =>
    unfold scanLexeme
    split
    · show (match setAt s.lexbuf b (toByte t) with
        | none => Res.fault
        | some lexbuf =>
          if b + 1 ≥ BSIZE then
            error "Buffer overflow in lexeme" (fgetc { s.re o k with lexbuf := lexbuf }).2
          else scanLexeme fuel (fgetc { s.re o k with lexbuf := lexbuf }).1 (b + 1)
            (fgetc { s.re o k with lexbuf := lexbuf }).2) = _
      cases setAt s.lexbuf b (toByte t) with
      | none => rfl
      | some lexbuf =>
        have e : ∀ x : State, fgetc (x.re o k) = ((fgetc x).1, (fgetc x).2.re o k) := by
          intro x
          unfold fgetc
          show (match x.infile with
            | [] => (EOF, x.re o k)
            | c :: rest => ((c.val : Int), { x.re o k with infile := rest })) = _
          cases x.infile <;> rfl
        have e' : { s.re o k with lexbuf := lexbuf } = State.re o k { s with lexbuf := lexbuf } :=
          rfl
        simp only [e', e]
        split
        · rfl
        · exact ih _ _ _
    · rfl

theorem lexanWord_unfold (t : Int) (s : State) :
    lexanWord t s = (scanLexeme (s.infile.length + 2) t 0 s).bind wordTail := rfl

theorem wordTail_core (w : List Byte) (s : State) :
    (match lookup w s with
      | none => Res.fault
      | some p =>
        ((if p = 0 then insert w ID s else .ok p s)).bind fun p s =>
          match getAt s.symtable p with
          | none => .fault
          | some e => .ok e.token { s with tokenval := p }) = internWord w s := rfl

theorem internWord_re (o : List Byte) (k : Int) (w : List Byte) (s : State) :
    internWord w (s.re o k) = (internWord w s).mapS (State.re o k) := by
  unfold internWord
  rw [lookup_re]
  cases lookup w s with
  | none => rfl
  | some p =>
    simp only []
    have ei : (if p = 0 then insert w ID (s.re o k) else .ok p (s.re o k)) =
        (if p = 0 then insert w ID s else .ok p s).mapS (State.re o k) := by
      split
      · exact insert_re o k w ID _
      · rfl
    rw [ei]
    apply Res.mapS_bind
    intro p' s2
    show (match getAt s2.symtable p' with
      | none => Res.fault
      | some e => _) = _
    cases getAt s2.symtable p' <;> rfl

theorem wordTail_re (o : List Byte) (k : Int) (tb : Int × Int) (s : State) :
    wordTail tb (s.re o k) = (wordTail tb s).mapS (State.re o k) := by
  unfold wordTail
  show (match setAt s.lexbuf tb.2 EOS with
    | none => Res.fault
    | some lexbuf => _) = _
  cases setAt s.lexbuf tb.2 EOS with
  | none => rfl
  | some lexbuf =>
    simp only []
    by_cases hne : tb.1 ≠ EOF
    · rw [if_pos hne, if_pos hne]
      show (match readStr lexbuf 0 with
        | none => Res.fault
        | some w => _) =
        Res.mapS (State.re o k) (match readStr lexbuf 0 with
        | none => Res.fault
        | some w => _)
      cases readStr lexbuf 0 with
      | none => rfl
      | some w =>
        simp only [wordTail_core]
        exact internWord_re o k w (ungetc tb.1 { s with lexbuf := lexbuf })
    · rw [if_neg hne, if_neg hne]
      show (match readStr lexbuf 0 with
        | none => Res.fault
        | some w => _) =
        Res.mapS (State.re o k) (match readStr lexbuf 0 with
        | none => Res.fault
        | some w => _)
      cases readStr lexbuf 0 with
      | none => rfl
      | some w =>
        simp only [wordTail_core]
        exact internWord_re o k w { s with lexbuf := lexbuf }

theorem lexanWord_re (o : List Byte) (k : Int) (t : Int) (s : State) :
    lexanWord t (s.re o k) = (lexanWord t s).mapS (State.re o k) := by
  rw [lexanWord_unfold, lexanWord_unfold]
  show (scanLexeme (s.infile.length + 2) t 0 (s.re o k)).bind _ = _
  rw [scanLexeme_re]
  exact Res.mapS_bind _ _ _ _ fun tb s1 => wordTail_re o k tb s1

theorem lexanLoop_re (o : List Byte) (k : Int) (n : Nat) (s : State) :
    lexanLoop n (s.re o k) = (lexanLoop n s).mapS (State.re o k) := by
  induction n generalizing s with
  | zero => rfl
  | succ n ih =>
    cases hi : s.infile with
    | nil =>
      have h1 : fgetc s = (EOF, s) := by simp only [fgetc, hi]
      have h2 : fgetc (s.re o k) = (EOF, s.re o k) := by
        unfold fgetc
        show (match s.infile with
          | [] => (EOF, s.re o k)
          | c :: rest => ((c.val : Int), { s.re o k with infile := rest })) = _
        rw [hi]
      unfold lexanLoop
      simp only [h1, h2]
      rfl
    | cons c rest =>
      have h1 : fgetc s = ((c.val : Int), { s with infile := rest }) := by simp only [fgetc, hi]
      have h2 : fgetc (s.re o k) = ((c.val : Int), State.re o k { s with infile := rest }) := by
        unfold fgetc
        show (match s.infile with
          | [] => (EOF, s.re o k)
          | c :: rest => ((c.val : Int), { s.re o k with infile := rest })) = _
        rw [hi]
        rfl
      unfold lexanLoop
      simp only [h1, h2]
      split
      · exact ih _
      · split
        · have := ih { s with infile := rest, lineno := s.lineno + 1 }
          rw [← this]
          congr 1
          simp only [State.re]
          congr 1
          omega
        · split
          · have e : ∀ x : State, (State.re o k x).infile = x.infile := fun _ => rfl
            simp only [e]
            split
            · have := ih { s with infile := (skipLine rest).2, lineno := s.lineno + 1 }
              rw [← this]
              congr 1
              simp only [State.re]
              congr 1
              omega
            · exact ih { s with infile := (skipLine rest).2 }
          · split
            · rfl
            · split
              · exact lexanWord_re o k _ _
              · split
                · rfl
                · split
                  · rfl
                  · split <;> rfl

/-- `lexan` neither reads nor writes the output file, and only adds to the
line counter. -/
theorem lexan_re (o : List Byte) (k : Int) (s : State) :
    lexan (s.re o k) = (lexan s).mapS (State.re o k) :=
  lexanLoop_re o k _ s

theorem advance_re (o : List Byte) (k : Int) (s : State) :
    advance (s.re o k) = (advance s).mapS (State.re o k) := by
  unfold advance
  rw [lexan_re]
  exact Res.mapS_bind _ _ _ _ fun _ _ => rfl

theorem State.re_self (s : State) : s.re s.outfile 0 = s := by
  cases s; simp [State.re]

theorem fprintf_eq_re (t : List Byte) (s : State) : fprintf t s = s.re (s.outfile ++ t) 0 := by
  cases s; simp [State.re, fprintf]

theorem advance_outfile {s s' : State} (h : advance s = .ok () s') : s'.outfile = s.outfile := by
  have e := advance_re s.outfile 0 s
  rw [State.re_self, h] at e
  have : s' = s'.re s.outfile 0 := by
    simp only [Res.mapS, Res.ok.injEq, true_and] at e
    exact e
  rw [this]; rfl

theorem advance_fprintf (t : List Byte) (s : State) :
    advance (fprintf t s) = (advance s).mapS (fprintf t) := by
  rw [fprintf_eq_re, advance_re]
  cases h : advance s with
  | ok a s' =>
    have := advance_outfile h
    simp only [Res.mapS, Res.ok.injEq, true_and]
    rw [fprintf_eq_re, this]
  | abort m s' =>
    have e := advance_re s.outfile 0 s
    rw [State.re_self, h] at e
    simp only [Res.mapS, Res.abort.injEq, true_and] at e
    have ho : s'.outfile = s.outfile := by rw [e]; rfl
    simp only [Res.mapS, Res.abort.injEq, true_and]
    rw [fprintf_eq_re, ho]
  | fault => rfl
  | timeout => rfl

/-! ## Outcomes equal up to the state of an `error` exit -/

theorem Sim.rfl' (r : Res Unit) : Sim r r := by
  cases r with
  | ok a s => exact .ok a s
  | abort m s => exact .abort m s s
  | fault => exact .fault
  | timeout => exact .timeout

theorem Sim.of_eq {r r' : Res Unit} (h : r = r') : Sim r r' := h ▸ Sim.rfl' r

theorem Sim.trans' {r1 r2 r3 : Res Unit} (h1 : Sim r1 r2) (h2 : Sim r2 r3) : Sim r1 r3 := by
  cases h1 with
  | ok a s => exact h2
  | abort m s s' => cases h2 with
    | abort _ _ s'' => exact .abort m s s''
  | fault => exact h2
  | timeout => exact h2

theorem Sim.seq {r r' : Res Unit} {k k' : Unit → State → Res Unit} (h : Sim r r')
    (hk : ∀ a s, r' = .ok a s → Sim (k a s) (k' a s)) : Sim (r.bind k) (r'.bind k') := by
  cases h with
  | ok a s => exact hk a s rfl
  | abort m s s' => exact .abort m s s'
  | fault => exact .fault
  | timeout => exact .timeout

theorem Sim.ok_eq {r : Res Unit} {a : Unit} {s : State} (h : Sim r (.ok a s)) : r = .ok a s := by
  cases h; rfl

theorem Sim.abort_eq {r : Res Unit} {m : String} {s : State} (h : Sim r (.abort m s)) :
    ∃ s', r = .abort m s' := by
  cases h; exact ⟨_, rfl⟩

theorem Res.bind_assoc {α β γ : Type} (r : Res α) (k : α → State → Res β)
    (k' : β → State → Res γ) : (r.bind k).bind k' = r.bind fun a s => (k a s).bind k' := by
  cases r <;> rfl

/-- Writing before or after reading the next token makes no difference, except
for the state in which an `error` of the lexer leaves the output. -/
theorem advance_fprintf_sim (t : List Byte) (s : State) (k : Unit → State → Res Unit) :
    Sim ((advance s).bind fun a s' => k a (fprintf t s')) ((advance (fprintf t s)).bind k) := by
  rw [advance_fprintf]
  cases advance s with
  | ok a s' => exact Sim.rfl' _
  | abort m s' => exact .abort m _ _
  | fault => exact .fault
  | timeout => exact .timeout

/-! ## Lexing the tokens of a rendered expression -/

theorem skipped_sp (s : State) (sp : List Byte) (c : Byte) (r : List Byte) (hsp : Sp sp)
    (hc : Stops c) (hi : s.infile = sp ++ c :: r) : s.skipped = { s with infile := c :: r } := by
  obtain ⟨h1, h2, h3⟩ := hc
  have e1 : skipRest false (c :: r) = c :: r := by
    simp only [skipRest, if_neg h1, if_neg h2, if_neg h3]
  have e2 : skipLines false (c :: r) = 0 := by
    simp only [skipLines, if_neg h1, if_neg h2, if_neg h3]
  rcases hsp with rfl | rfl
  · simp only [List.nil_append] at hi
    cases s
    simp only [State.skipped] at *
    subst hi
    simp only [e1, e2, add_zero]
  · simp only [List.singleton_append] at hi
    have e3 : skipRest false (32 :: c :: r) = c :: r := by
      rw [skipRest, if_pos (by decide), e1]
    have e4 : skipLines false (32 :: c :: r) = 0 := by
      rw [skipLines, if_pos (by decide), e2]
    cases s
    simp only [State.skipped] at *
    subst hi
    simp only [e3, e4, add_zero]

theorem lexan_at (s : State) (sp : List Byte) (c : Byte) (r : List Byte) (hsp : Sp sp)
    (hc : Stops c) (hi : s.infile = sp ++ c :: r) :
    lexan s =
      if isdigit c.val = true then
        .ok NUM
          { s with
            tokenval := (scanDigits (c :: r) 0).1
            infile := (scanDigits (c :: r) 0).2 }
      else if isalpha c.val = true then lexanWord c.val { s with infile := r }
      else if (c.val : Int) = 37 then .ok MOD { s with infile := r }
      else if (c.val : Int) = 92 then .ok 47 { s with infile := r }
      else .ok c.val { s with tokenval := NONE, infile := r } := by
  rw [lexan_skip, skipped_sp s sp c r hsp hc hi]
  exact lexanLoop_one_eq _ c r rfl hc

theorem advance_plain {s : State} {es : Table} (hwf : WF s es) (sp : List Byte) (c : Byte)
    (r : List Byte) (hsp : Sp sp) (hc : Plain c) (hi : s.infile = sp ++ c :: r) :
    ∃ s2, Adv s s2 es c.val r := by
  obtain ⟨h0, h1, h2, h3, h4⟩ := hc
  have e := lexan_at s sp c r hsp h0 hi
  rw [if_neg (by rw [h1]; decide), if_neg (by rw [h2]; decide), if_neg h3, if_neg h4] at e
  exact ⟨{ s with tokenval := NONE, infile := r, lookahead := c.val },
    ⟨by rw [advance, e]; rfl, rfl, rfl, rfl, hwf.reframe rfl rfl rfl rfl hwf.buf⟩⟩

theorem advance_pct {s : State} {es : Table} (hwf : WF s es) (sp : List Byte)
    (r : List Byte) (hsp : Sp sp) (hi : s.infile = sp ++ 37 :: r) :
    ∃ s2, Adv s s2 es MOD r := by
  have e := lexan_at s sp 37 r hsp (by decide) hi
  rw [if_neg (by decide), if_neg (by decide), if_pos (by decide)] at e
  exact ⟨{ s with infile := r, lookahead := MOD },
    ⟨by rw [advance, e]; rfl, rfl, rfl, rfl, hwf.reframe rfl rfl rfl rfl hwf.buf⟩⟩

theorem advance_bslash {s : State} {es : Table} (hwf : WF s es) (sp : List Byte)
    (r : List Byte) (hsp : Sp sp) (hi : s.infile = sp ++ 92 :: r) :
    ∃ s2, Adv s s2 es 47 r := by
  have e := lexan_at s sp 92 r hsp (by decide) hi
  rw [if_neg (by decide), if_neg (by decide), if_neg (by decide), if_pos (by decide)] at e
  exact ⟨{ s with infile := r, lookahead := 47 },
    ⟨by rw [advance, e]; rfl, rfl, rfl, rfl, hwf.reframe rfl rfl rfl rfl hwf.buf⟩⟩

theorem Delim.not_digit {rest : List Byte} (h : Delim rest) :
    ∃ d r, rest = d :: r ∧ isdigit d.val = false ∧ aln d = false := by
  obtain ⟨r, h | h | h⟩ := h <;> exact ⟨_, r, h, by decide, by decide⟩

theorem scanDigits_append (ds rest : List Byte) (acc : Int)
    (hds : ∀ d ∈ ds, isdigit d.val = true)
    (hr : ∀ d r, rest = d :: r → isdigit d.val = false) :
    scanDigits (ds ++ rest) acc = ((scanDigits ds acc).1, rest) := by
  induction ds generalizing acc with
  | nil =>
    cases rest with
    | nil => rfl
    | cons d r =>
      have := hr d r rfl
      simp only [List.nil_append, scanDigits, this, Bool.false_eq_true, if_false]
  | cons d ds ih =>
    have hd := hds d (List.mem_cons_self _ _)
    simp only [List.cons_append, scanDigits, hd, if_true]
    exact ih _ fun x hx => hds x (List.mem_cons_of_mem _ hx)

theorem isdigit_stops (c : Byte) (h : isdigit c.val = true) : Stops c := by
  simp only [isdigit, decide_eq_true_eq] at h
  refine ⟨?_, ?_, ?_⟩ <;> omega

theorem isalpha_stops (c : Byte) (h : isalpha c.val = true) : Stops c := by
  simp only [isalpha, decide_eq_true_eq] at h
  refine ⟨?_, ?_, ?_⟩ <;> omega

theorem advance_num {s : State} {es : Table} (hwf : WF s es) (sp : List Byte) (d : Byte)
    (ds rest : List Byte) (hsp : Sp sp) (hds : ∀ x ∈ d :: ds, isdigit x.val = true)
    (hr : Delim rest) (hi : s.infile = sp ++ (d :: ds) ++ rest) :
    ∃ s2, Adv s s2 es NUM rest ∧ s2.tokenval = numVal (d :: ds) := by
  have hd := hds d (List.mem_cons_self _ _)
  have hi' : s.infile = sp ++ d :: (ds ++ rest) := by
    rw [hi, List.append_assoc, List.cons_append]
  have e := lexan_at s sp d (ds ++ rest) hsp (isdigit_stops d hd) hi'
  rw [if_pos hd] at e
  obtain ⟨x, r, hx, hx1, -⟩ := hr.not_digit
  have hsc := scanDigits_append (d :: ds) rest 0 hds (by
    intro y r' e'
    rw [hx] at e'
    simp only [List.cons.injEq] at e'
    rw [← e'.1]; exact hx1)
  rw [List.cons_append] at hsc
  refine ⟨{ s with
      tokenval := (scanDigits (d :: (ds ++ rest)) 0).1
      infile := (scanDigits (d :: (ds ++ rest)) 0).2
      lookahead := NUM },
    ⟨by rw [advance, e]; rfl, rfl, ?_, rfl, hwf.reframe rfl rfl rfl rfl hwf.buf⟩, ?_⟩
  · show (scanDigits (d :: (ds ++ rest)) 0).2 = rest
    rw [hsc]
  · show (scanDigits (d :: (ds ++ rest)) 0).1 = numVal (d :: ds)
    rw [hsc]; rfl

theorem takeWhile_append_stop (p : Byte → Bool) (w rest : List Byte) (hw : ∀ x ∈ w, p x = true)
    (hr : ∀ d r, rest = d :: r → p d = false) :
    (w ++ rest).takeWhile p = w ∧ (w ++ rest).dropWhile p = rest := by
  induction w with
  | nil =>
    cases rest with
    | nil => exact ⟨rfl, rfl⟩
    | cons d r =>
      have := hr d r rfl
      simp [List.takeWhile_cons, List.dropWhile_cons, this]
  | cons x w ih =>
    have hx := hw x (List.mem_cons_self _ _)
    have := ih fun y hy => hw y (List.mem_cons_of_mem _ hy)
    simp [List.takeWhile_cons, List.dropWhile_cons, hx, this]

/-- Lexing a word: the lexeme is copied to `lexbuf` and interned. -/
theorem advance_word {s : State} {es : Table} (hwf : WF s es) (sp : List Byte) (c : Byte)
    (w rest : List Byte) (hsp : Sp sp) (hc : isalpha c.val = true)
    (hw : ∀ x ∈ w, aln x = true) (hlen : (c :: w).length < 128)
    (hr : ∀ d r, rest = d :: r → aln d = false) (hi : s.infile = sp ++ (c :: w) ++ rest) :
    advance s = (internWord (c :: w) ((s.scanned (c :: w) rest))).bind
      fun tok s => .ok () { s with lookahead := tok } := by
  have hi' : s.infile = sp ++ c :: (w ++ rest) := by
    rw [hi, List.append_assoc, List.cons_append]
  have e := lexan_at s sp c (w ++ rest) hsp (isalpha_stops c hc) hi'
  rw [if_neg (by rw [isalpha_not_digit _ hc]; decide), if_pos hc] at e
  obtain ⟨ht, hd⟩ := takeWhile_append_stop aln w rest hw hr
  have hk := (lexanWord_eq c (w ++ rest) s (isalpha_isalnum _ hc) hwf.buf).2
  rw [ht, hd] at hk
  rw [advance, e, hk hlen]
  have : (w.length + 2) = (c :: w).length + 1 := by simp
  rw [this]
  rfl

theorem WF.scanned {s : State} {es : Table} (h : WF s es) (w rest : List Byte)
    (hl : w.length < 128) : WF (s.scanned w rest) es := by
  refine h.reframe rfl rfl rfl rfl ?_
  simp only [State.scanned, List.length_append, List.length_cons, List.length_drop, h.buf]
  omega

/-- Lexing a word already in the table, at handle `p + 1`. -/
theorem advance_known {s : State} {es : Table} (hwf : WF s es) (sp : List Byte) (c : Byte)
    (w rest : List Byte) (hsp : Sp sp) (hc : isalpha c.val = true)
    (hw : ∀ x ∈ w, aln x = true) (hlen : (c :: w).length < 128)
    (hr : ∀ d r, rest = d :: r → aln d = false) (hi : s.infile = sp ++ (c :: w) ++ rest)
    (p : Nat) (tok : Int) (he : es[p]? = some (c :: w, tok)) :
    ∃ s2, Adv s s2 es tok rest ∧ s2.tokenval = (p : Int) + 1 ∧
      entryText s2 s2.tokenval = some (c :: w) := by
  have e := advance_word hwf sp c w rest hsp hc hw hlen hr hi
  have hwf' := hwf.scanned (c :: w) rest hlen
  have hf := Table.find_of_nodup es (c :: w) p _ hwf.nodup he rfl
  rw [hwf'.tab.internWord_old _ p _ hf he, Res.bind_ok] at e
  have hwf2 : WF ({ { s.scanned (c :: w) rest with tokenval := (p : Int) + 1 } with
      lookahead := tok }) es := hwf'.reframe rfl rfl rfl rfl hwf'.buf
  exact ⟨_, ⟨e, rfl, rfl, rfl, hwf2⟩, rfl, (hwf2.tab.getAt_of_getElem? p _ he).2⟩

theorem kw_div {s : State} {es : Table} (hwf : WF s es) :
    es[0]? = some ([100, 105, 118], DIV) := by
  obtain ⟨ids, rfl, -⟩ := hwf.kw
  rfl

theorem kw_mod {s : State} {es : Table} (hwf : WF s es) :
    es[1]? = some ([109, 111, 100], MOD) := by
  obtain ⟨ids, rfl, -⟩ := hwf.kw
  simp [kwTable]

/-- Lexing an identifier: it is found or inserted, or the table is full. -/
theorem advance_ident {s : State} {es : Table} (hwf : WF s es) (sp : List Byte)
    (w rest : List Byte) (hsp : Sp sp) (hid : IsIdent w)
    (hr : ∀ d r, rest = d :: r → aln d = false) (hi : s.infile = sp ++ w ++ rest) :
    (∃ m sA, advance s = .abort m sA ∧
      ((m = "Symbol table full" ∧ 100 ≤ es.length + 1) ∨
       (m = "Lexemes array full" ∧ 999 ≤ (arena es).length + w.length))) ∨
    (∃ s2 es2, Adv s s2 es2 ID rest ∧ entryText s2 s2.tokenval = some w ∧
      es2.length ≤ es.length + 1 ∧ (arena es2).length ≤ (arena es).length + (w.length + 1)) := by
  obtain ⟨c, r, rfl, hc, hw⟩ := hid.shape
  have hlen := hid.short
  have e := advance_word hwf sp c r rest hsp hc hw hlen hr hi
  have hwf' := hwf.scanned (c :: r) rest hlen
  have hall : ∀ x ∈ c :: r, aln x = true := by
    intro x hx
    simp only [List.mem_cons] at hx
    rcases hx with rfl | hx
    · exact isalpha_isalnum _ hc
    · exact hw x hx
  cases hf : es.find (c :: r) es.length with
  | zero =>
    have hnew := (Table.find_zero_iff es _).1 hf
    rw [hwf'.tab.internWord_new _ (aln_no_nul _ hall) hf] at e
    by_cases c1 : 100 ≤ es.length + 1
    · rw [if_pos c1] at e
      exact Or.inl ⟨_, _, e, Or.inl ⟨rfl, c1⟩⟩
    · by_cases c2 : 999 ≤ (arena es).length + (c :: r).length
      · rw [if_neg c1, if_pos c2] at e
        exact Or.inl ⟨_, _, e, Or.inr ⟨rfl, c2⟩⟩
      · rw [if_neg c1, if_neg c2, Res.bind_ok] at e
        right
        have htab := hwf'.tab.inserted (c :: r) ID (aln_no_nul _ hall) (by omega) (by omega)
        have hbuf : ((s.scanned (c :: r) rest).inserted (c :: r) ID).lexbuf.length = 128 :=
          hwf'.buf
        have hwf2 : WF ({ { (s.scanned (c :: r) rest).inserted (c :: r) ID with
            tokenval := (es.length : Int) + 1 } with lookahead := ID })
            (es ++ [(c :: r, ID)]) := by
          refine ⟨htab.frame rfl rfl rfl rfl, hbuf, ?_, ?_, ?_⟩
          · obtain ⟨ids, e1, e2⟩ := hwf.kw
            refine ⟨ids ++ [(c :: r, ID)], by rw [e1, List.append_assoc], ?_⟩
            intro x hx
            simp only [List.mem_append, List.mem_singleton] at hx
            rcases hx with hx | rfl
            · exact e2 x hx
            · rfl
          · intro x hx
            simp only [List.mem_append, List.mem_singleton] at hx
            rcases hx with hx | rfl
            · exact hwf.word x hx
            · exact hall
          · rw [List.map_append, List.nodup_append]
            refine ⟨hwf.nodup, by simp, ?_⟩
            intro x hx hx'
            simp only [List.map_cons, List.map_nil, List.mem_singleton] at hx'
            subst hx'
            exact hnew hx
        refine ⟨_, _, ⟨e, rfl, rfl, rfl, hwf2⟩,
          (hwf2.tab.getAt_of_getElem? es.length (c :: r, ID) (by simp)).2, ?_, ?_⟩
        · simp
        · simp only [arena_append, arena, List.length_append, List.length_cons, List.length_nil]
          omega
  | succ p =>
    have h1 := Table.find_pos es _ _ p hf
    cases he : es[p]? with
    | none => rw [he] at h1; cases h1
    | some x =>
      rw [he] at h1
      simp only [Option.map_some', Option.some.injEq] at h1
      obtain ⟨w', tok⟩ := x
      simp only at h1
      subst h1
      have hmem : (c :: r, tok) ∈ es := List.getElem?_mem he
      have htok : tok = ID := by
        obtain ⟨ids, e1, e2⟩ := hwf.kw
        rw [e1] at hmem
        simp only [kwTable, List.cons_append, List.nil_append, List.mem_cons] at hmem
        rcases hmem with h | h | h
        · exact absurd (Prod.mk.inj h).1 hid.nodiv
        · exact absurd (Prod.mk.inj h).1 hid.nomod
        · exact e2 _ h
      subst htok
      obtain ⟨s2, h2, -, h3⟩ := advance_known hwf sp c r rest hsp hc hw hlen hr hi p ID he
      exact Or.inr ⟨s2, es, h2, h3, by omega, by omega⟩

/-! ## Expression trees and their infix rendering -/

theorem Op.tok_cases (op : Op) :
    (op.additive = true ∧ (op.tok = 43 ∨ op.tok = 45)) ∨
    (op.additive = false ∧ (op.tok = 42 ∨ op.tok = 47 ∨ op.tok = DIV ∨ op.tok = MOD)) := by
  cases op <;> simp [Op.additive, Op.tok]

theorem advance_determ {s s' : State} {es : Table} (hwf : WF s es)
    (h : advance s = .ok () s') : ∃ es', AdvOk s s' es es' := by
  rcases advance_facts hwf with ⟨s2, es2, e, hk⟩ | ⟨m, s2, e, -⟩
  · rw [h] at e
    simp only [Res.ok.injEq, true_and] at e
    subst e
    exact ⟨es2, hk⟩
  · rw [h] at e; cases e

/-- Lexing an operator that stands between two spaces. -/
theorem advance_op {s : State} {es : Table} (hwf : WF s es) (op : Op) (r : List Byte)
    (hi : s.infile = [32] ++ op.text ++ 32 :: r) :
    ∃ s2, Adv s s2 es op.tok (32 :: r) := by
  have hsp : Sp [32] := Or.inr rfl
  cases op with
  | add => exact advance_plain hwf [32] 43 _ hsp (by decide) hi
  | sub => exact advance_plain hwf [32] 45 _ hsp (by decide) hi
  | mul => exact advance_plain hwf [32] 42 _ hsp (by decide) hi
  | slash => exact advance_plain hwf [32] 47 _ hsp (by decide) hi
  | bslash => exact advance_bslash hwf [32] _ hsp hi
  | pct => exact advance_pct hwf [32] _ hsp hi
  | div =>
    obtain ⟨s2, h, -⟩ := advance_known hwf [32] 100 [105, 118] (32 :: r) hsp (by decide)
      (by intro x hx; simp only [List.mem_cons, List.mem_singleton, List.not_mem_nil,
            or_false] at hx; rcases hx with rfl | rfl <;> decide)
      (by decide) (by intro d r' e; simp only [List.cons.injEq] at e; rw [← e.1]; decide)
      hi 0 DIV (kw_div hwf)
    exact ⟨s2, h⟩
  | mod =>
    obtain ⟨s2, h, -⟩ := advance_known hwf [32] 109 [111, 100] (32 :: r) hsp (by decide)
      (by intro x hx; simp only [List.mem_cons, List.mem_singleton, List.not_mem_nil,
            or_false] at hx; rcases hx with rfl | rfl <;> decide)
      (by decide) (by intro d r' e; simp only [List.cons.injEq] at e; rw [← e.1]; decide)
      hi 1 MOD (kw_mod hwf)
    exact ⟨s2, h⟩

theorem termLoop_fuel (N m m' : Nat) {s : State} (hs : ∃ es, PWF s es) (h1 : mu s < m)
    (h2 : m ≤ m') (h3 : mu s ≤ N + 1) : termLoop (expr N) m s = termLoop (expr N) m' s :=
  Res.le_eq (termLoop_mono (fun _ => Res.le_refl _) m m' h2 s)
    (termLoop_term (expr N) N (fun _ h l => expr_term N h l) m hs h3 h1).ne_timeout

theorem exprLoop_fuel (N m m' : Nat) {s : State} (hs : ∃ es, PWF s es) (h1 : mu s < m)
    (h2 : m ≤ m') (h3 : mu s ≤ N + 1) : exprLoop (expr N) m s = exprLoop (expr N) m' s :=
  Res.le_eq (exprLoop_mono (fun _ => Res.le_refl _) m m' h2 s)
    (exprLoop_term (expr N) N (fun _ h l => expr_term N h l) m hs h3 h1).ne_timeout

theorem mu_le_of_adv {s s' : State} {es : Table} (hwf : WF s es) (h : advance s = .ok () s') :
    mu s' ≤ s.infile.length + 1 ∧ ∃ es', PWF s' es' := by
  obtain ⟨es', hk⟩ := advance_determ hwf h
  refine ⟨?_, es', hk.pwf⟩
  have := hk.length_le
  unfold mu
  split <;> omega

/-! ## The parser on a rendered expression -/

theorem Res.bind_pure (r : Res Unit) : (r.bind fun a s => .ok a s) = r := by
  cases r <;> rfl

theorem factor_num (rec : State → Res Unit) (s : State) (h : s.lookahead = NUM) :
    factor rec s = advance (fprintf (fmtInt s.tokenval ++ [32]) s) := by
  unfold factor
  rw [if_neg (by rw [h]; decide), if_pos h, emit_num, Res.bind_ok, matchTok_eq]
  exact if_pos h

theorem factor_id (rec : State → Res Unit) (s : State) (w : List Byte) (h : s.lookahead = ID)
    (hw : entryText s s.tokenval = some w) :
    factor rec s = advance (fprintf (w ++ [32]) s) := by
  unfold factor
  rw [if_neg (by rw [h]; decide), if_neg (by rw [h]; decide), if_pos h, emit_id s _ w hw,
    Res.bind_ok, matchTok_eq]
  exact if_pos h

theorem factor_paren (rec : State → Res Unit) (s : State) (h : s.lookahead = 40) :
    factor rec s = (advance s).bind fun _ s => (rec s).bind fun _ s => matchTok 41 s := by
  unfold factor
  rw [if_pos h, matchTok_eq, if_pos h]

theorem termLoop_stop (rec : State → Res Unit) (m : Nat) (s : State)
    (h : ¬ (s.lookahead = 42 ∨ s.lookahead = 47 ∨ s.lookahead = DIV ∨ s.lookahead = MOD)) :
    termLoop rec (m + 1) s = .ok () s := by
  unfold termLoop
  rw [if_neg h]

theorem termLoop_step (rec : State → Res Unit) (m : Nat) (s : State)
    (h : s.lookahead = 42 ∨ s.lookahead = 47 ∨ s.lookahead = DIV ∨ s.lookahead = MOD) :
    termLoop rec (m + 1) s = (advance s).bind fun _ s1 =>
      (factor rec s1).bind fun _ s2 => termLoop rec m (fprintf (opText s.lookahead) s2) := by
  rw [termLoop, if_pos h, matchTok_eq, if_pos rfl]
  show ((advance s).bind fun _ s1 => (factor rec s1).bind fun _ s2 =>
    (emit s.lookahead NONE s2).bind fun _ s3 => termLoop rec m s3) = _
  congr 1
  funext _ s1
  congr 1
  funext _ s2
  rw [emit_op _ _ _ (by rcases h with h | h | h | h <;> simp [h]), Res.bind_ok]

theorem exprLoop_stop (rec : State → Res Unit) (m : Nat) (s : State)
    (h : ¬ (s.lookahead = 43 ∨ s.lookahead = 45)) : exprLoop rec (m + 1) s = .ok () s := by
  unfold exprLoop
  rw [if_neg h]

theorem exprLoop_step (rec : State → Res Unit) (m : Nat) (s : State)
    (h : s.lookahead = 43 ∨ s.lookahead = 45) :
    exprLoop rec (m + 1) s = (advance s).bind fun _ s1 =>
      (term rec m s1).bind fun _ s2 => exprLoop rec m (fprintf (opText s.lookahead) s2) := by
  rw [exprLoop, if_pos h, matchTok_eq, if_pos rfl]
  show ((advance s).bind fun _ s1 => (term rec m s1).bind fun _ s2 =>
    (emit s.lookahead NONE s2).bind fun _ s3 => exprLoop rec m s3) = _
  congr 1
  funext _ s1
  congr 1
  funext _ s2
  rw [emit_op _ _ _ (by rcases h with h | h <;> simp [h]), Res.bind_ok]

theorem expr_eq_parseAt (N : Nat) (s : State) : expr (N + 1) s = parseAt 0 N N s := rfl

theorem Delim0.delim {rest : List Byte} (h : Delim0 rest) : Delim rest := by
  obtain ⟨r, h | h | h | h⟩ := h
  · exact ⟨r, Or.inr (Or.inl h)⟩
  · exact ⟨r, Or.inr (Or.inr h)⟩
  · exact ⟨_, Or.inl h⟩
  · exact ⟨_, Or.inl h⟩

theorem parses_num (d : Byte) (ds : List Byte) (h : ∀ x ∈ d :: ds, isdigit x.val = true) :
    Parses 2 (d :: ds) (fmtInt (numVal (d :: ds)) ++ [32]) 0 0 := by
  intro s es sp rest hwf hsp hf hi
  right
  obtain ⟨s2, hadv, htv⟩ := advance_num hwf sp d ds rest hsp h hf hi
  refine ⟨fprintf (fmtInt (numVal (d :: ds)) ++ [32]) s2, es,
    hadv.wf.reframe rfl rfl rfl rfl hadv.wf.buf, hadv.infile, ?_, le_refl _, le_refl _, ?_⟩
  · show s2.outfile ++ _ = _
    rw [hadv.outfile]
  · intro N m' _ _
    rw [hadv.eq, Res.bind_ok]
    show Sim (factor (expr N) s2) ((advance _).bind fun a s => .ok a s)
    rw [Res.bind_pure, factor_num _ _ hadv.la, htv]
    exact Sim.rfl' _

theorem parses_ident (w : List Byte) (h : IsIdent w) :
    Parses 2 w (w ++ [32]) 1 (w.length + 1) := by
  intro s es sp rest hwf hsp hf hi
  obtain ⟨d, r, hd, -, hd2⟩ := Delim.not_digit hf
  have hr : ∀ d' r', rest = d' :: r' → aln d' = false := by
    intro d' r' e
    rw [hd] at e
    simp only [List.cons.injEq] at e
    rw [← e.1]; exact hd2
  rcases advance_ident hwf sp w rest hsp h hr hi with ⟨m, sA, e, hm⟩ | ⟨s2, es2, hadv, ht, h1, h2⟩
  · left
    refine ⟨m, ?_, fun N m' _ _ => ⟨sA, by rw [e]; rfl⟩⟩
    rcases hm with ⟨hm, hc⟩ | ⟨hm, hc⟩
    · exact Or.inl ⟨hm, hc⟩
    · exact Or.inr ⟨hm, by omega⟩
  · right
    refine ⟨fprintf (w ++ [32]) s2, es2, hadv.wf.reframe rfl rfl rfl rfl hadv.wf.buf,
      hadv.infile, ?_, h1, h2, ?_⟩
    · show s2.outfile ++ _ = _
      rw [hadv.outfile]
    · intro N m' _ _
      rw [hadv.eq, Res.bind_ok]
      show Sim (factor (expr N) s2) ((advance _).bind fun a s => .ok a s)
      rw [Res.bind_pure, factor_id _ _ w hadv.la ht]
      exact Sim.rfl' _

theorem parses_up1 {x o : List Byte} {c ch : Nat} (h : Parses 2 x o c ch) :
    Parses 1 x o c ch := by
  intro s es sp rest hwf hsp hf hi
  rcases h s es sp rest hwf hsp hf hi with ⟨m, hm, ha⟩ | ⟨se, es', h1, h2, h3, h4, h5, hs⟩
  · left
    refine ⟨m, hm, fun N m' hN hm' => ?_⟩
    obtain ⟨sA, e⟩ := ha N m' hN hm'
    refine ⟨sA, ?_⟩
    have : ((advance s).bind fun _ s1 => parseAt 1 N m' s1) =
        ((advance s).bind fun _ s1 => parseAt 2 N m' s1).bind
          fun _ s2 => termLoop (expr N) m' s2 := by
      rw [Res.bind_assoc]; rfl
    rw [this, e]; rfl
  · right
    refine ⟨se, es', h1, h2, h3, h4, h5, fun N m' hN hm' => ?_⟩
    have e1 : ((advance s).bind fun _ s1 => parseAt 1 N m' s1) =
        ((advance s).bind fun _ s1 => parseAt 2 N m' s1).bind
          fun _ s2 => termLoop (expr N) m' s2 := by
      rw [Res.bind_assoc]; rfl
    have e2 : ((advance se).bind fun _ s2 => loopAt 1 N m' s2) =
        ((advance se).bind fun _ s2 => loopAt 2 N m' s2).bind
          fun _ s2 => termLoop (expr N) m' s2 := by
      rw [Res.bind_assoc]; rfl
    rw [e1, e2]
    exact (hs N m' hN hm').seq fun _ _ _ => Sim.rfl' _

theorem delim0_next {s : State} {es : Table} (hwf : WF s es) (h : Delim0 s.infile) :
    ∃ s2, advance s = .ok () s2 ∧
      (s2.lookahead = 41 ∨ s2.lookahead = 59 ∨ s2.lookahead = 43 ∨ s2.lookahead = 45) := by
  obtain ⟨r, h | h | h | h⟩ := h
  · obtain ⟨s2, h2⟩ := advance_plain hwf [] 41 r (Or.inl rfl) (by decide) h
    exact ⟨s2, h2.eq, Or.inl h2.la⟩
  · obtain ⟨s2, h2⟩ := advance_plain hwf [] 59 r (Or.inl rfl) (by decide) h
    exact ⟨s2, h2.eq, Or.inr (Or.inl h2.la)⟩
  · obtain ⟨s2, h2⟩ := advance_plain hwf [32] 43 (32 :: r) (Or.inr rfl) (by decide) h
    exact ⟨s2, h2.eq, Or.inr (Or.inr (Or.inl h2.la))⟩
  · obtain ⟨s2, h2⟩ := advance_plain hwf [32] 45 (32 :: r) (Or.inr rfl) (by decide) h
    exact ⟨s2, h2.eq, Or.inr (Or.inr (Or.inr h2.la))⟩

theorem parses_up0 {x o : List Byte} {c ch : Nat} (h : Parses 1 x o c ch) :
    Parses 0 x o c ch := by
  intro s es sp rest hwf hsp hf hi
  have e1 : ∀ N m', ((advance s).bind fun _ s1 => parseAt 0 N m' s1) =
      ((advance s).bind fun _ s1 => parseAt 1 N m' s1).bind
        fun _ s2 => exprLoop (expr N) m' s2 := by
    intro N m'; rw [Res.bind_assoc]; rfl
  rcases h s es sp rest hwf hsp hf.delim hi with ⟨m, hm, ha⟩ | ⟨se, es', h1, h2, h3, h4, h5, hs⟩
  · left
    refine ⟨m, hm, fun N m' hN hm' => ?_⟩
    obtain ⟨sA, e⟩ := ha N m' hN hm'
    exact ⟨sA, by rw [e1, e]; rfl⟩
  · right
    refine ⟨se, es', h1, h2, h3, h4, h5, fun N m' hN hm' => ?_⟩
    obtain ⟨s2, hadv, hla⟩ := delim0_next h1 (by rw [h2]; exact hf)
    obtain ⟨m0, rfl⟩ : ∃ m0, m' = m0 + 1 := ⟨m' - 1, by omega⟩
    have e2 : ((advance se).bind fun _ s2 => loopAt 0 N (m0 + 1) s2) =
        ((advance se).bind fun _ s2 => loopAt 1 N (m0 + 1) s2).bind
          fun _ s2 => exprLoop (expr N) (m0 + 1) s2 := by
      rw [hadv, Res.bind_ok, Res.bind_ok]
      show _ = (termLoop (expr N) (m0 + 1) s2).bind _
      rw [termLoop_stop _ _ _ (by rcases hla with h | h | h | h <;> rw [h] <;> decide)]
      rfl
    rw [e1, e2]
    exact (hs N (m0 + 1) hN hm').seq fun _ _ _ => Sim.rfl' _

theorem parses_paren {x o : List Byte} {c ch : Nat} (h : Parses 0 x o c ch) :
    Parses 2 (40 :: x ++ [41]) o c ch := by
  intro s es sp rest hwf hsp _ hi
  have hi' : s.infile = sp ++ 40 :: (x ++ 41 :: rest) := by
    rw [hi]; simp
  obtain ⟨s1, hadv⟩ := advance_plain hwf sp 40 _ hsp (by decide) hi'
  have hlen : s1.infile.length + 1 ≤ s.infile.length := by
    rw [hadv.infile, hi']; simp
  have e1 : ∀ N0 m', ((advance s).bind fun _ s1 => parseAt 2 (N0 + 1) m' s1) =
      ((advance s1).bind fun _ s2 => parseAt 0 N0 N0 s2).bind fun _ s3 => matchTok 41 s3 := by
    intro N0 m'
    rw [hadv.eq, Res.bind_ok]
    show factor (expr (N0 + 1)) s1 = _
    rw [factor_paren _ _ hadv.la, Res.bind_assoc]
    rfl
  have hf0 : Follow 0 (41 :: rest) := ⟨rest, Or.inl rfl⟩
  rcases h s1 es [] (41 :: rest) hadv.wf (Or.inl rfl) hf0 (by rw [hadv.infile]; simp) with
    ⟨m, hm, ha⟩ | ⟨se, es', h1, h2, h3, h4, h5, hs⟩
  · left
    refine ⟨m, hm, fun N m' hN hm' => ?_⟩
    obtain ⟨N0, rfl⟩ : ∃ N0, N = N0 + 1 := ⟨N - 1, by omega⟩
    obtain ⟨sA, e⟩ := ha N0 N0 (by omega) (by omega)
    exact ⟨sA, by rw [e1, e]; rfl⟩
  · right
    obtain ⟨s2, hadv2⟩ := advance_plain h1 [] 41 rest (Or.inl rfl) (by decide) h2
    refine ⟨s2, es', hadv2.wf, hadv2.infile, by rw [hadv2.outfile, h3, hadv.outfile], h4, h5,
      fun N m' hN hm' => ?_⟩
    obtain ⟨N0, rfl⟩ : ∃ N0, N = N0 + 1 := ⟨N - 1, by omega⟩
    obtain ⟨N1, rfl⟩ : ∃ N1, N0 = N1 + 1 := ⟨N0 - 1, by omega⟩
    have hsim := hs (N1 + 1) (N1 + 1) (by omega) (by omega)
    rw [hadv2.eq, Res.bind_ok] at hsim
    have : loopAt 0 (N1 + 1) (N1 + 1) s2 = .ok () s2 :=
      exprLoop_stop _ _ _ (by rw [hadv2.la]; decide)
    rw [this] at hsim
    have hla2 : s2.lookahead = 41 := hadv2.la
    rw [e1, hsim.ok_eq, Res.bind_ok, matchTok_eq, if_pos hla2]
    show Sim _ ((advance s2).bind fun a s => .ok a s)
    rw [Res.bind_pure]
    exact Sim.rfl' _

theorem Op.text_pos (op : Op) : 1 ≤ op.text.length := by
  cases op <;> simp [Op.text]

theorem Short.mono {es es1 : Table} {c c1 ch ch1 : Nat} {m : String} (h : Short es1 c1 ch1 m)
    (h1 : es1.length + c1 ≤ es.length + c) (h2 : (arena es1).length + ch1 ≤ (arena es).length + ch) :
    Short es c ch m := by
  rcases h with ⟨hm, hc⟩ | ⟨hm, hc⟩
  · exact Or.inl ⟨hm, by omega⟩
  · exact Or.inr ⟨hm, by omega⟩

theorem parses_mul {x y ox oy : List Byte} {cx cy chx chy : Nat} (op : Op)
    (hop : op.additive = false) (hx : Parses 1 x ox cx chx) (hy : Parses 2 y oy cy chy) :
    Parses 1 (x ++ [32] ++ op.text ++ [32] ++ y) (ox ++ oy ++ opText op.tok) (cx + cy)
      (chx + chy) := by
  intro s es sp rest hwf hsp hf hi
  have hix : s.infile = sp ++ x ++ ([32] ++ op.text ++ 32 :: (y ++ rest)) := by
    rw [hi]; simp
  have hfx : Follow 1 ([32] ++ op.text ++ 32 :: (y ++ rest)) :=
    ⟨op.text ++ 32 :: (y ++ rest), Or.inl rfl⟩
  have htok : op.tok = 42 ∨ op.tok = 47 ∨ op.tok = DIV ∨ op.tok = MOD := by
    rcases op.tok_cases with ⟨h, -⟩ | ⟨-, h⟩
    · rw [hop] at h; cases h
    · exact h
  rcases hx s es sp _ hwf hsp hfx hix with ⟨m, hm, ha⟩ | ⟨se, es1, h1, h2, h3, h4, h5, hs⟩
  · left
    exact ⟨m, hm.mono (by omega) (by omega), ha⟩
  · obtain ⟨s2, hadv2⟩ := advance_op h1 op (y ++ rest) h2
    have hiy : s2.infile = [32] ++ y ++ rest := by rw [hadv2.infile]; simp
    have hl2 : s2.infile.length + 2 ≤ s.infile.length := by
      have := op.text_pos
      rw [hiy, hix]; simp only [List.length_append, List.length_cons, List.length_nil]; omega
    have hlr : rest.length + 3 ≤ s.infile.length := by
      rw [hiy] at hl2; simp only [List.length_append, List.length_cons, List.length_nil] at hl2
      omega
    have hstep : ∀ N m0, ((advance se).bind fun _ s2 => loopAt 1 N (m0 + 1) s2) =
        ((advance s2).bind fun _ s1 => parseAt 2 N m0 s1).bind
          fun _ s3 => termLoop (expr N) m0 (fprintf (opText op.tok) s3) := by
      intro N m0
      rw [hadv2.eq, Res.bind_ok]
      show termLoop (expr N) (m0 + 1) s2 = _
      rw [termLoop_step _ _ _ (by rw [hadv2.la]; exact htok), Res.bind_assoc, hadv2.la]
      rfl
    rcases hy s2 es1 [32] rest hadv2.wf (Or.inr rfl) hf hiy with
      ⟨m, hm, ha⟩ | ⟨sy, es2, g1, g2, g3, g4, g5, gs⟩
    · left
      refine ⟨m, hm.mono (by omega) (by omega), fun N m' hN hm' => ?_⟩
      obtain ⟨m0, rfl⟩ : ∃ m0, m' = m0 + 1 := ⟨m' - 1, by omega⟩
      obtain ⟨sA, e⟩ := ha N m0 (by omega) (by omega)
      have := hs N (m0 + 1) hN hm'
      rw [hstep, e] at this
      exact this.abort_eq
    · right
      have hwe : WF (fprintf (opText op.tok) sy) es2 := g1.reframe rfl rfl rfl rfl g1.buf
      refine ⟨fprintf (opText op.tok) sy, es2, hwe, g2, ?_,
        by omega, by omega, fun N m' hN hm' => ?_⟩
      · show sy.outfile ++ _ = _
        rw [g3, hadv2.outfile, h3]; simp
      · obtain ⟨m0, rfl⟩ : ∃ m0, m' = m0 + 1 := ⟨m' - 1, by omega⟩
        refine (hs N (m0 + 1) hN hm').trans' ?_
        rw [hstep]
        refine ((gs N m0 (by omega) (by omega)).seq fun _ _ _ => Sim.rfl' _).trans' ?_
        rw [Res.bind_assoc]
        refine (advance_fprintf_sim (opText op.tok) sy _).trans' ?_
        refine (Sim.rfl' _).seq fun a s4 h4 => Sim.of_eq ?_
        obtain ⟨hmu, hp⟩ := mu_le_of_adv hwe h4
        have : (fprintf (opText op.tok) sy).infile = rest := g2
        rw [this] at hmu
        exact termLoop_fuel N m0 (m0 + 1) hp (by omega) (by omega) (by omega)

theorem parses_add {x y ox oy : List Byte} {cx cy chx chy : Nat} (op : Op)
    (hop : op.additive = true) (hx : Parses 0 x ox cx chx) (hy : Parses 1 y oy cy chy) :
    Parses 0 (x ++ [32] ++ op.text ++ [32] ++ y) (ox ++ oy ++ opText op.tok) (cx + cy)
      (chx + chy) := by
  intro s es sp rest hwf hsp hf hi
  have hix : s.infile = sp ++ x ++ ([32] ++ op.text ++ 32 :: (y ++ rest)) := by
    rw [hi]; simp
  have htok : op.tok = 43 ∨ op.tok = 45 := by
    rcases op.tok_cases with ⟨-, h⟩ | ⟨h, -⟩
    · exact h
    · rw [hop] at h; cases h
  have hfx : Follow 0 ([32] ++ op.text ++ 32 :: (y ++ rest)) := by
    cases op with
    | add => exact ⟨_, Or.inr (Or.inr (Or.inl rfl))⟩
    | sub => exact ⟨_, Or.inr (Or.inr (Or.inr rfl))⟩
    | _ => cases hop
  rcases hx s es sp _ hwf hsp hfx hix with ⟨m, hm, ha⟩ | ⟨se, es1, h1, h2, h3, h4, h5, hs⟩
  · left
    exact ⟨m, hm.mono (by omega) (by omega), ha⟩
  · obtain ⟨s2, hadv2⟩ := advance_op h1 op (y ++ rest) h2
    have hiy : s2.infile = [32] ++ y ++ rest := by rw [hadv2.infile]; simp
    have hl2 : s2.infile.length + 2 ≤ s.infile.length := by
      have := op.text_pos
      rw [hiy, hix]; simp only [List.length_append, List.length_cons, List.length_nil]; omega
    have hlr : rest.length + 3 ≤ s.infile.length := by
      rw [hiy] at hl2; simp only [List.length_append, List.length_cons, List.length_nil] at hl2
      omega
    have hstep : ∀ N m0, ((advance se).bind fun _ s2 => loopAt 0 N (m0 + 1) s2) =
        ((advance s2).bind fun _ s1 => parseAt 1 N m0 s1).bind
          fun _ s3 => exprLoop (expr N) m0 (fprintf (opText op.tok) s3) := by
      intro N m0
      rw [hadv2.eq, Res.bind_ok]
      show exprLoop (expr N) (m0 + 1) s2 = _
      rw [exprLoop_step _ _ _ (by rw [hadv2.la]; exact htok), Res.bind_assoc, hadv2.la]
      rfl
    rcases hy s2 es1 [32] rest hadv2.wf (Or.inr rfl) hf.delim hiy with
      ⟨m, hm, ha⟩ | ⟨sy, es2, g1, g2, g3, g4, g5, gs⟩
    · left
      refine ⟨m, hm.mono (by omega) (by omega), fun N m' hN hm' => ?_⟩
      obtain ⟨m0, rfl⟩ : ∃ m0, m' = m0 + 1 := ⟨m' - 1, by omega⟩
      obtain ⟨sA, e⟩ := ha N m0 (by omega) (by omega)
      have := hs N (m0 + 1) hN hm'
      rw [hstep, e] at this
      exact this.abort_eq
    · right
      have hwe : WF (fprintf (opText op.tok) sy) es2 := g1.reframe rfl rfl rfl rfl g1.buf
      refine ⟨fprintf (opText op.tok) sy, es2, hwe, g2, ?_,
        by omega, by omega, fun N m' hN hm' => ?_⟩
      · show sy.outfile ++ _ = _
        rw [g3, hadv2.outfile, h3]; simp
      · obtain ⟨m0, rfl⟩ : ∃ m0, m' = m0 + 1 := ⟨m' - 1, by omega⟩
        obtain ⟨m1, rfl⟩ : ∃ m1, m0 = m1 + 1 := ⟨m0 - 1, by omega⟩
        obtain ⟨s4, hadv4, hla4⟩ := delim0_next g1 (by rw [g2]; exact hf)
        have hnoop : ((advance sy).bind fun _ s2 => loopAt 1 N (m1 + 1) s2) = advance sy := by
          rw [hadv4, Res.bind_ok]
          exact termLoop_stop _ _ _ (by rcases hla4 with h | h | h | h <;> rw [h] <;> decide)
        refine (hs N (m1 + 1 + 1) hN hm').trans' ?_
        rw [hstep]
        refine ((gs N (m1 + 1) (by omega) (by omega)).seq fun _ _ _ => Sim.rfl' _).trans' ?_
        rw [hnoop]
        refine (advance_fprintf_sim (opText op.tok) sy _).trans' ?_
        refine (Sim.rfl' _).seq fun a s5 h5 => Sim.of_eq ?_
        obtain ⟨hmu, hp⟩ := mu_le_of_adv hwe h5
        have : (fprintf (opText op.tok) sy).infile = rest := g2
        rw [this] at hmu
        exact exprLoop_fuel N (m1 + 1) (m1 + 1 + 1) hp (by omega) (by omega) (by omega)

/-! ## Expression trees -/

theorem isIdent_spec {w : List Byte} (h : isIdent w = true) : IsIdent w := by
  cases w with
  | nil => cases h
  | cons c r =>
    simp only [isIdent, Bool.and_eq_true, decide_eq_true_eq, List.all_eq_true] at h
    obtain ⟨⟨⟨⟨h1, h2⟩, h3⟩, h4⟩, h5⟩ := h
    exact ⟨⟨c, r, rfl, h1, h2⟩, h3, h4, h5⟩

theorem parses_level {x o : List Byte} {c ch : Nat} (l k : Nat) (hl : l ≤ 2) (hk : k ≤ 2)
    (h : Parses l x o c ch) : Parses k (wrap (decide (l < k)) x) o c ch := by
  have h0 : Parses 0 x o c ch := by
    interval_cases l
    · exact h
    · exact parses_up0 h
    · exact parses_up0 (parses_up1 h)
  by_cases hlk : l < k
  · have : wrap (decide (l < k)) x = 40 :: x ++ [41] := by simp [wrap, hlk]
    rw [this]
    have h2 := parses_paren h0
    interval_cases k
    · omega
    · exact parses_up1 h2
    · exact h2
  · have : wrap (decide (l < k)) x = x := by simp [wrap, hlk]
    rw [this]
    interval_cases l <;> interval_cases k <;> first | omega | exact h | exact parses_up1 h | exact h0

/-- The parser translates the rendering of a valid tree into its post-order
traversal, at every level at which the rendering may stand. -/
theorem parses_tree (t : Tree) (hv : t.valid = true) (k : Nat) (hk : k ≤ 2) :
    Parses k (wrap (decide (t.level < k)) t.render) t.postorder t.ids t.chars := by
  induction t generalizing k with
  | num ds =>
    refine parses_level 2 k (le_refl _) hk ?_
    cases ds with
    | nil => cases hv
    | cons d ds =>
      simp only [Tree.valid, isNumber, Bool.and_eq_true, List.all_eq_true] at hv
      exact parses_num d ds hv.1
  | id w =>
    exact parses_level 2 k (le_refl _) hk (parses_ident w (isIdent_spec hv))
  | node op l r ihl ihr =>
    simp only [Tree.valid, Bool.and_eq_true] at hv
    cases hop : op.additive with
    | true =>
      have hlev : (Tree.node op l r).level = 0 := by simp [Tree.level, hop]
      have := parses_add op hop (ihl hv.1 0 (by omega)) (ihr hv.2 1 (by omega))
      have h := parses_level 0 k (by omega) hk this
      rw [hlev]
      simpa only [Tree.render, hlev] using h
    | false =>
      have hlev : (Tree.node op l r).level = 1 := by simp [Tree.level, hop]
      have := parses_mul op hop (ihl hv.1 1 (by omega)) (ihr hv.2 2 (by omega))
      have h := parses_level 1 k (by omega) hk this
      rw [hlev]
      simpa only [Tree.render, hlev] using h

/-! ## Statements and whole runs -/

theorem parseLoop_fuel (n n' : Nat) {s : State} (hs : ∃ es, PWF s es) (h1 : mu s + 2 ≤ n)
    (h2 : n ≤ n') : parseLoop n s = parseLoop n' s :=
  Res.le_eq (parseLoop_mono n n' h2 s) (parseLoop_term n hs h1).ne_timeout

theorem drive_fuel (n n' : Nat) {s : State} {es : Table} (hwf : WF s es)
    (h1 : s.infile.length + 3 ≤ n) (h2 : s.infile.length + 3 ≤ n') : drive n s = drive n' s := by
  unfold drive
  cases h : advance s with
  | ok a s1 =>
    obtain ⟨hmu, hp⟩ := mu_le_of_adv hwf h
    show parseLoop n s1 = parseLoop n' s1
    rw [← parseLoop_fuel (mu s1 + 2) n hp (le_refl _) (by omega),
      ← parseLoop_fuel (mu s1 + 2) n' hp (le_refl _) (by omega)]
  | abort m s1 => rfl
  | fault => rfl
  | timeout => rfl

theorem run_drive (input : List Byte) (n : Nat) (hn : input.length + 3 ≤ n) :
    run input = drive n (State.start input) := by
  rw [run_eq]
  unfold drive
  cases h : advance (State.start input) with
  | ok a s1 =>
    obtain ⟨hmu, hp⟩ := mu_le_of_adv (wf_start input) h
    have hl : (State.start input).infile.length = input.length := rfl
    have : mu s1 ≤ s1.infile.length + 1 := by unfold mu; split <;> omega
    show parseLoop (s1.infile.length + 3) s1 = parseLoop n s1
    rw [← parseLoop_fuel (mu s1 + 2) (s1.infile.length + 3) hp (le_refl _) (by omega),
      ← parseLoop_fuel (mu s1 + 2) n hp (le_refl _) (by omega)]
  | abort m s1 => rfl
  | fault => rfl
  | timeout => rfl

theorem parseAt_done (N m : Nat) (s : State) (h : s.lookahead = DONE) :
    parseAt 0 N m s = .abort "Syntax error: unexpected token in factor" s := by
  show ((factor (expr N) s).bind _).bind _ = _
  unfold factor
  rw [if_neg (by rw [h]; decide), if_neg (by rw [h]; decide), if_neg (by rw [h]; decide)]
  rfl

theorem parseLoop_unfold (n : Nat) (s : State) (h : s.lookahead ≠ DONE) :
    parseLoop (n + 2) s = (parseAt 0 n n s).bind fun _ s =>
      (matchTok 59 s).bind fun _ s => parseLoop (n + 1) (fprintf [59, 10] s) := by
  show (if s.lookahead ≠ DONE then _ else _) = _
  rw [if_pos h]
  rfl

/-- At the end of the input, or before trailing white space and comments only,
the next token is `DONE`. -/
theorem advance_eof (s : State) (h : skipRest false s.infile = []) :
    advance s = .ok () { s.skipped with lookahead := DONE } := by
  unfold advance
  rw [lexan_skip]
  have : s.skipped.infile = [] := h
  have e : lexanLoop 1 s.skipped = .ok DONE s.skipped := by
    simp [lexanLoop, fgetc, this, EOF, isdigit, isalpha]
  rw [e]
  rfl

theorem drive_eof (n : Nat) (s : State) (h : skipRest false s.infile = []) :
    drive (n + 1) s = .ok () { s.skipped with lookahead := DONE } := by
  unfold drive
  rw [advance_eof s h]
  rfl

theorem Short.ne_syntax {es : Table} {c ch : Nat} {m : String} (h : Short es c ch m) :
    m ≠ "Syntax error: unexpected token in factor" := by
  rcases h with ⟨rfl, -⟩ | ⟨rfl, -⟩ <;> decide

/-- One statement `x;` at a statement boundary: the loop of `parse` writes its
translation and `;\n` and stands at the next boundary, unless a capacity error
stops the run. -/
theorem stmt_step {x o : List Byte} {c ch : Nat} (h : Parses 0 x o c ch) {s : State}
    {es : Table} (sp rest : List Byte) (hwf : WF s es) (hsp : Sp sp)
    (hi : s.infile = sp ++ x ++ 59 :: rest) :
    (∃ m, Short es c ch m ∧ ∀ n, s.infile.length + 4 ≤ n → ∃ sA, drive n s = .abort m sA) ∨
    (∃ se es', WF se es' ∧ se.infile = rest ∧ se.outfile = s.outfile ++ o ++ [59, 10] ∧
      es'.length ≤ es.length + c ∧ (arena es').length ≤ (arena es).length + ch ∧
      ∀ n, s.infile.length + 4 ≤ n → Sim (drive n s) (drive n se)) := by
  have hlen : rest.length + 1 ≤ s.infile.length := by
    rw [hi]; simp only [List.length_append, List.length_cons]; omega
  rcases h s es sp (59 :: rest) hwf hsp ⟨rest, Or.inr (Or.inl rfl)⟩ hi with
    ⟨m, hm, ha⟩ | ⟨se, es', h1, h2, h3, h4, h5, hs⟩
  · left
    refine ⟨m, hm, fun n hn => ?_⟩
    obtain ⟨N, rfl⟩ : ∃ N, n = N + 2 := ⟨n - 2, by omega⟩
    obtain ⟨sA, e⟩ := ha N N (by omega) (by omega)
    unfold drive
    cases hadv : advance s with
    | ok a s1 =>
      rw [hadv, Res.bind_ok] at e
      rw [Res.bind_ok]
      by_cases hd : s1.lookahead = DONE
      · rw [parseAt_done N N s1 hd] at e
        simp only [Res.abort.injEq] at e
        exact absurd e.1.symm hm.ne_syntax
      · rw [parseLoop_unfold N s1 hd, e]
        exact ⟨sA, rfl⟩
    | abort m' s1 =>
      rw [hadv] at e
      exact ⟨sA, e⟩
    | fault => rw [hadv] at e; cases e
    | timeout => rw [hadv] at e; cases e
  · right
    obtain ⟨s2, hadv2⟩ := advance_plain h1 [] 59 rest (Or.inl rfl) (by decide) h2
    have hla2 : s2.lookahead = 59 := hadv2.la
    have hwe : WF (fprintf [59, 10] s2) es' := hadv2.wf.reframe rfl rfl rfl rfl hadv2.wf.buf
    refine ⟨fprintf [59, 10] s2, es', hwe, hadv2.infile, ?_, h4, h5, fun n hn => ?_⟩
    · show s2.outfile ++ _ = _
      rw [hadv2.outfile, h3]
    · obtain ⟨N, rfl⟩ : ∃ N, n = N + 2 := ⟨n - 2, by omega⟩
      have e := hs N (N + 1) (by omega) (by omega)
      rw [hadv2.eq, Res.bind_ok] at e
      have e2 : loopAt 0 N (N + 1) s2 = .ok () s2 :=
        exprLoop_stop _ _ _ (by rw [hla2]; decide)
      rw [e2] at e
      have e3 := e.ok_eq
      unfold drive
      cases hadv : advance s with
      | ok a s1 =>
        rw [hadv, Res.bind_ok] at e3
        rw [Res.bind_ok]
        obtain ⟨hmu1, hp1⟩ := mu_le_of_adv hwf hadv
        have e4 : parseAt 0 N N s1 = .ok () s2 := by
          have hle : (parseAt 0 N N s1).le (parseAt 0 N (N + 1) s1) :=
            Res.le_bind (term_mono (fun _ => Res.le_refl _) N (N + 1) (by omega) s1)
              fun _ s' => exprLoop_mono (fun _ => Res.le_refl _) N (N + 1) (by omega) s'
          rw [e3] at hle
          exact Res.le_eq hle (expr_term (N + 1) hp1 (by omega)).ne_timeout
        by_cases hd : s1.lookahead = DONE
        · rw [parseAt_done N N s1 hd] at e4
          cases e4
        · rw [parseLoop_unfold N s1 hd, e4, Res.bind_ok, matchTok_eq, if_pos hla2]
          refine (advance_fprintf_sim [59, 10] s2 _).trans' ?_
          refine (Sim.rfl' _).seq fun a s3 h3 => Sim.of_eq ?_
          obtain ⟨hmu, hp⟩ := mu_le_of_adv hwe h3
          have : (fprintf [59, 10] s2).infile = rest := hadv2.infile
          rw [this] at hmu
          exact parseLoop_fuel (N + 1) (N + 2) hp (by omega) (by omega)
      | abort m' s1 => rw [hadv] at e3; cases e3
      | fault => rw [hadv] at e3; cases e3
      | timeout => rw [hadv] at e3; cases e3

/-- Translating the single statement `t;`: normal return with the post-order
traversal and `;\n` in the output, or a capacity error that the number and size
of the identifiers of `t` account for. -/
theorem run_tree (t : Tree) (hv : t.valid = true) :
    (∃ s, run (t.render ++ [59]) = .ok () s ∧ s.outfile = t.postorder ++ [59, 10]) ∨
    (∃ m s, run (t.render ++ [59]) = .abort m s ∧ Short kwTable t.ids t.chars m) := by
  have hp := parses_tree t hv 0 (by omega)
  have hw : wrap (decide (t.level < 0)) t.render = t.render := by simp [wrap]
  rw [hw] at hp
  have hi : (State.start (t.render ++ [59])).infile = [] ++ t.render ++ 59 :: [] := by
    simp
  rw [run_drive _ ((t.render ++ [59]).length + 4) (by omega)]
  rcases stmt_step hp [] [] (wf_start _) (Or.inl rfl) hi with
    ⟨m, hm, ha⟩ | ⟨se, es', -, h2, h3, -, -, hs⟩
  · right
    obtain ⟨sA, e⟩ := ha ((t.render ++ [59]).length + 4) (by rw [start_infile])
    exact ⟨m, sA, e, hm⟩
  · left
    have e := hs ((t.render ++ [59]).length + 4) (by rw [start_infile])
    rw [drive_eof _ se (by rw [h2]; rfl)] at e
    refine ⟨_, e.ok_eq, ?_⟩
    show se.outfile = _
    rw [h3, start_outfile, List.nil_append]

/-- A tree with at most 97 identifier leaves taking at most 990 bytes in all is
translated without a capacity error. -/
theorem run_small (t : Tree) (hv : t.valid = true) (h1 : t.ids ≤ 97) (h2 : t.chars ≤ 990) :
    ∃ s, run (t.render ++ [59]) = .ok () s ∧ s.outfile = t.postorder ++ [59, 10] := by
  rcases run_tree t hv with h | ⟨m, s, -, hm⟩
  · exact h
  · exfalso
    rcases hm with ⟨-, hc⟩ | ⟨-, hc⟩
    · have : kwTable.length = 2 := rfl
      omega
    · have : (arena kwTable).length = 8 := rfl
      omega

theorem Tree.level_node (op : Op) (l r : Tree) :
    (Tree.node op l r).level = if op.additive = true then 0 else 1 := rfl

theorem Operand.level (a : Operand) : a.tree.level = 2 := by cases a <;> rfl

theorem Operand.size (a : Operand) (h : a.valid = true) :
    a.tree.ids ≤ 1 ∧ a.tree.chars ≤ 128 := by
  cases a with
  | num ds => exact ⟨Nat.zero_le _, Nat.zero_le _⟩
  | id w =>
    have := (isIdent_spec h).short
    exact ⟨le_refl _, by simp only [Operand.tree, Tree.chars]; omega⟩

/-- The statement `a o1 b o2 c;` for a tree that groups to the left. -/
theorem run_left (a b c : Operand) (o1 o2 : Op) (ha : a.valid = true) (hb : b.valid = true)
    (hc : c.valid = true) (h : o1.additive = false ∨ o2.additive = true) :
    ∃ s, run (a.text ++ [32] ++ o1.text ++ [32] ++ b.text ++ [32] ++ o2.text ++ [32] ++ c.text
        ++ [59]) = .ok () s ∧
      s.outfile = a.out ++ b.out ++ opText o1.tok ++ c.out ++ opText o2.tok ++ [59, 10] := by
  have ha' := a.size ha
  have hb' := b.size hb
  have hc' := c.size hc
  obtain ⟨s, e, ho⟩ := run_small (.node o2 (.node o1 a.tree b.tree) c.tree)
    (by simp only [Tree.valid, Bool.and_eq_true]; exact ⟨⟨ha, hb⟩, hc⟩)
    (by simp only [Tree.ids]; omega) (by simp only [Tree.chars]; omega)
  refine ⟨s, ?_, ?_⟩
  · refine Eq.trans (congrArg run ?_) e
    cases e1 : o1.additive <;> cases e2 : o2.additive <;> simp [e1, e2] at h <;>
      simp [Tree.render, Tree.level_node, Operand.level, wrap, Operand.text, e1, e2]
  · rw [ho]
    simp [Tree.postorder, Operand.out]

/-- The statement `a o1 b o2 c;` for a tree that groups to the right: `o2` binds
tighter than `o1`. -/
theorem run_right (a b c : Operand) (o1 o2 : Op) (ha : a.valid = true) (hb : b.valid = true)
    (hc : c.valid = true) (h1 : o1.additive = true) (h2 : o2.additive = false) :
    ∃ s, run (a.text ++ [32] ++ o1.text ++ [32] ++ b.text ++ [32] ++ o2.text ++ [32] ++ c.text
        ++ [59]) = .ok () s ∧
      s.outfile = a.out ++ b.out ++ c.out ++ opText o2.tok ++ opText o1.tok ++ [59, 10] := by
  have ha' := a.size ha
  have hb' := b.size hb
  have hc' := c.size hc
  obtain ⟨s, e, ho⟩ := run_small (.node o1 a.tree (.node o2 b.tree c.tree))
    (by simp only [Tree.valid, Bool.and_eq_true]; exact ⟨ha, hb, hc⟩)
    (by simp only [Tree.ids]; omega) (by simp only [Tree.chars]; omega)
  refine ⟨s, ?_, ?_⟩
  · refine Eq.trans (congrArg run ?_) e
    simp [Tree.render, Tree.level_node, Operand.level, wrap, Operand.text, h1, h2]
  · rw [ho]
    simp [Tree.postorder, Operand.out]

/-- The statement `(a o1 b) o2 c;`. -/
theorem run_paren (a b c : Operand) (o1 o2 : Op) (ha : a.valid = true) (hb : b.valid = true)
    (hc : c.valid = true) (h1 : o1.additive = true) (h2 : o2.additive = false) :
    ∃ s, run ([40] ++ a.text ++ [32] ++ o1.text ++ [32] ++ b.text ++ [41] ++ [32] ++ o2.text ++
        [32] ++ c.text ++ [59]) = .ok () s ∧
      s.outfile = a.out ++ b.out ++ opText o1.tok ++ c.out ++ opText o2.tok ++ [59, 10] := by
  have ha' := a.size ha
  have hb' := b.size hb
  have hc' := c.size hc
  obtain ⟨s, e, ho⟩ := run_small (.node o2 (.node o1 a.tree b.tree) c.tree)
    (by simp only [Tree.valid, Bool.and_eq_true]; exact ⟨⟨ha, hb⟩, hc⟩)
    (by simp only [Tree.ids]; omega) (by simp only [Tree.chars]; omega)
  refine ⟨s, ?_, ?_⟩
  · refine Eq.trans (congrArg run ?_) e
    simp [Tree.render, Tree.level_node, Operand.level, wrap, Operand.text, h1, h2]
  · rw [ho]
    simp [Tree.postorder, Operand.out]

/-- The statement `a o b;`. -/
theorem run_binary (a b : Operand) (o : Op) (ha : a.valid = true) (hb : b.valid = true) :
    ∃ s, run (a.text ++ [32] ++ o.text ++ [32] ++ b.text ++ [59]) = .ok () s ∧
      s.outfile = a.out ++ b.out ++ opText o.tok ++ [59, 10] := by
  have ha' := a.size ha
  have hb' := b.size hb
  obtain ⟨s, e, ho⟩ := run_small (.node o a.tree b.tree)
    (by simp only [Tree.valid, Bool.and_eq_true]; exact ⟨ha, hb⟩)
    (by simp only [Tree.ids]; omega) (by simp only [Tree.chars]; omega)
  refine ⟨s, ?_, ?_⟩
  · refine Eq.trans (congrArg run ?_) e
    cases e1 : o.additive <;>
      simp [Tree.render, Tree.level_node, Operand.level, wrap, Operand.text, e1]
  · rw [ho]
    simp [Tree.postorder, Operand.out]

theorem scanDigits_nonneg (l : List Byte) (acc : Int) (h : 0 ≤ acc) : 0 ≤ (scanDigits l acc).1 := by
  induction l generalizing acc with
  | nil => exact h
  | cons c cs ih =>
    unfold scanDigits
    split
    · rename_i hd
      simp only [isdigit, decide_eq_true_eq] at hd
      exact ih _ (by omega)
    · exact h

theorem fmtInt_shape (v : Int) (h : 0 ≤ v) :
    ∃ d r, fmtInt v = d :: r ∧ isdigit d.val = true := by
  have e : fmtInt v = decDigits (v.natAbs + 1) v.natAbs := by
    unfold fmtInt
    rw [if_neg (by omega)]
  have hne : decDigits (v.natAbs + 1) v.natAbs ≠ [] := by
    unfold decDigits
    split <;> simp
  cases hd : decDigits (v.natAbs + 1) v.natAbs with
  | nil => exact absurd hd hne
  | cons d r =>
    refine ⟨d, r, by rw [e, hd], ?_⟩
    exact decDigits_digit _ _ d (by rw [hd]; exact List.mem_cons_self _ _)

/-- What `emit` writes for an operand starts with a digit (a number), or is the
name itself (an identifier). -/
theorem Operand.out_shape (c : Operand) (hv : c.valid = true) :
    (∃ d r, c.out = d :: r ++ [32] ∧ isdigit d.val = true) ∨
    (∃ x r, c = .id (x :: r) ∧ c.out = x :: r ++ [32] ∧ ∀ y ∈ x :: r, aln y = true) := by
  cases c with
  | num ds =>
    left
    obtain ⟨d, r, e, hd⟩ := fmtInt_shape (numVal ds) (scanDigits_nonneg ds 0 (le_refl _))
    exact ⟨d, r, by show fmtInt (numVal ds) ++ [32] = _; rw [e], hd⟩
  | id w =>
    right
    obtain ⟨x, r, e, hx, hr⟩ := (isIdent_spec hv).shape
    subst e
    refine ⟨x, r, rfl, rfl, ?_⟩
    intro y hy
    rcases List.mem_cons.mp hy with rfl | hy
    · exact isalpha_isalnum _ hx
    · exact hr y hy

/-- The two orders `o1 c o2` and `c o2 o1` of the emitted texts coincide only
for the operator `div` twice around the identifier `DIV`. -/
theorem swap_eq (c : Operand) (o1 o2 : Op) (hv : c.valid = true) (t : List Byte)
    (h : opText o1.tok ++ c.out ++ opText o2.tok ++ t = c.out ++ opText o2.tok ++ opText o1.tok ++ t) :
    o1 = .div ∧ o2 = .div ∧ c = .id [68, 73, 86] := by
  rcases c.out_shape hv with ⟨d, r, e, hd⟩ | ⟨x, r, rfl, e, hx⟩
  · rw [e] at h
    exfalso
    cases o1 <;> simp [opText, Op.tok, DIV, MOD, toByte] at h <;>
      (obtain ⟨rfl, -⟩ := h; revert hd; decide)
  · rw [e] at h
    have hx0 := hx x (List.mem_cons_self _ _)
    generalize hO : opText o2.tok = O2 at h
    cases o1 <;> simp [opText, Op.tok, DIV, MOD, toByte] at h <;>
      try (exfalso; obtain ⟨rfl, -⟩ := h; revert hx0; decide)
    obtain ⟨rfl, h⟩ := h
    rcases r with _ | ⟨y, r⟩
    · simp at h
    simp only [List.cons_append, List.cons.injEq] at h
    obtain ⟨rfl, h⟩ := h
    rcases r with _ | ⟨z, r⟩
    · simp at h
    simp only [List.cons_append, List.cons.injEq] at h
    obtain ⟨rfl, h⟩ := h
    rcases r with _ | ⟨u, r⟩
    · simp only [List.nil_append, List.cons.injEq, true_and] at h
      subst hO
      refine ⟨rfl, ?_, rfl⟩
      cases o2 <;> simp [opText, Op.tok, DIV, MOD, toByte] at h ⊢
    · simp only [List.cons_append, List.cons.injEq] at h
      obtain ⟨rfl, -⟩ := h
      exact absurd (hx 32 (by simp)) (by decide)

/-! ## The token stream and the grammar -/

theorem lexAll_toks (n : Nat) (s : State) (ts : List Int) (h : lexAll n s = some ts) :
    Toks s ts := by
  induction n generalizing s ts with
  | zero => cases h
  | succ n ih =>
    unfold lexAll at h
    split at h
    · rename_i a s' e
      split at h
      · rename_i hd
        cases h
        exact .done s s' e hd
      · rename_i hd
        cases hl : lexAll n s' with
        | none => rw [hl] at h; cases h
        | some r =>
          rw [hl] at h
          cases h
          exact .cons s s' r e hd (ih s' r hl)
    · cases h

theorem Toks.of_fprintf {s : State} {ts : List Int} (h : Toks s ts) (text : List Byte) :
    Toks (Sc.fprintf text s) ts := by
  induction h with
  | done s s' h hd =>
    exact .done _ (Sc.fprintf text s') (by rw [advance_fprintf, h]; rfl) hd
  | cons s s' ts h hd _ ih =>
    exact .cons _ (Sc.fprintf text s') ts (by rw [advance_fprintf, h]; rfl) hd ih

theorem LA.with_fprintf {s : State} {ts : List Int} (h : LA s ts) (text : List Byte) :
    LA (Sc.fprintf text s) ts := by
  rcases h with h | ⟨h, r, e, ht⟩
  · exact Or.inl h
  · exact Or.inr ⟨h, r, e, ht.of_fprintf text⟩

theorem Toks.start {s : State} {ts : List Int} (h : Toks s ts) :
    ∃ s1, advance s = .ok () s1 ∧ LA s1 ts := by
  cases h with
  | done _ s' h hd => exact ⟨s', h, Or.inl ⟨hd, rfl⟩⟩
  | cons _ s' ts h hd ht => exact ⟨s', h, Or.inr ⟨hd, ts, rfl, ht⟩⟩

theorem LA.first {s : State} {t : Int} {r : List Int} (h : LA s (t :: r)) :
    s.lookahead = t ∧ t ≠ DONE ∧ Toks s r := by
  rcases h with ⟨-, h⟩ | ⟨hd, r', e, ht⟩
  · cases h
  · simp only [List.cons.injEq] at e
    obtain ⟨rfl, rfl⟩ := e
    exact ⟨rfl, hd, ht⟩

theorem LA.next {s : State} {t : Int} {r : List Int} (h : LA s (t :: r)) :
    ∃ s1, advance s = .ok () s1 ∧ LA s1 r :=
  h.first.2.2.start

theorem LA.cases {s : State} {ts : List Int} (h : LA s ts) :
    (s.lookahead = DONE ∧ ts = []) ∨ (s.lookahead ≠ DONE ∧ ∃ r, ts = s.lookahead :: r) := by
  rcases h with h | ⟨hd, r, e, -⟩
  · exact Or.inl h
  · exact Or.inr ⟨hd, r, e⟩

theorem Traced.andNext {k k' : Nat} {ts ts' : List Int} {r : Res Unit}
    {f : Unit → State → Res Unit} (h : Traced k ts r)
    (hf : ∀ s m, LA s m → Acc k ts m → Traced k' ts' (f () s)) : Traced k' ts' (r.bind f) := by
  cases h with
  | ok a s m hs ha => exact hf s m hs ha
  | abort m s hm => exact .abort m s hm
  | fault => exact .fault
  | timeout => exact .timeout

theorem Traced.map {k k' : Nat} {ts ts' : List Int} {r : Res Unit} (h : Traced k ts r)
    (hf : ∀ m, Acc k ts m → Acc k' ts' m) : Traced k' ts' r := by
  cases h with
  | ok a s m hs ha => exact .ok a s m hs (hf m ha)
  | abort m s hm => exact .abort m s hm
  | fault => exact .fault
  | timeout => exact .timeout

theorem emit_cases (t tval : Int) (s : State) :
    (∃ text, emit t tval s = .ok () (fprintf text s)) ∨ emit t tval s = .fault := by
  unfold emit
  split
  · exact Or.inl ⟨_, rfl⟩
  split
  · exact Or.inl ⟨_, rfl⟩
  split
  · exact Or.inl ⟨_, rfl⟩
  split
  · exact Or.inl ⟨_, rfl⟩
  split
  · split
    · exact Or.inr rfl
    · exact Or.inl ⟨_, rfl⟩
  · exact Or.inl ⟨_, rfl⟩

/-- The call `match(t)` with tokens `ts` ahead. -/
theorem matchTok_traced (t : Int) (hne : t ≠ DONE) {s : State} {ts : List Int} (h : LA s ts) :
    (∃ r s1, ts = t :: r ∧ matchTok t s = .ok () s1 ∧ LA s1 r) ∨
    (∃ m, Syn m ∧ matchTok t s = .abort m s) := by
  rw [matchTok_eq]
  by_cases ht : s.lookahead = t
  · rw [if_pos ht]
    rcases h with ⟨hd, rfl⟩ | ⟨hd, r, rfl, htk⟩
    · exact absurd (ht ▸ hd) hne
    · obtain ⟨s1, e, h1⟩ := htk.start
      exact Or.inl ⟨r, s1, by rw [ht], e, h1⟩
  · rw [if_neg ht]
    exact Or.inr ⟨_, Or.inr rfl, rfl⟩

theorem factor_traced (rec : State → Res Unit)
    (hrec : ∀ s ts, LA s ts → Traced 0 ts (rec s)) {s : State} {ts : List Int} (h : LA s ts) :
    Traced 2 ts (factor rec s) := by
  unfold factor
  split
  · rename_i h40
    rcases matchTok_traced 40 (by decide) h with ⟨r, s1, rfl, e, h1⟩ | ⟨m, hm, e⟩
    · rw [e, Res.bind_ok]
      refine (hrec s1 r h1).andNext fun s2 r2 h2 a2 => ?_
      rcases matchTok_traced 41 (by decide) h2 with ⟨r3, s3, rfl, e3, h3⟩ | ⟨m, hm, e3⟩
      · rw [e3]
        exact .ok _ _ r3 h3 (.paren r r3 a2)
      · rw [e3]
        exact .abort _ _ hm
    · rw [e]
      exact .abort _ _ hm
  split
  · rename_i hnum
    rw [emit_num, Res.bind_ok]
    rcases matchTok_traced NUM (by decide) (h.with_fprintf (fmtInt s.tokenval ++ [32])) with
      ⟨r, s1, rfl, e, h1⟩ | ⟨m, hm, e⟩
    · rw [e]
      exact .ok _ _ r h1 (.num r)
    · rw [e]
      exact .abort _ _ hm
  split
  · rename_i hid
    rcases emit_cases ID s.tokenval s with ⟨text, e0⟩ | e0
    · rw [e0, Res.bind_ok]
      rcases matchTok_traced ID (by decide) (h.with_fprintf text) with
        ⟨r, s1, rfl, e, h1⟩ | ⟨m, hm, e⟩
      · rw [e]
        exact .ok _ _ r h1 (.id r)
      · rw [e]
        exact .abort _ _ hm
    · rw [e0]
      exact .fault
  · exact .abort _ _ (Or.inl rfl)

theorem termLoop_traced (rec : State → Res Unit)
    (hrec : ∀ s ts, LA s ts → Traced 0 ts (rec s)) (m : Nat) {s : State} {ts : List Int}
    (h : LA s ts) : Traced 3 ts (termLoop rec m s) := by
  induction m generalizing s ts with
  | zero => exact .timeout
  | succ m ih =>
    by_cases hop : s.lookahead = 42 ∨ s.lookahead = 47 ∨ s.lookahead = DIV ∨ s.lookahead = MOD
    · rw [termLoop_step rec m s hop]
      rcases h.cases with ⟨hd, -⟩ | ⟨hd, r, rfl⟩
      · rw [hd] at hop
        exact absurd hop (by decide)
      · obtain ⟨s1, e, h1⟩ := h.next
        rw [e, Res.bind_ok]
        refine (factor_traced rec hrec h1).andNext fun s2 r2 h2 a2 => ?_
        exact (ih (h2.with_fprintf _)).map fun r3 a3 => .tstep _ r r2 r3 hop a2 a3
    · rw [termLoop_stop rec m s hop]
      refine .ok _ _ ts h (.tstop ts ?_)
      rintro t r rfl
      rw [← h.first.1]
      exact hop

theorem term_traced (rec : State → Res Unit)
    (hrec : ∀ s ts, LA s ts → Traced 0 ts (rec s)) (m : Nat) {s : State} {ts : List Int}
    (h : LA s ts) : Traced 1 ts (term rec m s) := by
  unfold term
  refine (factor_traced rec hrec h).andNext fun s2 r2 h2 a2 => ?_
  exact (termLoop_traced rec hrec m h2).map fun r3 a3 => .term ts r2 r3 a2 a3

theorem exprLoop_traced (rec : State → Res Unit)
    (hrec : ∀ s ts, LA s ts → Traced 0 ts (rec s)) (m : Nat) {s : State} {ts : List Int}
    (h : LA s ts) : Traced 4 ts (exprLoop rec m s) := by
  induction m generalizing s ts with
  | zero => exact .timeout
  | succ m ih =>
    by_cases hop : s.lookahead = 43 ∨ s.lookahead = 45
    · rw [exprLoop_step rec m s hop]
      rcases h.cases with ⟨hd, -⟩ | ⟨hd, r, rfl⟩
      · rw [hd] at hop
        exact absurd hop (by decide)
      · obtain ⟨s1, e, h1⟩ := h.next
        rw [e, Res.bind_ok]
        refine (term_traced rec hrec m h1).andNext fun s2 r2 h2 a2 => ?_
        exact (ih (h2.with_fprintf _)).map fun r3 a3 => .estep _ r r2 r3 hop a2 a3
    · rw [exprLoop_stop rec m s hop]
      refine .ok _ _ ts h (.estop ts ?_)
      rintro t r rfl
      rw [← h.first.1]
      exact hop

theorem expr_traced (n : Nat) {s : State} {ts : List Int} (h : LA s ts) :
    Traced 0 ts (expr n s) := by
  induction n generalizing s ts with
  | zero => exact .timeout
  | succ n ih =>
    unfold expr
    refine (term_traced (expr n) (fun s ts h => ih h) n h).andNext fun s2 r2 h2 a2 => ?_
    exact (exprLoop_traced (expr n) (fun s ts h => ih h) n h2).map
      fun r3 a3 => .expr ts r2 r3 a2 a3

theorem parseLoop_traced (n : Nat) {s : State} {ts : List Int} (h : LA s ts) :
    Traced 5 ts (parseLoop n s) := by
  induction n generalizing s ts with
  | zero => exact .timeout
  | succ n ih =>
    unfold parseLoop
    split
    · rename_i hd
      have hne : ts ≠ [] := by
        rcases h.cases with ⟨hd', -⟩ | ⟨-, r, rfl⟩
        · exact absurd hd' hd
        · exact List.cons_ne_nil _ _
      refine (expr_traced n h).andNext fun s2 r2 h2 a2 => ?_
      rcases matchTok_traced 59 (by decide) h2 with ⟨r3, s3, rfl, e3, h3⟩ | ⟨m, hm, e3⟩
      · rw [e3, Res.bind_ok]
        exact (ih (h3.with_fprintf _)).map fun r4 a4 => .stmt ts r3 r4 hne a2 a4
      · rw [e3]
        exact .abort _ _ hm
    · rename_i hd
      have hd' : s.lookahead = DONE := by
        by_contra hc
        exact hd hc
      rcases h.cases with ⟨-, rfl⟩ | ⟨hx, -⟩
      · exact .ok _ _ [] h .done
      · exact absurd hd' hx

/-- Reading the next token in a well-formed parser state with a token ahead. -/
theorem LA.read {s : State} {es : Table} {t : Int} {r : List Int} (hp : PWF s es)
    (h : LA s (t :: r)) : ∃ s1 es1, advance s = .ok () s1 ∧ PWF s1 es1 ∧ LA s1 r := by
  obtain ⟨s1, e, h1⟩ := h.next
  obtain ⟨es1, hk⟩ := advance_determ hp.wf e
  exact ⟨s1, es1, e, hk.pwf, h1⟩

theorem expr_fuel (n n' : Nat) (s s' : State) (h : expr n s = .ok () s') (hn : n ≤ n') :
    expr n' s = .ok () s' := by
  rcases expr_mono n n' hn s with e | e
  · rw [e] at h; cases h
  · rw [← e, h]

/-- Whatever `Acc` relates, the parser does: started in a well-formed state
with tokens `ts` ahead, the call returns with `r` ahead, for every sufficient
fuel. -/
theorem acc_run {k : Nat} {ts r : List Int} (h : Acc k ts r) :
    ∀ (s : State) (es : Table), PWF s es → LA s ts →
      ∃ s' es', PWF s' es' ∧ LA s' r ∧
        ∃ n0, ∀ N m, n0 ≤ N → n0 ≤ m → conc k N m s = .ok () s' := by
  induction h with
  | num r =>
    intro s es hp hl
    obtain ⟨s1, es1, e, hp1, h1⟩ := LA.read (hp.fprintf (fmtInt s.tokenval ++ [32]))
      (hl.with_fprintf (fmtInt s.tokenval ++ [32]))
    refine ⟨s1, es1, hp1, h1, 0, fun N m _ _ => ?_⟩
    show factor (expr N) s = _
    rw [factor_num _ _ hl.first.1, e]
  | id r =>
    intro s es hp hl
    obtain ⟨w, hw, -⟩ := hp.idtext hl.first.1
    obtain ⟨s1, es1, e, hp1, h1⟩ := LA.read (hp.fprintf (w ++ [32])) (hl.with_fprintf (w ++ [32]))
    refine ⟨s1, es1, hp1, h1, 0, fun N m _ _ => ?_⟩
    show factor (expr N) s = _
    rw [factor_id _ _ w hl.first.1 hw, e]
  | paren ts r _ ih =>
    intro s es hp hl
    obtain ⟨s1, es1, e1, hp1, h1⟩ := LA.read hp hl
    obtain ⟨s2, es2, hp2, h2, n0, hn0⟩ := ih s1 es1 hp1 h1
    obtain ⟨s3, es3, e3, hp3, h3⟩ := LA.read hp2 h2
    refine ⟨s3, es3, hp3, h3, n0 + 1, fun N m hN _ => ?_⟩
    show factor (expr N) s = _
    obtain ⟨N', rfl⟩ : ∃ N', N = N' + 1 := ⟨N - 1, by omega⟩
    have e2 : expr (N' + 1) s1 = .ok () s2 := hn0 N' N' (by omega) (by omega)
    rw [factor_paren _ _ hl.first.1, e1, Res.bind_ok, e2, Res.bind_ok, matchTok_eq,
      if_pos h2.first.1, e3]
  | tstop ts hstop =>
    intro s es hp hl
    refine ⟨s, es, hp, hl, 1, fun N m _ hm => ?_⟩
    obtain ⟨m', rfl⟩ : ∃ m', m = m' + 1 := ⟨m - 1, by omega⟩
    refine termLoop_stop _ _ _ ?_
    rcases hl.cases with ⟨hd, -⟩ | ⟨-, r, rfl⟩
    · rw [hd]; decide
    · exact hstop _ r rfl
  | tstep op ts m r hop _ _ ih1 ih2 =>
    intro s es hp hl
    obtain ⟨s1, es1, e1, hp1, h1⟩ := LA.read hp hl
    obtain ⟨s2, es2, hp2, h2, n1, hn1⟩ := ih1 s1 es1 hp1 h1
    obtain ⟨s3, es3, hp3, h3, n2, hn2⟩ := ih2 _ es2 (hp2.fprintf (opText s.lookahead))
      (h2.with_fprintf (opText s.lookahead))
    refine ⟨s3, es3, hp3, h3, max n1 n2 + 1, fun N m' hN hm => ?_⟩
    obtain ⟨m'', rfl⟩ : ∃ m'', m' = m'' + 1 := ⟨m' - 1, by omega⟩
    show termLoop (expr N) (m'' + 1) s = _
    have ef : factor (expr N) s1 = .ok () s2 := hn1 N m'' (by omega) (by omega)
    have el : termLoop (expr N) m'' (fprintf (opText s.lookahead) s2) = .ok () s3 :=
      hn2 N m'' (by omega) (by omega)
    rw [termLoop_step _ _ _ (by rw [hl.first.1]; exact hop), e1, Res.bind_ok, ef, Res.bind_ok, el]
  | term ts m r _ _ ih1 ih2 =>
    intro s es hp hl
    obtain ⟨s2, es2, hp2, h2, n1, hn1⟩ := ih1 s es hp hl
    obtain ⟨s3, es3, hp3, h3, n2, hn2⟩ := ih2 s2 es2 hp2 h2
    refine ⟨s3, es3, hp3, h3, max n1 n2, fun N m' hN hm => ?_⟩
    show (factor (expr N) s).bind (fun _ s => termLoop (expr N) m' s) = _
    have ef : factor (expr N) s = .ok () s2 := hn1 N m' (by omega) (by omega)
    have el : termLoop (expr N) m' s2 = .ok () s3 := hn2 N m' (by omega) (by omega)
    rw [ef, Res.bind_ok, el]
  | estop ts hstop =>
    intro s es hp hl
    refine ⟨s, es, hp, hl, 1, fun N m _ hm => ?_⟩
    obtain ⟨m', rfl⟩ : ∃ m', m = m' + 1 := ⟨m - 1, by omega⟩
    refine exprLoop_stop _ _ _ ?_
    rcases hl.cases with ⟨hd, -⟩ | ⟨-, r, rfl⟩
    · rw [hd]; decide
    · exact hstop _ r rfl
  | estep op ts m r hop _ _ ih1 ih2 =>
    intro s es hp hl
    obtain ⟨s1, es1, e1, hp1, h1⟩ := LA.read hp hl
    obtain ⟨s2, es2, hp2, h2, n1, hn1⟩ := ih1 s1 es1 hp1 h1
    obtain ⟨s3, es3, hp3, h3, n2, hn2⟩ := ih2 _ es2 (hp2.fprintf (opText s.lookahead))
      (h2.with_fprintf (opText s.lookahead))
    refine ⟨s3, es3, hp3, h3, max n1 n2 + 1, fun N m' hN hm => ?_⟩
    obtain ⟨m'', rfl⟩ : ∃ m'', m' = m'' + 1 := ⟨m' - 1, by omega⟩
    show exprLoop (expr N) (m'' + 1) s = _
    have ef : term (expr N) m'' s1 = .ok () s2 := hn1 N m'' (by omega) (by omega)
    have el : exprLoop (expr N) m'' (fprintf (opText s.lookahead) s2) = .ok () s3 :=
      hn2 N m'' (by omega) (by omega)
    rw [exprLoop_step _ _ _ (by rw [hl.first.1]; exact hop), e1, Res.bind_ok, ef, Res.bind_ok, el]
  | expr ts m r _ _ ih1 ih2 =>
    intro s es hp hl
    obtain ⟨s2, es2, hp2, h2, n1, hn1⟩ := ih1 s es hp hl
    obtain ⟨s3, es3, hp3, h3, n2, hn2⟩ := ih2 s2 es2 hp2 h2
    refine ⟨s3, es3, hp3, h3, max n1 n2, fun N m' hN hm => ?_⟩
    show (term (expr N) m' s).bind (fun _ s => exprLoop (expr N) m' s) = _
    have ef : term (expr N) m' s = .ok () s2 := hn1 N m' (by omega) (by omega)
    have el : exprLoop (expr N) m' s2 = .ok () s3 := hn2 N m' (by omega) (by omega)
    rw [ef, Res.bind_ok, el]
  | done =>
    intro s es hp hl
    refine ⟨s, es, hp, hl, 1, fun N m _ hm => ?_⟩
    obtain ⟨m', rfl⟩ : ∃ m', m = m' + 1 := ⟨m - 1, by omega⟩
    show parseLoop (m' + 1) s = _
    have hd : s.lookahead = DONE := by
      rcases hl.cases with ⟨hd, -⟩ | ⟨-, r, e⟩
      · exact hd
      · cases e
    unfold parseLoop
    rw [if_neg (by rw [hd]; decide)]
  | stmt ts m r hne _ _ ih1 ih2 =>
    intro s es hp hl
    obtain ⟨s2, es2, hp2, h2, n1, hn1⟩ := ih1 s es hp hl
    obtain ⟨s3, es3, e3, hp3, h3⟩ := LA.read hp2 h2
    obtain ⟨s4, es4, hp4, h4, n2, hn2⟩ := ih2 _ es3 (hp3.fprintf [59, 10]) (h3.with_fprintf [59, 10])
    refine ⟨s4, es4, hp4, h4, max n1 n2 + 2, fun N m' _ hm => ?_⟩
    obtain ⟨m'', rfl⟩ : ∃ m'', m' = m'' + 2 := ⟨m' - 2, by omega⟩
    show parseLoop (m'' + 2) s = _
    have hd : s.lookahead ≠ DONE := by
      rcases hl.cases with ⟨-, e⟩ | ⟨hd, -⟩
      · exact absurd e hne
      · exact hd
    have ef : parseAt 0 m'' m'' s = .ok () s2 := hn1 m'' m'' (by omega) (by omega)
    have el : parseLoop (m'' + 1) (fprintf [59, 10] s3) = .ok () s4 :=
      hn2 (m'' + 1) (m'' + 1) (by omega) (by omega)
    rw [parseLoop_unfold _ _ hd, ef, Res.bind_ok, matchTok_eq, if_pos h2.first.1, e3,
      Res.bind_ok, el]

theorem acc_sound {k : Nat} {ts r : List Int} (h : Acc k ts r) : Sound k ts r := by
  induction h with
  | num r => exact ⟨[NUM], rfl, .num⟩
  | id r => exact ⟨[ID], rfl, .id⟩
  | paren ts r _ ih =>
    obtain ⟨c, rfl, hc⟩ := ih
    exact ⟨40 :: c ++ [41], by simp, .paren c hc⟩
  | tstop ts _ => exact ⟨[], rfl, fun t0 h0 => by rw [List.append_nil]; exact h0⟩
  | tstep op ts m r hop _ _ ih1 ih2 =>
    obtain ⟨c1, rfl, h1⟩ := ih1
    obtain ⟨c2, rfl, h2⟩ := ih2
    refine ⟨op :: c1 ++ c2, by simp, fun t0 h0 => ?_⟩
    have := h2 _ (Gram.mul t0 op c1 h0 hop h1)
    simpa using this
  | term ts m r _ _ ih1 ih2 =>
    obtain ⟨c1, rfl, h1⟩ := ih1
    obtain ⟨c2, rfl, h2⟩ := ih2
    exact ⟨c1 ++ c2, by simp, h2 _ (.factor c1 h1)⟩
  | estop ts _ => exact ⟨[], rfl, fun t0 h0 => by rw [List.append_nil]; exact h0⟩
  | estep op ts m r hop _ _ ih1 ih2 =>
    obtain ⟨c1, rfl, h1⟩ := ih1
    obtain ⟨c2, rfl, h2⟩ := ih2
    refine ⟨op :: c1 ++ c2, by simp, fun t0 h0 => ?_⟩
    have := h2 _ (Gram.add t0 op c1 h0 hop h1)
    simpa using this
  | expr ts m r _ _ ih1 ih2 =>
    obtain ⟨c1, rfl, h1⟩ := ih1
    obtain ⟨c2, rfl, h2⟩ := ih2
    exact ⟨c1 ++ c2, by simp, h2 _ (.term c1 h1)⟩
  | done => exact ⟨rfl, .nil⟩
  | stmt ts m r _ _ _ ih1 ih2 =>
    obtain ⟨c, rfl, hc⟩ := ih1
    exact ⟨ih2.1, .cons c m hc ih2.2⟩

theorem gram_complete {k : Nat} {c : List Int} (h : Gram k c) : Complete k c := by
  induction h with
  | num => exact fun r => .num r
  | id => exact fun r => .id r
  | paren e _ ih =>
    intro r
    have h1 : Acc 0 (e ++ 41 :: r) (41 :: r) :=
      ih _ _ (by rintro t x e; cases e; decide) (.estop _ (by rintro t x e; cases e; decide))
    have := Acc.paren _ _ h1
    simpa using this
  | factor f _ ih => exact fun r r' h => .term _ r r' (ih r) h
  | mul t op f _ hop _ iht ihf =>
    intro r r' h
    have := iht _ r' (.tstep op (f ++ r) r r' hop (ihf r) h)
    simpa using this
  | term t _ ih => exact fun r r' hr h => .expr _ r r' (ih r r (.tstop r hr)) h
  | add e op t _ hop _ ihe iht =>
    intro r r' hr h
    have hm : ∀ t' x, op :: (t ++ r) = t' :: x → ¬ mulop t' := by
      rintro t' x e
      cases e
      rcases hop with rfl | rfl <;> decide
    have := ihe _ r' hm (.estep op (t ++ r) r r' hop (iht r r (.tstop r hr)) h)
    simpa using this

theorem stmts_complete {ts : List Int} (h : Stmts ts) : Acc 5 ts [] := by
  induction h with
  | nil => exact .done
  | cons e r he _ ih =>
    refine .stmt _ r [] (by simp) ?_ ih
    exact gram_complete he _ _ (by rintro t x e; cases e; decide)
      (.estop _ (by rintro t x e; cases e; decide))

/-- The loop of `parse` accepts exactly the statement lists of the grammar. -/
theorem acc_iff_stmts (ts : List Int) : (∃ r, Acc 5 ts r) ↔ Stmts ts :=
  ⟨fun ⟨_, h⟩ => (acc_sound h).2, fun h => ⟨[], stmts_complete h⟩⟩

theorem run_ne_fault (input : List Byte) : run input ≠ .fault := by
  intro e
  have h := output_alphabet input
  rw [e] at h
  cases h

/-- With `ts` the token sequence of the input: the run returns normally exactly
if `ts` is a statement list of the grammar, and exits with a syntax error
otherwise. -/
theorem run_tokens (input : List Byte) (ts : List Int) (h : tokens input = some ts) :
    ((∃ s, run input = .ok () s) ↔ Stmts ts) ∧
    (¬ Stmts ts → ∃ m s, run input = .abort m s ∧ Syn m) := by
  obtain ⟨s1, e1, h1⟩ := (lexAll_toks _ _ _ h).start
  obtain ⟨es1, hk⟩ := advance_determ (wf_start input) e1
  have hrun : run input = parseLoop (s1.infile.length + 3) s1 := by
    rw [run_eq, e1, Res.bind_ok]
  have htr := parseLoop_traced (s1.infile.length + 3) h1
  have hfwd : ∀ s, run input = .ok () s → Stmts ts := by
    intro s e
    rw [← hrun, e] at htr
    cases htr with
    | ok _ _ r _ ha => exact (acc_sound ha).2
  refine ⟨⟨fun ⟨s, e⟩ => hfwd s e, fun hs => ?_⟩, fun hns => ?_⟩
  · obtain ⟨s', es', -, -, n0, hn0⟩ := acc_run (stmts_complete hs) s1 es1 hk.pwf h1
    have hmu : mu s1 ≤ s1.infile.length + 1 := by unfold mu; split <;> omega
    have e := hn0 (max n0 (s1.infile.length + 3)) (max n0 (s1.infile.length + 3)) (by omega)
      (by omega)
    refine ⟨s', ?_⟩
    rw [hrun, parseLoop_fuel (s1.infile.length + 3) (max n0 (s1.infile.length + 3))
      ⟨es1, hk.pwf⟩ (by omega) (by omega)]
    exact e
  · have hnt := run_ne_timeout input
    have hnf := run_ne_fault input
    rw [hrun] at hnt hnf
    rw [hrun]
    generalize parseLoop (s1.infile.length + 3) s1 = res at htr hnt hnf
    cases htr with
    | ok a s r _ ha => exact absurd (acc_sound ha).2 hns
    | abort m s hm => exact ⟨m, s, rfl, hm⟩
    | fault => exact absurd rfl hnf
    | timeout => exact absurd rfl hnt

theorem Res.not_ok_of_output {r : Res Unit} (h : r.output = none) : ¬ ∃ s, r = .ok () s := by
  rintro ⟨s, rfl⟩
  cases h

theorem Res.ok_of_output {r : Res Unit} {o : List Byte} (h : r.output = some o) :
    ∃ s, r = .ok () s ∧ s.outfile = o := by
  cases r with
  | ok a s =>
    simp only [Res.output, Option.some.injEq] at h
    exact ⟨s, rfl, h⟩
  | abort m s => cases h
  | fault => cases h
  | timeout => cases h

/-! ## The line of a syntax error -/

theorem Res.abort_of_errmsg {r : Res Unit} {m : String} (h : r.errmsg = some m) :
    ∃ s, r = .abort m s := by
  cases r with
  | abort m' s =>
    simp only [Res.errmsg, Option.some.injEq] at h
    exact ⟨s, by rw [h]⟩
  | ok a s => cases h
  | fault => cases h
  | timeout => cases h

theorem AtToken.advance {input : List Byte} {s s' : State} {es es' : Table}
    (h : AtToken input s) (hk : AdvOk s s' es es') : AtToken input s' := by
  obtain ⟨pre, tk, e1, e2, e3, -, -, -⟩ := h
  obtain ⟨sk, tk', f1, f2, f3, f4, f5, f6⟩ := hk.split
  refine ⟨pre ++ tk ++ sk, tk', ?_, ?_, f3, f4, f5, f6⟩
  · rw [e1, f1]; simp
  · rw [f2, e2]
    have : tk.count 10 = 0 := List.count_eq_zero_of_not_mem e3
    simp only [List.count_append, this]
    push_cast
    ring

/-- At every syntax error of a run the lookahead token is located as `AtToken`
says. -/
theorem run_atToken (input : List Byte) :
    Holds (AtToken input) (fun m s => Syn m → AtToken input s) (run input) := by
  have hI : Inv (AtToken input) (fun m s => Syn m → AtToken input s) := by
    constructor
    · intro s s' es es' _ hj _ hk
      exact hj.advance hk
    · intro s s' es m _ _ _ hk hm
      exfalso
      rcases hk.msg with rfl | rfl | rfl <;> rcases hm with h | h <;> revert h <;> decide
    · intro s es text _ hj _
      exact hj
    · intro s es m _ hj _ _
      exact hj
  refine run_inv_first hI input ?_ ?_
  · intro s1 es1 _ hk
    obtain ⟨sk, tk', f1, f2, f3, f4, f5, f6⟩ := hk.split
    refine ⟨sk, tk', ?_, ?_, f3, f4, f5, f6⟩
    · rw [← f1]; rfl
    · rw [f2]; rfl
  · intro m s1 _ hk hm
    exfalso
    rcases hk.msg with rfl | rfl | rfl <;> rcases hm with h | h <;> revert h <;> decide

/-! ## Two runs side by side -/

theorem Rel.chain {R : State → State → Prop} {A : String → State → Res Unit → Prop}
    (hA : ∀ (m : String) (s : State) (r : Res Unit) (k : Unit → State → Res Unit),
    A m s r → A m s (r.bind k))
    {r1 r2 : Res Unit} {k1 k2 : Unit → State → Res Unit} (h : Rel R A r1 r2)
    (hk : ∀ s t, R s t → Rel R A (k1 () s) (k2 () t)) : Rel R A (r1.bind k1) (r2.bind k2) := by
  cases h with
  | ok s t h => exact hk s t h
  | abort m s _ h => exact .abort m s _ (hA m s r2 k2 h)
  | fault _ => exact .fault _
  | timeout _ => exact .timeout _

section

variable {R : State → State → Prop} {A : String → State → Res Unit → Prop} (hR : Rule R A)

include hR

theorem matchTok_rel (x : Int) (h59 : x ≠ 59) (hd : x ≠ DONE) {s t : State} (h : R s t) :
    Rel R A (matchTok x s) (matchTok x t) := by
  rw [matchTok_eq, matchTok_eq, hR.la s t h]
  by_cases hx : s.lookahead = x
  · rw [if_pos hx, if_pos hx]
    exact hR.adv s t h (by rw [hx]; exact h59) (by rw [hx]; exact hd)
  · rw [if_neg hx, if_neg hx]
    exact .abort _ _ _ (hR.syn s t _ h (Or.inr rfl))

theorem emit_rel {s t : State} (h : R s t) (hl : s.lookahead = NUM ∨ s.lookahead = ID)
    (k1 k2 : Unit → State → Res Unit)
    (hk : ∀ s t, R s t → Rel R A (k1 () s) (k2 () t)) :
    Rel R A ((emit s.lookahead s.tokenval s).bind k1)
      ((emit s.lookahead t.tokenval t).bind k2) := by
  rcases emit_cases s.lookahead s.tokenval s with ⟨text, e⟩ | e
  · obtain ⟨t', e2, h'⟩ := hR.operand s t h hl _ e
    rw [e, e2, Res.bind_ok, Res.bind_ok]
    exact hk _ _ h'
  · rw [e]
    exact .fault _

theorem factor_rel (rec1 rec2 : State → Res Unit)
    (hrec : ∀ s t, R s t → Rel R A (rec1 s) (rec2 t)) {s t : State} (h : R s t) :
    Rel R A (factor rec1 s) (factor rec2 t) := by
  unfold factor
  rw [hR.la s t h]
  split
  · refine (matchTok_rel hR 40 (by decide) (by decide) h).chain hR.absorb fun s1 t1 h1 => ?_
    refine (hrec s1 t1 h1).chain hR.absorb fun s2 t2 h2 => ?_
    exact matchTok_rel hR 41 (by decide) (by decide) h2
  split
  · rename_i hn
    have := emit_rel hR h (Or.inl hn) (fun _ s => matchTok NUM s) (fun _ s => matchTok NUM s)
      fun s1 t1 h1 => matchTok_rel hR NUM (by decide) (by decide) h1
    rw [hn] at this
    exact this
  split
  · rename_i hi
    have := emit_rel hR h (Or.inr hi) (fun _ s => matchTok ID s) (fun _ s => matchTok ID s)
      fun s1 t1 h1 => matchTok_rel hR ID (by decide) (by decide) h1
    rw [hi] at this
    exact this
  · exact .abort _ _ _ (hR.syn s t _ h (Or.inl rfl))

theorem termLoop_rel (rec1 rec2 : State → Res Unit)
    (hrec : ∀ s t, R s t → Rel R A (rec1 s) (rec2 t)) (m : Nat) {s t : State} (h : R s t) :
    Rel R A (termLoop rec1 m s) (termLoop rec2 m t) := by
  induction m generalizing s t with
  | zero => exact .timeout _
  | succ m ih =>
    by_cases hop : s.lookahead = 42 ∨ s.lookahead = 47 ∨ s.lookahead = DIV ∨ s.lookahead = MOD
    · rw [termLoop_step rec1 m s hop, termLoop_step rec2 m t (by rw [hR.la s t h]; exact hop),
        hR.la s t h]
      have h59 : s.lookahead ≠ 59 := by rcases hop with e | e | e | e <;> rw [e] <;> decide
      have hd : s.lookahead ≠ DONE := by rcases hop with e | e | e | e <;> rw [e] <;> decide
      refine (hR.adv s t h h59 hd).chain hR.absorb fun s1 t1 h1 => ?_
      refine (factor_rel hR rec1 rec2 hrec h1).chain hR.absorb fun s2 t2 h2 => ?_
      exact ih (hR.op s2 t2 _ h2 (Or.inr hop))
    · rw [termLoop_stop rec1 m s hop, termLoop_stop rec2 m t (by rw [hR.la s t h]; exact hop)]
      exact .ok s t h

theorem term_rel (rec1 rec2 : State → Res Unit)
    (hrec : ∀ s t, R s t → Rel R A (rec1 s) (rec2 t)) (m : Nat) {s t : State} (h : R s t) :
    Rel R A (term rec1 m s) (term rec2 m t) := by
  unfold term
  exact (factor_rel hR rec1 rec2 hrec h).chain hR.absorb fun s2 t2 h2 =>
    termLoop_rel hR rec1 rec2 hrec m h2

theorem exprLoop_rel (rec1 rec2 : State → Res Unit)
    (hrec : ∀ s t, R s t → Rel R A (rec1 s) (rec2 t)) (m : Nat) {s t : State} (h : R s t) :
    Rel R A (exprLoop rec1 m s) (exprLoop rec2 m t) := by
  induction m generalizing s t with
  | zero => exact .timeout _
  | succ m ih =>
    by_cases hop : s.lookahead = 43 ∨ s.lookahead = 45
    · rw [exprLoop_step rec1 m s hop, exprLoop_step rec2 m t (by rw [hR.la s t h]; exact hop),
        hR.la s t h]
      have h59 : s.lookahead ≠ 59 := by rcases hop with e | e <;> rw [e] <;> decide
      have hd : s.lookahead ≠ DONE := by rcases hop with e | e <;> rw [e] <;> decide
      refine (hR.adv s t h h59 hd).chain hR.absorb fun s1 t1 h1 => ?_
      refine (term_rel hR rec1 rec2 hrec m h1).chain hR.absorb fun s2 t2 h2 => ?_
      exact ih (hR.op s2 t2 _ h2 (Or.inl hop))
    · rw [exprLoop_stop rec1 m s hop, exprLoop_stop rec2 m t (by rw [hR.la s t h]; exact hop)]
      exact .ok s t h

/-- The call `expr()` in two related states. -/
theorem expr_rel (n : Nat) {s t : State} (h : R s t) : Rel R A (expr n s) (expr n t) := by
  induction n generalizing s t with
  | zero => exact .timeout _
  | succ n ih =>
    unfold expr
    exact (term_rel hR (expr n) (expr n) (fun s t h => ih h) n h).chain hR.absorb fun s2 t2 h2 =>
      exprLoop_rel hR (expr n) (expr n) (fun s t h => ih h) n h2

/-- The loop of `parse` in two related states, when the relation is also kept
by reading the token after a `;`. -/
theorem parseLoop_rel (h59 : ∀ s t, R s t → s.lookahead = 59 → Rel R A (advance s) (advance t))
    (hsemi : ∀ s t, R s t → R (fprintf [59, 10] s) (fprintf [59, 10] t))
    (n : Nat) {s t : State} (h : R s t) : Rel R A (parseLoop n s) (parseLoop n t) := by
  induction n generalizing s t with
  | zero => exact .timeout _
  | succ n ih =>
    unfold parseLoop
    rw [hR.la s t h]
    split
    · refine (expr_rel hR n h).chain hR.absorb fun s2 t2 h2 => ?_
      rw [matchTok_eq, matchTok_eq, hR.la s2 t2 h2]
      by_cases hx : s2.lookahead = 59
      · rw [if_pos hx, if_pos hx]
        exact (h59 s2 t2 h2 hx).chain hR.absorb fun s3 t3 h3 => ih (hsemi s3 t3 h3)
      · rw [if_neg hx, if_neg hx]
        exact .abort _ _ _ (hR.absorb _ _ _ _ (hR.syn s2 t2 _ h2 (Or.inr rfl)))
    · exact .ok s t h

end

/-! ## Locality of the lexer -/

theorem lookup_in (x w : List Byte) (s : State) : lookup w (s.withIn x) = lookup w s := by
  unfold lookup
  exact lookupFrom_congr s (s.withIn x) w _ rfl rfl

theorem insert_in (x w : List Byte) (tok : Int) (s : State) :
    insert w tok (s.withIn x) = (insert w tok s).mapS (State.withIn x) := by
  unfold insert error
  simp only [State.withIn]
  split
  · rfl
  · split
    · rfl
    · split
      · rfl
      · split
        · rfl
        · split <;> rfl

theorem internWord_in (x w : List Byte) (s : State) :
    internWord w (s.withIn x) = (internWord w s).mapS (State.withIn x) := by
  unfold internWord
  rw [lookup_in]
  cases lookup w s with
  | none => rfl
  | some p =>
    simp only []
    have ei : (if p = 0 then insert w ID (s.withIn x) else .ok p (s.withIn x)) =
        (if p = 0 then insert w ID s else .ok p s).mapS (State.withIn x) := by
      split
      · exact insert_in x w ID _
      · rfl
    rw [ei]
    apply Res.mapS_bind
    intro p' s2
    show (match getAt s2.symtable p' with
      | none => Res.fault
      | some e => _) = _
    cases getAt s2.symtable p' <;> rfl

/-- The skipped part of the input does not depend on what follows the byte at
which skipping stops. -/
theorem skip_prefix (m : Bool) (l : List Byte) (c : Byte) (r : List Byte)
    (h : skipRest m l = c :: r) :
    ∃ sk, l = sk ++ c :: r ∧ ∀ z, skipRest m (sk ++ c :: z) = c :: z ∧
      skipLines m (sk ++ c :: z) = skipLines m l := by
  induction l generalizing m with
  | nil => cases m <;> simp [skipRest] at h
  | cons d ds ih =>
    cases m
    · simp only [skipRest] at h
      by_cases h1 : (d.val : Int) = 32 ∨ (d.val : Int) = 9
      · rw [if_pos h1] at h
        obtain ⟨sk, e, hz⟩ := ih false h
        refine ⟨d :: sk, by rw [e]; rfl, fun z => ?_⟩
        simp only [List.cons_append, skipRest, skipLines, if_pos h1]
        exact hz z
      · rw [if_neg h1] at h
        by_cases h2 : (d.val : Int) = 10
        · rw [if_pos h2] at h
          obtain ⟨sk, e, hz⟩ := ih false h
          refine ⟨d :: sk, by rw [e]; rfl, fun z => ?_⟩
          simp only [List.cons_append, skipRest, skipLines, if_neg h1, if_pos h2]
          exact ⟨(hz z).1, congrArg (· + 1) (hz z).2⟩
        · rw [if_neg h2] at h
          by_cases h3 : (d.val : Int) = 35
          · rw [if_pos h3] at h
            obtain ⟨sk, e, hz⟩ := ih true h
            refine ⟨d :: sk, by rw [e]; rfl, fun z => ?_⟩
            simp only [List.cons_append, skipRest, skipLines, if_neg h1, if_neg h2, if_pos h3]
            exact hz z
          · rw [if_neg h3] at h
            simp only [List.cons.injEq] at h
            obtain ⟨rfl, rfl⟩ := h
            refine ⟨[], rfl, fun z => ?_⟩
            simp only [List.nil_append, skipRest, skipLines, if_neg h1, if_neg h2, if_neg h3]
            exact ⟨trivial, trivial⟩
    · simp only [skipRest] at h
      by_cases h2 : d.val = 10
      · rw [if_pos h2] at h
        obtain ⟨sk, e, hz⟩ := ih false h
        refine ⟨d :: sk, by rw [e]; rfl, fun z => ?_⟩
        simp only [List.cons_append, skipRest, skipLines, if_pos h2]
        exact ⟨(hz z).1, congrArg (· + 1) (hz z).2⟩
      · rw [if_neg h2] at h
        obtain ⟨sk, e, hz⟩ := ih true h
        refine ⟨d :: sk, by rw [e]; rfl, fun z => ?_⟩
        simp only [List.cons_append, skipRest, skipLines, if_neg h2]
        exact hz z

/-- Scanning digits stops before a byte that is not a digit. -/
theorem scanDigits_stop (l : List Byte) (acc : Int) (d : Byte) (r : List Byte)
    (h : (scanDigits l acc).2 = d :: r) : isdigit d.val = false := by
  induction l generalizing acc with
  | nil => simp [scanDigits] at h
  | cons c cs ih =>
    unfold scanDigits at h
    split at h
    · exact ih _ h
    · rename_i hc
      simp only [List.cons.injEq] at h
      rw [← h.1]
      simpa using hc

theorem dropWhile_stop (p : Byte → Bool) (l : List Byte) (d : Byte) (r : List Byte)
    (h : l.dropWhile p = d :: r) : p d = false := by
  induction l with
  | nil => simp at h
  | cons c cs ih =>
    rw [List.dropWhile_cons] at h
    split at h
    · exact ih h
    · rename_i hc
      simp only [List.cons.injEq] at h
      rw [← h.1]
      simpa using hc

/-- The call `lookahead = lexan()` at the first byte that is not skipped. -/
theorem advance_head (s : State) (c : Byte) (r : List Byte)
    (hl : skipRest false s.infile = c :: r) :
    advance s =
      (if isdigit c.val = true then
        .ok NUM
          { s.skipped with
            tokenval := (scanDigits (c :: r) 0).1
            infile := (scanDigits (c :: r) 0).2 }
      else if isalpha c.val = true then lexanWord c.val { s.skipped with infile := r }
      else if (c.val : Int) = 37 then .ok MOD { s.skipped with infile := r }
      else if (c.val : Int) = 92 then .ok 47 { s.skipped with infile := r }
      else .ok c.val { s.skipped with tokenval := NONE, infile := r }).bind
        fun tok s => .ok () { s with lookahead := tok } := by
  unfold advance
  rw [lexan_skip, lexanLoop_one_eq s.skipped c r hl (skipRest_head false _ c r hl)]

theorem State.skipped_withIn (t : State) (x y : List Byte)
    (h1 : skipRest false x = y) (h2 : skipLines false x = skipLines false t.infile) :
    (t.withIn x).skipped = t.skipped.withIn y := by
  simp only [State.skipped, State.withIn, h1, h2]

theorem internWord_infile {w : List Byte} {s s' : State} {tok : Int}
    (h : internWord w s = .ok tok s') : s'.infile = s.infile := by
  have e := internWord_in s.infile w s
  have hs : s.withIn s.infile = s := by cases s; rfl
  rw [hs, h] at e
  simp only [Res.mapS, Res.ok.injEq, true_and] at e
  rw [e]; rfl

/-- What follows a token can be replaced, as long as the replacement begins
with the same byte, or with a byte that is neither letter nor digit, or the
token is a single character: the same token is read, and the replacement is
left in the input. -/
theorem advance_suffix {t t' : State} {es : Table} (hwf : WF t es) (u v' : List Byte)
    (h : advance t = .ok () t') (hd : t'.lookahead ≠ DONE) (hu : t.infile = u ++ t'.infile)
    (hc : v'.head? = t'.infile.head? ∨ (∀ d r, v' = d :: r → aln d = false) ∨
      (isdigit (headInt (skipRest false t.infile)) = false ∧
        isalpha (headInt (skipRest false t.infile)) = false)) :
    advance (t.withIn (u ++ v')) = .ok () (t'.withIn v') := by
  cases hl : skipRest false t.infile with
  | nil =>
    rw [advance_eof t hl] at h
    simp only [Res.ok.injEq, true_and] at h
    rw [← h] at hd
    exact absurd rfl hd
  | cons c r =>
    obtain ⟨sk, e1, hz⟩ := skip_prefix false t.infile c r hl
    rw [hl] at hc
    have hclass : (isdigit c.val = true ∨ isalpha c.val = true) →
        ∀ d r', t'.infile = d :: r' → aln d = false →
        ∀ d r', v' = d :: r' → aln d = false := by
      intro hcl d0 r0 e0 h0 d r' e
      rcases hc with hc | hc | hc
      · rw [e, e0] at hc
        simp only [List.head?_cons, Option.some.injEq] at hc
        rw [hc]; exact h0
      · exact hc d r' e
      · simp only [headInt] at hc
        rcases hcl with h' | h'
        · rw [h'] at hc; cases hc.1
        · rw [h'] at hc; cases hc.2
    have hclass' : (isdigit c.val = true ∨ isalpha c.val = true) → t'.infile = [] →
        ∀ d r', v' = d :: r' → aln d = false := by
      intro hcl e0 d r' e
      rcases hc with hc | hc | hc
      · rw [e, e0] at hc
        cases hc
      · exact hc d r' e
      · simp only [headInt] at hc
        rcases hcl with h' | h'
        · rw [h'] at hc; cases hc.1
        · rw [h'] at hc; cases hc.2
    rw [advance_head t c r hl] at h
    by_cases hdig : isdigit c.val = true
    · rw [if_pos hdig] at h
      simp only [Res.bind_ok, Res.ok.injEq, true_and] at h
      obtain ⟨ds, e2, hds, hne⟩ := scanDigits_split (c :: r) 0
      have hv : t'.infile = (scanDigits (c :: r) 0).2 := by rw [← h]
      rw [← hv] at e2
      have hvd : ∀ d r', t'.infile = d :: r' → isdigit d.val = false := fun d r' e =>
        scanDigits_stop (c :: r) 0 d r' (by rw [← hv, e])
      obtain ⟨ds', rfl⟩ : ∃ ds', ds = c :: ds' := by
        cases ds with
        | nil => exact absurd rfl (hne c r rfl hdig)
        | cons x ds' =>
          simp only [List.cons_append, List.cons.injEq] at e2
          exact ⟨ds', by rw [e2.1]⟩
      have hr : r = ds' ++ t'.infile := by
        simp only [List.cons_append, List.cons.injEq, true_and] at e2
        exact e2
      have hu' : u = sk ++ c :: ds' := by
        have : u ++ t'.infile = (sk ++ c :: ds') ++ t'.infile := by
          rw [← hu, e1, hr]; simp
        exact List.append_cancel_right this
      have hv'd : ∀ d r', v' = d :: r' → isdigit d.val = false := by
        intro d r' e
        have hnd : aln d = false → isdigit d.val = false := by
          intro ha
          by_contra hx
          have := isdigit_aln d (by simpa using hx)
          rw [this] at ha; cases ha
        rcases hc with hc | hc | hc
        · rw [e] at hc
          cases hi : t'.infile with
          | nil => rw [hi] at hc; cases hc
          | cons d0 r0 =>
            rw [hi] at hc
            simp only [List.head?_cons, Option.some.injEq] at hc
            rw [hc]; exact hvd d0 r0 hi
        · exact hnd (hc d r' e)
        · simp only [headInt] at hc
          rw [hdig] at hc; cases hc.1
      have hin : u ++ v' = sk ++ c :: (ds' ++ v') := by rw [hu']; simp
      have hl2 : skipRest false (t.withIn (u ++ v')).infile = c :: (ds' ++ v') := by
        show skipRest false (u ++ v') = _
        rw [hin]; exact (hz _).1
      have hsk : (t.withIn (u ++ v')).skipped = t.skipped.withIn (c :: (ds' ++ v')) :=
        t.skipped_withIn _ _ hl2 (by rw [hin]; exact (hz _).2)
      rw [advance_head _ c _ hl2, if_pos hdig, hsk]
      have s1 := scanDigits_append (c :: ds') v' 0 hds hv'd
      have s2 := scanDigits_append (c :: ds') t'.infile 0 hds hvd
      rw [List.cons_append] at s1 s2
      rw [← hr] at s2
      rw [s1]
      rw [← h, s2]
      rfl
    · rw [if_neg hdig] at h
      by_cases halp : isalpha c.val = true
      · rw [if_pos halp] at h
        obtain ⟨ho, hk⟩ := lexanWord_eq c r t.skipped (isalpha_isalnum _ halp)
          (hwf.skipped).buf
        rcases Nat.lt_or_ge (c :: r.takeWhile aln).length 128 with hlen | hlen
        · have hk' := hk hlen
          rw [hk'] at h
          cases hi : internWord (c :: r.takeWhile aln)
            { t.skipped with
              lexbuf := c :: r.takeWhile aln ++ 0 ::
                t.skipped.lexbuf.drop ((r.takeWhile aln).length + 2)
              infile := r.dropWhile aln } with
          | ok tok t0 =>
            rw [hi] at h
            simp only [Res.bind_ok, Res.ok.injEq, true_and] at h
            have hv : t'.infile = r.dropWhile aln := by
              rw [← h]
              exact internWord_infile hi
            have hr : r = r.takeWhile aln ++ t'.infile := by
              rw [hv, List.takeWhile_append_dropWhile]
            have hu' : u = sk ++ c :: r.takeWhile aln := by
              have : u ++ t'.infile = (sk ++ c :: r.takeWhile aln) ++ t'.infile := by
                rw [← hu, e1]
                nth_rewrite 1 [hr]
                simp
              exact List.append_cancel_right this
            have hv'a : ∀ d r', v' = d :: r' → aln d = false := by
              cases hti : t'.infile with
              | nil => exact hclass' (Or.inr halp) hti
              | cons d0 r0 =>
                exact hclass (Or.inr halp) d0 r0 hti
                  (dropWhile_stop aln r d0 r0 (by rw [← hv, hti]))
            have hin : u ++ v' = sk ++ c :: (r.takeWhile aln ++ v') := by rw [hu']; simp
            have hl2 : skipRest false (t.withIn (u ++ v')).infile =
                c :: (r.takeWhile aln ++ v') := by
              show skipRest false (u ++ v') = _
              rw [hin]; exact (hz _).1
            have hsk : (t.withIn (u ++ v')).skipped =
                t.skipped.withIn (c :: (r.takeWhile aln ++ v')) :=
              t.skipped_withIn _ _ hl2 (by rw [hin]; exact (hz _).2)
            obtain ⟨ht, hdw⟩ := takeWhile_append_stop aln (r.takeWhile aln) v'
              (fun x hx => List.mem_takeWhile_imp hx) hv'a
            rw [advance_head _ c _ hl2, if_neg hdig, if_pos halp, hsk]
            have hk2 := (lexanWord_eq c (r.takeWhile aln ++ v') (t.skipped.withIn
              (c :: (r.takeWhile aln ++ v'))) (isalpha_isalnum _ halp) (hwf.skipped).buf).2
            rw [ht, hdw] at hk2
            have hk3 := hk2 hlen
            rw [hk3]
            have e4 : ({ t.skipped.withIn (c :: (r.takeWhile aln ++ v')) with
                lexbuf := c :: r.takeWhile aln ++ 0 ::
                  (t.skipped.withIn (c :: (r.takeWhile aln ++ v'))).lexbuf.drop
                    ((r.takeWhile aln).length + 2)
                infile := v' } : State) =
                State.withIn v' { t.skipped with
                  lexbuf := c :: r.takeWhile aln ++ 0 ::
                    t.skipped.lexbuf.drop ((r.takeWhile aln).length + 2)
                  infile := r.dropWhile aln } := rfl
            rw [e4, internWord_in, hi, ← h]
            rfl
          | abort m t0 => rw [hi] at h; cases h
          | fault => rw [hi] at h; cases h
          | timeout => rw [hi] at h; cases h
        · obtain ⟨lb, inf, e⟩ := ho hlen
          rw [e] at h
          cases h
      · rw [if_neg halp] at h
        have hv : t'.infile = r := by
          by_cases h37 : (c.val : Int) = 37
          · rw [if_pos h37] at h
            simp only [Res.bind_ok, Res.ok.injEq, true_and] at h
            rw [← h]
          · rw [if_neg h37] at h
            by_cases h92 : (c.val : Int) = 92
            · rw [if_pos h92] at h
              simp only [Res.bind_ok, Res.ok.injEq, true_and] at h
              rw [← h]
            · rw [if_neg h92] at h
              simp only [Res.bind_ok, Res.ok.injEq, true_and] at h
              rw [← h]
        have hu' : u = sk ++ [c] := by
          have : u ++ t'.infile = (sk ++ [c]) ++ t'.infile := by
            rw [← hu, e1, hv]; simp
          exact List.append_cancel_right this
        have hin : u ++ v' = sk ++ c :: v' := by rw [hu']; simp
        have hl2 : skipRest false (t.withIn (u ++ v')).infile = c :: v' := by
          show skipRest false (u ++ v') = _
          rw [hin]; exact (hz _).1
        have hsk : (t.withIn (u ++ v')).skipped = t.skipped.withIn (c :: v') :=
          t.skipped_withIn _ _ hl2 (by rw [hin]; exact (hz _).2)
        rw [advance_head _ c _ hl2, if_neg hdig, if_neg halp, hsk]
        by_cases h37 : (c.val : Int) = 37
        · rw [if_pos h37] at h ⊢
          simp only [Res.bind_ok, Res.ok.injEq, true_and] at h ⊢
          rw [← h]; rfl
        · rw [if_neg h37] at h ⊢
          by_cases h92 : (c.val : Int) = 92
          · rw [if_pos h92] at h ⊢
            simp only [Res.bind_ok, Res.ok.injEq, true_and] at h ⊢
            rw [← h]; rfl
          · rw [if_neg h92] at h ⊢
            simp only [Res.bind_ok, Res.ok.injEq, true_and] at h ⊢
            rw [← h]; rfl

/-! ## Inserting white space and comments -/

theorem count_newline_cons (c : Byte) (cs : List Byte) :
    ((c :: cs).count 10 : Nat) = cs.count 10 + (if c.val = 10 then 1 else 0) := by
  rw [List.count_cons]
  congr 1
  by_cases h : c.val = 10
  · have : c = 10 := Fin.ext h
    subst this
    simp only [beq_self_eq_true, if_true]
    rfl
  · have : ¬ c = 10 := fun e => h (by rw [e]; rfl)
    simp [h, this]

theorem plainSkip_spec (m : Bool) (x : List Byte) (h : plainSkip m x = true) (z : List Byte) :
    skipRest m (x ++ z) = skipRest false z ∧
      skipLines m (x ++ z) = skipLines false z + ((x.count 10 : Nat) : Int) := by
  induction x generalizing m with
  | nil =>
    cases m
    · simp
    · simp [plainSkip] at h
  | cons c cs ih =>
    rw [count_newline_cons]
    cases m
    · simp only [plainSkip] at h
      simp only [List.cons_append, skipRest, skipLines]
      by_cases h1 : (c.val : Int) = 32 ∨ (c.val : Int) = 9
      · rw [if_pos h1] at h ⊢
        rw [if_pos h1]
        have hn : ¬ c.val = 10 := by omega
        rw [if_neg hn]
        simpa using ih false h
      · rw [if_neg h1] at h ⊢
        rw [if_neg h1]
        by_cases h2 : (c.val : Int) = 10
        · rw [if_pos h2] at h ⊢
          rw [if_pos h2]
          have hn : c.val = 10 := by omega
          rw [if_pos hn]
          obtain ⟨e1, e2⟩ := ih false h
          refine ⟨e1, ?_⟩
          show skipLines false (cs ++ z) + 1 = _
          rw [e2]; push_cast; ring
        · rw [if_neg h2] at h ⊢
          rw [if_neg h2]
          have hn : ¬ c.val = 10 := by omega
          rw [if_neg hn]
          by_cases h3 : (c.val : Int) = 35
          · rw [if_pos h3] at h ⊢
            rw [if_pos h3]
            simpa using ih true h
          · rw [if_neg h3] at h
            cases h
    · simp only [plainSkip] at h
      simp only [List.cons_append, skipRest, skipLines]
      by_cases h2 : c.val = 10
      · rw [if_pos h2] at h ⊢
        rw [if_pos h2, if_pos h2]
        obtain ⟨e1, e2⟩ := ih false h
        refine ⟨e1, ?_⟩
        show skipLines false (cs ++ z) + 1 = _
        rw [e2]; push_cast; ring
      · rw [if_neg h2] at h ⊢
        rw [if_neg h2, if_neg h2]
        simpa using ih true h

theorem Filler.skip {b w : List Byte} (h : Filler b w) :
    skipRest false (w ++ b) = skipRest false b ∧
      skipLines false (w ++ b) = skipLines false b + ((w.count 10 : Nat) : Int) := by
  rcases h with h | ⟨rfl, h⟩
  · exact plainSkip_spec false w h b
  · obtain ⟨sk, e1, e2⟩ := skipRest_split false w
    rw [h, List.append_nil] at e1
    rw [List.append_nil, h, e2, ← e1]
    simp [skipRest, skipLines]

theorem Filler.head {b w : List Byte} (h : Filler b w) :
    ∀ d r, w = d :: r → aln d = false := by
  intro d r e
  subst e
  have key : (d.val : Int) = 32 ∨ (d.val : Int) = 9 ∨ (d.val : Int) = 10 ∨
      (d.val : Int) = 35 := by
    rcases h with h | ⟨-, h⟩
    · simp only [plainSkip] at h
      by_cases h1 : (d.val : Int) = 32 ∨ (d.val : Int) = 9
      · rcases h1 with h1 | h1
        · exact Or.inl h1
        · exact Or.inr (Or.inl h1)
      · rw [if_neg h1] at h
        by_cases h2 : (d.val : Int) = 10
        · exact Or.inr (Or.inr (Or.inl h2))
        · rw [if_neg h2] at h
          by_cases h3 : (d.val : Int) = 35
          · exact Or.inr (Or.inr (Or.inr h3))
          · rw [if_neg h3] at h; cases h
    · simp only [skipRest] at h
      by_cases h1 : (d.val : Int) = 32 ∨ (d.val : Int) = 9
      · rcases h1 with h1 | h1
        · exact Or.inl h1
        · exact Or.inr (Or.inl h1)
      · rw [if_neg h1] at h
        by_cases h2 : (d.val : Int) = 10
        · exact Or.inr (Or.inr (Or.inl h2))
        · rw [if_neg h2] at h
          by_cases h3 : (d.val : Int) = 35
          · exact Or.inr (Or.inr (Or.inr h3))
          · rw [if_neg h3] at h; cases h
  simp only [aln, isalnum, isalpha, isdigit, Bool.or_eq_false_iff, decide_eq_false_iff_not]
  omega

theorem Bnd.under_fprintf {b x : List Byte} {t : State} (h : Bnd b x t) (text : List Byte) :
    Bnd b x (Sc.fprintf text t) := by
  induction h with
  | here x t hx => exact .here x _ hx
  | step u x' t t' h hd hi _ ih =>
    exact .step u x' _ (Sc.fprintf text t') (by rw [advance_fprintf, h]; rfl) hd hi ih

theorem isBnd_spec (n : Nat) (x b : List Byte) (t : State) (h : isBnd n x b t = true) :
    Bnd b x t := by
  induction n generalizing x t with
  | zero => exact .here x t h
  | succ n ih =>
    unfold isBnd at h
    rw [Bool.or_eq_true] at h
    rcases h with h | h
    · exact .here x t h
    · split at h
      · rename_i a t' e
        simp only [Bool.and_eq_true, decide_eq_true_eq] at h
        obtain ⟨⟨⟨h1, h2⟩, h3⟩, h4⟩ := h
        rw [h3]
        exact .step _ _ t t' e h1 h2 (ih _ t' h4)
      · cases h

theorem emit_congr (s s' : State) (h1 : s'.symtable = s.symtable) (h2 : s'.lexemes = s.lexemes)
    (t tv : Int) (text : List Byte) (h : emit t tv s = .ok () (fprintf text s)) :
    emit t tv s' = .ok () (fprintf text s') := by
  unfold emit at h ⊢
  have hout : ∀ (x y : List Byte), (Res.ok () (fprintf x s) : Res Unit) = .ok () (fprintf y s) →
      x = y := by
    intro x y e
    simp only [Res.ok.injEq, true_and] at e
    have : (fprintf x s).outfile = (fprintf y s).outfile := by rw [e]
    exact List.append_cancel_left this
  split
  · rw [if_pos (by assumption)] at h
    rw [hout _ _ h]
  · rw [if_neg (by assumption)] at h
    split
    · rw [if_pos (by assumption)] at h
      rw [hout _ _ h]
    · rw [if_neg (by assumption)] at h
      split
      · rw [if_pos (by assumption)] at h
        rw [hout _ _ h]
      · rw [if_neg (by assumption)] at h
        split
        · rw [if_pos (by assumption)] at h
          rw [hout _ _ h]
        · rw [if_neg (by assumption)] at h
          split
          · rw [if_pos (by assumption)] at h
            rw [entryText_congr s s' _ h1 h2]
            cases he : entryText s tv with
            | none => rw [he] at h; cases h
            | some w =>
              rw [he] at h
              simp only [] at h ⊢
              rw [hout _ _ h]
          · rw [if_neg (by assumption)] at h
            rw [hout _ _ h]

theorem parseLoop_done (n : Nat) (s s' : State) (h : parseLoop n s = .ok () s') :
    s'.lookahead = DONE := by
  induction n generalizing s with
  | zero => cases h
  | succ n ih =>
    unfold parseLoop at h
    split at h
    · cases h1 : expr n s with
      | ok a s1 =>
        rw [h1, Res.bind_ok] at h
        cases h2 : matchTok 59 s1 with
        | ok a s2 =>
          rw [h2, Res.bind_ok] at h
          exact ih _ h
        | abort m s2 => rw [h2] at h; cases h
        | fault => rw [h2] at h; cases h
        | timeout => rw [h2] at h; cases h
      | abort m s1 => rw [h1] at h; cases h
      | fault => rw [h1] at h; cases h
      | timeout => rw [h1] at h; cases h
    · rename_i hd
      simp only [Res.ok.injEq, true_and] at h
      rw [← h]
      by_contra hc
      exact hd hc

theorem advance_shift (x y : State) (k : Int) (h : y.skipped = x.skipped.re x.outfile k) :
    advance y = (advance x).mapS (State.re x.outfile k) := by
  unfold advance
  rw [lexan_skip, lexan_skip, h, lexanLoop_re]
  exact Res.mapS_bind _ _ _ _ fun _ _ => rfl

theorem ins_shift {b w : List Byte} {k : Int} {x y : State} {es : Table} (hp : PWF x es)
    (h : advance y = (advance x).mapS (State.re x.outfile k)) :
    Rel (Ins b w k) (InsErr k) (advance x) (advance y) := by
  rw [h]
  rcases advance_facts hp.wf with ⟨x', es', e, hk⟩ | ⟨m, x', e, hk⟩
  · rw [e]
    refine .ok _ _ ⟨⟨es', hk.pwf⟩, hk.eof, hk.eof, Or.inr ?_⟩
    rw [hk.outfile]
  · rw [e]
    exact .abort _ _ _ ⟨_, rfl, hk.outfile.symm, Or.inr rfl⟩

theorem ins_adv {b w : List Byte} (hw : Filler b w) {x y : State}
    (h : Ins b w ((w.count 10 : Nat) : Int) x y) :
    Rel (Ins b w ((w.count 10 : Nat) : Int)) (InsErr ((w.count 10 : Nat) : Int))
      (advance x) (advance y) := by
  obtain ⟨⟨es, hp⟩, hx, hy, hr⟩ := h
  rcases hr with ⟨p, hb, hi, rfl⟩ | rfl
  · cases hb with
    | here _ _ hp' =>
      refine ins_shift hp (advance_shift _ _ _ ?_)
      obtain ⟨a1, a2⟩ := plainSkip_spec false p hp' (w ++ b)
      obtain ⟨b1, b2⟩ := plainSkip_spec false p hp' b
      obtain ⟨c1, c2⟩ := hw.skip
      have e1 : skipRest false (p ++ w ++ b) = skipRest false x.infile := by
        rw [hi, List.append_assoc, a1, c1, b1]
      have e2 : skipLines false (p ++ w ++ b) =
          skipLines false x.infile + ((w.count 10 : Nat) : Int) := by
        rw [hi, List.append_assoc, a2, c2, b2]; ring
      simp only [State.skipped, State.withIn, State.re, e1, e2]
      congr 1
      ring
    | step u p' _ x1 h1 hd hi1 hb1 =>
      have hu : x.infile = u ++ x1.infile := by rw [hi, hi1, List.append_assoc]
      have hc : (p' ++ w ++ b).head? = x1.infile.head? ∨
          (∀ d r, p' ++ w ++ b = d :: r → aln d = false) ∨
          (isdigit (headInt (skipRest false x.infile)) = false ∧
            isalpha (headInt (skipRest false x.infile)) = false) := by
        cases p' with
        | cons d r => left; rw [hi1]; rfl
        | nil =>
          cases w with
          | nil => left; rw [hi1]; rfl
          | cons d r =>
            right; left
            intro d' r' e
            simp only [List.nil_append, List.cons_append, List.cons.injEq] at e
            rw [← e.1]
            exact hw.head d r rfl
      have e := advance_suffix hp.wf u (p' ++ w ++ b) h1 hd hu hc
      have ey : x.withIn (u ++ p' ++ w ++ b) = x.withIn (u ++ (p' ++ w ++ b)) := by
        simp only [List.append_assoc]
      rw [ey, e, h1]
      obtain ⟨es1, hk⟩ := advance_determ hp.wf h1
      exact .ok _ _ ⟨⟨es1, hk.pwf⟩, hk.eof, fun h => absurd h hd, Or.inl ⟨p', hb1, hi1, rfl⟩⟩
  · exact ins_shift hp (advance_re _ _ _)

theorem Ins.written {b w : List Byte} {k : Int} {x y : State} (h : Ins b w k x y)
    (text : List Byte) : Ins b w k (fprintf text x) (fprintf text y) := by
  obtain ⟨⟨es, hp⟩, hx, hy, hr⟩ := h
  refine ⟨⟨es, hp.fprintf text⟩, hx, hy, ?_⟩
  rcases hr with ⟨p, hb, hi, rfl⟩ | rfl
  · exact Or.inl ⟨p, hb.under_fprintf text, hi, rfl⟩
  · exact Or.inr rfl

theorem ins_rule {b w : List Byte} (hw : Filler b w) :
    Rule (Ins b w ((w.count 10 : Nat) : Int)) (InsErr ((w.count 10 : Nat) : Int)) := by
  constructor
  · intro x y h _ _
    exact ins_adv hw h
  · rintro x y ⟨-, -, -, ⟨p, -, -, rfl⟩ | rfl⟩ <;> rfl
  · intro x y o h _
    exact h.written _
  · intro x y h _ x' e
    rcases emit_cases x.lookahead x.tokenval x with ⟨text, e1⟩ | e1
    · rw [e1] at e
      simp only [Res.ok.injEq, true_and] at e
      refine ⟨fprintf text y, ?_, by rw [← e]; exact h.written text⟩
      obtain ⟨-, -, -, ⟨p, -, -, rfl⟩ | rfl⟩ := h
      · exact emit_congr x (x.withIn (p ++ w ++ b)) rfl rfl _ _ text e1
      · exact emit_congr x (x.re x.outfile _) rfl rfl _ _ text e1
    · rw [e1] at e; cases e
  · rintro x y m ⟨-, -, -, ⟨p, -, -, rfl⟩ | rfl⟩ _
    · exact ⟨_, rfl, rfl, Or.inl rfl⟩
    · exact ⟨_, rfl, rfl, Or.inr rfl⟩
  · rintro m x r k ⟨y, rfl, h1, h2⟩
    exact ⟨y, rfl, h1, h2⟩

theorem ins_start (a w b : List Byte) (hb : Bnd b a (State.start (a ++ b))) :
    Ins b w ((w.count 10 : Nat) : Int) (State.start (a ++ b)) (State.start (a ++ w ++ b)) := by
  refine ⟨⟨_, pwf_start _⟩, ?_, ?_, Or.inl ⟨a, hb, start_infile _, rfl⟩⟩
  · intro h; rw [start_lookahead] at h; cases h
  · intro h; rw [start_lookahead] at h; cases h

/-- The run on `a ++ w ++ b` against the run on `a ++ b`. -/
theorem ins_run (a w b : List Byte) (hb : Bnd b a (State.start (a ++ b))) (hw : Filler b w) :
    Rel (Ins b w ((w.count 10 : Nat) : Int)) (InsErr ((w.count 10 : Nat) : Int))
      (run (a ++ b)) (run (a ++ w ++ b)) := by
  have hn1 : (a ++ b).length + 3 ≤ (a ++ w ++ b).length + 3 := by
    simp only [List.length_append]; omega
  rw [run_drive (a ++ b) _ hn1, run_drive (a ++ w ++ b) _ (le_refl _)]
  unfold drive
  have hR := ins_rule hw
  exact (ins_adv hw (ins_start a w b hb)).chain hR.absorb fun s t h =>
    parseLoop_rel hR (fun s t h _ => ins_adv hw h) (fun s t h => h.written _) _ h

theorem run_done (input : List Byte) (s : State) (h : run input = .ok () s) :
    s.lookahead = DONE := by
  rw [run_eq] at h
  cases h1 : advance (State.start input) with
  | ok a s1 =>
    rw [h1, Res.bind_ok] at h
    exact parseLoop_done _ _ _ h
  | abort m s1 => rw [h1] at h; cases h
  | fault => rw [h1] at h; cases h
  | timeout => rw [h1] at h; cases h

theorem lexAll_mono (n n' : Nat) (hn : n ≤ n') (s : State) (ts : List Int)
    (h : lexAll n s = some ts) : lexAll n' s = some ts := by
  induction n generalizing n' s ts with
  | zero => cases h
  | succ n ih =>
    obtain ⟨k, rfl⟩ : ∃ k, n' = k + 1 := ⟨n' - 1, by omega⟩
    unfold lexAll at h ⊢
    cases ha : advance s with
    | ok a s' =>
      rw [ha] at h
      simp only [] at h ⊢
      split
      · rename_i hd
        rw [if_pos hd] at h
        exact h
      · rename_i hd
        rw [if_neg hd] at h
        cases hl : lexAll n s' with
        | none => rw [hl] at h; cases h
        | some r =>
          rw [hl] at h
          rw [ih k (by omega) s' r hl]
          exact h
    | abort m s' => rw [ha] at h; cases h
    | fault => rw [ha] at h; cases h
    | timeout => rw [ha] at h; cases h

theorem lexAll_ins {b w : List Byte} (hw : Filler b w) (n : Nat) (x y : State)
    (h : Ins b w ((w.count 10 : Nat) : Int) x y) (ts : List Int)
    (ht : lexAll n x = some ts) : lexAll n y = some ts := by
  induction n generalizing x y ts with
  | zero => cases ht
  | succ n ih =>
    have hrel := ins_adv hw h
    unfold lexAll at ht ⊢
    generalize advance y = ry at hrel
    cases ha : advance x with
    | ok a x' =>
      rw [ha] at ht hrel
      cases hrel with
      | ok _ y' h' =>
        have hla := (ins_rule hw).la x' y' h'
        simp only [] at ht ⊢
        rw [hla]
        split
        · rename_i hd
          rw [if_pos hd] at ht
          exact ht
        · rename_i hd
          rw [if_neg hd] at ht
          cases hl : lexAll n x' with
          | none => rw [hl] at ht; cases ht
          | some r =>
            rw [hl] at ht
            rw [ih x' y' h' r hl]
            exact ht
    | abort m s' => rw [ha] at ht; cases ht
    | fault => rw [ha] at ht; cases ht
    | timeout => rw [ha] at ht; cases ht

/-- Inserting a filler at a token boundary changes neither the tokens nor the
outcome nor the output; the line counter moves by the newlines inserted. -/
theorem ins_main (a w b : List Byte) (hb : Bnd b a (State.start (a ++ b))) (hw : Filler b w) :
    (∀ ts, tokens (a ++ b) = some ts → tokens (a ++ w ++ b) = some ts) ∧
    (∀ t, run (a ++ b) = .ok () t →
      ∃ s, run (a ++ w ++ b) = .ok () s ∧ s.outfile = t.outfile ∧
        s.lineno = t.lineno + ((w.count 10 : Nat) : Int)) ∧
    (∀ m t, run (a ++ b) = .abort m t →
      ∃ s, run (a ++ w ++ b) = .abort m s ∧ s.outfile = t.outfile ∧
        (s.lineno = t.lineno ∨ s.lineno = t.lineno + ((w.count 10 : Nat) : Int))) := by
  refine ⟨fun ts h => ?_, fun t h => ?_, fun m t h => ?_⟩
  · unfold tokens at h ⊢
    have := lexAll_ins hw _ _ _ (ins_start a w b hb) ts h
    exact lexAll_mono _ _ (by simp only [List.length_append]; omega) _ _ this
  · have hrel := ins_run a w b hb hw
    have hd := run_done _ _ h
    generalize hry : run (a ++ w ++ b) = ry at hrel
    rw [h] at hrel
    cases hrel with
    | ok _ s hi =>
      refine ⟨s, rfl, ?_⟩
      have hds := run_done _ _ hry
      obtain ⟨-, hx, hy, ⟨p, -, hi, rfl⟩ | rfl⟩ := hi
      · refine ⟨rfl, ?_⟩
        have e1 := hy hds
        have : w = [] := by
          have e2 : p ++ w ++ b = [] := e1
          simp only [List.append_eq_nil] at e2
          exact e2.1.2
        subst this
        show t.lineno = t.lineno + _
        simp
      · exact ⟨rfl, rfl⟩
  · have hrel := ins_run a w b hb hw
    generalize run (a ++ w ++ b) = ry at hrel
    rw [h] at hrel
    cases hrel with
    | abort _ _ _ hi =>
      obtain ⟨y, rfl, h1, h2⟩ := hi
      exact ⟨y, rfl, h1, h2⟩

/-- A successful run writes no parenthesis. -/
theorem no_parens (input : List Byte) (s : State) (h : run input = .ok () s) :
    (40 : Byte) ∉ s.outfile ∧ (41 : Byte) ∉ s.outfile := by
  have ha := output_alphabet input
  rw [h] at ha
  cases ha with
  | ok _ _ _ hj =>
    exact ⟨fun h40 => absurd (hj 40 h40) (by decide), fun h41 => absurd (hj 41 h41) (by decide)⟩

/-! ## Output written before an error -/

/-- A `;` token is read from a byte that is neither digit nor letter. -/
theorem advance_semi {x x' : State} {es : Table} (hwf : WF x es) (h : advance x = .ok () x')
    (hl : x'.lookahead = 59) :
    isdigit (headInt (skipRest false x.infile)) = false ∧
      isalpha (headInt (skipRest false x.infile)) = false := by
  have hout := lexan_out hwf
  unfold advance at h
  generalize lexan x = res at hout h
  cases hout with
  | eof hi =>
    simp only [Res.bind_ok, Res.ok.injEq, true_and] at h
    rw [← h] at hl; cases hl
  | num c r hi hd =>
    simp only [Res.bind_ok, Res.ok.injEq, true_and] at h
    rw [← h] at hl; cases hl
  | pct r hi =>
    simp only [Res.bind_ok, Res.ok.injEq, true_and] at h
    rw [← h] at hl; cases hl
  | bslash r hi =>
    simp only [Res.bind_ok, Res.ok.injEq, true_and] at h
    rw [← h] at hl; cases hl
  | chr c r hi hs hd ha h37 h92 =>
    have : skipRest false x.infile = c :: r := hi
    rw [this]
    exact ⟨hd, ha⟩
  | overflow c r lb inf hi ha hlen => cases h
  | old c r p e hi ha hlen he hw =>
    simp only [Res.bind_ok, Res.ok.injEq, true_and] at h
    rw [← h] at hl
    have hm := hwf.token_mem e (List.getElem?_mem he)
    have hl' : e.2 = 59 := hl
    rw [hl'] at hm
    exact absurd hm (by decide)
  | symfull c r hi ha hlen hnew hfull => cases h
  | strfull c r hi ha hlen hnew h1 hfull => cases h
  | new c r hi ha hlen hnew h1 h2 =>
    simp only [Res.bind_ok, Res.ok.injEq, true_and] at h
    rw [← h] at hl; cases hl

theorem Toks.nonempty {x : State} {t : Int} {r : List Int} (h : Toks x (t :: r)) :
    ∀ x', advance x = .ok () x' → x'.lookahead = t ∧ t ≠ DONE ∧ Toks x' r := by
  intro x' e
  cases h with
  | cons _ s' _ h hd ht =>
    rw [h] at e
    simp only [Res.ok.injEq, true_and] at e
    subst e
    exact ⟨rfl, hd, ht⟩

/-- Reading a token of `S` that is not its last one, or is its last `;`, with
`rr` appended to the input. -/
theorem ext_adv (rr : List Byte) {x : State} {es : Table} (hwf : WF x es) {r : List Int}
    (ht : Toks x r) (hne : r ≠ []) (hlast : r.getLast? = some 59) :
    ∃ x', advance x = .ok () x' ∧ advance (x.withIn (x.infile ++ rr)) =
      .ok () (x'.withIn (x'.infile ++ rr)) ∧ Ext rr x' (x'.withIn (x'.infile ++ rr)) := by
  cases ht with
  | done _ s' h hd => exact absurd rfl hne
  | cons _ x' r' h hd ht' =>
    obtain ⟨es', hk⟩ := advance_determ hwf h
    obtain ⟨sk, tk, e1, -⟩ := hk.split
    have hu : x.infile = (sk ++ tk) ++ x'.infile := e1
    have hc : (x'.infile ++ rr).head? = x'.infile.head? ∨
        (∀ d r, x'.infile ++ rr = d :: r → aln d = false) ∨
        (isdigit (headInt (skipRest false x.infile)) = false ∧
          isalpha (headInt (skipRest false x.infile)) = false) := by
      cases hi : x'.infile with
      | cons d r0 => left; rfl
      | nil =>
        right; right
        have hr' : r' = [] := by
          cases ht' with
          | done _ _ _ _ => rfl
          | cons _ s2 _ h2 hd2 _ =>
            rw [advance_eof x' (by rw [hi]; rfl)] at h2
            simp only [Res.ok.injEq, true_and] at h2
            rw [← h2] at hd2
            exact absurd rfl hd2
        subst hr'
        simp only [List.getLast?_singleton, Option.some.injEq] at hlast
        exact advance_semi hwf h hlast
    have e := advance_suffix hwf (sk ++ tk) (x'.infile ++ rr) h hd hu hc
    have ey : x.withIn (x.infile ++ rr) = x.withIn (sk ++ tk ++ (x'.infile ++ rr)) := by
      rw [hu]; simp only [List.append_assoc]
    refine ⟨x', h, by rw [ey, e], ⟨es', hk.pwf⟩, rfl, x'.lookahead :: r',
      Or.inr ⟨hd, r', rfl, ht'⟩, hlast⟩

theorem Ext.wrote {rr : List Byte} {x y : State} (h : Ext rr x y) (text : List Byte) :
    Ext rr (fprintf text x) (fprintf text y) := by
  obtain ⟨⟨es, hp⟩, rfl, ts, hla, hlast⟩ := h
  exact ⟨⟨es, hp.fprintf text⟩, rfl, ts, hla.with_fprintf text, hlast⟩

theorem ext_rule (rr : List Byte) : Rule (Ext rr) (fun _ _ _ => True) := by
  constructor
  · rintro x y ⟨⟨es, hp⟩, rfl, ts, hla, hlast⟩ h59 hd
    rcases hla.cases with ⟨hdone, -⟩ | ⟨-, r, rfl⟩
    · exact absurd hdone hd
    · have htk := hla.first.2.2
      have hne : r ≠ [] := by
        rintro rfl
        simp only [List.getLast?_singleton, Option.some.injEq] at hlast
        exact h59 hlast
      have hlast' : r.getLast? = some 59 := by
        cases r with
        | nil => exact absurd rfl hne
        | cons a r0 => rw [List.getLast?_cons_cons] at hlast; exact hlast
      obtain ⟨x', e1, e2, he⟩ := ext_adv rr hp.wf htk hne hlast'
      rw [e1, e2]
      exact .ok _ _ he
  · rintro x y ⟨-, rfl, -⟩
    rfl
  · intro x y o h _
    exact h.wrote _
  · intro x y h _ x' e
    rcases emit_cases x.lookahead x.tokenval x with ⟨text, e1⟩ | e1
    · rw [e1] at e
      simp only [Res.ok.injEq, true_and] at e
      refine ⟨fprintf text y, ?_, by rw [← e]; exact h.wrote text⟩
      obtain ⟨-, rfl, -⟩ := h
      exact emit_congr x (x.withIn (x.infile ++ rr)) rfl rfl _ _ text e1
    · rw [e1] at e; cases e
  · intros; trivial
  · intros; trivial

/-- The output of a run only grows. -/
theorem parseLoop_grows (n : Nat) {s : State} (hs : ∃ es, PWF s es) (o : List Byte)
    (ho : o <+: s.outfile) :
    Holds (fun s' => o <+: s'.outfile) (fun _ s' => o <+: s'.outfile) (parseLoop n s) := by
  have hI : Inv (fun s' => o <+: s'.outfile) (fun _ s' => o <+: s'.outfile) := by
    constructor
    · intro s s' es es' _ hj _ hk
      rw [hk.outfile]; exact hj
    · intro s s' es m _ hj _ hk
      rw [hk.outfile]; exact hj
    · intro s es text _ hj _
      exact hj.trans (List.prefix_append _ _)
    · intro s es m _ hj _
      exact hj
  exact parseLoop_inv hI n hs ho

theorem LexMsg.not_syn {m : String} (h : LexMsg m) : ¬ Syn m := by
  rintro (h' | h') <;> rcases h with rfl | rfl | rfl <;> revert h' <;> decide

theorem kept_of_grows {O O' : List Byte} (hO : O = O' ++ [59, 10]) {r : Res Unit}
    (h : Holds (fun s' => O <+: s'.outfile) (fun _ s' => O <+: s'.outfile) r) :
    Kept O O' r := by
  have hp : O' <+: O := by rw [hO]; exact List.prefix_append _ _
  cases h with
  | ok a s _ hj => exact .ok s hj
  | abort m s hq => exact .abort m s (hp.trans hq) (fun _ => hq) (fun hn => absurd hq hn)
  | timeout => exact .timeout

theorem ext_loop (rr : List Byte) (n : Nat) (x y xf : State) (h : Ext rr x y)
    (hx : parseLoop n x = .ok () xf) :
    ∃ O', xf.outfile = O' ++ [59, 10] ∧ Kept xf.outfile O' (parseLoop n y) := by
  induction n generalizing x y with
  | zero => cases hx
  | succ n ih =>
    have hR := ext_rule rr
    have hla := hR.la x y h
    have hrel := expr_rel hR n h
    obtain ⟨-, -, ts, hl, hlast⟩ := h
    have hnd : x.lookahead ≠ DONE := by
      rcases hl.cases with ⟨-, rfl⟩ | ⟨hd, -⟩
      · cases hlast
      · exact hd
    unfold parseLoop at hx ⊢
    rw [hla, if_pos hnd]
    rw [if_pos hnd] at hx
    generalize expr n y = ry at hrel
    cases h1 : expr n x with
    | ok a x2 =>
      rw [h1] at hrel hx
      cases hrel with
      | ok _ y2 h2 =>
        rw [Res.bind_ok] at hx ⊢
        rw [matchTok_eq] at hx ⊢
        have hla2 := hR.la x2 y2 h2
        obtain ⟨⟨es2, hp2⟩, rfl, ts2, hl2, hlast2⟩ := h2
        by_cases h59 : x2.lookahead = 59
        · rw [if_pos h59] at hx
          rw [hla2, if_pos h59]
          rcases hl2.cases with ⟨hd, -⟩ | ⟨-, r, rfl⟩
          · rw [hd] at h59; cases h59
          · have htk := hl2.first.2.2
            cases r with
            | nil =>
              cases htk with
              | done _ x3 e3 hd3 =>
                rw [e3, Res.bind_ok] at hx
                obtain ⟨n', rfl⟩ : ∃ n', n = n' + 1 := by
                  cases n with
                  | zero => cases hx
                  | succ n' => exact ⟨n', rfl⟩
                unfold parseLoop at hx
                rw [if_neg (by
                  show ¬ (x3.lookahead ≠ DONE)
                  rw [hd3]; exact fun h => h rfl)] at hx
                simp only [Res.ok.injEq, true_and] at hx
                have hO : xf.outfile = x2.outfile ++ [59, 10] := by
                  rw [← hx]
                  show x3.outfile ++ _ = _
                  rw [advance_outfile e3]
                refine ⟨x2.outfile, hO, ?_⟩
                have hwy : WF (x2.withIn (x2.infile ++ rr)) es2 :=
                  hp2.wf.reframe rfl rfl rfl rfl hp2.wf.buf
                rcases advance_facts hwy with ⟨y3, es3, e, hk⟩ | ⟨m, y3, e, hk⟩
                · rw [e, Res.bind_ok]
                  refine kept_of_grows hO (parseLoop_grows _ ⟨es3, hk.pwf.fprintf _⟩ _ ?_)
                  rw [hO]
                  show _ <+: y3.outfile ++ _
                  rw [hk.outfile]
                  exact List.prefix_refl _
                · rw [e]
                  have ho : y3.outfile = x2.outfile := hk.outfile
                  exact .abort m y3 (by rw [ho]) (fun hs => absurd hs (LexMsg.not_syn hk.msg))
                    (fun _ => ⟨ho, hk.msg⟩)
            | cons t r' =>
              have hlast' : (t :: r').getLast? = some 59 := by
                rw [List.getLast?_cons_cons] at hlast2; exact hlast2
              obtain ⟨x3, e1, e2, he⟩ := ext_adv rr hp2.wf htk (List.cons_ne_nil _ _) hlast'
              rw [e1, Res.bind_ok] at hx
              rw [e2, Res.bind_ok]
              exact ih _ _ (he.wrote [59, 10]) hx
        · rw [if_neg h59] at hx
          cases hx
    | abort m x2 => rw [h1] at hx; cases hx
    | fault => rw [h1] at hx; cases hx
    | timeout => rw [h1] at hx; cases hx

/-- The run on `S ++ rr` against a successful run on `S`, a text whose last token
is a `;`. -/
theorem ext_main (S rr : List Byte) (ts : List Int) (sS : State) (ht : tokens S = some ts)
    (hl : ts.getLast? = some 59) (hS : run S = .ok () sS) :
    ∃ O', sS.outfile = O' ++ [59, 10] ∧ Kept sS.outfile O' (run (S ++ rr)) := by
  have hn : S.length + 3 ≤ (S ++ rr).length + 3 := by
    simp only [List.length_append]; omega
  rw [run_drive S _ hn] at hS
  rw [run_drive (S ++ rr) _ (le_refl _)]
  have htk := lexAll_toks _ _ _ ht
  have hne : ts ≠ [] := by rintro rfl; cases hl
  obtain ⟨x1, e1, e2, he⟩ := ext_adv rr (wf_start S) htk hne hl
  unfold drive at hS ⊢
  rw [e1, Res.bind_ok] at hS
  have es : State.start (S ++ rr) = (State.start S).withIn ((State.start S).infile ++ rr) := rfl
  rw [es, e2, Res.bind_ok]
  exact ext_loop rr _ _ _ _ he hS

theorem Res.abort_written {r : Res Unit} {m : String} {o : List Byte}
    (h1 : r.errmsg = some m) (h2 : r.written = some o) : ∃ s, r = .abort m s ∧ s.outfile = o := by
  cases r with
  | abort m' s =>
    simp only [Res.errmsg, Option.some.injEq] at h1
    simp only [Res.written, Option.some.injEq] at h2
    exact ⟨s, by rw [h1], h2⟩
  | ok a s => cases h1
  | fault => cases h1
  | timeout => cases h1

/-! ## The same input read with two symbol tables -/

theorem arena_length (es : Table) :
    (arena es).length = (es.map fun e => e.1.length + 1).sum := by
  induction es with
  | nil => rfl
  | cons e es ih =>
    simp only [arena, List.length_append, List.length_cons, ih, List.map_cons, List.sum_cons]
    omega

/-- A table without duplicates that is contained in another one is no longer
and needs no more room for its lexemes. -/
theorem table_le {ex ey : Table} (hnd : (ey.map Prod.fst).Nodup) (hsub : ey ⊆ ex) :
    ey.length ≤ ex.length ∧ (arena ey).length ≤ (arena ex).length := by
  have hp : ey.Subperm ex := List.subperm_of_subset (List.Nodup.of_map _ hnd) hsub
  refine ⟨hp.length_le, ?_⟩
  rw [arena_length, arena_length]
  obtain ⟨l, h1, h2⟩ := hp
  rw [← (h1.map fun e : List Byte × Int => e.1.length + 1).sum_eq]
  exact (h2.map fun e : List Byte × Int => e.1.length + 1).sum_le_sum (fun _ _ => Nat.zero_le _)

/-- The identifier branch of `lexan` at the first byte that is not skipped. -/
theorem advance_alpha {s : State} {es : Table} (hwf : WF s es) (c : Byte) (r : List Byte)
    (hl : skipRest false s.infile = c :: r) (ha : isalpha c.val = true) :
    (128 ≤ (c :: r.takeWhile aln).length → ∃ m s', advance s = .abort m s') ∧
    ((c :: r.takeWhile aln).length < 128 →
      advance s = (internWord (c :: r.takeWhile aln)
        (s.skipped.scanned (c :: r.takeWhile aln) (r.dropWhile aln))).bind
          fun tok s => .ok () { s with lookahead := tok }) := by
  have e := advance_head s c r hl
  rw [if_neg (by rw [isalpha_not_digit _ ha]; decide), if_pos ha] at e
  obtain ⟨ho, hk⟩ := lexanWord_eq c r s.skipped (isalpha_isalnum _ ha) hwf.skipped.buf
  constructor
  · intro h
    obtain ⟨lb, inf, e'⟩ := ho h
    rw [e'] at e
    exact ⟨_, _, e⟩
  · intro h
    rw [hk h] at e
    rw [e]
    have hsc : { s.skipped with
        lexbuf := c :: r.takeWhile aln ++ 0 :: s.skipped.lexbuf.drop ((r.takeWhile aln).length + 2)
        infile := r.dropWhile aln } =
        s.skipped.scanned (c :: r.takeWhile aln) (r.dropWhile aln) := by
      simp [State.scanned]
    rw [hsc]

theorem WF.with_ident {s : State} {es : Table} (h : WF s es) (w : List Byte)
    (hw : ∀ c ∈ w, aln c = true) (hnew : w ∉ es.map Prod.fst) (c1 : es.length + 1 < 100)
    (c2 : (arena es).length + w.length < 999) (v : Int) :
    WF { s.inserted w ID with tokenval := v } (es ++ [(w, ID)]) := by
  have htab' := h.tab.inserted w ID (aln_no_nul _ hw) c1 c2
  refine ⟨htab'.frame rfl rfl rfl rfl, h.buf, ?_, ?_, ?_⟩
  · obtain ⟨ids, e1, e2⟩ := h.kw
    refine ⟨ids ++ [(w, ID)], by rw [e1, List.append_assoc], ?_⟩
    intro e he
    simp only [List.mem_append, List.mem_singleton] at he
    rcases he with he | rfl
    · exact e2 e he
    · rfl
  · intro e he
    simp only [List.mem_append, List.mem_singleton] at he
    rcases he with he | rfl
    · exact h.word e he
    · exact hw
  · rw [List.map_append, List.nodup_append]
    refine ⟨h.nodup, by simp, ?_⟩
    intro x hx hx'
    simp only [List.map_cons, List.map_nil, List.mem_singleton] at hx'
    subst hx'
    exact hnew hx

/-- An entry of a well-formed table whose lexeme is not a keyword is an
identifier. -/
theorem WF.ident_of_new {X Y : State} {ex ey : Table} (hx : WF X ex) (hy : WF Y ey)
    (e : List Byte × Int) (he : e ∈ ex) (hnew : e.1 ∉ ey.map Prod.fst) : e.2 = ID := by
  obtain ⟨idx, e1, e2⟩ := hx.kw
  obtain ⟨idy, e3, -⟩ := hy.kw
  rw [e1] at he
  rw [List.mem_append] at he
  rcases he with he | he
  · exfalso
    apply hnew
    rw [e3, List.map_append]
    exact List.mem_append_left _ (List.mem_map_of_mem _ he)
  · exact e2 e he

/-- Interning a lexeme in a table and in a duplicate-free part of it: when the
first succeeds so does the second, with the same token type, and the second
table is still part of the first. -/
theorem intern_sub {X Y X' : State} {ex ey : Table} (hx : WF X ex) (hy : WF Y ey)
    (hsub : ey ⊆ ex) (w : List Byte) (hw : ∀ c ∈ w, aln c = true) (tok : Int)
    (h : internWord w X = .ok tok X') :
    ∃ Y' ex' ey', internWord w Y = .ok tok Y' ∧ WF X' ex' ∧ WF Y' ey' ∧ ey' ⊆ ex' ∧
      tok ≠ NUM ∧ tok ≠ 59 ∧ tok ≠ DONE ∧
      (tok = ID → entryText X' X'.tokenval = some w ∧ entryText Y' Y'.tokenval = some w) := by
  have hnul := aln_no_nul _ hw
  cases fy : ey.find w ey.length with
  | succ p =>
    have h1 := Table.find_pos ey _ _ p fy
    cases he : ey[p]? with
    | none => rw [he] at h1; cases h1
    | some e =>
      rw [he] at h1
      simp only [Option.map_some', Option.some.injEq] at h1
      have hmem : e ∈ ex := hsub (List.getElem?_mem he)
      obtain ⟨q, hq⟩ := List.mem_iff_getElem?.1 hmem
      have fx := Table.find_of_nodup ex w q e hx.nodup hq h1
      rw [hx.tab.internWord_old w q e fx hq] at h
      simp only [Res.ok.injEq] at h
      obtain ⟨rfl, rfl⟩ := h
      have hX : WF { X with tokenval := (q : Int) + 1 } ex := hx.reframe rfl rfl rfl rfl hx.buf
      have hY : WF { Y with tokenval := (p : Int) + 1 } ey := hy.reframe rfl rfl rfl rfl hy.buf
      have hm := hx.token_mem e hmem
      refine ⟨_, ex, ey, hy.tab.internWord_old w p e fy he, hX, hY, hsub, ?_, ?_, ?_, ?_⟩
      · rcases hm with h' | h' | h' <;> rw [h'] <;> decide
      · rcases hm with h' | h' | h' <;> rw [h'] <;> decide
      · rcases hm with h' | h' | h' <;> rw [h'] <;> decide
      · intro _
        rw [← h1]
        exact ⟨(hX.tab.getAt_of_getElem? q e hq).2, (hY.tab.getAt_of_getElem? p e he).2⟩
  | zero =>
    have hnew := (Table.find_zero_iff ey _).1 fy
    have hnd : ((ey ++ [(w, ID)]).map Prod.fst).Nodup := by
      rw [List.map_append, List.nodup_append]
      refine ⟨hy.nodup, by simp, ?_⟩
      intro x hx1 hx2
      simp only [List.map_cons, List.map_nil, List.mem_singleton] at hx2
      subst hx2
      exact hnew hx1
    have key : ∃ ex', WF X' ex' ∧ ex ⊆ ex' ∧ (w, ID) ∈ ex' ∧ tok = ID ∧
        entryText X' X'.tokenval = some w := by
      cases fx : ex.find w ex.length with
      | succ q =>
        have h1 := Table.find_pos ex _ _ q fx
        cases he : ex[q]? with
        | none => rw [he] at h1; cases h1
        | some e =>
          rw [he] at h1
          simp only [Option.map_some', Option.some.injEq] at h1
          rw [hx.tab.internWord_old w q e fx he] at h
          simp only [Res.ok.injEq] at h
          obtain ⟨rfl, rfl⟩ := h
          have hmem : e ∈ ex := List.getElem?_mem he
          have hid : e.2 = ID := hx.ident_of_new hy e hmem (by rw [h1]; exact hnew)
          have hX : WF { X with tokenval := (q : Int) + 1 } ex :=
            hx.reframe rfl rfl rfl rfl hx.buf
          refine ⟨ex, hX, fun _ h => h, ?_, hid, ?_⟩
          · have : e = (w, ID) := Prod.ext h1 hid
            rw [← this]; exact hmem
          · rw [← h1]; exact (hX.tab.getAt_of_getElem? q e he).2
      | zero =>
        have hnewx := (Table.find_zero_iff ex _).1 fx
        rw [hx.tab.internWord_new w hnul fx] at h
        by_cases c1 : 100 ≤ ex.length + 1
        · rw [if_pos c1] at h; cases h
        · rw [if_neg c1] at h
          by_cases c2 : 999 ≤ (arena ex).length + w.length
          · rw [if_pos c2] at h; cases h
          · rw [if_neg c2] at h
            simp only [Res.ok.injEq] at h
            obtain ⟨rfl, rfl⟩ := h
            have hX := hx.with_ident w hw hnewx (by omega) (by omega) ((ex.length : Int) + 1)
            refine ⟨_, hX, List.subset_append_left _ _, by simp, rfl, ?_⟩
            exact (hX.tab.getAt_of_getElem? ex.length (w, ID) (by simp)).2
    obtain ⟨ex', hX, hsx, hmem, rfl, htx⟩ := key
    have hs : ey ++ [(w, ID)] ⊆ ex' := by
      intro e he
      simp only [List.mem_append, List.mem_singleton] at he
      rcases he with he | rfl
      · exact hsx (hsub he)
      · exact hmem
    have hle := table_le hnd hs
    have h1 := hX.tab.size_lt
    have h2 := hX.tab.arena_le
    simp only [List.length_append, List.length_singleton, arena_append, arena,
      List.length_cons, List.length_nil] at hle
    have hY := hy.with_ident w hw hnew (by omega) (by omega) ((ey.length : Int) + 1)
    refine ⟨_, ex', _, ?_, hX, hY, hs, by decide, by decide, by decide, fun _ => ⟨htx, ?_⟩⟩
    · rw [hy.tab.internWord_new w hnul fy, if_neg (by omega), if_neg (by omega)]
    · exact (hY.tab.getAt_of_getElem? ey.length (w, ID) (by simp)).2

theorem la_ne (a b : Int) (h : a ≠ b) (P : Prop) (e : a = b) : P := absurd e h

/-- One call `lookahead = lexan()` on the same input with a table and with a
duplicate-free part of it: when the first returns so does the second, with the
same token and the same input left; a number has the same value, an identifier
the same text. -/
theorem advance_sub {x y x' : State} {ex ey : Table} (hx : WF x ex) (hy : WF y ey)
    (hsub : ey ⊆ ex) (hin : y.infile = x.infile) (h : advance x = .ok () x') :
    ∃ y' ex' ey', advance y = .ok () y' ∧ PWF x' ex' ∧ PWF y' ey' ∧ ey' ⊆ ex' ∧
      y'.infile = x'.infile ∧ y'.lookahead = x'.lookahead ∧
      (x'.lookahead = NUM → y'.tokenval = x'.tokenval) ∧
      (x'.lookahead = ID → ∃ w, w ≠ [] ∧ (∀ c ∈ w, aln c = true) ∧
        entryText x' x'.tokenval = some w ∧ entryText y' y'.tokenval = some w) := by
  have hsk : y.skipped.infile = x.skipped.infile := by
    show skipRest false y.infile = skipRest false x.infile
    rw [hin]
  cases hl : skipRest false x.infile with
  | nil =>
    rw [advance_eof x hl] at h
    simp only [Res.ok.injEq, true_and] at h
    subst h
    refine ⟨_, ex, ey, advance_eof y (by rw [hin]; exact hl),
      ⟨hx.skipped.reframe rfl rfl rfl rfl hx.buf, la_ne DONE ID (by decide) _⟩,
      ⟨hy.skipped.reframe rfl rfl rfl rfl hy.buf, la_ne DONE ID (by decide) _⟩,
      hsub, hsk, rfl, la_ne DONE NUM (by decide) _, la_ne DONE ID (by decide) _⟩
  | cons c r =>
    have ey0 := advance_head y c r (by rw [hin]; exact hl)
    have h0 := h
    rw [advance_head x c r hl] at h
    by_cases hdig : isdigit c.val = true
    · rw [if_pos hdig] at h ey0
      simp only [Res.bind_ok, Res.ok.injEq, true_and] at h
      subst h
      refine ⟨_, ex, ey, ey0,
        ⟨hx.skipped.reframe rfl rfl rfl rfl hx.buf, la_ne NUM ID (by decide) _⟩,
        ⟨hy.skipped.reframe rfl rfl rfl rfl hy.buf, la_ne NUM ID (by decide) _⟩,
        hsub, rfl, rfl, fun _ => rfl, la_ne NUM ID (by decide) _⟩
    · rw [if_neg hdig] at h ey0
      by_cases ha : isalpha c.val = true
      · clear h ey0
        obtain ⟨ox, kx⟩ := advance_alpha hx c r hl ha
        obtain ⟨-, ky⟩ := advance_alpha hy c r (by rw [hin]; exact hl) ha
        rcases Nat.lt_or_ge (c :: r.takeWhile aln).length 128 with hlen | hlen
        · have e1 := kx hlen
          have e2 := ky hlen
          rw [h0] at e1
          have hX := hx.skipped.scanned (c :: r.takeWhile aln) (r.dropWhile aln) hlen
          have hY := hy.skipped.scanned (c :: r.takeWhile aln) (r.dropWhile aln) hlen
          cases hi : internWord (c :: r.takeWhile aln)
              (x.skipped.scanned (c :: r.takeWhile aln) (r.dropWhile aln)) with
          | ok tok X' =>
            rw [hi] at e1
            simp only [Res.bind_ok, Res.ok.injEq, true_and] at e1
            clear h0
            subst e1
            obtain ⟨Y', ex', ey', hj, hX', hY', hs', n1, n2, n3, ht⟩ :=
              intern_sub hX hY hsub _ (word_aln c r ha) tok hi
            rw [hj, Res.bind_ok] at e2
            refine ⟨_, ex', ey', e2, ⟨hX'.reframe rfl rfl rfl rfl hX'.buf, ?_⟩,
              ⟨hY'.reframe rfl rfl rfl rfl hY'.buf, ?_⟩, hs', ?_, rfl,
              fun e => absurd e n1, fun e => ?_⟩
            · intro e
              exact ⟨_, (ht e).1, word_aln c r ha⟩
            · intro e
              exact ⟨_, (ht e).2, word_aln c r ha⟩
            · show Y'.infile = X'.infile
              rw [internWord_infile hj, internWord_infile hi]
              rfl
            · exact ⟨_, List.cons_ne_nil _ _, word_aln c r ha, (ht e).1, (ht e).2⟩
          | abort m X' => rw [hi] at e1; cases e1
          | fault => rw [hi] at e1; cases e1
          | timeout => rw [hi] at e1; cases e1
        · obtain ⟨m, s', e⟩ := ox hlen
          rw [h0] at e; cases e
      · rw [if_neg ha] at h ey0
        by_cases h37 : (c.val : Int) = 37
        · rw [if_pos h37] at h ey0
          simp only [Res.bind_ok, Res.ok.injEq, true_and] at h
          subst h
          refine ⟨_, ex, ey, ey0,
            ⟨hx.skipped.reframe rfl rfl rfl rfl hx.buf, la_ne MOD ID (by decide) _⟩,
            ⟨hy.skipped.reframe rfl rfl rfl rfl hy.buf, la_ne MOD ID (by decide) _⟩,
            hsub, rfl, rfl, la_ne MOD NUM (by decide) _, la_ne MOD ID (by decide) _⟩
        · rw [if_neg h37] at h ey0
          by_cases h92 : (c.val : Int) = 92
          · rw [if_pos h92] at h ey0
            simp only [Res.bind_ok, Res.ok.injEq, true_and] at h
            subst h
            refine ⟨_, ex, ey, ey0,
              ⟨hx.skipped.reframe rfl rfl rfl rfl hx.buf, la_ne 47 ID (by decide) _⟩,
              ⟨hy.skipped.reframe rfl rfl rfl rfl hy.buf, la_ne 47 ID (by decide) _⟩,
              hsub, rfl, rfl, la_ne 47 NUM (by decide) _, la_ne 47 ID (by decide) _⟩
          · rw [if_neg h92] at h ey0
            simp only [Res.bind_ok, Res.ok.injEq, true_and] at h
            subst h
            have hc := c.isLt
            have n1 : (c.val : Int) ≠ ID := by simp only [ID]; omega
            have n2 : (c.val : Int) ≠ NUM := by simp only [NUM]; omega
            refine ⟨_, ex, ey, ey0,
              ⟨hx.skipped.reframe rfl rfl rfl rfl hx.buf, fun e => absurd e n1⟩,
              ⟨hy.skipped.reframe rfl rfl rfl rfl hy.buf, fun e => absurd e n1⟩,
              hsub, rfl, rfl, fun e => absurd e n2, fun e => absurd e n1⟩

/-! ## Statements of a multi-statement input -/

theorem Stmt1.infile {x xe : State} {q : List Byte} (h : Stmt1 x q xe) :
    x.infile = q ++ xe.infile := by
  induction h with
  | last x x1 q h hl hq => exact hq
  | more x x1 xe u q h hl hd hu ht ih => rw [hu, ih, List.append_assoc]

theorem Stmt1.ne_nil {x xe : State} {q : List Byte} {es : Table} (hwf : WF x es)
    (h : Stmt1 x q xe) : q ≠ [] := by
  cases h with
  | last _ _ _ h hl hq =>
    obtain ⟨es', hk⟩ := advance_determ hwf h
    have := hk.length_lt (by rw [hl]; decide)
    rintro rfl
    rw [hq] at this
    simp at this
  | more _ x1 _ u q h hl hd hu ht =>
    obtain ⟨es', hk⟩ := advance_determ hwf h
    have := hk.length_lt hd
    intro e
    have e' := List.append_eq_nil.1 e
    rw [hu, e'.1] at this
    simp at this

theorem Stmt1.after_write {x xe : State} {q : List Byte} (h : Stmt1 x q xe) (text : List Byte) :
    Stmt1 (fprintf text x) q (fprintf text xe) := by
  induction h with
  | last x x1 q h hl hq =>
    exact .last _ (fprintf text x1) q (by rw [advance_fprintf, h]; rfl) hl hq
  | more x x1 xe u q h hl hd hu ht ih =>
    exact .more _ (fprintf text x1) _ u q (by rw [advance_fprintf, h]; rfl) hl hd hu ih

theorem Split.out_indep {x : State} {qs : List (List Byte)} (h : Split x qs) (text : List Byte) :
    Split (fprintf text x) qs := by
  induction h with
  | nil x x1 h hd => exact .nil _ (fprintf text x1) (by rw [advance_fprintf, h]; rfl) hd
  | cons x xe q qs h hs ih => exact .cons _ _ q qs (h.after_write text) ih

theorem consumed_append {s s' : State} {es es' : Table} (hk : AdvOk s s' es es') :
    s.infile = consumed s s' ++ s'.infile := by
  obtain ⟨sk, tk, e, -⟩ := hk.split
  unfold consumed
  rw [e]
  simp only [List.length_append, Nat.add_sub_cancel]
  rw [List.take_left']
  simp

/-- What `stmtsFrom` computes is a split of the input into statements. -/
theorem stmtsFrom_spec (n : Nat) (s : State) (es : Table) (hwf : WF s es) (acc : List Byte)
    (ps : List (List Byte)) (h : stmtsFrom n s acc = some ps) :
    (acc = [] ∧ ps = [] ∧ Split s []) ∨
    (∃ q xe ps', ps = (acc ++ q) :: ps' ∧ Stmt1 s q xe ∧ Split xe ps') := by
  induction n generalizing s es acc ps with
  | zero => cases h
  | succ n ih =>
    unfold stmtsFrom at h
    cases ha : advance s with
    | ok a s' =>
      rw [ha] at h
      simp only at h
      obtain ⟨es', hk⟩ := advance_determ hwf ha
      have hc := consumed_append hk
      by_cases hd : s'.lookahead = DONE
      · rw [if_pos hd] at h
        by_cases hacc : acc = []
        · rw [if_pos hacc] at h
          simp only [Option.some.injEq] at h
          exact Or.inl ⟨hacc, h.symm, .nil s s' ha hd⟩
        · rw [if_neg hacc] at h; cases h
      · rw [if_neg hd] at h
        right
        by_cases h59 : s'.lookahead = 59
        · rw [if_pos h59] at h
          cases hr : stmtsFrom n s' [] with
          | none => rw [hr] at h; cases h
          | some ps' =>
            rw [hr] at h
            simp only [Option.map_some', Option.some.injEq] at h
            refine ⟨consumed s s', s', ps', h.symm, .last s s' _ ha h59 hc, ?_⟩
            rcases ih s' es' hk.pwf.wf [] ps' hr with ⟨-, rfl, h'⟩ | ⟨q, xe, ps'', rfl, h1, h2⟩
            · exact h'
            · exact .cons _ xe _ _ h1 h2
        · rw [if_neg h59] at h
          rcases ih s' es' hk.pwf.wf _ ps h with ⟨h', -, -⟩ | ⟨q, xe, ps', rfl, h1, h2⟩
          · have := List.append_eq_nil.1 h'
            exfalso
            have hl := hk.length_lt hd
            rw [hc, this.2] at hl
            simp at hl
          · exact ⟨consumed s s' ++ q, xe, ps', by rw [List.append_assoc],
              .more s s' xe _ q ha h59 hd hc h1, h2⟩
    | abort m s' => rw [ha] at h; cases h
    | fault => rw [ha] at h; cases h
    | timeout => rw [ha] at h; cases h

theorem statements_split (input : List Byte) (ps : List (List Byte))
    (h : statements input = some ps) : Split (State.start input) ps := by
  rcases stmtsFrom_spec _ _ _ (wf_start input) [] ps h with ⟨-, rfl, h'⟩ | ⟨q, xe, ps', rfl, h1, h2⟩
  · exact h'
  · exact .cons _ xe _ _ h1 h2

/-! ## The shape of an output line -/

theorem Words.nil : Words [] := ⟨[], rfl, fun _ h => absurd h (List.not_mem_nil _)⟩

theorem Words.snoc {o w : List Byte} (h : Words o) (hw : Word w) : Words (o ++ (w ++ [32])) := by
  obtain ⟨ws, rfl, hws⟩ := h
  refine ⟨ws ++ [w], by simp, ?_⟩
  intro v hv
  simp only [List.mem_append, List.mem_singleton] at hv
  rcases hv with hv | rfl
  · exact hws v hv
  · exact hw

theorem Words.no_newline {o : List Byte} (h : Words o) : o.count 10 = 0 := by
  obtain ⟨ws, rfl, hws⟩ := h
  rw [List.count_eq_zero]
  intro hm
  simp only [List.mem_flatten, List.mem_map] at hm
  obtain ⟨l, ⟨w, hw, rfl⟩, h10⟩ := hm
  simp only [List.mem_append, List.mem_singleton] at h10
  rcases h10 with h10 | h10
  · exact ((hws w hw).2 10 h10).2.1 rfl
  · exact absurd h10 (by decide)

theorem Line.one_newline {o : List Byte} (h : Line o) : o.count 10 = 1 := by
  obtain ⟨body, rfl, hb⟩ := h
  rw [List.count_append, hb.no_newline]
  decide

theorem word_single (c : Byte) (h1 : c ≠ 32) (h2 : c ≠ 10) (h3 : c ≠ 59) : Word [c] := by
  refine ⟨List.cons_ne_nil _ _, fun d hd => ?_⟩
  rw [List.mem_singleton] at hd
  subst hd
  exact ⟨h1, h2, h3⟩

theorem word_aln_text (w : List Byte) (hne : w ≠ []) (h : ∀ c ∈ w, aln c = true) : Word w := by
  refine ⟨hne, fun c hc => ?_⟩
  have := h c hc
  refine ⟨?_, ?_, ?_⟩ <;> rintro rfl <;> revert this <;> decide

theorem word_opText (o : Int) (h : addop o ∨ mulop o) : ∃ w, opText o = w ++ [32] ∧ Word w := by
  rcases h with (rfl | rfl) | (rfl | rfl | rfl | rfl)
  · exact ⟨[43], rfl, word_single _ (by decide) (by decide) (by decide)⟩
  · exact ⟨[45], rfl, word_single _ (by decide) (by decide) (by decide)⟩
  · exact ⟨[42], rfl, word_single _ (by decide) (by decide) (by decide)⟩
  · exact ⟨[47], rfl, word_single _ (by decide) (by decide) (by decide)⟩
  · refine ⟨[68, 73, 86], rfl, word_aln_text _ (List.cons_ne_nil _ _) ?_⟩
    intro c hc
    simp only [List.mem_cons, List.mem_singleton, List.not_mem_nil, or_false] at hc
    rcases hc with rfl | rfl | rfl <;> decide
  · exact ⟨[37], rfl, word_single _ (by decide) (by decide) (by decide)⟩

theorem word_fmtInt (v : Int) : Word (fmtInt v) := by
  constructor
  · unfold fmtInt
    split
    · exact List.cons_ne_nil _ _
    · unfold decDigits
      split <;> simp
  · intro c hc
    rcases fmtInt_chars v c hc with rfl | h
    · decide
    · refine ⟨?_, ?_, ?_⟩ <;> rintro rfl <;> revert h <;> decide

/-! ## A statement of the whole run and the same statement alone -/

theorem PWF.same_table {s s' : State} {es : Table} (h : PWF s es)
    (h1 : s'.lastentry = s.lastentry) (h2 : s'.lastchar = s.lastchar)
    (h3 : s'.symtable = s.symtable) (h4 : s'.lexemes = s.lexemes)
    (h5 : s'.lexbuf = s.lexbuf) (h6 : s'.lookahead = s.lookahead)
    (h7 : s'.tokenval = s.tokenval) : PWF s' es := by
  refine ⟨h.wf.reframe h1 h2 h3 h4 (by rw [h5]; exact h.wf.buf), ?_⟩
  intro e
  rw [h6] at e
  obtain ⟨w, e1, e2⟩ := h.idtext e
  exact ⟨w, by rw [h7, entryText_congr s s' _ h3 h4]; exact e1, e2⟩

/-- Reading a token of the current statement in the whole run and in the run on
the statement alone. -/
theorem alone_step {x y x' xe : State} {ex ey : Table} {q : List Byte}
    (hx : WF x ex) (hy : WF y ey) (hsub : ey ⊆ ex) (hq : y.infile = q)
    (hst : Stmt1 x q xe) (h : advance x = .ok () x') :
    ∃ y' ex' ey', advance y = .ok () y' ∧ PWF x' ex' ∧ PWF y' ey' ∧ ey' ⊆ ex' ∧
      y'.lookahead = x'.lookahead ∧ x'.lookahead ≠ DONE ∧
      (x'.lookahead = NUM → y'.tokenval = x'.tokenval) ∧
      (x'.lookahead = ID → ∃ w, w ≠ [] ∧ (∀ c ∈ w, aln c = true) ∧
        entryText x' x'.tokenval = some w ∧ entryText y' y'.tokenval = some w) ∧
      ((x'.lookahead = 59 ∧ y'.infile = [] ∧ xe = x') ∨
        (x'.lookahead ≠ 59 ∧ Stmt1 x' y'.infile xe)) := by
  have key : ∃ u v, x.infile = u ++ x'.infile ∧ q = u ++ v ∧ x'.lookahead ≠ DONE ∧
      advance (x.withIn (u ++ v)) = .ok () (x'.withIn v) ∧
      ((x'.lookahead = 59 ∧ v = [] ∧ xe = x') ∨ (x'.lookahead ≠ 59 ∧ Stmt1 x' v xe)) := by
    cases hst with
    | last _ x1 _ h1 hl hq' =>
      rw [h] at h1
      simp only [Res.ok.injEq, true_and] at h1
      subst h1
      have hd : x'.lookahead ≠ DONE := by rw [hl]; decide
      refine ⟨q, [], hq', (List.append_nil q).symm, hd, ?_, Or.inl ⟨hl, rfl, rfl⟩⟩
      exact advance_suffix hx q [] h hd hq' (Or.inr (Or.inr (advance_semi hx h hl)))
    | more _ x1 _ u v h1 hl hd hu ht =>
      rw [h] at h1
      simp only [Res.ok.injEq, true_and] at h1
      subst h1
      refine ⟨u, v, hu, rfl, hd, ?_, Or.inr ⟨hl, ht⟩⟩
      obtain ⟨es', hk⟩ := advance_determ hx h
      have hne := ht.ne_nil hk.pwf.wf
      have hi := ht.infile
      refine advance_suffix hx u v h hd hu (Or.inl ?_)
      rw [hi]
      cases v with
      | nil => exact absurd rfl hne
      | cons d v' => rfl
  obtain ⟨u, v, hu, rfl, hd, hsuf, hcase⟩ := key
  have hz : WF (x.withIn (u ++ v)) ex := hx.reframe rfl rfl rfl rfl hx.buf
  obtain ⟨y', ex', ey', e, px, py, hs', hi, hla, hnum, hid⟩ :=
    advance_sub hz hy hsub hq hsuf
  have hi' : y'.infile = v := hi
  refine ⟨y', ex', ey', e, px.same_table rfl rfl rfl rfl rfl rfl rfl, py, hs', hla, hd, hnum, hid, ?_⟩
  rcases hcase with ⟨h1, h2, h3⟩ | ⟨h1, h2⟩
  · exact Or.inl ⟨h1, by rw [hi', h2], h3⟩
  · exact Or.inr ⟨h1, by rw [hi']; exact h2⟩

theorem Alone.after_word {pre : List Byte} {qs : List (List Byte)} {x y : State}
    (h : Alone pre qs x y) (w : List Byte) (hw : Word w) :
    Alone pre qs (fprintf (w ++ [32]) x) (fprintf (w ++ [32]) y) := by
  obtain ⟨ex, ey, px, py, hs⟩ := h.tabs
  refine ⟨⟨ex, ey, px.fprintf _, py.fprintf _, hs⟩, h.la, h.num, h.idt, ?_, h.words.snoc hw, ?_⟩
  · show x.outfile ++ _ = pre ++ (y.outfile ++ _)
    rw [h.out, List.append_assoc]
  · rcases h.ahead with ⟨h1, h2, h3⟩ | ⟨h1, xe, h2, h3⟩
    · exact Or.inl ⟨h1, h2, h3.out_indep _⟩
    · exact Or.inr ⟨h1, _, h2.after_write _, h3.out_indep _⟩

theorem alone_rule (pre : List Byte) (qs : List (List Byte)) :
    Rule (Alone pre qs) (fun _ _ _ => True) := by
  constructor
  · intro x y h h59 _
    cases e : advance x with
    | ok a x' =>
      obtain ⟨ex, ey, px, py, hs⟩ := h.tabs
      rcases h.ahead with ⟨h1, -⟩ | ⟨-, xe, hst, hsp⟩
      · exact absurd h1 h59
      · obtain ⟨y', ex', ey', e', px', py', hs', hla, hd, hnum, hid, hcase⟩ :=
          alone_step px.wf py.wf hs rfl hst e
        rw [e']
        refine .ok _ _ ⟨⟨ex', ey', px', py', hs'⟩, hla, hnum, hid, ?_, ?_, ?_⟩
        · rw [advance_outfile e, advance_outfile e']; exact h.out
        · rw [advance_outfile e']; exact h.words
        · rcases hcase with ⟨h1, h2, rfl⟩ | ⟨h1, h2⟩
          · exact Or.inl ⟨h1, h2, hsp⟩
          · exact Or.inr ⟨h1, xe, h2, hsp⟩
    | abort m x' => exact .abort _ _ _ trivial
    | fault => exact .fault _
    | timeout => exact .timeout _
  · intro x y h
    exact h.la
  · intro x y o h ho
    obtain ⟨w, e, hw⟩ := word_opText o ho
    rw [e]
    exact h.after_word w hw
  · intro x y h hl x' e
    rcases hl with hl | hl
    · rw [hl, emit_num] at e
      simp only [Res.ok.injEq, true_and] at e
      refine ⟨fprintf (fmtInt x.tokenval ++ [32]) y, by rw [hl, h.num hl, emit_num], ?_⟩
      rw [← e]
      exact h.after_word _ (word_fmtInt _)
    · obtain ⟨w, hne, hw, e1, e2⟩ := h.idt hl
      rw [hl, emit_id x _ w e1] at e
      simp only [Res.ok.injEq, true_and] at e
      refine ⟨fprintf (w ++ [32]) y, by rw [hl, emit_id y _ w e2], ?_⟩
      rw [← e]
      exact h.after_word _ (word_aln_text w hne hw)
  · intros; trivial
  · intros; trivial

theorem fprintf_nil (s : State) : fprintf [] s = s := by
  cases s; simp [fprintf]

/-- A statement cannot begin with `;`. -/
theorem expr_semi (n : Nat) (s s' : State) (h : s.lookahead = 59) : expr n s ≠ .ok () s' := by
  cases n with
  | zero => intro e; cases e
  | succ n =>
    intro e
    unfold expr term factor at e
    rw [if_neg (by rw [h]; decide), if_neg (by rw [h]; decide), if_neg (by rw [h]; decide)] at e
    cases e

/-- The run on a statement alone, from the state after its first token. -/
theorem alone_run (q : List Byte) (n : Nat) (y1 y2 : State)
    (h1 : advance (State.start q) = .ok () y1) (hd : y1.lookahead ≠ DONE)
    (h2 : expr n y1 = .ok () y2) (hl : y2.lookahead = 59) (hi : y2.infile = [])
    (hw : Words y2.outfile) : AloneOut q (y2.outfile ++ [59, 10]) := by
  have hr := run_drive q (q.length + 3 + n + 1 + 1) (by omega)
  unfold drive at hr
  rw [h1, Res.bind_ok] at hr
  unfold parseLoop at hr
  rw [if_pos hd, expr_fuel n _ y1 y2 h2 (by omega), Res.bind_ok, matchTok_eq, if_pos hl,
    advance_eof y2 (by rw [hi]; rfl), Res.bind_ok] at hr
  unfold parseLoop at hr
  rw [if_neg (by
    show ¬ ((DONE : Int) ≠ DONE)
    exact fun h => h rfl)] at hr
  exact ⟨_, hr, rfl, y2.outfile, rfl, hw⟩

/-- The loop of `parse` from a statement boundary on: the output is what was
written before, followed by the outputs of the remaining statements, each as
translated alone. -/
theorem alone_loop (n : Nat) (x : State) (t : List Byte) (qs : List (List Byte)) (xf : State)
    (ex : Table) (px : PWF x ex) (hsp : Split x qs)
    (h : ((advance x).bind fun _ x3 => parseLoop n (fprintf t x3)) = .ok () xf) :
    ∃ outs, List.Forall₂ AloneOut qs outs ∧ xf.outfile = x.outfile ++ t ++ outs.flatten := by
  induction n generalizing x t qs xf ex with
  | zero =>
    cases e : advance x with
    | ok a x3 => rw [e] at h; cases h
    | abort m x3 => rw [e] at h; cases h
    | fault => rw [e] at h; cases h
    | timeout => rw [e] at h; cases h
  | succ n ih =>
    cases e : advance x with
    | abort m x3 => rw [e] at h; cases h
    | fault => rw [e] at h; cases h
    | timeout => rw [e] at h; cases h
    | ok a x3 =>
      rw [e, Res.bind_ok] at h
      unfold parseLoop at h
      cases hsp with
      | nil _ x1 h1 hd =>
        rw [e] at h1
        simp only [Res.ok.injEq, true_and] at h1
        subst h1
        rw [if_neg (by
          show ¬ (x3.lookahead ≠ DONE)
          exact fun h => h hd)] at h
        simp only [Res.ok.injEq, true_and] at h
        refine ⟨[], .nil, ?_⟩
        rw [← h]
        show x3.outfile ++ t = _
        rw [advance_outfile e]
        simp
      | cons _ xe q qs' hst hsp' =>
        obtain ⟨y1, ex', ey', e', px', py', hs', hla, hd, hnum, hid, hcase⟩ :=
          alone_step px.wf (wf_start q) (by
            obtain ⟨ids, e1, -⟩ := px.wf.kw
            rw [e1]
            exact List.subset_append_left _ _) rfl hst e
        rw [if_pos (show (fprintf t x3).lookahead ≠ DONE from hd)] at h
        rcases hcase with ⟨h59, -, -⟩ | ⟨h59, hst'⟩
        · cases e2 : expr n (fprintf t x3) with
          | ok a x2 => exact absurd e2 (expr_semi n _ _ h59)
          | abort m x2 => rw [e2] at h; cases h
          | fault => rw [e2] at h; cases h
          | timeout => rw [e2] at h; cases h
        · have hA : Alone (x.outfile ++ t) qs' (fprintf t x3) y1 := by
            refine ⟨⟨ex', ey', px'.fprintf t, py', hs'⟩, hla, hnum, hid, ?_, ?_,
              Or.inr ⟨h59, _, hst'.after_write t, hsp'.out_indep t⟩⟩
            · show x3.outfile ++ t = _
              rw [advance_outfile e, advance_outfile e']
              show _ = x.outfile ++ t ++ []
              rw [List.append_nil]
            · rw [advance_outfile e']
              exact Words.nil
          have hrel := expr_rel (alone_rule (x.outfile ++ t) qs') n hA
          cases e2 : expr n (fprintf t x3) with
          | abort m x2 => rw [e2] at h; cases h
          | fault => rw [e2] at h; cases h
          | timeout => rw [e2] at h; cases h
          | ok a x2 =>
            rw [e2] at hrel h
            generalize e3 : expr n y1 = ry at hrel
            cases hrel with
            | ok _ y2 hA2 =>
              rw [Res.bind_ok, matchTok_eq] at h
              by_cases hl : x2.lookahead = 59
              · rw [if_pos hl] at h
                rcases hA2.ahead with ⟨-, hi, hsp2⟩ | ⟨hn, -⟩
                · obtain ⟨ex2, ey2, px2, -, -⟩ := hA2.tabs
                  obtain ⟨outs, ho1, ho2⟩ := ih x2 [59, 10] qs' xf ex2 px2 hsp2 h
                  refine ⟨(y2.outfile ++ [59, 10]) :: outs, .cons ?_ ho1, ?_⟩
                  · exact alone_run q n y1 y2 e' (by rw [hla]; exact hd) e3
                      (by rw [hA2.la]; exact hl) hi hA2.words
                  · rw [ho2, hA2.out]
                    simp only [List.flatten_cons, List.append_assoc]
                · exact absurd hl hn
              · rw [if_neg hl] at h
                cases h

/-- The token `DONE` is read only when nothing but white space and comments
is left. -/
theorem skip_of_done {x x1 : State} {es : Table} (hwf : WF x es) (h : advance x = .ok () x1)
    (hd : x1.lookahead = DONE) : skipRest false x.infile = [] := by
  cases hl : skipRest false x.infile with
  | nil => rfl
  | cons c r =>
    exfalso
    have h0 := h
    rw [advance_head x c r hl] at h
    by_cases hdig : isdigit c.val = true
    · rw [if_pos hdig] at h
      simp only [Res.bind_ok, Res.ok.injEq, true_and] at h
      rw [← h] at hd
      exact la_ne NUM DONE (by decide) _ hd
    · rw [if_neg hdig] at h
      by_cases ha : isalpha c.val = true
      · clear h
        obtain ⟨ox, kx⟩ := advance_alpha hwf c r hl ha
        rcases Nat.lt_or_ge (c :: r.takeWhile aln).length 128 with hlen | hlen
        · have e1 := kx hlen
          rw [h0] at e1
          have hX := hwf.skipped.scanned (c :: r.takeWhile aln) (r.dropWhile aln) hlen
          cases hi : internWord (c :: r.takeWhile aln)
              (x.skipped.scanned (c :: r.takeWhile aln) (r.dropWhile aln)) with
          | ok tok X' =>
            rw [hi] at e1
            simp only [Res.bind_ok, Res.ok.injEq, true_and] at e1
            obtain ⟨-, -, -, -, -, -, -, -, -, n3, -⟩ :=
              intern_sub hX hX (fun _ h => h) _ (word_aln c r ha) tok hi
            rw [e1] at hd
            exact n3 hd
          | abort m X' => rw [hi] at e1; cases e1
          | fault => rw [hi] at e1; cases e1
          | timeout => rw [hi] at e1; cases e1
        · obtain ⟨m, s', e⟩ := ox hlen
          rw [h0] at e; cases e
      · rw [if_neg ha] at h
        by_cases h37 : (c.val : Int) = 37
        · rw [if_pos h37] at h
          simp only [Res.bind_ok, Res.ok.injEq, true_and] at h
          rw [← h] at hd
          exact la_ne MOD DONE (by decide) _ hd
        · rw [if_neg h37] at h
          by_cases h92 : (c.val : Int) = 92
          · rw [if_pos h92] at h
            simp only [Res.bind_ok, Res.ok.injEq, true_and] at h
            rw [← h] at hd
            exact la_ne 47 DONE (by decide) _ hd
          · rw [if_neg h92] at h
            simp only [Res.bind_ok, Res.ok.injEq, true_and] at h
            rw [← h] at hd
            have hc := c.isLt
            have : (c.val : Int) = DONE := hd
            simp only [DONE] at this
            omega

theorem Stmt1.pwf {x xe : State} {q : List Byte} {es : Table} (hwf : WF x es)
    (h : Stmt1 x q xe) : ∃ es', PWF xe es' := by
  induction h generalizing es with
  | last x x1 q h hl hq =>
    obtain ⟨es', hk⟩ := advance_determ hwf h
    exact ⟨es', hk.pwf⟩
  | more x x1 xe u q h hl hd hu ht ih =>
    obtain ⟨es', hk⟩ := advance_determ hwf h
    exact ih hk.pwf.wf

/-- The statements of a split, one after the other, are the input up to
trailing white space and comments. -/
theorem Split.cover {x : State} {qs : List (List Byte)} {es : Table} (hwf : WF x es)
    (h : Split x qs) : ∃ w, x.infile = qs.flatten ++ w ∧ skipRest false w = [] := by
  induction h generalizing es with
  | nil x x1 h hd => exact ⟨x.infile, rfl, skip_of_done hwf h hd⟩
  | cons x xe q qs h hs ih =>
    obtain ⟨es', hp⟩ := h.pwf hwf
    obtain ⟨w, e1, e2⟩ := ih hp.wf
    refine ⟨w, ?_, e2⟩
    rw [h.infile, e1, List.flatten_cons, List.append_assoc]

theorem aloneOut_count {ps outs : List (List Byte)} (h : List.Forall₂ AloneOut ps outs) :
    outs.flatten.count 10 = ps.length := by
  induction h with
  | nil => rfl
  | cons h1 _ ih =>
    obtain ⟨-, -, -, hl⟩ := h1
    rw [List.flatten_cons, List.count_append, ih, hl.one_newline, List.length_cons]
    omega

/-- The run on an input against the runs on its statements, each alone. -/
theorem alone_main (input : List Byte) (ps : List (List Byte)) (s : State)
    (hs : statements input = some ps) (h : run input = .ok () s) :
    (∃ w, input = ps.flatten ++ w ∧ skipRest false w = []) ∧
    ∃ outs, List.Forall₂ AloneOut ps outs ∧ s.outfile = outs.flatten ∧
      s.outfile.count 10 = ps.length := by
  have hsp := statements_split input ps hs
  refine ⟨hsp.cover (wf_start input), ?_⟩
  rw [run_drive input _ (le_refl _)] at h
  unfold drive at h
  have h' : ((advance (State.start input)).bind fun _ x3 =>
      parseLoop (input.length + 3) (fprintf [] x3)) = .ok () s := by
    rw [← h]
    congr 1
    funext _ x3
    rw [fprintf_nil]
  obtain ⟨outs, h1, h2⟩ := alone_loop _ _ [] ps s kwTable (pwf_start input) hsp h'
  have h3 : s.outfile = outs.flatten := by
    rw [h2]
    show ([] ++ []) ++ _ = _
    rfl
  exact ⟨outs, h1, h3, by rw [h3]; exact aloneOut_count h1⟩

/-! ## Reachable states of the symbol table -/

theorem Later.compose {a b c : State} (h1 : Later a b) (h2 : Later b c) : Later a c := by
  induction h2 with
  | refl => exact h1
  | lexan s1 s2 tok _ e ih => exact .lexan _ s1 s2 tok ih e
  | look s1 tok _ ih => exact .look _ s1 tok ih
  | write s1 text _ ih => exact .write _ s1 text ih

theorem Later.of_advance {s s1 s2 : State} (h : Later s s1) (e : advance s1 = .ok () s2) :
    Later s s2 := by
  unfold Sc.advance at e
  cases hl : Sc.lexan s1 with
  | ok tok s' =>
    rw [hl] at e
    simp only [Res.bind_ok, Res.ok.injEq, true_and] at e
    rw [← e]
    exact .look _ _ tok (.lexan _ s1 s' tok h hl)
  | abort m s' => rw [hl] at e; cases e
  | fault => rw [hl] at e; cases e
  | timeout => rw [hl] at e; cases e

theorem later_lexN (n : Nat) (s : State) : Later s (lexN n s) := by
  induction n generalizing s with
  | zero => exact .refl s
  | succ n ih =>
    unfold lexN
    cases e : advance s with
    | ok a s' => exact (Later.of_advance (.refl s) e).compose (ih s')
    | abort m s' => exact .refl s
    | fault => exact .refl s
    | timeout => exact .refl s

theorem reach_start (input : List Byte) : Reach (State.start input) :=
  ⟨input, _, init_eq input, .refl _⟩

theorem reach_lexN (n : Nat) (input : List Byte) : Reach (lexN n (State.start input)) :=
  ⟨input, _, init_eq input, later_lexN n _⟩

theorem Reach.later {s s' : State} (h : Reach s) (hl : Later s s') : Reach s' := by
  obtain ⟨input, s0, e, h0⟩ := h
  exact ⟨input, s0, e, h0.compose hl⟩

/-- The table only grows at its end. -/
theorem later_wf {s s' : State} {es : Table} (hwf : WF s es) (h : Later s s') :
    ∃ es', WF s' es' ∧ es <+: es' := by
  induction h with
  | refl => exact ⟨es, hwf, List.prefix_refl _⟩
  | lexan s1 s2 tok _ e ih =>
    obtain ⟨es1, h1, hp⟩ := ih
    rcases lexan_facts h1 with ⟨t, s', es', e', hk⟩ | ⟨m, s', e', -⟩
    · rw [e] at e'
      simp only [Res.ok.injEq] at e'
      obtain ⟨rfl, rfl⟩ := e'
      refine ⟨es', hk.wf, hp.trans ?_⟩
      rcases hk.ext with rfl | ⟨w, rfl⟩
      · exact List.prefix_refl _
      · exact List.prefix_append _ _
    · rw [e] at e'; cases e'
  | look s1 tok _ ih =>
    obtain ⟨es1, h1, hp⟩ := ih
    exact ⟨es1, h1.reframe rfl rfl rfl rfl h1.buf, hp⟩
  | write s1 text _ ih =>
    obtain ⟨es1, h1, hp⟩ := ih
    exact ⟨es1, h1.reframe rfl rfl rfl rfl h1.buf, hp⟩

theorem reach_wf {s : State} (h : Reach s) : ∃ es, WF s es := by
  obtain ⟨input, s0, e, h0⟩ := h
  rw [init_eq] at e
  simp only [Res.ok.injEq, true_and] at e
  subst e
  obtain ⟨es, hwf, -⟩ := later_wf (wf_start input) h0
  exact ⟨es, hwf⟩

/-- Text and token type of the entries of a state whose table is `es`. -/
theorem Tab.entry {s : State} {es : Table} (h : Tab s es) (p : Nat) (e : List Byte × Int)
    (he : es[p]? = some e) :
    Sc.entryText s ((p : Int) + 1) = some e.1 ∧ Sc.entryTok s ((p : Int) + 1) = some e.2 := by
  obtain ⟨h1, h2⟩ := h.getAt_of_getElem? p e he
  exact ⟨h2, by simp only [Sc.entryTok, h1, Option.map_some']⟩

/-- A handle between 1 and `lastentry` is one more than an index of the table. -/
theorem Tab.handle {s : State} {es : Table} (h : Tab s es) (i : Int) (h1 : 1 ≤ i)
    (h2 : i ≤ s.lastentry) : ∃ (p : Nat) (e : List Byte × Int), i = (p : Int) + 1 ∧ es[p]? = some e := by
  have hl := h.lastentry
  have hp : (i - 1).toNat < es.length := by omega
  exact ⟨(i - 1).toNat, es[(i - 1).toNat], by omega, List.getElem?_eq_getElem hp⟩

/-! ## Entries and `lookup` in reachable states -/

theorem table_texts_ne {es : Table} (hnd : (es.map Prod.fst).Nodup) (p q : Nat)
    (e e' : List Byte × Int) (hpq : p < q) (hp : es[p]? = some e) (hq : es[q]? = some e') :
    e.1 ≠ e'.1 := by
  have hql : q < es.length := by
    rcases Nat.lt_or_ge q es.length with h | h
    · exact h
    · rw [List.getElem?_eq_none h] at hq; cases hq
  have h := List.nodup_iff_getElem?_ne_getElem?.1 hnd p q hpq (by simpa using hql)
  intro e1
  apply h
  rw [List.getElem?_map, List.getElem?_map, hp, hq, Option.map_some', Option.map_some', e1]

/-- No two entries with handles in `1..lastentry` have the same text. -/
theorem reach_nodup {s : State} (hr : Reach s) (i j : Int) (hi : 1 ≤ i) (hij : i < j)
    (hj : j ≤ s.lastentry) :
    ∃ wi wj, entryText s i = some wi ∧ entryText s j = some wj ∧ wi ≠ wj := by
  obtain ⟨es, hwf⟩ := reach_wf hr
  obtain ⟨p, e, rfl, hp⟩ := hwf.tab.handle i hi (by omega)
  obtain ⟨q, e', rfl, hq⟩ := hwf.tab.handle j (by omega) hj
  exact ⟨e.1, e'.1, (hwf.tab.entry p e hp).1, (hwf.tab.entry q e' hq).1,
    table_texts_ne hwf.nodup p q e e' (by omega) hp hq⟩

/-- What `lookup` returns in a state whose table is `es`. -/
theorem Tab.lookup_spec {s : State} {es : Table} (h : Tab s es) (w : List Byte) :
    ∃ p : Int, Sc.lookup w s = some p ∧
      (p = 0 ↔ ∀ i : Int, 1 ≤ i → i ≤ s.lastentry → Sc.entryText s i ≠ some w) ∧
      (p ≠ 0 → 1 ≤ p ∧ p ≤ s.lastentry ∧ Sc.entryText s p = some w) := by
  refine ⟨_, h.lookup w, ?_, ?_⟩
  · constructor
    · intro h0
      have hz : es.find w es.length = 0 := by omega
      have hnew := (Table.find_zero_iff es w).1 hz
      intro i h1 h2 he
      obtain ⟨p, e, rfl, hp⟩ := h.handle i h1 h2
      rw [(h.entry p e hp).1] at he
      simp only [Option.some.injEq] at he
      exact hnew (by rw [← he]; exact List.mem_map_of_mem _ (List.getElem?_mem hp))
    · intro hall
      cases hf : es.find w es.length with
      | zero => rfl
      | succ q =>
        exfalso
        have h1 := Table.find_pos es w _ q hf
        have hle := Table.find_le es w es.length
        cases he : es[q]? with
        | none => rw [he] at h1; cases h1
        | some e =>
          rw [he] at h1
          simp only [Option.map_some', Option.some.injEq] at h1
          have := hall ((q : Int) + 1) (by omega) (by rw [h.lastentry]; omega)
          rw [(h.entry q e he).1, h1] at this
          exact this rfl
  · intro hne
    cases hf : es.find w es.length with
    | zero => rw [hf] at hne; exact absurd rfl hne
    | succ q =>
      have h1 := Table.find_pos es w _ q hf
      have hle := Table.find_le es w es.length
      cases he : es[q]? with
      | none => rw [he] at h1; cases h1
      | some e =>
        rw [he] at h1
        simp only [Option.map_some', Option.some.injEq] at h1
        refine ⟨by push_cast; omega, by rw [h.lastentry]; push_cast; omega, ?_⟩
        have := (h.entry q e he).1
        rw [h1] at this
        simpa using this

/-- A call of `lexan` leaves slot 0 of `symtable` alone. -/
theorem lexan_slot0 {s s' : State} {es : Table} {tok : Int} (hwf : WF s es)
    (e : lexan s = .ok tok s') : getAt s'.symtable 0 = getAt s.symtable 0 := by
  have hout := lexan_out hwf
  rw [e] at hout
  generalize hs : s.skipped = sk at hout
  have hsym : sk.symtable = s.symtable := by rw [← hs]; rfl
  have hle : sk.lastentry = es.length := by rw [← hs]; exact hwf.tab.lastentry
  cases hout with
  | eof hi => exact congrArg (getAt · 0) hsym
  | num c r hi hd => exact congrArg (getAt · 0) hsym
  | pct r hi => exact congrArg (getAt · 0) hsym
  | bslash r hi => exact congrArg (getAt · 0) hsym
  | chr c r hi hs hd ha h37 h92 => exact congrArg (getAt · 0) hsym
  | old c r p e hi ha hlen he hw => exact congrArg (getAt · 0) hsym
  | new c r hi ha hlen hnew h1 h2 =>
    show getAt (sk.symtable.set (sk.lastentry + 1).toNat _) 0 = _
    rw [← hsym]
    have hk : (sk.lastentry + 1).toNat = es.length + 1 := by rw [hle]; omega
    rw [hk]
    simp only [getAt, Int.toNat_zero]
    rw [List.getElem?_set_ne (by omega)]

theorem later_slot0 {s s' : State} {es : Table} (hwf : WF s es) (h : Later s s') :
    getAt s'.symtable 0 = getAt s.symtable 0 := by
  induction h with
  | refl => rfl
  | lexan s1 s2 tok h1 e ih =>
    obtain ⟨es1, hw1, -⟩ := later_wf hwf h1
    rw [lexan_slot0 hw1 e, ih]
  | look s1 tok _ ih => exact ih
  | write s1 text _ ih => exact ih

theorem reach_slot0 {s : State} (hr : Reach s) : getAt s.symtable 0 = some ⟨none, 0⟩ := by
  obtain ⟨input, s0, e, h0⟩ := hr
  rw [init_eq] at e
  simp only [Res.ok.injEq, true_and] at e
  subst e
  rw [later_slot0 (wf_start input) h0]
  rfl

/-- A successful `insert` returns a handle that is at least 1. -/
theorem insert_handle_pos {s s' : State} {es : Table} (h : Tab s es) (w : List Byte)
    (tok p : Int) (e : insert w tok s = .ok p s') : p = s.lastentry + 1 ∧ 1 ≤ p := by
  rw [h.insert_eq] at e
  split at e
  · cases e
  · split at e
    · cases e
    · simp only [Res.ok.injEq] at e
      rw [h.lastentry, ← e.1]
      exact ⟨rfl, by omega⟩

/-! ## Lexing a word -/

/-- The function `lexan()` at the first byte that is not skipped. -/
theorem lexan_head (s : State) (c : Byte) (r : List Byte)
    (hl : skipRest false s.infile = c :: r) :
    lexan s =
      if isdigit c.val = true then
        .ok NUM
          { s.skipped with
            tokenval := (scanDigits (c :: r) 0).1
            infile := (scanDigits (c :: r) 0).2 }
      else if isalpha c.val = true then lexanWord c.val { s.skipped with infile := r }
      else if (c.val : Int) = 37 then .ok MOD { s.skipped with infile := r }
      else if (c.val : Int) = 92 then .ok 47 { s.skipped with infile := r }
      else .ok c.val { s.skipped with tokenval := NONE, infile := r } := by
  rw [lexan_skip, lexanLoop_one_eq s.skipped c r hl (skipRest_head false _ c r hl)]

/-- The loop that fills `lexbuf` keeps its size. -/
theorem scanLexeme_len (fuel : Nat) (t b : Int) (s : State) :
    (∀ v s', scanLexeme fuel t b s = .ok v s' → s'.lexbuf.length = s.lexbuf.length) ∧
    (∀ m s', scanLexeme fuel t b s = .abort m s' → s'.lexbuf.length = s.lexbuf.length) := by
  induction fuel generalizing t b s with
  | zero => exact ⟨fun v s' e => (by cases e), fun m s' e => (by cases e)⟩
  | succ fuel ih =>
    unfold scanLexeme
    by_cases ht : isalnum t = true
    · rw [if_pos ht]
      cases hset : setAt s.lexbuf b (toByte t) with
      | none => exact ⟨fun v s' e => (by cases e), fun m s' e => (by cases e)⟩
      | some lb =>
        have hlb : lb.length = s.lexbuf.length := by
          unfold setAt at hset
          split at hset
          · simp only [Option.some.injEq] at hset
            rw [← hset, List.length_set]
          · cases hset
        simp only []
        have hf : (fgetc { s with lexbuf := lb }).2.lexbuf = lb := by
          unfold fgetc
          split <;> rfl
        by_cases hb : b + 1 ≥ BSIZE
        · rw [if_pos hb]
          refine ⟨fun v s' e => (by cases e), fun m s' e => ?_⟩
          simp only [error, Res.abort.injEq] at e
          rw [← e.2, hf, hlb]
        · rw [if_neg hb]
          obtain ⟨h1, h2⟩ := ih (fgetc { s with lexbuf := lb }).1 (b + 1)
            (fgetc { s with lexbuf := lb }).2
          rw [hf, hlb] at h1 h2
          exact ⟨h1, h2⟩
    · rw [if_neg ht]
      refine ⟨fun v s' e => ?_, fun m s' e => (by cases e)⟩
      simp only [Res.ok.injEq] at e
      rw [← e.2]

/-- The identifier branch of `lexan` at the first byte that is not skipped: a
run of 128 bytes or more overflows the buffer, a shorter one is stored in
`lexbuf` and interned. -/
theorem lexan_alpha {s : State} {es : Table} (hwf : WF s es) (c : Byte) (r : List Byte)
    (hl : skipRest false s.infile = c :: r) (ha : isalpha c.val = true) :
    (128 ≤ (c :: r.takeWhile aln).length →
      ∃ s', lexan s = .abort "Buffer overflow in lexeme" s' ∧ s'.lexbuf.length = 128) ∧
    ((c :: r.takeWhile aln).length < 128 →
      lexan s = internWord (c :: r.takeWhile aln)
        (s.skipped.scanned (c :: r.takeWhile aln) (r.dropWhile aln))) := by
  have e := lexan_head s c r hl
  rw [if_neg (by rw [isalpha_not_digit _ ha]; decide), if_pos ha] at e
  obtain ⟨-, hk⟩ := lexanWord_eq c r s.skipped (isalpha_isalnum _ ha) hwf.skipped.buf
  constructor
  · intro h
    obtain ⟨lb, inf, e'⟩ := scanLexeme_overflow (r.length + 2) c 0 { s.skipped with infile := r }
      (isalpha_isalnum _ ha) hwf.skipped.buf (le_refl _) (by omega)
      (by simp only [List.length_cons] at h ⊢; omega)
    have hlen := (scanLexeme_len (r.length + 2) c.val 0 { s.skipped with infile := r }).2 _ _
      (by simpa using e')
    refine ⟨_, ?_, hlen.trans hwf.skipped.buf⟩
    rw [e]
    unfold lexanWord
    simp only [Nat.cast_zero] at e'
    rw [e']
    rfl
  · intro h
    rw [hk h] at e
    rw [e]
    have hsc : { s.skipped with
        lexbuf := c :: r.takeWhile aln ++ 0 :: s.skipped.lexbuf.drop ((r.takeWhile aln).length + 2)
        infile := r.dropWhile aln } =
        s.skipped.scanned (c :: r.takeWhile aln) (r.dropWhile aln) := by
      simp [State.scanned]
    rw [hsc]

theorem stored_scanned {s : State} {es : Table} (hwf : WF s es) (w rest : List Byte)
    (hw : ∀ c ∈ w, aln c = true) (hlen : w.length < 128) : Stored w (s.scanned w rest) := by
  refine ⟨?_, (hwf.scanned w rest hlen).buf⟩
  simp only [readStr, State.scanned, List.drop_zero]
  exact cstr_append _ _ (aln_no_nul _ hw)

/-- Interning a lexeme in a well-formed table: it is found at an index of the
table, or it is new and appended as an identifier unless the table or the lexeme
arena is full. -/
theorem intern_cases {X : State} {ex : Table} (hx : WF X ex) (w : List Byte)
    (hw : ∀ c ∈ w, aln c = true) :
    (∃ (p : Nat) (e : List Byte × Int), ex[p]? = some e ∧ e.1 = w ∧
      internWord w X = .ok e.2 { X with tokenval := (p : Int) + 1 }) ∨
    (w ∉ ex.map Prod.fst ∧ 100 ≤ ex.length + 1 ∧ internWord w X = .abort "Symbol table full" X) ∨
    (w ∉ ex.map Prod.fst ∧ ex.length + 1 < 100 ∧ 999 ≤ (arena ex).length + w.length ∧
      internWord w X = .abort "Lexemes array full" X) ∨
    (w ∉ ex.map Prod.fst ∧ ex.length + 1 < 100 ∧ (arena ex).length + w.length < 999 ∧
      internWord w X = .ok ID { X.inserted w ID with tokenval := (ex.length : Int) + 1 }) := by
  cases fx : ex.find w ex.length with
  | succ q =>
    left
    have h1 := Table.find_pos ex _ _ q fx
    cases he : ex[q]? with
    | none => rw [he] at h1; cases h1
    | some e =>
      rw [he] at h1
      simp only [Option.map_some', Option.some.injEq] at h1
      exact ⟨q, e, he, h1, hx.tab.internWord_old w q e fx he⟩
  | zero =>
    right
    have hnew := (Table.find_zero_iff ex _).1 fx
    have e := hx.tab.internWord_new w (aln_no_nul _ hw) fx
    by_cases c1 : 100 ≤ ex.length + 1
    · rw [if_pos c1] at e
      exact Or.inl ⟨hnew, c1, e⟩
    · rw [if_neg c1] at e
      by_cases c2 : 999 ≤ (arena ex).length + w.length
      · rw [if_pos c2] at e
        exact Or.inr (Or.inl ⟨hnew, by omega, c2, e⟩)
      · rw [if_neg c2] at e
        exact Or.inr (Or.inr ⟨hnew, by omega, by omega, e⟩)

/-- After a word is lexed, its entry stands in the table at the handle left in
`tokenval`, with the token type returned. -/
theorem lexan_word_entry {s s' : State} {es : Table} {tok : Int} {w : List Byte}
    (hwf : WF s es) (hw : NextWord s w) (hlen : w.length < 128) (e : lexan s = .ok tok s') :
    ∃ (es' : Table) (p : Nat), WF s' es' ∧ es <+: es' ∧ es'[p]? = some (w, tok) ∧
      s'.tokenval = (p : Int) + 1 ∧
      Stored w s' := by
  obtain ⟨c, r, hl, ha, rfl⟩ := hw
  rw [(lexan_alpha hwf c r hl ha).2 hlen] at e
  have hX := hwf.skipped.scanned (c :: r.takeWhile aln) (r.dropWhile aln) hlen
  have hst := stored_scanned hwf.skipped (c :: r.takeWhile aln) (r.dropWhile aln)
    (word_aln c r ha) hlen
  rcases intern_cases hX _ (word_aln c r ha) with ⟨p, e0, hp, h1, e'⟩ | ⟨-, -, e'⟩ |
      ⟨-, -, -, e'⟩ | ⟨hnew, c1, c2, e'⟩
  · rw [e'] at e
    simp only [Res.ok.injEq] at e
    obtain ⟨rfl, rfl⟩ := e
    refine ⟨es, p, hX.reframe rfl rfl rfl rfl hX.buf, List.prefix_refl _, ?_, rfl, hst⟩
    rw [hp, ← h1]
  · rw [e'] at e; cases e
  · rw [e'] at e; cases e
  · rw [e'] at e
    simp only [Res.ok.injEq] at e
    obtain ⟨rfl, rfl⟩ := e
    exact ⟨_, es.length, hX.with_ident _ (word_aln c r ha) hnew c1 c2 _,
      List.prefix_append _ _, by simp, rfl, hst⟩

theorem prefix_getElem? {α : Type} {l l' : List α} (h : l <+: l') (p : Nat) (a : α)
    (hp : l[p]? = some a) : l'[p]? = some a := by
  obtain ⟨t, rfl⟩ := h
  have hlt : p < l.length := by
    rcases Nat.lt_or_ge p l.length with h | h
    · exact h
    · rw [List.getElem?_eq_none h] at hp; cases hp
  rw [List.getElem?_append_left hlt, hp]

/-- Lexing a word again, at any later point, finds the entry of its first
lexing and leaves the table alone. -/
theorem intern_again {s1 s2 s3 : State} {w : List Byte} {tok : Int} (hr : Reach s1)
    (hw1 : NextWord s1 w) (hlen : w.length < 128) (e1 : lexan s1 = .ok tok s2)
    (hl : Later s2 s3) (hw3 : NextWord s3 w) :
    ∃ s4, lexan s3 = .ok tok s4 ∧ s4.tokenval = s2.tokenval ∧ s4.lastentry = s3.lastentry ∧
      s4.lastchar = s3.lastchar ∧ s4.symtable = s3.symtable ∧ s4.lexemes = s3.lexemes := by
  obtain ⟨es1, hwf1⟩ := reach_wf hr
  obtain ⟨es2, p, hwf2, -, hp, htv, -⟩ := lexan_word_entry hwf1 hw1 hlen e1
  obtain ⟨es3, hwf3, hpre⟩ := later_wf hwf2 hl
  have hp3 := prefix_getElem? hpre p _ hp
  obtain ⟨c, r, h3, ha, rfl⟩ := hw3
  have hX := hwf3.skipped.scanned (c :: r.takeWhile aln) (r.dropWhile aln) hlen
  have hf := Table.find_of_nodup es3 (c :: r.takeWhile aln) p _ hwf3.nodup hp3 rfl
  refine ⟨{ s3.skipped.scanned (c :: r.takeWhile aln) (r.dropWhile aln) with
    tokenval := (p : Int) + 1 }, ?_, ?_, rfl, rfl, rfl, rfl⟩
  · rw [(lexan_alpha hwf3 c r h3 ha).2 hlen, hX.tab.internWord_old _ p _ hf hp3]
  · rw [htv]

/-- The entries of a well-formed table: `div` with type `DIV` at index 0, `mod`
with type `MOD` at index 1, and from index 2 on identifiers other than `div` and
`mod`. -/
theorem table_class {s : State} {es : Table} (hwf : WF s es) (p : Nat) (e : List Byte × Int)
    (hp : es[p]? = some e) :
    (p = 0 ∧ e = ([100, 105, 118], DIV)) ∨ (p = 1 ∧ e = ([109, 111, 100], MOD)) ∨
    (2 ≤ p ∧ e.2 = ID ∧ e.1 ≠ [100, 105, 118] ∧ e.1 ≠ [109, 111, 100]) := by
  have h0 := kw_div hwf
  have h1 := kw_mod hwf
  rcases Nat.lt_or_ge p 2 with h | h
  · rcases Nat.lt_or_ge p 1 with h' | h'
    · have : p = 0 := by omega
      subst this
      rw [h0] at hp
      exact Or.inl ⟨rfl, (Option.some.inj hp).symm⟩
    · have : p = 1 := by omega
      subst this
      rw [h1] at hp
      exact Or.inr (Or.inl ⟨rfl, (Option.some.inj hp).symm⟩)
  · refine Or.inr (Or.inr ⟨h, ?_, ?_, ?_⟩)
    · obtain ⟨ids, e1, e2⟩ := hwf.kw
      subst e1
      have : kwTable.length = 2 := rfl
      rw [List.getElem?_append_right (by omega)] at hp
      exact e2 e (List.getElem?_mem hp)
    · exact fun e' => table_texts_ne hwf.nodup 0 p _ e (by omega) h0 hp e'.symm
    · exact fun e' => table_texts_ne hwf.nodup 1 p _ e (by omega) h1 hp e'.symm

/-- The token type of an entry is `DIV` exactly for the text `div`, `MOD` exactly
for `mod`, and `ID` exactly for any other text. -/
theorem table_token {s : State} {es : Table} (hwf : WF s es) (p : Nat) (e : List Byte × Int)
    (hp : es[p]? = some e) :
    (e.2 = DIV ↔ e.1 = [100, 105, 118]) ∧ (e.2 = MOD ↔ e.1 = [109, 111, 100]) ∧
    (e.2 = ID ↔ e.1 ≠ [100, 105, 118] ∧ e.1 ≠ [109, 111, 100]) := by
  rcases table_class hwf p e hp with ⟨-, rfl⟩ | ⟨-, rfl⟩ | ⟨-, h1, h2, h3⟩
  · refine ⟨by simp, by decide, by decide⟩
  · refine ⟨by decide, by simp, by decide⟩
  · rw [h1]
    exact ⟨⟨fun h => absurd h (by decide), fun h => absurd h h2⟩,
      ⟨fun h => absurd h (by decide), fun h => absurd h h3⟩, ⟨fun _ => ⟨h2, h3⟩, fun _ => rfl⟩⟩

/-- The outcomes of lexing a word of fewer than 128 bytes. -/
theorem lexan_word_cases {s : State} {es : Table} {w : List Byte} (hwf : WF s es)
    (hw : NextWord s w) (hlen : w.length < 128) :
    (∃ (tok : Int) (s' : State) (es' : Table) (p : Nat), lexan s = .ok tok s' ∧ WF s' es' ∧
      es'[p]? = some (w, tok) ∧
      s'.tokenval = (p : Int) + 1 ∧ Stored w s') ∨
    (∃ m s', lexan s = .abort m s' ∧ (m = "Symbol table full" ∨ m = "Lexemes array full") ∧
      w ∉ es.map Prod.fst ∧ Stored w s') := by
  have hw' := hw
  obtain ⟨c, r, hl, ha, rfl⟩ := hw
  have e := (lexan_alpha hwf c r hl ha).2 hlen
  have hX := hwf.skipped.scanned (c :: r.takeWhile aln) (r.dropWhile aln) hlen
  have hst := stored_scanned hwf.skipped (c :: r.takeWhile aln) (r.dropWhile aln)
    (word_aln c r ha) hlen
  rcases intern_cases hX _ (word_aln c r ha) with ⟨p, e0, hp, h1, e'⟩ | ⟨hnew, -, e'⟩ |
      ⟨hnew, -, -, e'⟩ | ⟨hnew, c1, c2, e'⟩
  · left
    obtain ⟨es', p', h2, -, h3, h4, h5⟩ := lexan_word_entry hwf hw' hlen (e.trans e')
    exact ⟨_, _, es', p', e.trans e', h2, h3, h4, h5⟩
  · exact Or.inr ⟨_, _, e.trans e', Or.inl rfl, hnew, hst⟩
  · exact Or.inr ⟨_, _, e.trans e', Or.inr rfl, hnew, hst⟩
  · left
    obtain ⟨es', p', h2, -, h3, h4, h5⟩ := lexan_word_entry hwf hw' hlen (e.trans e')
    exact ⟨_, _, es', p', e.trans e', h2, h3, h4, h5⟩

/-! ## Layout and immutability of the entries -/

/-- Where the entries of a state with table `es` lie: entry `p + 1` starts at an
offset `off` of `lexemes`, and its text with the terminator ends at or before
the first free byte `lastchar + 1`. -/
theorem Tab.layout {s : State} {es : Table} (h : Tab s es) (p : Nat) (e : List Byte × Int)
    (he : es[p]? = some e) :
    ∃ off, Sc.entryOff s ((p : Int) + 1) = some off ∧ readStr s.lexemes off = some e.1 ∧
      ((off + e.1.length + 1 : Nat) : Int) ≤ s.lastchar + 1 := by
  obtain ⟨h1, h2⟩ := h.getAt_of_getElem? p e he
  refine ⟨(arena (es.take p)).length, by simp only [Sc.entryOff, h1, Option.bind], ?_, ?_⟩
  · simpa only [Sc.entryText, h1] using h2
  · have hp : p < es.length := by
      rcases Nat.lt_or_ge p es.length with h | h
      · exact h
      · rw [List.getElem?_eq_none h] at he; cases he
    have hsplit := split_at es p hp
    rw [List.getElem?_eq_getElem hp] at he
    simp only [Option.some.injEq] at he
    rw [he] at hsplit
    have hlen : (arena es).length =
        (arena (es.take p)).length + (e.1.length + 1 + (arena (es.drop (p + 1))).length) := by
      conv_lhs => rw [hsplit]
      simp only [arena_append, arena, List.length_append, List.length_cons]
      omega
    rw [h.lastchar, hlen]
    push_cast
    omega

/-- Entries are never changed: at any later state every entry has the text and
the token type it had. -/
theorem later_entries {s s' : State} {es : Table} (hwf : WF s es) (h : Later s s') (i : Int)
    (h1 : 1 ≤ i) (h2 : i ≤ s.lastentry) :
    entryText s' i = entryText s i ∧ entryTok s' i = entryTok s i ∧
      entryOff s' i = entryOff s i := by
  obtain ⟨es', hwf', hpre⟩ := later_wf hwf h
  obtain ⟨p, e, rfl, hp⟩ := hwf.tab.handle i h1 h2
  have hp' := prefix_getElem? hpre p e hp
  have a := hwf.tab.entry p e hp
  have b := hwf'.tab.entry p e hp'
  have c := (hwf.tab.getAt_of_getElem? p e hp).1
  have d := (hwf'.tab.getAt_of_getElem? p e hp').1
  refine ⟨by rw [a.1, b.1], by rw [a.2, b.2], ?_⟩
  simp only [entryOff, c, d, Option.bind]
  obtain ⟨t, rfl⟩ := hpre
  rw [List.take_append_of_le_length]
  rcases Nat.lt_or_ge p es.length with h | h
  · omega
  · rw [List.getElem?_eq_none h] at hp; cases hp

/-- What a successful `insert` does to a state with table `es`. -/
theorem Tab.insert_ok {s s' : State} {es : Table} (h : Tab s es) (w : List Byte) (tok p : Int)
    (hw : (0 : Byte) ∉ w) (e : Sc.insert w tok s = .ok p s') :
    p = s.lastentry + 1 ∧ s' = s.inserted w tok ∧ Tab s' (es ++ [(w, tok)]) := by
  rw [h.insert_eq] at e
  by_cases c1 : 100 ≤ es.length + 1
  · rw [if_pos c1] at e; cases e
  · rw [if_neg c1] at e
    by_cases c2 : 999 ≤ (arena es).length + w.length
    · rw [if_pos c2] at e; cases e
    · rw [if_neg c2] at e
      simp only [Res.ok.injEq] at e
      obtain ⟨rfl, rfl⟩ := e
      exact ⟨by rw [h.lastentry], rfl, h.inserted w tok hw (by omega) (by omega)⟩

/-- The states of a run are reachable. -/
theorem run_reach (input : List Byte) : Holds Reach (fun _ _ => True) (run input) := by
  have hI : Inv Reach (fun _ _ => True) := by
    constructor
    · intro s s' es es' _ hj e _
      exact hj.later (Later.of_advance (.refl s) e)
    · intros; trivial
    · intro s es text _ hj _
      exact hj.later (.write s s text (.refl s))
    · intros; trivial
  exact run_inv hI input (reach_start input)

/-! ## The debug branch of `emit`, and the end of a run -/

/-- The `default` branch of `emit` writes a text with a comma in it. -/
theorem emit_debug (t v : Int) (s : State) (h : ¬ Known t) :
    ∃ text, emit t v s = .ok () (fprintf text s) ∧ (44 : Byte) ∈ text := by
  simp only [Known, not_or] at h
  obtain ⟨h1, h2, h3, h4, h5, h6, h7, h8⟩ := h
  refine ⟨bytes "token " ++ fmtInt t ++ bytes ", tokenval " ++ fmtInt v ++ [32], ?_, ?_⟩
  · unfold emit
    rw [if_neg (by simp only [not_or]; exact ⟨h1, h2, h3, h4⟩), if_neg h5, if_neg h6, if_neg h7,
      if_neg h8]
  · have : (44 : Byte) ∈ bytes ", tokenval " := by decide
    simp only [List.mem_append]
    exact Or.inl (Or.inl (Or.inr this))

/-- No output of a run has a comma in it. -/
theorem run_no_comma (input : List Byte) (o : List Byte) (h : (run input).written = some o) :
    (44 : Byte) ∉ o := by
  have hh := output_alphabet input
  generalize run input = r at hh h
  have key : ∀ l : List Byte, (∀ c ∈ l, OutByte c) → (44 : Byte) ∉ l := by
    intro l hl hm
    exact absurd (hl 44 hm) (by decide)
  cases hh with
  | ok a s _ hj =>
    simp only [Res.written, Option.some.injEq] at h
    rw [← h]; exact key _ hj
  | abort m s hq =>
    simp only [Res.written, Option.some.injEq] at h
    rw [← h]; exact key _ hq
  | timeout => cases h

/-- A run that returns has read all its input. -/
theorem run_eof (input : List Byte) (s : State) (h : run input = .ok () s) :
    s.lookahead = DONE ∧ s.infile = [] := by
  have hI : Inv (fun s => s.lookahead = DONE → s.infile = []) (fun _ _ => True) := by
    constructor
    · intro s s' es es' _ _ _ hk
      exact hk.eof
    · intros; trivial
    · intro s es text _ hj _
      exact hj
    · intros; trivial
  have hh := run_inv hI input (by
    intro e
    rw [start_lookahead] at e
    exact absurd e (by decide))
  rw [h] at hh
  cases hh with
  | ok _ _ _ hj =>
    have hd := run_done input s h
    exact ⟨hd, hj hd⟩

/-- A call of `lexan` in a well-formed state returns or exits; when it returns a
token other than `DONE` it has read at least one byte, and it returns `DONE`
only with the input read to its end. -/
theorem lexan_progress {s : State} {es : Table} (hwf : WF s es) :
    lexan s ≠ .timeout ∧ lexan s ≠ .fault ∧
    ∀ tok s', lexan s = .ok tok s' →
      (tok ≠ DONE → s'.infile.length < s.infile.length) ∧ (tok = DONE → s'.infile = []) := by
  rcases lexan_facts hwf with ⟨t, s1, es', e, hk⟩ | ⟨m, s1, e, -⟩
  · refine ⟨(by rw [e]; exact fun h => (by cases h)), (by rw [e]; exact fun h => (by cases h)), ?_⟩
    intro tok s' e'
    rw [e] at e'
    simp only [Res.ok.injEq] at e'
    obtain ⟨rfl, rfl⟩ := e'
    refine ⟨fun hne => ?_, hk.eof⟩
    obtain ⟨sk, tk, e1, -, -, h1, -⟩ := hk.split
    have := List.length_pos.2 (h1 hne)
    rw [e1]
    simp only [List.length_append]
    omega
  · refine ⟨(by rw [e]; exact fun h => (by cases h)), (by rw [e]; exact fun h => (by cases h)), ?_⟩
    intro tok s' e'
    rw [e] at e'; cases e'

/-- A word for which `lexan` returns has fewer than 128 bytes. -/
theorem lexan_word_short {s s' : State} {es : Table} {w : List Byte} {tok : Int}
    (hwf : WF s es) (hw : NextWord s w) (e : lexan s = .ok tok s') : w.length < 128 := by
  obtain ⟨c, r, hl, ha, rfl⟩ := hw
  rcases Nat.lt_or_ge (c :: r.takeWhile aln).length 128 with h | h
  · exact h
  · obtain ⟨s2, e2, -⟩ := (lexan_alpha hwf c r hl ha).1 h
    rw [e] at e2; cases e2

/-- After `lexan` has returned for a word, `tokenval` is a handle of the table
whose entry has the returned token type, one of `ID`, `DIV` and `MOD`. -/
theorem lexan_word_handle {s s' : State} {es : Table} {w : List Byte} {tok : Int}
    (hwf : WF s es) (hw : NextWord s w) (e : lexan s = .ok tok s') :
    (tok = ID ∨ tok = DIV ∨ tok = MOD) ∧ 1 ≤ s'.tokenval ∧ s'.tokenval ≤ s'.lastentry ∧
      entryTok s' s'.tokenval = some tok ∧ entryText s' s'.tokenval = some w := by
  have hlen := lexan_word_short hwf hw e
  obtain ⟨es', p, hwf', -, hp, htv, -⟩ := lexan_word_entry hwf hw hlen e
  have hlt : p < es'.length := by
    rcases Nat.lt_or_ge p es'.length with h | h
    · exact h
    · rw [List.getElem?_eq_none h] at hp; cases hp
  have he := hwf'.tab.entry p _ hp
  rw [← htv] at he
  refine ⟨?_, by omega, by rw [htv, hwf'.tab.lastentry]; omega, he.2, he.1⟩
  rcases hwf'.token_mem _ (List.getElem?_mem hp) with h | h | h
  · exact Or.inr (Or.inl h)
  · exact Or.inr (Or.inr h)
  · exact Or.inl h

/-- The handle `lexan` left for a word can be emitted at any later state. -/
theorem emit_later {s s2 s3 : State} {es : Table} {w : List Byte} {tok : Int}
    (hwf : WF s es) (hw : NextWord s w) (e : lexan s = .ok tok s2) (hl : Later s2 s3) :
    emit ID s2.tokenval s3 = .ok () (fprintf (w ++ [32]) s3) := by
  have hlen := lexan_word_short hwf hw e
  obtain ⟨es2, p, hwf2, -, hp, htv, -⟩ := lexan_word_entry hwf hw hlen e
  obtain ⟨-, h1, h2, -, h4⟩ := lexan_word_handle hwf hw e
  have h3 := (later_entries hwf2 hl s2.tokenval h1 h2).1
  exact emit_id s3 _ w (by rw [h3, h4])

/-! ## The claims -/

/-- C1: for every expression tree whose leaves are number or identifier lexemes
and whose inner nodes are binary operators, running the translator on the infix
rendering of the tree (a child in parentheses when its level is lower than its
parent, or when it is a right child of the same level) followed by `;` returns
normally and has written exactly the post-order traversal of the tree, every
token as `emit` renders it with one space after it, then `;` and a newline;
the only other outcome is a symbol-table or lexeme capacity error, which needs
at least 98 identifier leaves or 991 bytes of identifiers. -/
theorem tree_postorder (t : Tree) (hv : t.valid = true) :
    (∃ s, run (t.render ++ [59]) = .ok () s ∧ s.outfile = t.postorder ++ [59, 10]) ∨
    (∃ m s, run (t.render ++ [59]) = .abort m s ∧
      ((m = "Symbol table full" ∧ 98 ≤ t.ids) ∨ (m = "Lexemes array full" ∧ 991 ≤ t.chars))) := by
  rcases run_tree t hv with h | ⟨m, s, e, hm⟩
  · exact Or.inl h
  · refine Or.inr ⟨m, s, e, ?_⟩
    have h1 : kwTable.length = 2 := rfl
    have h2 : (arena kwTable).length = 8 := rfl
    rcases hm with ⟨hm, hc⟩ | ⟨hm, hc⟩
    · exact Or.inl ⟨hm, by omega⟩
    · exact Or.inr ⟨hm, by omega⟩

theorem tree_postorder_witness :
    exTree.valid = true ∧
    ((∃ s, run (exTree.render ++ [59]) = .ok () s ∧ s.outfile = exTree.postorder ++ [59, 10]) ∨
     (∃ m s, run (exTree.render ++ [59]) = .abort m s ∧
       ((m = "Symbol table full" ∧ 98 ≤ exTree.ids) ∨
        (m = "Lexemes array full" ∧ 991 ≤ exTree.chars)))) :=
  ⟨by decide, tree_postorder exTree (by decide)⟩

/-- C2: precedence. For all operands `a`, `b`, `c`, every additive operator `p`
and every multiplicative operator `m`, the input `a p b m c;` is translated to
`a b c m p ;`: the multiplicative operator is applied to `b` and `c` first. -/
theorem precedence (a b c : Operand) (p m : Op) (ha : a.valid = true) (hb : b.valid = true)
    (hc : c.valid = true) (hp : p.additive = true) (hm : m.additive = false) :
    ∃ s, run (a.text ++ [32] ++ p.text ++ [32] ++ b.text ++ [32] ++ m.text ++ [32] ++ c.text
        ++ [59]) = .ok () s ∧
      s.outfile = a.out ++ b.out ++ c.out ++ opText m.tok ++ opText p.tok ++ [59, 10] :=
  run_right a b c p m ha hb hc hp hm

theorem precedence_witness :
    ∃ s, run (bytes "2 + 3 * 4;") = .ok () s ∧ s.outfile = bytes "2 3 4 * + ;\n" :=
  precedence (.num [50]) (.num [51]) (.num [52]) .add .mul (by decide) (by decide) (by decide)
    rfl rfl

/-- C3, as written, fails: for `a = x`, `b = c = DIV` (an identifier) and
`o1 = o2 = div`, the input `x div DIV div DIV;` is translated to
`x DIV DIV DIV DIV ;`, which is the text `a b c o2 o1` the claim excludes. -/
theorem assoc_counterexample :
    ∃ s, run (bytes "x div DIV div DIV;") = .ok () s ∧
      s.outfile = bytes "x DIV DIV DIV DIV ;\n" ∧
      s.outfile = (Operand.id [120]).out ++ (Operand.id [68, 73, 86]).out ++
        (Operand.id [68, 73, 86]).out ++ opText Op.div.tok ++ opText Op.div.tok ++ [59, 10] := by
  obtain ⟨s, e, ho⟩ := run_left (.id [120]) (.id [68, 73, 86]) (.id [68, 73, 86]) .div .div
    (by decide) (by decide) (by decide) (Or.inl rfl)
  exact ⟨s, e, ho, ho⟩

/-- C3, amended: associativity. For all operands `a`, `b`, `c` and operators
`o1`, `o2` of the same level, the input `a o1 b o2 c;` is translated to
`a b o1 c o2 ;`; this output is the text `a b c o2 o1 ;` only when `o1` and `o2`
are both `div` and `c` is the identifier `DIV`, where the two texts coincide. -/
theorem assoc_left (a b c : Operand) (o1 o2 : Op) (ha : a.valid = true) (hb : b.valid = true)
    (hc : c.valid = true) (h : o1.additive = o2.additive) :
    ∃ s, run (a.text ++ [32] ++ o1.text ++ [32] ++ b.text ++ [32] ++ o2.text ++ [32] ++ c.text
        ++ [59]) = .ok () s ∧
      s.outfile = a.out ++ b.out ++ opText o1.tok ++ c.out ++ opText o2.tok ++ [59, 10] ∧
      (s.outfile = a.out ++ b.out ++ c.out ++ opText o2.tok ++ opText o1.tok ++ [59, 10] ↔
        o1 = .div ∧ o2 = .div ∧ c = .id [68, 73, 86]) := by
  obtain ⟨s, e, ho⟩ := run_left a b c o1 o2 ha hb hc
    (by cases h1 : o1.additive
        · exact Or.inl rfl
        · exact Or.inr (by rw [← h, h1]))
  refine ⟨s, e, ho, ?_, ?_⟩
  · intro h2
    rw [ho] at h2
    simp only [List.append_assoc, List.append_cancel_left_eq] at h2
    exact swap_eq c o1 o2 hc [59, 10] (by simpa only [List.append_assoc] using h2)
  · rintro ⟨rfl, rfl, rfl⟩
    rw [ho]
    simp only [List.append_assoc]
    rfl

theorem assoc_left_witness :
    ∃ s, run (bytes "8 - 3 - 2;") = .ok () s ∧ s.outfile = bytes "8 3 - 2 - ;\n" ∧
      (s.outfile = bytes "8 3 2 - - ;\n" ↔
        Op.sub = .div ∧ Op.sub = .div ∧ Operand.num [50] = .id [68, 73, 86]) :=
  assoc_left (.num [56]) (.num [51]) (.num [50]) .sub .sub (by decide) (by decide) (by decide) rfl

/-- C4: parentheses override precedence and are never written. For all operands
`a`, `b`, `c`, additive `p` and multiplicative `m`, the input `(a p b) m c;` is
translated to `a b p c m ;`; and the output of every run that returns normally
contains neither `(` nor `)`. -/
theorem parens_override (a b c : Operand) (p m : Op) (ha : a.valid = true)
    (hb : b.valid = true) (hc : c.valid = true) (hp : p.additive = true)
    (hm : m.additive = false) :
    (∃ s, run ([40] ++ a.text ++ [32] ++ p.text ++ [32] ++ b.text ++ [41] ++ [32] ++ m.text ++
        [32] ++ c.text ++ [59]) = .ok () s ∧
      s.outfile = a.out ++ b.out ++ opText p.tok ++ c.out ++ opText m.tok ++ [59, 10]) ∧
    ∀ input s, run input = .ok () s → (40 : Byte) ∉ s.outfile ∧ (41 : Byte) ∉ s.outfile :=
  ⟨run_paren a b c p m ha hb hc hp hm, no_parens⟩

theorem parens_override_witness :
    (∃ s, run (bytes "(2 + 3) * 4;") = .ok () s ∧ s.outfile = bytes "2 3 + 4 * ;\n") ∧
    ∀ input s, run input = .ok () s → (40 : Byte) ∉ s.outfile ∧ (41 : Byte) ∉ s.outfile :=
  parens_override (.num [50]) (.num [51]) (.num [52]) .add .mul (by decide) (by decide)
    (by decide) rfl rfl

/-- C5: with `ts` the token sequence `lexan` produces for the input, `parse()`
returns normally if and only if `ts` matches the grammar
`stmt_list -> (expr ';')*`, `expr -> term (('+'|'-') term)*`,
`term -> factor (('*'|'/'|div|mod) factor)*`, `factor -> '(' expr ')' | NUM | ID`;
and for every token sequence outside this language the run exits with one of
the two syntax errors, raised in `factor` or in `match`. -/
theorem parse_iff_grammar (input : List Byte) (ts : List Int) (h : tokens input = some ts) :
    ((∃ s, run input = .ok () s) ↔ Stmts ts) ∧
    (¬ Stmts ts → ∃ m s, run input = .abort m s ∧
      (m = "Syntax error: unexpected token in factor" ∨
       m = "Syntax error: expected different token")) :=
  run_tokens input ts h

set_option maxRecDepth 100000 in
theorem parse_iff_grammar_witness :
    (tokens (bytes ";") = some [59] ∧ ¬ Stmts [59] ∧
      ∃ m s, run (bytes ";") = .abort m s ∧
        (m = "Syntax error: unexpected token in factor" ∨
         m = "Syntax error: expected different token")) ∧
    (tokens (bytes "2 * mod;") = some [NUM, 42, MOD, 59] ∧ ¬ Stmts [NUM, 42, MOD, 59] ∧
      ∃ m s, run (bytes "2 * mod;") = .abort m s ∧
        (m = "Syntax error: unexpected token in factor" ∨
         m = "Syntax error: expected different token")) ∧
    (tokens [] = some [] ∧ Stmts [] ∧ ∃ s, run [] = .ok () s ∧ s.outfile = []) := by
  have h1 := parse_iff_grammar (bytes ";") [59] (by decide)
  have h2 := parse_iff_grammar (bytes "2 * mod;") [NUM, 42, MOD, 59] (by decide)
  have h3 := parse_iff_grammar [] [] (by decide)
  have n1 : ¬ Stmts [59] := fun hs => Res.not_ok_of_output (by decide) (h1.1.2 hs)
  have n2 : ¬ Stmts [NUM, 42, MOD, 59] := fun hs => Res.not_ok_of_output (by decide) (h2.1.2 hs)
  exact ⟨⟨by decide, n1, h1.2 n1⟩, ⟨by decide, n2, h2.2 n2⟩,
    ⟨by decide, h3.1.1 (h3.1.2 .nil), Res.ok_of_output (by decide)⟩⟩

/-- C6: keyword and symbol spellings of the operators. For all operands `a` and
`b`, the inputs `a mod b;` and `a % b;` both give the output `a b % ;`, the
inputs `a \ b;` and `a / b;` both give `a b / ;`, and `a div b;` gives `a b `
followed by the marker `DIV` and ` ;`. -/
theorem operator_spellings (a b : Operand) (ha : a.valid = true) (hb : b.valid = true) :
    (∃ s, run (a.text ++ bytes " mod " ++ b.text ++ [59]) = .ok () s ∧
      s.outfile = a.out ++ b.out ++ bytes "% ;\n") ∧
    (∃ s, run (a.text ++ bytes " % " ++ b.text ++ [59]) = .ok () s ∧
      s.outfile = a.out ++ b.out ++ bytes "% ;\n") ∧
    (∃ s, run (a.text ++ bytes " \\ " ++ b.text ++ [59]) = .ok () s ∧
      s.outfile = a.out ++ b.out ++ bytes "/ ;\n") ∧
    (∃ s, run (a.text ++ bytes " / " ++ b.text ++ [59]) = .ok () s ∧
      s.outfile = a.out ++ b.out ++ bytes "/ ;\n") ∧
    (∃ s, run (a.text ++ bytes " div " ++ b.text ++ [59]) = .ok () s ∧
      s.outfile = a.out ++ b.out ++ bytes "DIV ;\n") := by
  have key : ∀ (o : Op) (x y : List Byte), [32] ++ o.text ++ [32] = x → opText o.tok ++ [59, 10] = y →
      ∃ s, run (a.text ++ x ++ b.text ++ [59]) = .ok () s ∧ s.outfile = a.out ++ b.out ++ y := by
    rintro o x y rfl rfl
    obtain ⟨s, e, ho⟩ := run_binary a b o ha hb
    refine ⟨s, ?_, ?_⟩
    · rw [← e]; simp only [List.append_assoc]
    · rw [ho]; simp only [List.append_assoc]
  exact ⟨key .mod _ _ (by decide) (by decide), key .pct _ _ (by decide) (by decide),
    key .bslash _ _ (by decide) (by decide), key .slash _ _ (by decide) (by decide),
    key .div _ _ (by decide) (by decide)⟩

theorem operator_spellings_witness :
    (∃ s, run (bytes "7 mod 2;") = .ok () s ∧ s.outfile = bytes "7 2 % ;\n") ∧
    (∃ s, run (bytes "7 % 2;") = .ok () s ∧ s.outfile = bytes "7 2 % ;\n") ∧
    (∃ s, run (bytes "7 \\ 2;") = .ok () s ∧ s.outfile = bytes "7 2 / ;\n") ∧
    (∃ s, run (bytes "7 / 2;") = .ok () s ∧ s.outfile = bytes "7 2 / ;\n") ∧
    (∃ s, run (bytes "7 div 2;") = .ok () s ∧ s.outfile = bytes "7 2 DIV ;\n") :=
  operator_spellings (.num [55]) (.num [50]) (by decide) (by decide)

/-- C7: multi-statement independence. Let the input be made of the statements
`ps = [s1;, ..., sn;]`, the texts that `lexan` reads up to and with each `;`
token, so that the input is their concatenation followed by white space and
comments only. If translating the input returns normally, then every statement
translated alone, by a run of its own that starts with a freshly initialised
symbol table, returns normally too; the output of the whole run is the
concatenation, in order, of the outputs of these runs; each of them is one
line, a sequence of tokens without space, newline or `;`, each followed by one
space, and then `;` and a newline; so the output has exactly `n` newlines. -/
theorem statements_independent (input : List Byte) (ps : List (List Byte)) (s : State)
    (hs : statements input = some ps) (h : run input = .ok () s) :
    (∃ w, input = ps.flatten ++ w ∧ skipRest false w = []) ∧
    ∃ outs, List.Forall₂ (fun p o => ∃ sp, run p = .ok () sp ∧ sp.outfile = o ∧ Line o) ps outs ∧
      s.outfile = outs.flatten ∧ s.outfile.count 10 = ps.length :=
  alone_main input ps s hs h

set_option maxRecDepth 1000000 in
theorem statements_independent_witness :
    ∃ s, run (bytes "x+1; 2*x;# c\n") = .ok () s ∧ s.outfile = bytes "x 1 + ;\n2 x * ;\n" ∧
      ∃ outs, List.Forall₂ (fun p o => ∃ sp, run p = .ok () sp ∧ sp.outfile = o ∧ Line o)
        [bytes "x+1;", bytes " 2*x;"] outs ∧ s.outfile = outs.flatten ∧
        s.outfile.count 10 = 2 := by
  obtain ⟨s, h1, h2⟩ := Res.ok_of_output
    (show (run (bytes "x+1; 2*x;# c\n")).output = some (bytes "x 1 + ;\n2 x * ;\n") by decide)
  obtain ⟨-, outs, h3, h4, h5⟩ :=
    statements_independent (bytes "x+1; 2*x;# c\n") [bytes "x+1;", bytes " 2*x;"] s
      (by decide) h1
  exact ⟨s, h1, h2, outs, h3, h4, h5⟩

set_option maxRecDepth 1000000 in
/-- C8, as written, fails: `S = 1;` translates on its own to `O = "1 ;\n"`, but
with `R` a word of 128 letters the run on `S·R` exits with "Buffer overflow in
lexeme" having written only `"1 "`: `match(';')` reads the next token before
`parse()` writes the `;` and the newline. -/
theorem rollback_counterexample :
    ∃ sS s, run (bytes "1;") = .ok () sS ∧ sS.outfile = bytes "1 ;\n" ∧
      run (bytes "1;" ++ List.replicate 128 97) = .abort "Buffer overflow in lexeme" s ∧
      s.outfile = bytes "1 " ∧ ¬ sS.outfile <+: s.outfile := by
  obtain ⟨sS, h1, h2⟩ := Res.ok_of_output
    (show (run (bytes "1;")).output = some (bytes "1 ;\n") by decide)
  obtain ⟨s, h3, h4⟩ := Res.abort_written
    (show (run (bytes "1;" ++ List.replicate 128 97)).errmsg =
      some "Buffer overflow in lexeme" by decide)
    (show (run (bytes "1;" ++ List.replicate 128 97)).written = some (bytes "1 ") by decide)
  refine ⟨sS, s, h1, h2, h3, h4, ?_⟩
  rw [h2, h4]
  decide

/-- C8, amended: output is not rolled back on error. Let `S` be a text whose
token sequence ends with `;` and that translates successfully on its own to the
output `O`. If translating `S·R` exits with an error, then `O` is `O'` followed
by `;` and a newline, and the output written up to the exit has `O'` as a
prefix; it has all of `O` as a prefix if the error is a syntax error, and if it
has not, then it is exactly `O'` and the error is one of the lexer (buffer
overflow, symbol table full, lexemes array full). -/
theorem output_kept (S R : List Byte) (ts : List Int) (sS : State) (m : String) (s : State)
    (ht : tokens S = some ts) (hl : ts.getLast? = some 59) (hS : run S = .ok () sS)
    (hR : run (S ++ R) = .abort m s) :
    ∃ O', sS.outfile = O' ++ [59, 10] ∧ O' <+: s.outfile ∧
      ((m = "Syntax error: unexpected token in factor" ∨
        m = "Syntax error: expected different token") → sS.outfile <+: s.outfile) ∧
      (¬ sS.outfile <+: s.outfile → s.outfile = O' ∧
        (m = "Buffer overflow in lexeme" ∨ m = "Symbol table full" ∨
          m = "Lexemes array full")) := by
  obtain ⟨O', hO, hk⟩ := ext_main S R ts sS ht hl hS
  rw [hR] at hk
  cases hk with
  | abort _ _ h1 h2 h3 => exact ⟨O', hO, h1, h2, h3⟩

set_option maxRecDepth 1000000 in
theorem output_kept_witness :
    (∃ sS s, run (bytes "1;") = .ok () sS ∧
      run (bytes "1;" ++ bytes "2 +;") = .abort "Syntax error: unexpected token in factor" s ∧
      sS.outfile = bytes "1 ;\n" ∧ sS.outfile <+: s.outfile) ∧
    (∃ sS s, run (bytes "1;") = .ok () sS ∧
      run (bytes "1;" ++ List.replicate 128 97) = .abort "Buffer overflow in lexeme" s ∧
      ∃ O', sS.outfile = O' ++ [59, 10] ∧ O' <+: s.outfile) := by
  obtain ⟨sS, h1, h2⟩ := Res.ok_of_output
    (show (run (bytes "1;")).output = some (bytes "1 ;\n") by decide)
  constructor
  · obtain ⟨s, h3⟩ := Res.abort_of_errmsg
      (show (run (bytes "1;" ++ bytes "2 +;")).errmsg =
        some "Syntax error: unexpected token in factor" by decide)
    obtain ⟨O', -, -, h4, -⟩ :=
      output_kept (bytes "1;") (bytes "2 +;") [NUM, 59] sS _ s (by decide) (by decide) h1 h3
    exact ⟨sS, s, h1, h3, h2, h4 (Or.inl rfl)⟩
  · obtain ⟨s, h3⟩ := Res.abort_of_errmsg
      (show (run (bytes "1;" ++ List.replicate 128 97)).errmsg =
        some "Buffer overflow in lexeme" by decide)
    obtain ⟨O', h4, h5, -, -⟩ :=
      output_kept (bytes "1;") (List.replicate 128 97) [NUM, 59] sS _ s (by decide) (by decide)
        h1 h3
    exact ⟨sS, s, h1, h3, O', h4, h5⟩

/-- C9: whenever `factor` or `match` exits with a syntax error, the line number
that `error()` reports is 1 plus the number of newline characters of the input
that precede the offending lookahead token (newlines that end `#` comments
included): the input is `pre ++ tk ++ rest` with `tk` the text of the lookahead
token (on one line, empty for `DONE`), `rest` the unread input, and the reported
line is `1 + count of newlines in pre`. -/
theorem syntax_error_line (input : List Byte) (m : String) (s : State)
    (h : run input = .abort m s)
    (hm : m = "Syntax error: unexpected token in factor" ∨
      m = "Syntax error: expected different token") :
    diagnostic (run input) =
        some (bytes "line " ++ fmtInt s.lineno ++ bytes ": " ++ bytes m ++ [10]) ∧
    ∃ pre tk, input = pre ++ tk ++ s.infile ∧ s.lineno = 1 + (pre.count 10 : Nat) ∧
      (10 : Byte) ∉ tk ∧ (s.lookahead ≠ DONE → tk ≠ []) ∧ (s.lookahead = DONE → tk = []) ∧
      (∀ c r, tk = c :: r → Stops c) := by
  have hh := run_atToken input
  rw [h] at hh ⊢
  cases hh with
  | abort _ _ hq => exact ⟨rfl, hq hm⟩

set_option maxRecDepth 100000 in
theorem syntax_error_line_witness :
    (∃ s, run (bytes "1 +;") = .abort "Syntax error: unexpected token in factor" s ∧
      s.lineno = 1 ∧ s.lookahead = 59 ∧
      ∃ pre tk, bytes "1 +;" = pre ++ tk ++ s.infile ∧ s.lineno = 1 + (pre.count 10 : Nat) ∧
        (10 : Byte) ∉ tk ∧ (s.lookahead ≠ DONE → tk ≠ []) ∧ (s.lookahead = DONE → tk = []) ∧
        (∀ c r, tk = c :: r → Stops c)) ∧
    (∃ s, run (bytes "1 +\n;") = .abort "Syntax error: unexpected token in factor" s ∧
      s.lineno = 2 ∧ s.lookahead = 59 ∧
      ∃ pre tk, bytes "1 +\n;" = pre ++ tk ++ s.infile ∧ s.lineno = 1 + (pre.count 10 : Nat) ∧
        (10 : Byte) ∉ tk ∧ (s.lookahead ≠ DONE → tk ≠ []) ∧ (s.lookahead = DONE → tk = []) ∧
        (∀ c r, tk = c :: r → Stops c)) := by
  constructor
  · obtain ⟨s, hs⟩ := Res.abort_of_errmsg
      (show (run (bytes "1 +;")).errmsg = some "Syntax error: unexpected token in factor" by
        decide)
    have hl : (run (bytes "1 +;")).line = some 1 := by decide
    have hk : (run (bytes "1 +;")).look = some 59 := by decide
    rw [hs] at hl hk
    exact ⟨s, hs, Option.some.inj hl, Option.some.inj hk,
      (syntax_error_line _ _ s hs (Or.inl rfl)).2⟩
  · obtain ⟨s, hs⟩ := Res.abort_of_errmsg
      (show (run (bytes "1 +\n;")).errmsg = some "Syntax error: unexpected token in factor" by
        decide)
    have hl : (run (bytes "1 +\n;")).line = some 2 := by decide
    have hk : (run (bytes "1 +\n;")).look = some 59 := by decide
    rw [hs] at hl hk
    exact ⟨s, hs, Option.some.inj hl, Option.some.inj hk,
      (syntax_error_line _ _ s hs (Or.inl rfl)).2⟩

/-- C10: white space and comment skipping. Let the position between `a` and `b`
be a token boundary of the input `a ++ b`, and let `w` be a string of spaces,
tabs and newlines, or a `#` comment up to and including its newline (or any
sequence of these; or, at the end of the input, a comment that runs to the end).
Then the input `a ++ w ++ b` gives the same sequence of tokens from `lexan`, a
successful translation writes the same output and ends with `lineno` increased
by exactly the number of newlines in `w`, and a failing translation exits with
the same error and the same output, `lineno` being increased by that number
once the inserted text has been read. -/
theorem skip_insertion (a w b : List Byte) (hb : Bnd b a (State.start (a ++ b)))
    (hw : Filler b w) :
    (∀ ts, tokens (a ++ b) = some ts → tokens (a ++ w ++ b) = some ts) ∧
    (∀ t, run (a ++ b) = .ok () t →
      ∃ s, run (a ++ w ++ b) = .ok () s ∧ s.outfile = t.outfile ∧
        s.lineno = t.lineno + ((w.count 10 : Nat) : Int)) ∧
    (∀ m t, run (a ++ b) = .abort m t →
      ∃ s, run (a ++ w ++ b) = .abort m s ∧ s.outfile = t.outfile ∧
        (s.lineno = t.lineno ∨ s.lineno = t.lineno + ((w.count 10 : Nat) : Int))) :=
  ins_main a w b hb hw

set_option maxRecDepth 100000 in
theorem skip_insertion_witness :
    tokens (bytes "1 + # comment\n 2;") = some [NUM, 43, NUM, 59] ∧
    ∃ s, run (bytes "1 + # comment\n 2;") = .ok () s ∧ s.outfile = bytes "1 2 + ;\n" ∧
      s.lineno = 2 := by
  have h := skip_insertion (bytes "1 + ") (bytes "# comment\n") (bytes " 2;")
    (isBnd_spec 3 _ _ _ (by decide)) (by decide)
  obtain ⟨t, ht, ho⟩ := Res.ok_of_output
    (show (run (bytes "1 + " ++ bytes " 2;")).output = some (bytes "1 2 + ;\n") by decide)
  have hl : (run (bytes "1 + " ++ bytes " 2;")).line = some 1 := by decide
  rw [ht] at hl
  obtain ⟨s, hs, h1, h2⟩ := h.2.1 t ht
  refine ⟨h.1 _ (by decide), s, hs, by rw [h1, ho], ?_⟩
  rw [h2, Option.some.inj hl]
  decide

/-- C11: idempotent identifier interning. Let `s1` be a state reachable from
`init()` whose next lexeme is the word `w` (a letter followed by letters and
digits, fewer than 128 bytes), and let `lexan` return there with token type `tok`
in state `s2`. If at any later state `s3` the next lexeme is `w` again, then
`lexan` returns with the same token type and the same handle in `tokenval`, and
leaves `lastentry`, `lastchar`, `symtable` and `lexemes` unchanged. -/
theorem intern_idempotent (s1 s2 s3 : State) (w : List Byte) (tok : Int) (hr : Reach s1)
    (hw1 : NextWord s1 w) (hlen : w.length < 128) (e1 : lexan s1 = .ok tok s2)
    (hl : Later s2 s3) (hw3 : NextWord s3 w) :
    ∃ s4, lexan s3 = .ok tok s4 ∧ s4.tokenval = s2.tokenval ∧ s4.lastentry = s3.lastentry ∧
      s4.lastchar = s3.lastchar ∧ s4.symtable = s3.symtable ∧ s4.lexemes = s3.lexemes :=
  intern_again hr hw1 hlen e1 hl hw3

set_option maxRecDepth 1000000 in
theorem intern_idempotent_witness :
    ∃ s4, lexan (lexN 3 (lexN 1 (State.start (bytes "x + y; x + y;")))) = .ok ID s4 ∧
      s4.tokenval = 3 ∧ s4.lastentry = 4 ∧
      s4.lastchar = (lexN 3 (lexN 1 (State.start (bytes "x + y; x + y;")))).lastchar ∧
      s4.symtable = (lexN 3 (lexN 1 (State.start (bytes "x + y; x + y;")))).symtable ∧
      s4.lexemes = (lexN 3 (lexN 1 (State.start (bytes "x + y; x + y;")))).lexemes := by
  have e1 : lexan (State.start (bytes "x + y; x + y;")) =
      .ok ID { lexN 1 (State.start (bytes "x + y; x + y;")) with lookahead := 0 } := by decide
  have hl : Later { lexN 1 (State.start (bytes "x + y; x + y;")) with lookahead := 0 }
      (lexN 3 (lexN 1 (State.start (bytes "x + y; x + y;")))) :=
    (Later.look _ _ ID (.refl _)).compose (later_lexN 3 _)
  obtain ⟨s4, h1, h2, h3, h4⟩ := intern_idempotent _ _ _ (bytes "x") ID
    (reach_start (bytes "x + y; x + y;"))
    ⟨120, bytes " + y; x + y;", by decide, by decide, by decide⟩ (by decide) e1 hl
    ⟨120, bytes " + y;", by decide, by decide, by decide⟩
  refine ⟨s4, h1, ?_, ?_, h4⟩
  · rw [h2]; decide
  · rw [h3]; decide

/-- C12: no-duplicate invariant. In every state reachable from `init()` on the
empty table by any sequence of returning `lexan()` calls (with the assignments
and writes of the parser in between), on any input, two entries with different
handles in `1..lastentry` have different lexeme texts. -/
theorem no_duplicate_entries (s : State) (hr : Reach s) (i j : Int) (hi : 1 ≤ i) (hij : i < j)
    (hj : j ≤ s.lastentry) :
    ∃ wi wj, entryText s i = some wi ∧ entryText s j = some wj ∧ wi ≠ wj :=
  reach_nodup hr i j hi hij hj

set_option maxRecDepth 1000000 in
theorem no_duplicate_entries_witness :
    (lexN 4 (State.start (bytes "x y x;"))).lastentry = 4 ∧
    ∃ wi wj, entryText (lexN 4 (State.start (bytes "x y x;"))) 3 = some wi ∧
      entryText (lexN 4 (State.start (bytes "x y x;"))) 4 = some wj ∧ wi ≠ wj :=
  ⟨by decide, no_duplicate_entries _ (reach_lexN 4 (bytes "x y x;")) 3 4 (by decide) (by decide)
    (by decide)⟩

/-- C13: `lookup` is correct. In every reachable state and for every text `w`,
`lookup(w)` returns a value `p`; `p` is 0 if and only if no entry with a handle
in `1..lastentry` has the text `w`; otherwise `1 <= p <= lastentry` and the text
of entry `p` is exactly `w`. Handle 0 is never assigned: slot 0 of `symtable` is
as zero-initialised, and every successful `insert` returns `lastentry + 1 >= 1`. -/
theorem lookup_correct (s : State) (hr : Reach s) (w : List Byte) :
    (∃ p : Int, lookup w s = some p ∧
      (p = 0 ↔ ∀ i : Int, 1 ≤ i → i ≤ s.lastentry → entryText s i ≠ some w) ∧
      (p ≠ 0 → 1 ≤ p ∧ p ≤ s.lastentry ∧ entryText s p = some w)) ∧
    getAt s.symtable 0 = some ⟨none, 0⟩ ∧
    ∀ (w' : List Byte) (tok p : Int) (s' : State), insert w' tok s = .ok p s' →
      p = s.lastentry + 1 ∧ 1 ≤ p := by
  obtain ⟨es, hwf⟩ := reach_wf hr
  exact ⟨hwf.tab.lookup_spec w, reach_slot0 hr,
    fun w' tok p s' e => insert_handle_pos hwf.tab w' tok p e⟩

set_option maxRecDepth 1000000 in
theorem lookup_correct_witness :
    lookup (bytes "y") (lexN 4 (State.start (bytes "x y x;"))) = some 4 ∧
    lookup (bytes "z") (lexN 4 (State.start (bytes "x y x;"))) = some 0 ∧
    ∃ p : Int, lookup (bytes "y") (lexN 4 (State.start (bytes "x y x;"))) = some p ∧
      (p ≠ 0 → 1 ≤ p ∧ p ≤ (lexN 4 (State.start (bytes "x y x;"))).lastentry ∧
        entryText (lexN 4 (State.start (bytes "x y x;"))) p = some (bytes "y")) := by
  obtain ⟨⟨p, h1, -, h2⟩, -⟩ :=
    lookup_correct _ (reach_lexN 4 (bytes "x y x;")) (bytes "y")
  exact ⟨by decide, by decide, p, h1, h2⟩

/-- C14: keyword pre-seeding. `init()` on the zero-initialised globals returns
with no input character read; then `lookup("div")` returns handle 1, whose entry
has the text `div` and the token type `DIV`, `lookup("mod")` returns handle 2,
whose entry has the text `mod` and the token type `MOD`; `lastentry` is 2 and
`lookup` of any other text returns 0: the table holds exactly these two
entries. -/
theorem keywords_preseeded (input : List Byte) :
    ∃ s, init (State.initial input) = .ok () s ∧ s.infile = input ∧ s.lastentry = 2 ∧
      lookup (bytes "div") s = some 1 ∧ entryText s 1 = some (bytes "div") ∧
      entryTok s 1 = some DIV ∧
      lookup (bytes "mod") s = some 2 ∧ entryText s 2 = some (bytes "mod") ∧
      entryTok s 2 = some MOD ∧
      ∀ w, w ≠ bytes "div" → w ≠ bytes "mod" → lookup w s = some 0 := by
  have hd : bytes "div" = [100, 105, 118] := by decide
  have hm : bytes "mod" = [109, 111, 100] := by decide
  have ht := (wf_start input).tab
  have e1 := ht.entry 0 ([100, 105, 118], DIV) rfl
  have e2 := ht.entry 1 ([109, 111, 100], MOD) rfl
  refine ⟨_, init_eq input, start_infile input, rfl, ?_, ?_, ?_, ?_, ?_, ?_, ?_⟩
  · rw [ht.lookup, hd]; rfl
  · rw [hd]; exact e1.1
  · exact e1.2
  · rw [ht.lookup, hm]; rfl
  · rw [hm]; exact e2.1
  · exact e2.2
  · intro w h1 h2
    rw [ht.lookup, (Table.find_zero_iff kwTable w).2]
    · rfl
    · rw [hd] at h1
      rw [hm] at h2
      simp only [kwTable, List.map_cons, List.map_nil, List.mem_cons, List.mem_singleton,
        List.not_mem_nil, or_false, not_or]
      exact ⟨h1, h2⟩

/-- C15: keyword classification is exact and case-sensitive. In every state
reachable from `init()` whose next lexeme is a word `w` of fewer than 128 bytes,
`lexan` either returns, with `DIV` if and only if `w` is exactly `div`, with
`MOD` if and only if `w` is exactly `mod`, and with `ID` if and only if `w` is
neither, leaving in `tokenval` the handle of an entry with the text `w` and the
returned token type; or `w` is neither `div` nor `mod` and `lexan` exits with a
capacity error. In every reachable state the entries 1 and 2 have the types
`DIV` and `MOD`, and every entry from handle 3 on has the type `ID` and a text
other than `div` and `mod`. -/
theorem keyword_exact (s : State) (hr : Reach s) (w : List Byte) (hw : NextWord s w)
    (hlen : w.length < 128) :
    ((∃ tok s', lexan s = .ok tok s' ∧ (tok = DIV ↔ w = bytes "div") ∧
        (tok = MOD ↔ w = bytes "mod") ∧ (tok = ID ↔ w ≠ bytes "div" ∧ w ≠ bytes "mod") ∧
        entryText s' s'.tokenval = some w ∧ entryTok s' s'.tokenval = some tok) ∨
      (∃ m s', lexan s = .abort m s' ∧ (m = "Symbol table full" ∨ m = "Lexemes array full") ∧
        w ≠ bytes "div" ∧ w ≠ bytes "mod")) ∧
    entryTok s 1 = some DIV ∧ entryTok s 2 = some MOD ∧
    ∀ i : Int, 3 ≤ i → i ≤ s.lastentry →
      entryTok s i = some ID ∧ entryText s i ≠ some (bytes "div") ∧
        entryText s i ≠ some (bytes "mod") := by
  have hd : bytes "div" = [100, 105, 118] := by decide
  have hm : bytes "mod" = [109, 111, 100] := by decide
  rw [hd, hm]
  obtain ⟨es, hwf⟩ := reach_wf hr
  refine ⟨?_, (hwf.tab.entry 0 _ (kw_div hwf)).2, (hwf.tab.entry 1 _ (kw_mod hwf)).2, ?_⟩
  · rcases lexan_word_cases hwf hw hlen with ⟨tok, s', es', p, e, hwf', hp, htv, -⟩ |
        ⟨m, s', e, hmsg, hnew, -⟩
    · left
      obtain ⟨h1, h2, h3⟩ := table_token hwf' p _ hp
      have he := hwf'.tab.entry p _ hp
      rw [← htv] at he
      exact ⟨tok, s', e, h1, h2, h3, he.1, he.2⟩
    · right
      refine ⟨m, s', e, hmsg, ?_, ?_⟩
      · rintro rfl
        exact hnew (List.mem_map_of_mem _ (List.getElem?_mem (kw_div hwf)))
      · rintro rfl
        exact hnew (List.mem_map_of_mem _ (List.getElem?_mem (kw_mod hwf)))
  · intro i h3 hi
    obtain ⟨p, e, rfl, hp⟩ := hwf.tab.handle i (by omega) hi
    have he := hwf.tab.entry p e hp
    rcases table_class hwf p e hp with ⟨h0, -⟩ | ⟨h0, -⟩ | ⟨-, h1, h2, h4⟩
    · omega
    · omega
    · rw [he.1, he.2, h1]
      exact ⟨rfl, fun h => h2 (Option.some.inj h), fun h => h4 (Option.some.inj h)⟩

set_option maxRecDepth 1000000 in
theorem keyword_exact_witness :
    (lexan (State.start (bytes "div"))).value = some DIV ∧
    (lexan (State.start (bytes "mod"))).value = some MOD ∧
    (lexan (State.start (bytes "Div"))).value = some ID ∧
    (lexan (State.start (bytes "MOD"))).value = some ID ∧
    (lexan (State.start (bytes "div2"))).value = some ID ∧
    (lexan (State.start (bytes "modulo"))).value = some ID ∧
    ((∃ tok s', lexan (State.start (bytes "modulo")) = .ok tok s' ∧
        (tok = DIV ↔ bytes "modulo" = bytes "div") ∧
        (tok = MOD ↔ bytes "modulo" = bytes "mod") ∧
        (tok = ID ↔ bytes "modulo" ≠ bytes "div" ∧ bytes "modulo" ≠ bytes "mod") ∧
        entryText s' s'.tokenval = some (bytes "modulo") ∧
        entryTok s' s'.tokenval = some tok) ∨
      (∃ m s', lexan (State.start (bytes "modulo")) = .abort m s' ∧
        (m = "Symbol table full" ∨ m = "Lexemes array full") ∧
        bytes "modulo" ≠ bytes "div" ∧ bytes "modulo" ≠ bytes "mod")) :=
  ⟨by decide, by decide, by decide, by decide, by decide, by decide,
    (keyword_exact (State.start (bytes "modulo")) (reach_start _) (bytes "modulo")
      ⟨109, bytes "odulo", by decide, by decide, by decide⟩ (by decide)).1⟩

/-- C16: capacity limits of `insert`. In every state reachable from `init()`,
`insert(w, tok)` exits with "Symbol table full", the state unchanged, exactly
when `lastentry + 1 >= SYMMAX`, which is when the table holds 99 entries;
otherwise it exits with "Lexemes array full", the state unchanged, exactly when
`lastchar + len(w) + 1 >= STRMAX`, which is when the stored text with the new
lexeme and its terminator would exceed 999 bytes; otherwise it returns the new
handle `lastentry + 1`. Two of the at most 99 entries are the keywords, so at
most 97 identifiers are interned. -/
theorem insert_limits (s : State) (hr : Reach s) (w : List Byte) (tok : Int) :
    insert w tok s =
      (if s.lastentry + 1 ≥ SYMMAX then .abort "Symbol table full" s
       else if s.lastchar + (w.length : Int) + 1 ≥ STRMAX then .abort "Lexemes array full" s
       else .ok (s.lastentry + 1) (s.inserted w tok)) ∧
    (s.lastentry + 1 ≥ SYMMAX ↔ s.lastentry = 99) ∧
    (s.lastchar + (w.length : Int) + 1 ≥ STRMAX ↔
      (s.lastchar + 1) + ((w.length : Int) + 1) > 999) ∧
    2 ≤ s.lastentry ∧ s.lastentry - 2 ≤ 97 := by
  obtain ⟨es, hwf⟩ := reach_wf hr
  have h1 := hwf.tab.lastentry
  have h2 := hwf.tab.lastchar
  have h3 := hwf.tab.size_lt
  have h4 : 2 ≤ es.length := by
    obtain ⟨ids, e, -⟩ := hwf.kw
    have hk : kwTable.length = 2 := rfl
    rw [e, List.length_append]
    omega
  have g1 : s.lastentry + 1 ≥ SYMMAX ↔ 100 ≤ es.length + 1 := by
    simp only [SYMMAX]; omega
  have g2 : s.lastchar + (w.length : Int) + 1 ≥ STRMAX ↔ 999 ≤ (arena es).length + w.length := by
    simp only [STRMAX]; omega
  refine ⟨?_, ?_, ?_, by omega, by omega⟩
  · rw [hwf.tab.insert_eq]
    simp only [g1, g2]
    rw [h1]
  · simp only [SYMMAX]; omega
  · simp only [STRMAX]; omega

set_option maxRecDepth 1000000 in
theorem insert_limits_witness :
    insert (bytes "y") ID (lexN 1 (State.start (bytes "x"))) =
      .ok 4 ((lexN 1 (State.start (bytes "x"))).inserted (bytes "y") ID) ∧
    (lexN 1 (State.start (bytes "x"))).lastentry = 3 := by
  have h := (insert_limits (lexN 1 (State.start (bytes "x"))) (reach_lexN 1 _) (bytes "y") ID).1
  have hl : (lexN 1 (State.start (bytes "x"))).lastentry = 3 := by decide
  refine ⟨?_, hl⟩
  rw [h, if_neg (by rw [hl]; decide), if_neg (by decide), hl]
  rfl

/-- C17: lexeme length limit. In every state reachable from `init()` whose next
lexeme is the word `w` (the maximal run of letters and digits starting at a
letter), `lexan` exits with the lexeme buffer overflow error if and only if `w`
has 128 bytes or more; a run of at most 127 bytes is stored in `lexbuf` in full
with its terminator, whether `lexan` then returns or exits with a capacity
error of the symbol table; `lexan` never accesses an array outside its bounds,
and `lexbuf` keeps its 128 bytes. -/
theorem lexeme_limit (s : State) (hr : Reach s) (w : List Byte) (hw : NextWord s w) :
    ((∃ s', lexan s = .abort "Buffer overflow in lexeme" s') ↔ 128 ≤ w.length) ∧
    (w.length ≤ 127 →
      (∃ tok s', lexan s = .ok tok s' ∧ Stored w s') ∨
      (∃ m s', lexan s = .abort m s' ∧ (m = "Symbol table full" ∨ m = "Lexemes array full") ∧
        Stored w s')) ∧
    lexan s ≠ .fault ∧
    (∀ tok s', lexan s = .ok tok s' → s'.lexbuf.length = 128) ∧
    (∀ m s', lexan s = .abort m s' → s'.lexbuf.length = 128) := by
  obtain ⟨es, hwf⟩ := reach_wf hr
  have hcases : w.length < 128 →
      (∃ tok s', lexan s = .ok tok s' ∧ Stored w s') ∨
      (∃ m s', lexan s = .abort m s' ∧ (m = "Symbol table full" ∨ m = "Lexemes array full") ∧
        Stored w s') := by
    intro hlen
    rcases lexan_word_cases hwf hw hlen with ⟨tok, s', es', p, e, -, -, -, hst⟩ |
        ⟨m, s', e, hmsg, -, hst⟩
    · exact Or.inl ⟨tok, s', e, hst⟩
    · exact Or.inr ⟨m, s', e, hmsg, hst⟩
  have hover : 128 ≤ w.length →
      ∃ s', lexan s = .abort "Buffer overflow in lexeme" s' ∧ s'.lexbuf.length = 128 := by
    obtain ⟨c, r, hl, ha, rfl⟩ := hw
    exact (lexan_alpha hwf c r hl ha).1
  refine ⟨⟨?_, fun h => ?_⟩, fun h => hcases (by omega), ?_, ?_, ?_⟩
  · rintro ⟨s', e⟩
    by_contra hlt
    rcases hcases (by omega) with ⟨tok, s2, e2, -⟩ | ⟨m, s2, e2, hmsg, -⟩
    · rw [e] at e2; cases e2
    · rw [e] at e2
      simp only [Res.abort.injEq] at e2
      rcases hmsg with rfl | rfl <;> exact absurd e2.1 (by decide)
  · obtain ⟨s', e, -⟩ := hover h
    exact ⟨s', e⟩
  · intro e
    rcases lexan_facts hwf with ⟨t, s', es', e', -⟩ | ⟨m, s', e', -⟩ <;> rw [e] at e' <;> cases e'
  · intro tok s' e
    rcases lexan_facts hwf with ⟨t, s2, es', e', hk⟩ | ⟨m, s2, e', -⟩
    · rw [e] at e'
      simp only [Res.ok.injEq] at e'
      rw [e'.2]
      exact hk.wf.buf
    · rw [e] at e'; cases e'
  · intro m s' e
    rcases Nat.lt_or_ge w.length 128 with hlen | hlen
    · rcases hcases hlen with ⟨tok, s2, e2, -⟩ | ⟨m2, s2, e2, -, hst⟩
      · rw [e] at e2; cases e2
      · rw [e] at e2
        simp only [Res.abort.injEq] at e2
        rw [e2.2]
        exact hst.2
    · obtain ⟨s2, e2, hb⟩ := hover hlen
      rw [e] at e2
      simp only [Res.abort.injEq] at e2
      rw [e2.2]
      exact hb

set_option maxRecDepth 1000000 in
theorem lexeme_limit_witness :
    (∃ s', lexan (State.start (List.replicate 128 97 ++ bytes ";")) =
      .abort "Buffer overflow in lexeme" s') ∧
    ((∃ tok s', lexan (State.start (List.replicate 127 97 ++ bytes ";")) = .ok tok s' ∧
        Stored (List.replicate 127 97) s') ∨
      (∃ m s', lexan (State.start (List.replicate 127 97 ++ bytes ";")) = .abort m s' ∧
        (m = "Symbol table full" ∨ m = "Lexemes array full") ∧
        Stored (List.replicate 127 97) s')) ∧
    (lexan (State.start (List.replicate 127 97 ++ bytes ";"))).value = some ID :=
  ⟨(lexeme_limit (State.start (List.replicate 128 97 ++ bytes ";")) (reach_start _)
      (List.replicate 128 97)
      ⟨97, List.replicate 127 97 ++ bytes ";", by decide, by decide, by decide⟩).1.2 (by decide),
    (lexeme_limit (State.start (List.replicate 127 97 ++ bytes ";")) (reach_start _)
      (List.replicate 127 97)
      ⟨97, List.replicate 126 97 ++ bytes ";", by decide, by decide, by decide⟩).2.1 (by decide),
    by decide⟩

/-- C18: entries are immutable and identifiers render as their text. In every
state `s` reachable from `init()`: a successful `insert(w, tok)` returns the
handle `lastentry + 1`, whose entry then has exactly the text `w` and the type
`tok`; every earlier entry keeps its handle, text, type and place, and the new
text starts at `lastchar + 1`, after the end of every earlier text. At any later
state every entry of `s` still has its text and type; and when `lexan` has
returned from `s` for the word `w`, then at any later state `emit(ID, h)` for the
handle `h` it left in `tokenval` writes exactly `w` and a space. -/
theorem entries_immutable (s : State) (hr : Reach s) :
    (∀ (w : List Byte) (tok h : Int) (s' : State), (0 : Byte) ∉ w →
      insert w tok s = .ok h s' →
      h = s.lastentry + 1 ∧ s'.lastentry = h ∧ entryText s' h = some w ∧
      entryTok s' h = some tok ∧
      (∃ off : Nat, entryOff s' h = some off ∧ (off : Int) = s.lastchar + 1 ∧
        ∀ i : Int, 1 ≤ i → i ≤ s.lastentry →
          ∃ oi wi, entryOff s i = some oi ∧ entryText s i = some wi ∧
            oi + wi.length + 1 ≤ off) ∧
      ∀ i : Int, 1 ≤ i → i ≤ s.lastentry →
        entryText s' i = entryText s i ∧ entryTok s' i = entryTok s i ∧
          entryOff s' i = entryOff s i) ∧
    (∀ s2, Later s s2 → ∀ i : Int, 1 ≤ i → i ≤ s.lastentry →
      entryText s2 i = entryText s i ∧ entryTok s2 i = entryTok s i ∧
        entryOff s2 i = entryOff s i) ∧
    (∀ (w : List Byte) (tok : Int) (s2 s3 : State), NextWord s w → w.length < 128 →
      lexan s = .ok tok s2 → Later s2 s3 →
      emit ID s2.tokenval s3 = .ok () (fprintf (w ++ [32]) s3)) := by
  obtain ⟨es, hwf⟩ := reach_wf hr
  have hle := hwf.tab.lastentry
  refine ⟨?_, fun s2 hl i h1 h2 => later_entries hwf hl i h1 h2, ?_⟩
  · intro w tok h s' hw e
    obtain ⟨rfl, rfl, ht⟩ := hwf.tab.insert_ok w tok h hw e
    have hnew : (es ++ [(w, tok)])[es.length]? = some (w, tok) := by simp
    have a := ht.entry es.length _ hnew
    obtain ⟨off, b1, b2, b3⟩ := ht.layout es.length _ hnew
    have hoff : entryOff (s.inserted w tok) (s.lastentry + 1) = some (arena es).length := by
      have := (ht.getAt_of_getElem? es.length _ hnew).1
      rw [hle]
      simp only [entryOff, this, Option.bind, List.take_left']
    rw [hle]
    refine ⟨rfl, by simp only [State.inserted, hle], a.1, a.2,
      ⟨(arena es).length, by rw [← hle]; exact hoff, by rw [← hwf.tab.lastchar], ?_⟩, ?_⟩
    · intro i h1 h2
      obtain ⟨p, e0, rfl, hp⟩ := hwf.tab.handle i h1 (by omega)
      obtain ⟨oi, c1, c2, c3⟩ := hwf.tab.layout p e0 hp
      have := hwf.tab.lastchar
      exact ⟨oi, e0.1, c1, (hwf.tab.entry p e0 hp).1, by omega⟩
    · intro i h1 h2
      obtain ⟨p, e0, rfl, hp⟩ := hwf.tab.handle i h1 (by omega)
      have hp' : (es ++ [(w, tok)])[p]? = some e0 :=
        prefix_getElem? (List.prefix_append _ _) p e0 hp
      have x := hwf.tab.entry p e0 hp
      have y := ht.entry p e0 hp'
      have c := (hwf.tab.getAt_of_getElem? p e0 hp).1
      have d := (ht.getAt_of_getElem? p e0 hp').1
      refine ⟨by rw [x.1, y.1], by rw [x.2, y.2], ?_⟩
      simp only [entryOff, c, d, Option.bind]
      rw [List.take_append_of_le_length]
      rcases Nat.lt_or_ge p es.length with h | h
      · omega
      · rw [List.getElem?_eq_none h] at hp; cases hp
  · intro w tok s2 s3 hw hlen e hl
    obtain ⟨es2, p, hwf2, -, hp, htv, -⟩ := lexan_word_entry hwf hw hlen e
    have h2 := (hwf2.tab.entry p _ hp).1
    rw [← htv] at h2
    have hin : s2.tokenval ≤ s2.lastentry := by
      have hlt : p < es2.length := by
        rcases Nat.lt_or_ge p es2.length with h | h
        · exact h
        · rw [List.getElem?_eq_none h] at hp; cases hp
      rw [htv, hwf2.tab.lastentry]
      omega
    have h3 := (later_entries hwf2 hl s2.tokenval (by omega) hin).1
    exact emit_id s3 _ w (by rw [h3, h2])

set_option maxRecDepth 1000000 in
theorem entries_immutable_witness :
    (run (bytes "x + y;")).output = some (bytes "x y + ;\n") ∧
    ∀ s3, Later (lexN 1 (State.start (bytes "x + y;"))) s3 →
      emit ID 3 s3 = .ok () (fprintf (bytes "x" ++ [32]) s3) := by
  refine ⟨by decide, fun s3 hl => ?_⟩
  have e1 : lexan (State.start (bytes "x + y;")) =
      .ok ID { lexN 1 (State.start (bytes "x + y;")) with lookahead := 0 } := by decide
  have hl' : Later { lexN 1 (State.start (bytes "x + y;")) with lookahead := 0 } s3 :=
    (Later.look _ _ ID (.refl _)).compose hl
  exact (entries_immutable (State.start (bytes "x + y;")) (reach_start _)).2.2 (bytes "x") ID _ s3
    ⟨120, bytes " + y;", by decide, by decide, by decide⟩ (by decide) e1 hl'

/-- C19: bounds invariant. In every state reachable from `init()` through
returning `lexan` calls: `2 <= lastentry <= 99 < SYMMAX` and
`-1 <= lastchar <= 998 < STRMAX`, and the arrays have their declared sizes;
every entry's text with its terminator lies in `lexemes` below `lastchar + 1`;
whenever `lexan` returns from the identifier path, the token is `ID`, `DIV` or
`MOD` and `tokenval` is a handle in `1..lastentry` whose entry has that type.
Hence no array is accessed outside its bounds: `lexan`, `lookup` and `insert`
never fault, `emit(ID, tokenval)` does not fault at any later state, and no run
faults. `emit` never takes its debug branch in a run: that branch, taken for
every token type without a case of its own, writes a comma, and no output of a
run, returned or exited, contains a comma. -/
theorem bounds_invariant (s : State) (hr : Reach s) :
    (2 ≤ s.lastentry ∧ s.lastentry ≤ 99 ∧ 99 < SYMMAX ∧ -1 ≤ s.lastchar ∧ s.lastchar ≤ 998 ∧
      998 < STRMAX ∧ s.symtable.length = 100 ∧ s.lexemes.length = 999 ∧
      s.lexbuf.length = 128) ∧
    (∀ i : Int, 1 ≤ i → i ≤ s.lastentry →
      ∃ (off : Nat) (w : List Byte), entryOff s i = some off ∧ readStr s.lexemes off = some w ∧
        ((off + w.length + 1 : Nat) : Int) ≤ s.lastchar + 1) ∧
    (∀ (w : List Byte) (tok : Int) (s' : State), NextWord s w → lexan s = .ok tok s' →
      (tok = ID ∨ tok = DIV ∨ tok = MOD) ∧ 1 ≤ s'.tokenval ∧ s'.tokenval ≤ s'.lastentry ∧
        entryTok s' s'.tokenval = some tok) ∧
    (lexan s ≠ .fault ∧ (∀ w, lookup w s ≠ none) ∧ (∀ w tok, insert w tok s ≠ .fault) ∧
      ∀ (w : List Byte) (tok : Int) (s2 s3 : State), NextWord s w → lexan s = .ok tok s2 →
        Later s2 s3 → emit ID s2.tokenval s3 ≠ .fault) ∧
    (∀ input, run input ≠ .fault ∧ ∀ o, (run input).written = some o → (44 : Byte) ∉ o) ∧
    (∀ (t v : Int) (s0 : State), ¬ Known t →
      ∃ text, emit t v s0 = .ok () (fprintf text s0) ∧ (44 : Byte) ∈ text) := by
  obtain ⟨es, hwf⟩ := reach_wf hr
  have h1 := hwf.tab.lastentry
  have h2 := hwf.tab.lastchar
  have h3 := hwf.tab.size_lt
  have h5 := hwf.tab.arena_le
  have h4 : 2 ≤ es.length := by
    obtain ⟨ids, e, -⟩ := hwf.kw
    have hk : kwTable.length = 2 := rfl
    rw [e, List.length_append]
    omega
  refine ⟨⟨by omega, by omega, by decide, by omega, by omega, by decide, hwf.tab.symlen,
    hwf.tab.lexlen, hwf.buf⟩, ?_, ?_, ⟨?_, ?_, ?_, ?_⟩,
    fun input => ⟨run_ne_fault input, run_no_comma input⟩, emit_debug⟩
  · intro i hi1 hi2
    obtain ⟨p, e, rfl, hp⟩ := hwf.tab.handle i hi1 hi2
    obtain ⟨off, a, b, c⟩ := hwf.tab.layout p e hp
    exact ⟨off, e.1, a, b, c⟩
  · intro w tok s' hw e
    obtain ⟨a, b, c, d, -⟩ := lexan_word_handle hwf hw e
    exact ⟨a, b, c, d⟩
  · exact (lexan_progress hwf).2.1
  · intro w
    rw [hwf.tab.lookup]
    exact fun h => by cases h
  · intro w tok
    rw [hwf.tab.insert_eq]
    split
    · exact fun h => by cases h
    · split <;> exact fun h => by cases h
  · intro w tok s2 s3 hw e hl
    rw [emit_later hwf hw e hl]
    exact fun h => by cases h

set_option maxRecDepth 1000000 in
theorem bounds_invariant_witness :
    (lexN 3 (State.start (bytes "x + y;"))).lastentry = 4 ∧
    (lexN 3 (State.start (bytes "x + y;"))).lastchar = 11 ∧
    (2 ≤ (lexN 3 (State.start (bytes "x + y;"))).lastentry ∧
      (lexN 3 (State.start (bytes "x + y;"))).lastentry ≤ 99 ∧ 99 < SYMMAX ∧
      -1 ≤ (lexN 3 (State.start (bytes "x + y;"))).lastchar ∧
      (lexN 3 (State.start (bytes "x + y;"))).lastchar ≤ 998 ∧ 998 < STRMAX ∧
      (lexN 3 (State.start (bytes "x + y;"))).symtable.length = 100 ∧
      (lexN 3 (State.start (bytes "x + y;"))).lexemes.length = 999 ∧
      (lexN 3 (State.start (bytes "x + y;"))).lexbuf.length = 128) :=
  ⟨by decide, by decide,
    (bounds_invariant (lexN 3 (State.start (bytes "x + y;"))) (reach_lexN 3 _)).1⟩

/-- C20: termination. For every input the run terminates: it returns, at the end
of the input with `DONE` in the lookahead, or it exits with an error, and the
outcome is the same for every amount of fuel from `length + 3` on. This rests on:
each `lexan` call in a reachable state returns or exits, having read at least
one byte unless it returns `DONE`, which it does only at the end of the input;
`expr`, given fuel above the number of tokens left, returns or exits without
exhausting it and leaves strictly fewer tokens than it found; the loop of
`parse` likewise, without adding tokens; and `factor` calls `expr` for a
parenthesis only after `match('(')` has read the next token. -/
theorem run_terminates (input : List Byte) :
    ((∃ s, run input = .ok () s ∧ s.lookahead = DONE ∧ s.infile = []) ∨
      (∃ m s, run input = .abort m s)) ∧
    (∀ n, input.length + 3 ≤ n → drive n (State.start input) = run input) ∧
    (∀ s, Reach s → lexan s ≠ .timeout ∧ ∀ tok s', lexan s = .ok tok s' →
      (tok ≠ DONE → s'.infile.length < s.infile.length) ∧ (tok = DONE → s'.infile = [])) ∧
    (∀ s n, (∃ es, PWF s es) → mu s + 1 ≤ n → Term (mu s) true (expr n s)) ∧
    (∀ s n, (∃ es, PWF s es) → mu s + 2 ≤ n → Term (mu s) false (parseLoop n s)) ∧
    (∀ (rec : State → Res Unit) (s : State), s.lookahead = 40 →
      factor rec s = (advance s).bind fun _ s => (rec s).bind fun _ s => matchTok 41 s) := by
  refine ⟨?_, fun n hn => (run_drive input n hn).symm, ?_, fun s n hs hn => expr_term n hs hn,
    fun s n hs hn => parseLoop_term n hs hn, factor_paren⟩
  · cases h : run input with
    | ok a s => exact Or.inl ⟨s, rfl, run_eof input s h⟩
    | abort m s => exact Or.inr ⟨m, s, rfl⟩
    | fault => exact absurd h (run_ne_fault input)
    | timeout => exact absurd h (run_ne_timeout input)
  · intro s hr
    obtain ⟨es, hwf⟩ := reach_wf hr
    obtain ⟨a, -, c⟩ := lexan_progress hwf
    exact ⟨a, c⟩

set_option maxRecDepth 1000000 in
theorem run_terminates_witness :
    (∃ s, run (bytes "(1 + 2;") = .abort "Syntax error: expected different token" s) ∧
    ((∃ s, run (bytes "(1 + 2);") = .ok () s ∧ s.lookahead = DONE ∧ s.infile = []) ∨
      (∃ m s, run (bytes "(1 + 2);") = .abort m s)) ∧
    (run (bytes "(1 + 2);")).output = some (bytes "1 2 + ;\n") ∧
    drive 100 (State.start (bytes "(1 + 2);")) = run (bytes "(1 + 2);") :=
  ⟨Res.abort_of_errmsg (by decide), (run_terminates (bytes "(1 + 2);")).1, by decide,
    (run_terminates (bytes "(1 + 2);")).2.1 100 (by decide)⟩

end Sc
